import Mathlib

/-!
# microphp: value model, virtual machine, lexer, parser, bytecode emitter

A shallow embedding of `src/core/zval.c` and `src/core/vm.c` (with the declarations
of `src/core/microphp.h`), of the lexer, the parser and the emitter of
`src/tools/microphpc/compiler.c` (with `compiler.h`) and of the compilation that
`src/tools/microphpc/main.c` performs, and the properties that the specification
states about them.

Modelling conventions.

* A `zval_t` is the tagged union of `microphp.h`: one constructor per tag, carrying
  the union member that the tag selects.  `int64_t` payloads are `Int`, `double`
  payloads are their IEEE-754 binary64 encoding as a `Nat`, `size_t` quantities are
  `Nat` (a block of `capacity` slots exists in memory, so doubling a capacity does
  not wrap).
* A pointer to an owned buffer is an `Option`: `none` is the NULL pointer and
  `some l` is a block holding the list `l`.  The terminating NUL byte that the
  string routines append is not part of the list.
* Pointer parameters are modelled by the value they point to; the `if (!p) return`
  guards at the head of each routine concern NULL arguments only.  A routine that
  writes through a pointer returns the new pointee.
* `malloc` and `realloc` may fail, and the content of a block they return is
  indeterminate.  The outcome of every request, and for a granted request what the
  new block holds, is read from an `AllocLog` that is threaded through the
  routines.  `free` has no observable effect in the model.  Statements about the
  value a routine builds are made for logs that grant every request
  (`all_granted`); the paths taken after a failed request are part of the
  definitions.  The wrappers `microphp_malloc`,
  `microphp_realloc` and `compiler_malloc` call `abort` on failure: a routine that
  uses them returns an `Option`, `none` when the process is aborted.
* Reading outside a block is undefined in C.  The predicate `zval_valid` describes
  the values on which no routine does so, and it is assumed wherever a statement
  depends on the content of a block.  The last equation of each loop below, which
  covers a read past the end of a block, only makes the model total.
* `microphp_zval_copy` starts by destroying its destination.  A slot of a block that
  `malloc` or `realloc` has just returned, and a local variable without initializer,
  hold indeterminate bytes: such an object is a `zval_slot_t.indeterminate`, which
  records what `microphp_zval_destroy` reads of the bytes (the tag, and whether the
  pointer member of the union is NULL).  Destroying it is undefined when the bytes
  make the routine pass that pointer to `free`; a routine in which this happens has
  no result (`none`, `undefined`).  The content of the blocks to come is part of the
  `AllocLog`; the content of the local variables of the ADD case is a parameter of
  the dispatch loop (`add_locals_t`).  Other indeterminate content that a routine
  hands on, or reads as data, is a parameter of the routine (`fresh`,
  `fresh_constants`, `host_t.double_of_union`).
* What the C implementation fixes is the parameter `host_t`: the pointer size, from
  which the layout of `bytecode_t` follows, and the `double` operations.  The
  compiler and the virtual machine each take their host as a parameter.  The
  addition of two `int64_t` is the sum when it is representable; ISO C leaves the
  overflow undefined and nothing in the sources makes it wrap (`int64_add`).
* The dispatch loop of `microphp_vm_run` is given fuel, the number of instructions
  it may execute.
* The lexer works on bytes.  The source of a context is the list of its `source_len`
  bytes; the block that `compiler_create` fills holds a NUL behind them, which is
  what a read at the index `source_len` yields (`source_at`).  The routines of
  `ctype.h` are those of the "C" locale.  The `int` counters `line` and `column`
  are unbounded integers.  The field `tokens` lists the `token_count` entries
  written so far.
* The text that `vsnprintf` produces from a format of the lexer and its arguments is
  a `String` (`format_unexpected`, `format_unterminated`).
* Each loop of the lexer takes a bound on the number of its iterations.  The callers
  pass `source_len - position`, and `compiler_lex` passes `source_len`; no loop
  exceeds its bound, every iteration stepping over at least one byte
  (`compiler_lex_total`).
* The section on lines and columns defines what the specification counts: the line
  and the column of an index of the source, the punctuation bytes, the bodies of
  string literals, the bytes that start nothing; `wrap_int64` is the integer
  addition that the specification describes.  These notions occur in statements;
  no routine of the model uses them.
-/

namespace MicroPHP

/-! ## Data model (`microphp.h`) -/

/-- The tag of a value, `zval_type_t`. -/
inductive zval_type_t where
  | ZVAL_NULL
  | ZVAL_BOOL
  | ZVAL_INT
  | ZVAL_FLOAT
  | ZVAL_STRING
  | ZVAL_ARRAY
  | ZVAL_OBJECT
  | ZVAL_CLOSURE
  | ZVAL_RESOURCE
deriving DecidableEq

/-- The value `zval_t`: the tag together with the union member it selects. -/
inductive zval_t where
  | null
  | bool_val (b : Bool)
  | int_val (i : Int)
  | float_val (bits : Nat)
  | string_val (str : Option (List UInt8)) (len : Nat)
  | array_val (data : Option (List zval_t)) (size : Nat) (capacity : Nat)
  | object
  | closure
  | resource

/-- The field `type` of a value. -/
def zval_t.type : zval_t → zval_type_t
  | .null => .ZVAL_NULL
  | .bool_val _ => .ZVAL_BOOL
  | .int_val _ => .ZVAL_INT
  | .float_val _ => .ZVAL_FLOAT
  | .string_val _ _ => .ZVAL_STRING
  | .array_val _ _ _ => .ZVAL_ARRAY
  | .object => .ZVAL_OBJECT
  | .closure => .ZVAL_CLOSURE
  | .resource => .ZVAL_RESOURCE

/-- What an object of type `zval_t` holds before the program has written it: a slot
of a block that `malloc` or `realloc` has just returned, a local variable without
initializer.  Its bytes are arbitrary.  The record keeps what the routines read of
them: the field `type` (`none` when the bytes are no enumerator of `zval_type_t`)
and whether the pointer member of the union (`string_val.str`, `array_val.data`,
which lie at the same offset) is NULL.  A pointer that is not NULL there is not the
address of a block that the program owns. -/
structure zval_junk_t where
  type : Option zval_type_t
  pointer_null : Bool
deriving DecidableEq

/-- An object of type `zval_t` in memory: a value that the program has written, or
indeterminate bytes. -/
inductive zval_slot_t where
  | value (v : zval_t)
  | indeterminate (j : zval_junk_t)

/-- The bytes that are all zero, read as a `zval_t`: the tag `ZVAL_NULL = 0` and a
NULL pointer. -/
def zval_junk_zero : zval_junk_t := { type := some .ZVAL_NULL, pointer_null := true }

/-! ## The C library and the C language -/

/-- The answer to one allocation request: NULL, or a new block.  The content of a
new block is indeterminate; `content` lists it, slot by slot, as the program reads
it when it takes the block for an array of `zval_t`.  Slots behind the end of the
list hold zero bytes. -/
inductive alloc_t where
  | refused
  | granted (content : List zval_junk_t)
deriving DecidableEq

/-- The answers to the allocation requests still to come, in order.  Requests made
after the log is exhausted are granted, with blocks of zero bytes. -/
abbrev AllocLog := List alloc_t

/-- One allocation request: whether the pointer returned is not NULL, and the
remaining log. -/
def malloc : AllocLog → Bool × AllocLog
  | [] => (true, [])
  | .refused :: m => (false, m)
  | .granted _ :: m => (true, m)

/-- The content of the block that the next allocation request returns. -/
def malloc_content : AllocLog → List zval_junk_t
  | .granted content :: _ => content
  | _ => []

/-- The content of slot `i` of a new block whose content is `content`. -/
def junk_at (content : List zval_junk_t) (i : Nat) : zval_junk_t :=
  match content[i]? with
  | some j => j
  | none => zval_junk_zero

/-- A block of `n` objects of type `zval_t` as an allocation returns it, with the
content `content`. -/
def zval_block : Nat → List zval_junk_t → List zval_slot_t
  | 0, _ => []
  | n + 1, content => .indeterminate (junk_at content 0) :: zval_block n content.tail

/-- The request is granted. -/
def alloc_granted : alloc_t → Bool
  | .refused => false
  | .granted _ => true

/-- Every request recorded in the log is granted. -/
def all_granted (m : AllocLog) : Bool := m.all alloc_granted

/-- The libc routine `memcmp(x, y, n)` on two blocks of at least `n` bytes: zero when
the first `n` bytes agree, else the difference of the first pair of bytes that
differ. -/
def memcmp : List UInt8 → List UInt8 → Nat → Int
  | _, _, 0 => 0
  | x :: xs, y :: ys, n + 1 =>
    if x = y then memcmp xs ys n else (x.toNat : Int) - (y.toNat : Int)
  | _, _, _ + 1 => 0

/-- A binary64 encoding denotes a NaN: exponent all ones, fraction not zero. -/
def double_is_nan (bits : Nat) : Bool :=
  (bits / 2 ^ 52) % 2 ^ 11 == 2047 && bits % 2 ^ 52 != 0

/-- A binary64 encoding denotes +0 or -0. -/
def double_is_zero (bits : Nat) : Bool := bits % 2 ^ 63 == 0

/-- The C comparison `a == b` on doubles given by their binary64 encodings: a NaN
equals nothing, the two zeros are equal, any other two numbers are equal exactly
when their encodings are. -/
def double_eq (a b : Nat) : Bool :=
  !double_is_nan a && !double_is_nan b && (a == b || (double_is_zero a && double_is_zero b))

/-! ## Constructors (`zval.c`, lines 7-84) -/

/-- The constructor `microphp_zval_null`. -/
def microphp_zval_null : zval_t := .null

/-- The constructor `microphp_zval_bool`. -/
def microphp_zval_bool (value : Bool) : zval_t := .bool_val value

/-- The constructor `microphp_zval_int`. -/
def microphp_zval_int (value : Int) : zval_t := .int_val value

/-- The constructor `microphp_zval_float`. -/
def microphp_zval_float (value : Nat) : zval_t := .float_val value

/-- The constructor `microphp_zval_string(str, len)`: copies `len` bytes of a
non-NULL `str` into a fresh block; a NULL `str` or a zero `len` gives the string
with a NULL buffer; a failed allocation gives Null. -/
def microphp_zval_string (str : Option (List UInt8)) (len : Nat) (m : AllocLog) :
    zval_t × AllocLog :=
  match str with
  | some s =>
    if len > 0 then
      match malloc m with
      | (true, m1) => (.string_val (some (s.take len)) len, m1)
      | (false, m1) => (.null, m1)
    else (.string_val none 0, m)
  | none => (.string_val none 0, m)

/-- The constructor `microphp_zval_array(initial_capacity)`: a block of
`initial_capacity` Null slots and size 0; capacity 0 gives a NULL block; a failed
allocation gives Null. -/
def microphp_zval_array (initial_capacity : Nat) (m : AllocLog) : zval_t × AllocLog :=
  if initial_capacity > 0 then
    match malloc m with
    | (true, m1) =>
      (.array_val (some (List.replicate initial_capacity microphp_zval_null)) 0 initial_capacity, m1)
    | (false, m1) => (.null, m1)
  else (.array_val none 0 0, m)

/-! ## Destroy, copy, equality (`zval.c`, lines 87-242) -/

mutual
/-- The routine `microphp_zval_destroy`: the value left in `*zval`.  Owned buffers
are released (the elements below `size` first, recursively) and the tag is reset. -/
def microphp_zval_destroy : zval_t → zval_t
  | .string_val _ _ => .null
  | .array_val (some d) size _ =>
    let _released := zval_destroy_elems size d
    .null
  | .array_val none _ _ => .null
  | .object => .null
  | .closure => .null
  | .resource => .null
  | .null => .null
  | .bool_val _ => .null
  | .int_val _ => .null
  | .float_val _ => .null
/-- The loop of `microphp_zval_destroy` over the slots below `size`. -/
def zval_destroy_elems : Nat → List zval_t → List zval_t
  | 0, d => d
  | _ + 1, [] => []
  | n + 1, x :: xs => microphp_zval_destroy x :: zval_destroy_elems n xs
end

/-- Destroying an object that holds the indeterminate bytes `j` passes no pointer to
`free`: the tag read is neither String nor Array, or the pointer read is NULL. -/
def zval_junk_harmless (j : zval_junk_t) : Bool :=
  match j.type with
  | some .ZVAL_STRING => j.pointer_null
  | some .ZVAL_ARRAY => j.pointer_null
  | _ => true

/-- The routine `microphp_zval_destroy` on an object in memory: the value left in
it.  On a value that the program has written this is `microphp_zval_destroy`.  On
indeterminate bytes the routine reads the tag: under String or Array with a pointer
that is not NULL it calls `free` on that pointer (for an Array after a loop over
what the pointer designates), which is undefined (`none`); in every other case it
only sets the tag to Null. -/
def microphp_zval_destroy_at : zval_slot_t → Option zval_t
  | .value v => some (microphp_zval_destroy v)
  | .indeterminate j => if zval_junk_harmless j then some .null else none

mutual
/-- The routine `microphp_zval_copy(dest, src)`: the value left in `*dest` and the
remaining allocation log, or nothing when the behaviour is undefined.  The
destination is destroyed, then rebuilt from `src`.  In the array case the slots of
the new block are indeterminate when the first loop copies into them. -/
def microphp_zval_copy (dest : zval_slot_t) (src : zval_t) (m : AllocLog) :
    Option (zval_t × AllocLog) :=
  match microphp_zval_destroy_at dest with
  | none => none
  | some _cleared =>
    match src with
    | .null => some (.null, m)
    | .bool_val b => some (.bool_val b, m)
    | .int_val i => some (.int_val i, m)
    | .float_val f => some (.float_val f, m)
    | .string_val (some s) len =>
      if len > 0 then
        match malloc m with
        | (true, m1) => some (.string_val (some (s.take len)) len, m1)
        | (false, m1) => some (.null, m1)
      else some (.string_val none 0, m)
    | .string_val none _ => some (.string_val none 0, m)
    | .array_val (some d) size capacity =>
      if capacity > 0 then
        match malloc m with
        | (true, m1) =>
          match zval_copy_elems size d (malloc_content m) m1 with
          | none => none
          | some r =>
            some (.array_val (some (r.1 ++ List.replicate (capacity - size) microphp_zval_null))
              size capacity, r.2)
        | (false, m1) => some (.null, m1)
      else some (.array_val none 0 0, m)
    | .array_val none _ _ => some (.array_val none 0 0, m)
    | .object => some (.null, m)
    | .closure => some (.null, m)
    | .resource => some (.null, m)
/-- The first loop of the array case of `microphp_zval_copy`: the copies of the
slots below `size`, in order.  `block` is the content of the slots of the new block
that the loop has not reached yet; each is the destination of one copy. -/
def zval_copy_elems : Nat → List zval_t → List zval_junk_t → AllocLog →
    Option (List zval_t × AllocLog)
  | 0, _, _, m => some ([], m)
  | _ + 1, [], _, m => some ([], m)
  | n + 1, x :: xs, block, m =>
    match microphp_zval_copy (.indeterminate (junk_at block 0)) x m with
    | none => none
    | some r =>
      match zval_copy_elems n xs block.tail r.2 with
      | none => none
      | some rs => some (r.1 :: rs.1, rs.2)
end

mutual
/-- The routine `microphp_zval_equals(a, b)`. -/
def microphp_zval_equals : zval_t → zval_t → Bool
  | .null, .null => true
  | .bool_val x, .bool_val y => x == y
  | .int_val x, .int_val y => x == y
  | .float_val x, .float_val y => double_eq x y
  | .string_val sa la, .string_val sb lb =>
    if la != lb then false
    else
      match sa, sb with
      | none, none => true
      | none, some _ => false
      | some _, none => false
      | some x, some y => memcmp x y la == 0
  | .array_val (some da) sa _, .array_val db sb _ =>
    if sa != sb then false else zval_equals_elems sa da (db.getD [])
  | .array_val none sa _, .array_val _ sb _ =>
    if sa != sb then false else sa == 0
  | .object, .object => false
  | .closure, .closure => false
  | .resource, .resource => false
  | _, _ => false
/-- The loop of the array case of `microphp_zval_equals` over the indices below
`size`. -/
def zval_equals_elems : Nat → List zval_t → List zval_t → Bool
  | 0, _, _ => true
  | n + 1, x :: xs, y :: ys => microphp_zval_equals x y && zval_equals_elems n xs ys
  | _ + 1, _, _ => false
end

/-- The block handed out, if any, holds no bytes on which `microphp_zval_destroy`
would call `free`. -/
def alloc_harmless : alloc_t → Bool
  | .refused => true
  | .granted content => content.all zval_junk_harmless

/-- No block that the log hands out holds bytes on which `microphp_zval_destroy`
would call `free`. -/
def all_harmless (m : AllocLog) : Bool := m.all alloc_harmless

/-! ## Array operations (`zval.c`, lines 245-290) -/

/-- The routine `microphp_array_push(array, value)`: the return code, the value left
in `*array` and the remaining allocation log, or nothing when the copy is
undefined.  When `size >= capacity` the block is
reallocated to 8 slots (from capacity 0) or to twice the capacity, and every slot
from `size` on is set to Null; then the value is copied into slot `size`. -/
def microphp_array_push (array value : zval_t) (m : AllocLog) :
    Option (Int × zval_t × AllocLog) :=
  match array with
  | .array_val data size capacity =>
    if size ≥ capacity then
      let new_capacity := if capacity == 0 then 8 else capacity * 2
      match malloc m with
      | (false, m1) => some (-1, array, m1)
      | (true, m1) =>
        let new_data :=
          (data.getD []).take size ++ List.replicate (new_capacity - size) microphp_zval_null
        match microphp_zval_copy (.value (new_data.getD size .null)) value m1 with
        | none => none
        | some r =>
          some (0, .array_val (some (new_data.set size r.1)) (size + 1) new_capacity, r.2)
    else
      match microphp_zval_copy (.value ((data.getD []).getD size .null)) value m with
      | none => none
      | some r =>
        some (0, .array_val (data.map fun d => d.set size r.1) (size + 1) capacity, r.2)
  | _ => some (-1, array, m)

/-- The routine `microphp_array_get(array, index, result)`: the return code, the
array (a `const` parameter), the value left in `*result` and the remaining
allocation log, or nothing when the copy is undefined.  The object `*result` is the
caller's. -/
def microphp_array_get (array : zval_t) (index : Nat) (result : zval_slot_t)
    (m : AllocLog) : Option (Int × zval_t × zval_slot_t × AllocLog) :=
  match array with
  | .array_val data size _ =>
    if index ≥ size then some (-1, array, result, m)
    else
      match microphp_zval_copy result ((data.getD []).getD index .null) m with
      | none => none
      | some r => some (0, array, .value r.1, r.2)
  | _ => some (-1, array, result, m)

/-- The routine `microphp_array_set(array, index, value)`: the return code, the value
left in `*array` and the remaining allocation log, or nothing when the copy is
undefined. -/
def microphp_array_set (array : zval_t) (index : Nat) (value : zval_t) (m : AllocLog) :
    Option (Int × zval_t × AllocLog) :=
  match array with
  | .array_val data size capacity =>
    if index ≥ size then some (-1, array, m)
    else
      let slot := microphp_zval_destroy ((data.getD []).getD index .null)
      match microphp_zval_copy (.value slot) value m with
      | none => none
      | some r => some (0, .array_val (data.map fun d => d.set index r.1) size capacity, r.2)
  | _ => some (-1, array, m)

/-- The routine `microphp_array_size`. -/
def microphp_array_size (array : zval_t) : Nat :=
  match array with
  | .array_val _ size _ => size
  | _ => 0

/-! ## String operations (`zval.c`, lines 293-346) -/

/-- The operand conversion at the head of `microphp_string_concat`: the pointer and
the length taken from one operand.  A String gives its buffer and length; an Integer
and a Float give the empty literal (their conversion is left as a TODO in the
source); any other tag leaves the initial NULL and 0. -/
def string_concat_operand : zval_t → Option (List UInt8) × Nat
  | .string_val str len => (str, len)
  | .int_val _ => (some [], 0)
  | .float_val _ => (some [], 0)
  | _ => (none, 0)

/-- The routine `microphp_string_concat(a, b)`: the result and the remaining
allocation log.  A scratch buffer receives the bytes of `a` then the bytes of `b`;
`microphp_zval_string` copies it into the result. -/
def microphp_string_concat (a b : zval_t) (m : AllocLog) : zval_t × AllocLog :=
  let (a_str, a_len) := string_concat_operand a
  let (b_str, b_len) := string_concat_operand b
  let total_len := a_len + b_len
  match malloc m with
  | (false, m1) => (microphp_zval_null, m1)
  | (true, m1) =>
    let result_str := (a_str.getD []).take a_len ++ (b_str.getD []).take b_len
    microphp_zval_string (some result_str) total_len m1

/-! ## A caller of the array routines -/

/-- The block behind `value.array_val.data` (empty for NULL and for other tags). -/
def array_data : zval_t → List zval_t
  | .array_val (some d) _ _ => d
  | _ => []

/-- The field `value.array_val.size` (0 for other tags). -/
def array_size : zval_t → Nat
  | .array_val _ size _ => size
  | _ => 0

/-- The field `value.array_val.capacity` (0 for other tags). -/
def array_capacity : zval_t → Nat
  | .array_val _ _ capacity => capacity
  | _ => 0

/-- The slot `value.array_val.data[i]`. -/
def array_slot (a : zval_t) (i : Nat) : zval_t := (array_data a).getD i .null

/-- The bytes behind `value.string_val.str` (empty for NULL and for other tags). -/
def string_bytes : zval_t → List UInt8
  | .string_val (some s) _ => s
  | _ => []

/-- The field `value.string_val.len` (0 for other tags). -/
def string_len : zval_t → Nat
  | .string_val _ len => len
  | _ => 0

mutual
/-- Well-formed values: the payload fits its C type, a string buffer is NULL exactly
when the length is 0 and otherwise holds `len` bytes, an array block is NULL exactly
when the capacity is 0 and otherwise holds `capacity` well-formed slots, of which
`size` are in use.  Every constructor and routine of `zval.c` produces such values. -/
def zval_valid : zval_t → Bool
  | .null => true
  | .bool_val _ => true
  | .int_val i => decide (-(2 : Int) ^ 63 ≤ i) && decide (i < (2 : Int) ^ 63)
  | .float_val bits => decide (bits < 2 ^ 64)
  | .string_val none len => len == 0
  | .string_val (some s) len => decide (0 < len) && s.length == len
  | .array_val none size capacity => size == 0 && capacity == 0
  | .array_val (some d) size capacity =>
    decide (0 < capacity) && d.length == capacity && decide (size ≤ capacity)
      && zval_valid_elems d
  | .object => true
  | .closure => true
  | .resource => true
/-- Every slot of a block is well-formed. -/
def zval_valid_elems : List zval_t → Bool
  | [] => true
  | x :: xs => zval_valid x && zval_valid_elems xs
end

mutual
/-- The value and, recursively, the elements of an array below its size carry one
of the realized tags Null, Bool, Integer, Float, String, Array. -/
def zval_realized : zval_t → Bool
  | .object => false
  | .closure => false
  | .resource => false
  | .array_val (some d) size _ => zval_realized_elems size d
  | _ => true
/-- The slots below `size` are realized. -/
def zval_realized_elems : Nat → List zval_t → Bool
  | 0, _ => true
  | _ + 1, [] => true
  | n + 1, x :: xs => zval_realized x && zval_realized_elems n xs
end

mutual
/-- No Float in the value, nor recursively in the elements of an array below its
size, is a NaN. -/
def zval_nan_free : zval_t → Bool
  | .float_val bits => !double_is_nan bits
  | .array_val (some d) size _ => zval_nan_free_elems size d
  | _ => true
/-- The slots below `size` are free of NaN. -/
def zval_nan_free_elems : Nat → List zval_t → Bool
  | 0, _ => true
  | _ + 1, [] => true
  | n + 1, x :: xs => zval_nan_free x && zval_nan_free_elems n xs
end

/-! ## Blocks released by destroy (`zval.c`, lines 87-122) -/

mutual
/-- The number of blocks that `microphp_zval_destroy` passes to `free`: the buffer
of a String, the block of an Array, and what destroying the elements below `size`
releases. -/
def zval_destroy_released : zval_t → Nat
  | .string_val (some _) _ => 1
  | .string_val none _ => 0
  | .array_val (some d) size _ => zval_destroy_released_elems size d + 1
  | .array_val none _ _ => 0
  | .object => 0
  | .closure => 0
  | .resource => 0
  | .null => 0
  | .bool_val _ => 0
  | .int_val _ => 0
  | .float_val _ => 0
/-- The blocks released by the loop of `microphp_zval_destroy` over the slots below
`size`. -/
def zval_destroy_released_elems : Nat → List zval_t → Nat
  | 0, _ => 0
  | _ + 1, [] => 0
  | n + 1, x :: xs => zval_destroy_released x + zval_destroy_released_elems n xs
end

/-! ## The host: data model and floating point -/

/-- What the C implementation fixes and the sources do not: the size of a data
pointer in bytes (4 on the ILP32 targets, 8 on LP64), the `double` operations used
by the virtual machine, on binary64 encodings, and the `double` obtained by reading
`value.float_val` from a value whose tag is not Float (the bytes of another union
member, or indeterminate bytes).  Integers are stored little-endian. -/
structure host_t where
  ptr_size : Nat
  double_add : Nat → Nat → Nat
  double_of_int64 : Int → Nat
  double_of_union : zval_t → Nat

/-- The C expression `x + y` on two `int64_t` operands: the sum when it is
representable; the overflow of a signed addition is undefined (`none`). -/
def int64_add (x y : Int) : Option Int :=
  if -(2 : Int) ^ 63 ≤ x + y ∧ x + y < (2 : Int) ^ 63 then some (x + y) else none

/-- The four bytes of a `uint32_t` in memory. -/
def store_u32 (x : Nat) : List UInt8 :=
  [UInt8.ofNat (x % 256), UInt8.ofNat (x / 256 % 256), UInt8.ofNat (x / 65536 % 256),
    UInt8.ofNat (x / 16777216 % 256)]

/-- The unsigned integer held by a list of bytes in memory, least significant byte
first. -/
def load_uint : List UInt8 → Nat
  | [] => 0
  | b :: bs => b.toNat + 256 * load_uint bs

/-- The bytes `n` of a buffer from offset `off` on. -/
def bytes_at (data : List UInt8) (off n : Nat) : List UInt8 := (data.drop off).take n

/-- A buffer after `bs` has been written at offset `off`. -/
def bytes_write (data : List UInt8) (off : Nat) (bs : List UInt8) : List UInt8 :=
  data.take off ++ bs ++ data.drop (off + bs.length)

/-- The offset `x` rounded up to a multiple of the alignment `a`. -/
def align_up (x a : Nat) : Nat := (x + a - 1) / a * a

/-! ## Instructions, functions, modules (`microphp.h`, lines 55-144) -/

/-- The opcodes, `opcode_t`. -/
inductive opcode_t where
  | OP_NOP
  | OP_CONST
  | OP_ADD
  | OP_SUB
  | OP_MUL
  | OP_DIV
  | OP_MOD
  | OP_ASSIGN
  | OP_ASSIGN_ADD
  | OP_ASSIGN_SUB
  | OP_ASSIGN_MUL
  | OP_ASSIGN_DIV
  | OP_ASSIGN_MOD
  | OP_INC
  | OP_DEC
  | OP_EQ
  | OP_NEQ
  | OP_LT
  | OP_LTE
  | OP_GT
  | OP_GTE
  | OP_AND
  | OP_OR
  | OP_NOT
  | OP_JMP
  | OP_JMPZ
  | OP_JMPNZ
  | OP_CALL
  | OP_RETURN
  | OP_POP
  | OP_DUP
  | OP_SWAP
  | OP_GET_LOCAL
  | OP_SET_LOCAL
  | OP_GET_GLOBAL
  | OP_SET_GLOBAL
  | OP_NEW_ARRAY
  | OP_ARRAY_GET
  | OP_ARRAY_SET
  | OP_STRING_CONCAT
  | OP_CAST_INT
  | OP_CAST_FLOAT
  | OP_CAST_STRING
  | OP_CAST_BOOL
deriving DecidableEq

/-- The instruction `instruction_t`; the operands are `uint16_t`. -/
structure instruction_t where
  opcode : opcode_t
  operand1 : Nat
  operand2 : Nat

/-- The function `function_t`. -/
structure function_t where
  name : Option (List UInt8)
  name_len : Nat
  code : Option (List instruction_t)
  code_size : Nat
  local_count : Nat
  param_count : Nat

/-- The module `bytecode_t`, declared alike in `microphp.h` and in `compiler.h`
(there with untyped pointers). -/
structure bytecode_t where
  magic : List UInt8
  version : Nat
  constant_count : Nat
  constants : Option (List zval_t)
  function_count : Nat
  functions : Option (List function_t)
  main_offset : Nat

/-- The offset of the field `constants` in `bytecode_t`: after the three 4-byte
fields, aligned for a pointer. -/
def offsetof_constants (h : host_t) : Nat := align_up 12 h.ptr_size

/-- The offset of the field `function_count`. -/
def offsetof_function_count (h : host_t) : Nat := offsetof_constants h + h.ptr_size

/-- The offset of the field `functions`. -/
def offsetof_functions (h : host_t) : Nat :=
  align_up (offsetof_function_count h + 4) h.ptr_size

/-- The offset of the field `main_offset`. -/
def offsetof_main_offset (h : host_t) : Nat := offsetof_functions h + h.ptr_size

/-- The size `sizeof(bytecode_t)`: 28 with 4-byte pointers, 48 with 8-byte pointers. -/
def sizeof_bytecode_t (h : host_t) : Nat :=
  align_up (offsetof_main_offset h + 4) (max 4 h.ptr_size)

/-- The bytes of a pointer field: zero for NULL; the address of a block is left at
zero in the model as well, no routine below writes a non-NULL pointer to a buffer. -/
def store_ptr (h : host_t) : List UInt8 := List.replicate h.ptr_size 0

/-- A block after a `bytecode_t` has been stored in it field by field; the padding
keeps the content of the block. -/
def bytecode_store (h : host_t) (b : bytecode_t) (block : List UInt8) : List UInt8 :=
  let s0 := bytes_write block 0 (b.magic.take 4)
  let s1 := bytes_write s0 4 (store_u32 b.version)
  let s2 := bytes_write s1 8 (store_u32 b.constant_count)
  let s3 := bytes_write s2 (offsetof_constants h) (store_ptr h)
  let s4 := bytes_write s3 (offsetof_function_count h) (store_u32 b.function_count)
  let s5 := bytes_write s4 (offsetof_functions h) (store_ptr h)
  bytes_write s5 (offsetof_main_offset h) (store_u32 b.main_offset)

/-- The pointer read from a pointer field of a buffer: NULL when all its bytes are
zero; any other bit pattern is a pointer to no valid element. -/
def load_ptr {α : Type} (bs : List UInt8) : Option (List α) :=
  if load_uint bs = 0 then none else some []

/-- The `bytecode_t` that a buffer of at least `sizeof(bytecode_t)` bytes holds, as
the cast `(const bytecode_t*)data` reads it. -/
def bytecode_load (h : host_t) (data : List UInt8) : bytecode_t :=
  { magic := bytes_at data 0 4
    version := load_uint (bytes_at data 4 4)
    constant_count := load_uint (bytes_at data 8 4)
    constants := load_ptr (bytes_at data (offsetof_constants h) h.ptr_size)
    function_count := load_uint (bytes_at data (offsetof_function_count h) 4)
    functions := load_ptr (bytes_at data (offsetof_functions h) h.ptr_size)
    main_offset := load_uint (bytes_at data (offsetof_main_offset h) 4) }

/-- A position in the code of a function: what the pointer `vm->pc` designates when
it is not NULL. -/
structure pc_t where
  func : Nat
  index : Nat

/-- The context `vm_context_t`.  The three blocks are never NULL once the context
exists.  The slots of the stack block that the program has not written yet are
indeterminate. -/
structure vm_context_t where
  bytecode : Option bytecode_t
  stack : List zval_slot_t
  stack_size : Nat
  stack_top : Nat
  locals : List zval_t
  local_count : Nat
  globals : List zval_t
  global_count : Nat
  pc : Option pc_t
  running : Bool
  error_msg : Option String

/-! ## Memory management and context creation (`vm.c`, lines 7-54) -/

/-- The routine `microphp_malloc`: the remaining log when the request is granted,
nothing when it is refused and the process is aborted. -/
def microphp_malloc (m : AllocLog) : Option AllocLog :=
  match malloc m with
  | (true, m1) => some m1
  | (false, _) => none

/-- The routine `microphp_realloc(ptr, size)`: whether the pointer returned is not
NULL, and the remaining log; nothing when a request for `size > 0` is refused and
the process is aborted. -/
def microphp_realloc (size : Nat) (m : AllocLog) : Option (Bool × AllocLog) :=
  match malloc m with
  | (true, m1) => some (true, m1)
  | (false, m1) => if size > 0 then none else some (false, m1)

/-- The libc routine `strdup`: the copy, or NULL when its allocation is refused. -/
def strdup (s : String) (m : AllocLog) : Option String × AllocLog :=
  match malloc m with
  | (true, m1) => (some s, m1)
  | (false, m1) => (none, m1)

/-- The constant `MICROPHP_MAX_LOCALS`. -/
def MICROPHP_MAX_LOCALS : Nat := 128

/-- The routine `microphp_vm_create`: the new context, or nothing when an
allocation is refused and the process is aborted.  The context itself is cleared by
`memset`; the locals and the globals are set to Null; the stack block, the second
allocation, is left as `microphp_malloc` returns it. -/
def microphp_vm_create (m : AllocLog) : Option (vm_context_t × AllocLog) :=
  match microphp_malloc m with
  | none => none
  | some m1 =>
    match microphp_malloc m1 with
    | none => none
    | some m2 =>
      match microphp_malloc m2 with
      | none => none
      | some m3 =>
        match microphp_malloc m3 with
        | none => none
        | some m4 =>
          some ({ bytecode := none
                  stack := zval_block 1024 (malloc_content m1)
                  stack_size := 1024
                  stack_top := 0
                  locals := List.replicate MICROPHP_MAX_LOCALS microphp_zval_null
                  local_count := MICROPHP_MAX_LOCALS
                  globals := List.replicate 256 microphp_zval_null
                  global_count := 256
                  pc := none
                  running := false
                  error_msg := none }, m4)

/-! ## Stack operations (`vm.c`, lines 116-139) -/

/-- How a call of a routine of `vm.c` ends: it returns; or the process is aborted; or
the behaviour is undefined. -/
inductive vm_call_t (α : Type) where
  | returned (r : α)
  | aborted
  | undefined

/-- The routine `stack_push(vm, value)`: the return code, the context and the
remaining log.  A full stack block is reallocated to twice its size first; the
slots that the reallocation adds are indeterminate.  The value is copied into the
slot at `stack_top`, which `microphp_zval_copy` destroys first; a slot outside the
block is undefined. -/
def stack_push (vm : vm_context_t) (value : zval_t) (m : AllocLog) :
    vm_call_t (Int × vm_context_t × AllocLog) :=
  let store := fun (vm1 : vm_context_t) (m1 : AllocLog) =>
    match vm1.stack[vm1.stack_top]? with
    | none => vm_call_t.undefined
    | some slot =>
      match microphp_zval_copy slot value m1 with
      | none => vm_call_t.undefined
      | some r =>
        vm_call_t.returned ((0 : Int),
          { vm1 with stack := vm1.stack.set vm1.stack_top (.value r.1),
                     stack_top := vm1.stack_top + 1 }, r.2)
  if vm.stack_top ≥ vm.stack_size then
    let new_size := vm.stack_size * 2
    match microphp_realloc new_size m with
    | none => .aborted
    | some (false, m1) => .returned (-1, vm, m1)
    | some (true, m1) =>
      store { vm with stack := vm.stack.take new_size
                        ++ zval_block (new_size - vm.stack.length) (malloc_content m),
                      stack_size := new_size } m1
  else store vm m

/-- The routine `stack_pop(vm, result)`: the return code, the context, the object
`*result` and the remaining log, or nothing when the behaviour is undefined.  The
top slot is copied into `*result`, which `microphp_zval_copy` destroys first, and
is then destroyed.  The slots below `stack_top` have been written by `stack_push`;
the pop of a slot that has not is undefined. -/
def stack_pop (vm : vm_context_t) (result : zval_slot_t) (m : AllocLog) :
    Option (Int × vm_context_t × zval_slot_t × AllocLog) :=
  if vm.stack_top = 0 then some (-1, vm, result, m)
  else
    let top := vm.stack_top - 1
    match vm.stack[top]? with
    | some (.value v) =>
      match microphp_zval_copy result v m with
      | none => none
      | some r =>
        let cleared := microphp_zval_destroy v
        some (0, { vm with stack_top := top, stack := vm.stack.set top (.value cleared) },
          .value r.1, r.2)
    | _ => none

/-! ## Bytecode loading (`vm.c`, lines 147-182) -/

/-- The routine `microphp_vm_load_bytecode(vm, data, size)`: the return code, the
context and the remaining log, or nothing when the process is aborted.  The blocks
allocated for the constant pool and for the function table are left unparsed by the
source (TODO); `fresh_constants` and `fresh_functions` give their indeterminate
content, slot by slot. -/
def microphp_vm_load_bytecode (h : host_t) (fresh_constants : Nat → zval_t)
    (fresh_functions : Nat → function_t) (vm : vm_context_t) (data : List UInt8)
    (size : Nat) (m : AllocLog) : Option (Int × vm_context_t × AllocLog) :=
  if size < sizeof_bytecode_t h then some (-1, vm, m)
  else
    let header := bytecode_load h data
    if memcmp header.magic [77, 66, 67, 0] 4 ≠ 0 then
      let e := strdup "Invalid bytecode magic" m
      some (-1, { vm with error_msg := e.1 }, e.2)
    else if header.version ≠ 1 then
      let e := strdup "Unsupported bytecode version" m
      some (-1, { vm with error_msg := e.1 }, e.2)
    else
      match microphp_malloc m with
      | none => none
      | some m1 =>
        let constants :=
          if header.constant_count > 0 then
            (microphp_malloc m1).map fun m2 =>
              (some ((List.range header.constant_count).map fresh_constants), m2)
          else some (header.constants, m1)
        match constants with
        | none => none
        | some (constants_block, m2) =>
          let functions :=
            if header.function_count > 0 then
              (microphp_malloc m2).map fun m3 =>
                (some ((List.range header.function_count).map fresh_functions), m3)
            else some (header.functions, m2)
          match functions with
          | none => none
          | some (functions_block, m3) =>
            some (0, { vm with bytecode := some { header with
                        constants := constants_block, functions := functions_block } }, m3)

/-! ## Execution (`vm.c`, lines 185-252) -/

/-- The effect of one instruction: the context and the log after it, or the end of
the process by `abort`, or a read through a NULL or dangling pointer, which C leaves
undefined. -/
inductive vm_step_t where
  | next (vm : vm_context_t) (m : AllocLog)
  | aborted
  | undefined

/-- The statement `vm->pc++`. -/
def vm_pc_advance (vm : vm_context_t) : vm_context_t :=
  { vm with pc := vm.pc.map fun p => { p with index := p.index + 1 } }

/-- The instruction `*vm->pc`, when `vm->pc` points into the code block of a function
of the loaded module. -/
def vm_fetch (vm : vm_context_t) : Option instruction_t :=
  match vm.bytecode, vm.pc with
  | some b, some p =>
    match (b.functions.getD [])[p.func]? with
    | some f => (f.code.getD [])[p.index]?
    | none => none
  | _, _ => none

/-- The `double` operand of the Float branch of ADD: the conversion of an Integer,
else the member `value.float_val`. -/
def vm_add_operand (h : host_t) : zval_t → Nat
  | .int_val i => h.double_of_int64 i
  | .float_val bits => bits
  | v => h.double_of_union v

/-- The content of the local variables `b` and `a` of the case `OP_ADD` when its
block is entered: they are declared without initializer. -/
structure add_locals_t where
  b : zval_junk_t
  a : zval_junk_t

/-- The value that a local variable holds once `stack_pop` has returned 0. -/
def zval_slot_value : zval_slot_t → zval_t
  | .value v => v
  | .indeterminate _ => .null

/-- The body of the dispatch loop of `microphp_vm_run` for the instruction `instr`.
`locals` is the content of the local variables of the case `OP_ADD`. -/
def vm_dispatch (h : host_t) (locals : add_locals_t) (vm : vm_context_t)
    (instr : instruction_t) (m : AllocLog) : vm_step_t :=
  match instr.opcode with
  | .OP_NOP => .next (vm_pc_advance vm) m
  | .OP_CONST =>
    match vm.bytecode with
    | none => .undefined
    | some b =>
      if instr.operand1 < b.constant_count then
        match (b.constants.getD [])[instr.operand1]? with
        | none => .undefined
        | some c =>
          match stack_push vm c m with
          | .aborted => .aborted
          | .undefined => .undefined
          | .returned (_, vm1, m1) => .next (vm_pc_advance vm1) m1
      else .next (vm_pc_advance vm) m
  | .OP_ADD =>
    let underflow := fun (vm1 : vm_context_t) (m1 : AllocLog) =>
      let e := strdup "Stack underflow in ADD" m1
      vm_step_t.next { vm1 with error_msg := e.1, running := false } e.2
    match stack_pop vm (.indeterminate locals.b) m with
    | none => .undefined
    | some pb =>
      if pb.1 ≠ 0 then underflow pb.2.1 pb.2.2.2
      else
        match stack_pop pb.2.1 (.indeterminate locals.a) pb.2.2.2 with
        | none => .undefined
        | some pa =>
          if pa.1 ≠ 0 then underflow pa.2.1 pa.2.2.2
          else
            let b := zval_slot_value pb.2.2.1
            let a := zval_slot_value pa.2.2.1
            let vm2 := pa.2.1
            let m2 := pa.2.2.2
            let finish := fun (result : zval_t) =>
              match stack_push vm2 result m2 with
              | .aborted => vm_step_t.aborted
              | .undefined => vm_step_t.undefined
              | .returned (_, vm3, m3) => vm_step_t.next (vm_pc_advance vm3) m3
            match a, b with
            | .int_val x, .int_val y =>
              match int64_add x y with
              | none => .undefined
              | some sum => finish (microphp_zval_int sum)
            | _, _ =>
              if a.type = .ZVAL_FLOAT ∨ b.type = .ZVAL_FLOAT then
                finish (microphp_zval_float
                  (h.double_add (vm_add_operand h a) (vm_add_operand h b)))
              else
                let e := strdup "Invalid types for ADD operation" m2
                .next { vm2 with error_msg := e.1, running := false } e.2
  | .OP_RETURN => .next { vm with running := false } m
  | _ =>
    let e := strdup "Unimplemented opcode" m
    .next { vm with error_msg := e.1, running := false } e.2

/-- How a call of `microphp_vm_run` ends: it returns a status; or the process is
aborted; or the run reads through a NULL or dangling pointer or past the end of a
block; or the fuel given to the model is used up. -/
inductive vm_outcome_t where
  | returned (status : Int) (vm : vm_context_t) (m : AllocLog)
  | aborted
  | undefined (vm : vm_context_t)
  | out_of_fuel (vm : vm_context_t)

/-- The dispatch loop `while (vm->running && vm->pc)` of `microphp_vm_run` and the
return that follows it; `fuel` bounds the number of instructions.  `locals n` is
the content of the local variables of the case `OP_ADD` in the iteration that is
entered with `n` instructions of fuel left. -/
def vm_loop (h : host_t) (locals : Nat → add_locals_t) :
    Nat → vm_context_t → AllocLog → vm_outcome_t
  | fuel, vm, m =>
    if vm.running && vm.pc.isSome then
      match fuel with
      | 0 => .out_of_fuel vm
      | fuel + 1 =>
        match vm_fetch vm with
        | none => .undefined vm
        | some instr =>
          match vm_dispatch h (locals fuel) vm instr m with
          | .next vm1 m1 => vm_loop h locals fuel vm1 m1
          | .aborted => .aborted
          | .undefined => .undefined vm
    else .returned (if vm.running then 0 else -1) vm m

/-- The routine `microphp_vm_run`. -/
def microphp_vm_run (h : host_t) (locals : Nat → add_locals_t) (fuel : Nat)
    (vm : vm_context_t) (m : AllocLog) : vm_outcome_t :=
  match vm.bytecode with
  | none => .returned (-1) vm m
  | some b =>
    let vm1 := { vm with running := true }
    if b.main_offset < b.function_count then
      match (b.functions.getD [])[b.main_offset]? with
      | none => .undefined vm1
      | some f =>
        vm_loop h locals fuel
          { vm1 with pc := f.code.map fun _ => { func := b.main_offset, index := 0 } } m
    else
      let e := strdup "Invalid main function offset" m
      .returned (-1) { vm1 with error_msg := e.1, running := false } e.2

/-- The routine `microphp_get_error`. -/
def microphp_get_error (vm : vm_context_t) : Option String := vm.error_msg

/-! ## Reset (`vm.c`, lines 254-282) -/

/-- The first loop of `microphp_vm_reset`: the slots of a list of stack slots after
each has been destroyed, or nothing when one of the destroys is undefined. -/
def vm_reset_stack : List zval_slot_t → Option (List zval_slot_t)
  | [] => some []
  | s :: rest =>
    match microphp_zval_destroy_at s with
    | none => none
    | some cleared =>
      match vm_reset_stack rest with
      | none => none
      | some rest1 => some (.value cleared :: rest1)

/-- The routine `microphp_vm_reset`, or nothing when the behaviour is undefined.  The
slots of the stack below `stack_top` are destroyed; every local and every global is
destroyed and then overwritten with the result of `microphp_zval_null`; `pc`,
`running` and `error_msg` are cleared.  The field `bytecode` is not written. -/
def microphp_vm_reset (vm : vm_context_t) : Option vm_context_t :=
  let clear := fun (v : zval_t) => (fun (_ : zval_t) => microphp_zval_null) (microphp_zval_destroy v)
  match vm_reset_stack (vm.stack.take vm.stack_top) with
  | none => none
  | some destroyed =>
    some { vm with
      stack := destroyed ++ vm.stack.drop vm.stack_top,
      stack_top := 0,
      locals := (vm.locals.take vm.local_count).map clear ++ vm.locals.drop vm.local_count,
      globals := (vm.globals.take vm.global_count).map clear
        ++ vm.globals.drop vm.global_count,
      pc := none,
      running := false,
      error_msg := if vm.error_msg.isSome then none else vm.error_msg }

/-- The routine `microphp_clear_error`. -/
def microphp_clear_error (vm : vm_context_t) : vm_context_t :=
  if vm.error_msg.isSome then { vm with error_msg := none } else vm

/-! ## The compiler: tokens, syntax trees, context (`compiler.h`) -/

/-- The token types, `token_type_t`. -/
inductive token_type_t where
  | TOKEN_EOF
  | TOKEN_IDENTIFIER
  | TOKEN_STRING
  | TOKEN_INT
  | TOKEN_FLOAT
  | TOKEN_PLUS
  | TOKEN_MINUS
  | TOKEN_MULTIPLY
  | TOKEN_DIVIDE
  | TOKEN_MODULO
  | TOKEN_ASSIGN
  | TOKEN_PLUS_ASSIGN
  | TOKEN_MINUS_ASSIGN
  | TOKEN_MULTIPLY_ASSIGN
  | TOKEN_DIVIDE_ASSIGN
  | TOKEN_MODULO_ASSIGN
  | TOKEN_INCREMENT
  | TOKEN_DECREMENT
  | TOKEN_EQUAL
  | TOKEN_NOT_EQUAL
  | TOKEN_LESS_THAN
  | TOKEN_LESS_EQUAL
  | TOKEN_GREATER_THAN
  | TOKEN_GREATER_EQUAL
  | TOKEN_AND
  | TOKEN_OR
  | TOKEN_NOT
  | TOKEN_LEFT_PAREN
  | TOKEN_RIGHT_PAREN
  | TOKEN_LEFT_BRACE
  | TOKEN_RIGHT_BRACE
  | TOKEN_LEFT_BRACKET
  | TOKEN_RIGHT_BRACKET
  | TOKEN_SEMICOLON
  | TOKEN_COMMA
  | TOKEN_DOT
  | TOKEN_QUESTION
  | TOKEN_COLON
  | TOKEN_IF
  | TOKEN_ELSE
  | TOKEN_WHILE
  | TOKEN_FOR
  | TOKEN_FOREACH
  | TOKEN_FUNCTION
  | TOKEN_RETURN
  | TOKEN_TRUE
  | TOKEN_FALSE
  | TOKEN_NULL
  | TOKEN_VAR
  | TOKEN_CONST
  | TOKEN_ECHO
  | TOKEN_PRINT
  | TOKEN_SLEEP_MS
  | TOKEN_MILLIS
deriving DecidableEq

/-- The token `token_t`. -/
structure token_t where
  type : token_type_t
  value : Option (List UInt8)
  value_len : Nat
  line : Int
  column : Int
deriving DecidableEq

/-- The node types, `ast_node_type_t`. -/
inductive ast_node_type_t where
  | AST_NODE_EXPRESSION
  | AST_NODE_BINARY_OP
  | AST_NODE_UNARY_OP
  | AST_NODE_LITERAL
  | AST_NODE_IDENTIFIER
  | AST_NODE_FUNCTION_CALL
  | AST_NODE_ASSIGNMENT
  | AST_NODE_VARIABLE_DECLARATION
  | AST_NODE_IF_STATEMENT
  | AST_NODE_WHILE_STATEMENT
  | AST_NODE_FOR_STATEMENT
  | AST_NODE_BLOCK
  | AST_NODE_RETURN
  | AST_NODE_FUNCTION_DEFINITION
  | AST_NODE_CONTROL
deriving DecidableEq

mutual
/-- The node `ast_node_t`: its type, its two children and the union `data`. -/
inductive ast_node_t where
  | node (type : ast_node_type_t) (left right : Option ast_node_t) (data : ast_data_t)
/-- The union `data` of a node, by the member last written; `zero` is the union as
`memset` leaves it in `ast_create_node`. -/
inductive ast_data_t where
  | zero
  | literal_int (int_val : Int)
  | literal_float (float_val : Nat)
  | literal_string (string_val : List UInt8)
  | identifier (name : List UInt8) (name_len : Nat)
  | function_call (name : List UInt8) (name_len : Nat) (arguments : List ast_node_t)
      (argument_count : Nat)
  | assignment (variable_ : List UInt8) (variable_len : Nat) (value : Option ast_node_t)
  | control (condition then_block else_block : Option ast_node_t)
  | block (statements : List ast_node_t) (statement_count : Nat)
end

/-- The context `compiler_context_t`. -/
structure compiler_context_t where
  source : List UInt8
  source_len : Nat
  position : Nat
  line : Int
  column : Int
  tokens : List token_t
  token_count : Nat
  token_capacity : Nat
  ast_root : Option ast_node_t
  error_msg : Option String
  has_error : Bool

/-! ## Code generation (`compiler.c`, lines 730-747) -/

/-- The routine `compiler_malloc`: the remaining log when the request is granted,
nothing when it is refused and the process is aborted. -/
def compiler_malloc (m : AllocLog) : Option AllocLog :=
  match malloc m with
  | (true, m1) => some m1
  | (false, _) => none

/-- The header that `compiler_generate_bytecode` fills in: the magic, version 1, no
constant, no function, main offset 0.  The source generates nothing from the
context (TODO). -/
def compiler_bytecode_header (_ctx : compiler_context_t) : bytecode_t :=
  { magic := [77, 66, 67, 0]
    version := 1
    constant_count := 0
    constants := none
    function_count := 0
    functions := none
    main_offset := 0 }

/-- The routine `compiler_generate_bytecode(ctx, output, output_size)`: the return
code, the block left in `*output` and `*output_size`, with the remaining log, or
nothing when the process is aborted.  `fresh` is the indeterminate content of the
block of `sizeof(bytecode_t)` bytes that `compiler_malloc` returns; the header is
stored over it. -/
def compiler_generate_bytecode (h : host_t) (ctx : compiler_context_t)
    (fresh : List UInt8) (m : AllocLog) : Option (Int × List UInt8 × Nat × AllocLog) :=
  let output_size := sizeof_bytecode_t h
  match compiler_malloc m with
  | none => none
  | some m1 => some (0, bytecode_store h (compiler_bytecode_header ctx) fresh, output_size, m1)

/-! ## Concrete hosts and contexts for closed statements -/

/-- A host with pointers of `p` bytes whose `double` operations all yield +0.0, for
statements in which no `double` is computed or in which its value plays no role. -/
def host_of_ptr_size (p : Nat) : host_t :=
  { ptr_size := p
    double_add := fun _ _ => 0
    double_of_int64 := fun _ => 0
    double_of_union := fun _ => 0 }

/-- The context that `compiler_create` returns for the empty source. -/
def compiler_context_empty : compiler_context_t :=
  { source := []
    source_len := 0
    position := 0
    line := 1
    column := 1
    tokens := []
    token_count := 0
    token_capacity := 256
    ast_root := none
    error_msg := none
    has_error := false }

/-- Local variables of the case `OP_ADD` that hold zero bytes in every iteration. -/
def add_locals_zero : Nat → add_locals_t :=
  fun _ => { b := zval_junk_zero, a := zval_junk_zero }

/-- The context that `microphp_vm_create` returns when its allocations are granted
and the stack block it receives holds zero bytes. -/
def vm_fresh : vm_context_t :=
  { bytecode := none
    stack := zval_block 1024 []
    stack_size := 1024
    stack_top := 0
    locals := List.replicate MICROPHP_MAX_LOCALS microphp_zval_null
    local_count := MICROPHP_MAX_LOCALS
    globals := List.replicate 256 microphp_zval_null
    global_count := 256
    pc := none
    running := false
    error_msg := none }

/-! ## The C library used by the lexer -/

/-- The bytes of an ASCII string literal of the source, without the terminating
NUL. -/
def ascii (s : String) : List UInt8 := s.toList.map fun c => c.toNat.toUInt8

/-- The libc routine `isdigit`, in the "C" locale. -/
def isdigit (c : UInt8) : Bool := 48 ≤ c.toNat && c.toNat ≤ 57

/-- The libc routine `isalpha`, in the "C" locale. -/
def isalpha (c : UInt8) : Bool :=
  (65 ≤ c.toNat && c.toNat ≤ 90) || (97 ≤ c.toNat && c.toNat ≤ 122)

/-- The libc routine `isalnum`, in the "C" locale. -/
def isalnum (c : UInt8) : Bool := isalpha c || isdigit c

/-- The libc routine `strcmp` on two NUL-terminated strings, each given by the
bytes of its block before the terminating NUL: the comparison stops at the first
NUL of either. -/
def strcmp : List UInt8 → List UInt8 → Int
  | [], [] => 0
  | [], b :: _ => 0 - b.toNat
  | a :: _, [] => a.toNat
  | a :: x, b :: y =>
    if a = b then (if a = 0 then 0 else strcmp x y) else a.toNat - b.toNat

/-- The routine `compiler_realloc(ptr, size)`: whether the pointer returned is not
NULL, and the remaining log; nothing when a request for `size > 0` is refused and
the process is aborted. -/
def compiler_realloc (size : Nat) (m : AllocLog) : Option (Bool × AllocLog) :=
  match malloc m with
  | (true, m1) => some (true, m1)
  | (false, m1) => if size > 0 then none else some (false, m1)

/-! ## Lexical analysis (`compiler.c`, lines 28-50 and 77-587) -/

/-- The routine `compiler_create(source, source_len)`: the new context, or nothing
when an allocation is refused and the process is aborted.  The context holds its own
copy of the first `source_len` bytes of the source. -/
def compiler_create (source : List UInt8) (source_len : Nat) (m : AllocLog) :
    Option (compiler_context_t × AllocLog) :=
  match compiler_malloc m with
  | none => none
  | some m1 =>
    match compiler_malloc m1 with
    | none => none
    | some m2 =>
      match compiler_malloc m2 with
      | none => none
      | some m3 =>
        some ({ source := source.take source_len
                source_len := source_len
                position := 0
                line := 1
                column := 1
                tokens := []
                token_count := 0
                token_capacity := 256
                ast_root := none
                error_msg := none
                has_error := false }, m3)

/-- The byte `ctx->source[i]`.  The block holds the `source_len` bytes of the source
and a NUL after them, which is what an access at `i = source_len` reads. -/
def source_at (ctx : compiler_context_t) (i : Nat) : UInt8 := ctx.source.getD i 0

/-- The `len` bytes that `memcpy(word, ctx->source + start, len)` copies. -/
def source_slice (ctx : compiler_context_t) (start len : Nat) : List UInt8 :=
  (ctx.source.drop start).take len

/-- The routine `compiler_set_error(ctx, format, ...)`, given the text `text` that
`vsnprintf` produces from the format and its arguments: the context and the
remaining log, or nothing when the process is aborted.  An empty text records
nothing. -/
def compiler_set_error (ctx : compiler_context_t) (text : String) (m : AllocLog) :
    Option (compiler_context_t × AllocLog) :=
  if text.length > 0 then
    match compiler_malloc m with
    | none => none
    | some m1 => some ({ ctx with error_msg := some text, has_error := true }, m1)
  else some (ctx, m)

/-- The routine `compiler_get_error`. -/
def compiler_get_error (ctx : compiler_context_t) : Option String := ctx.error_msg

/-- The conversion `%c` of `printf` for the byte `c`. -/
def format_char (c : UInt8) : String := String.singleton (Char.ofNat c.toNat)

/-- The conversion `%d` of `printf`. -/
def format_int (i : Int) : String := toString i

/-- The text of the format "Unexpected character (quote)%c(quote) at line %d, column
%d" of `compiler_lex`, the character standing between two single quotes. -/
def format_unexpected (c : UInt8) (line column : Int) : String :=
  "Unexpected character " ++ String.singleton (Char.ofNat 39) ++ format_char c
    ++ String.singleton (Char.ofNat 39) ++ " at line " ++ format_int line
    ++ ", column " ++ format_int column

/-- The text of the format "Unterminated string at line %d, column %d" of
`read_string`. -/
def format_unterminated (line column : Int) : String :=
  "Unterminated string at line " ++ format_int line ++ ", column " ++ format_int column

/-- The routine `add_token(ctx, type, value, value_len)`: the context and the
remaining log, or nothing when the run does not go on: the process is aborted by
`compiler_realloc` or `compiler_malloc`, or the slot `tokens[token_count]` lies
outside the block even after the capacity has been doubled (a capacity of 0, which
`compiler_create` never leaves; the write is undefined in C).  The field `tokens` of
the model lists the `token_count` entries written so far.  The token carries the line
and the column of the context at the time of the call. -/
def add_token (ctx : compiler_context_t) (type : token_type_t)
    (value : Option (List UInt8)) (value_len : Nat) (m : AllocLog) :
    Option (compiler_context_t × AllocLog) :=
  let store := fun (ctx1 : compiler_context_t) (m1 : AllocLog) =>
    if value.isSome ∧ value_len > 0 then
      match compiler_malloc m1 with
      | none => none
      | some m2 =>
        some ({ ctx1 with
                tokens := ctx1.tokens ++ [{ type := type,
                                            value := value.map fun bytes => bytes.take value_len,
                                            value_len := value_len, line := ctx1.line,
                                            column := ctx1.column }],
                token_count := ctx1.token_count + 1 }, m2)
    else
      (some ({ ctx1 with
              tokens := ctx1.tokens ++ [{ type := type, value := none, value_len := 0,
                                          line := ctx1.line, column := ctx1.column }],
              token_count := ctx1.token_count + 1 }, m1) :
        Option (compiler_context_t × AllocLog))
  if ctx.token_count ≥ ctx.token_capacity then
    let capacity := ctx.token_capacity * 2
    match compiler_realloc capacity m with
    | none => none
    | some (_, m1) =>
      if ctx.token_count < capacity then store { ctx with token_capacity := capacity } m1
      else none
  else store ctx m

/-- The loop `while (ctx->position < ctx->source_len && p(ctx->source[ctx->position]))
{ ctx->position++; ctx->column++; }`, which `skip_comment` runs over a single line
comment, `read_identifier_or_keyword` over a word and `read_number` over each run of
digits, with three conditions `p`.  The first argument bounds the number of
iterations; the callers pass `source_len - position`, which the loop cannot exceed. -/
def scan_while (p : UInt8 → Bool) : Nat → compiler_context_t → compiler_context_t
  | 0, ctx => ctx
  | fuel + 1, ctx =>
    if ctx.position < ctx.source_len ∧ p (source_at ctx ctx.position) then
      scan_while p fuel { ctx with position := ctx.position + 1, column := ctx.column + 1 }
    else ctx

/-- The loop of `skip_whitespace`.  The first argument bounds the number of
iterations, as in `scan_while`: every iteration advances `position` and the loop
stops at `source_len`. -/
def skip_whitespace_loop : Nat → compiler_context_t → compiler_context_t
  | 0, ctx => ctx
  | fuel + 1, ctx =>
    if ctx.position < ctx.source_len then
      let c := source_at ctx ctx.position
      if c = 32 ∨ c = 9 then
        skip_whitespace_loop fuel
          { ctx with position := ctx.position + 1, column := ctx.column + 1 }
      else if c = 10 then
        skip_whitespace_loop fuel
          { ctx with position := ctx.position + 1, line := ctx.line + 1, column := 1 }
      else if c = 13 then
        let position := ctx.position + 1
        let position :=
          if position < ctx.source_len ∧ source_at ctx position = 10 then position + 1
          else position
        skip_whitespace_loop fuel
          { ctx with position := position, line := ctx.line + 1, column := 1 }
      else ctx
    else ctx

/-- The routine `skip_whitespace`: blanks (32), tabs (9), line feeds (10) and
carriage returns (13). -/
def skip_whitespace (ctx : compiler_context_t) : compiler_context_t :=
  skip_whitespace_loop (ctx.source_len - ctx.position) ctx

/-- The loop of `skip_comment` over a multi-line comment: it stops behind the first
star (42) that a slash (47) follows, or at the end of the source. -/
def skip_block_comment_loop : Nat → compiler_context_t → compiler_context_t
  | 0, ctx => ctx
  | fuel + 1, ctx =>
    if ctx.position < ctx.source_len then
      if source_at ctx ctx.position = 42 ∧ ctx.position + 1 < ctx.source_len
          ∧ source_at ctx (ctx.position + 1) = 47 then
        { ctx with position := ctx.position + 2, column := ctx.column + 2 }
      else if source_at ctx ctx.position = 10 then
        skip_block_comment_loop fuel
          { ctx with position := ctx.position + 1, line := ctx.line + 1, column := 1 }
      else
        skip_block_comment_loop fuel
          { ctx with position := ctx.position + 1, column := ctx.column + 1 }
    else ctx

/-- The routine `skip_comment`: at most one comment, when the context stands on a
slash (47) that a slash or a star (42) follows.  A single line comment ends in front
of its line feed (10), or at the end of the source. -/
def skip_comment (ctx : compiler_context_t) : compiler_context_t :=
  if ctx.position < ctx.source_len ∧ source_at ctx ctx.position = 47 then
    let ctx1 := { ctx with position := ctx.position + 1, column := ctx.column + 1 }
    if ctx1.position < ctx1.source_len ∧ source_at ctx1 ctx1.position = 47 then
      scan_while (fun c => c ≠ 10) (ctx1.source_len - ctx1.position) ctx1
    else if ctx1.position < ctx1.source_len ∧ source_at ctx1 ctx1.position = 42 then
      let ctx2 := { ctx1 with position := ctx1.position + 1, column := ctx1.column + 1 }
      skip_block_comment_loop (ctx2.source_len - ctx2.position) ctx2
    else { ctx1 with position := ctx1.position - 1, column := ctx1.column - 1 }
  else ctx

/-- The words that `read_identifier_or_keyword` compares with, in the order of its
chain of `strcmp` tests, each with the token type that the routine returns on a
match. -/
def keyword_table : List (String × token_type_t) :=
  [("if", .TOKEN_IF), ("else", .TOKEN_ELSE), ("while", .TOKEN_WHILE), ("for", .TOKEN_FOR),
   ("function", .TOKEN_FUNCTION), ("return", .TOKEN_RETURN), ("true", .TOKEN_TRUE),
   ("false", .TOKEN_FALSE), ("null", .TOKEN_NULL), ("var", .TOKEN_VAR),
   ("const", .TOKEN_CONST), ("echo", .TOKEN_ECHO), ("print", .TOKEN_PRINT),
   ("sleep_ms", .TOKEN_SLEEP_MS), ("millis", .TOKEN_MILLIS),
   ("OUTPUT", .TOKEN_IDENTIFIER), ("INPUT", .TOKEN_IDENTIFIER),
   ("true", .TOKEN_TRUE), ("false", .TOKEN_FALSE)]

/-- The chain of `strcmp` tests of `read_identifier_or_keyword`: the token type of
the first entry that the word equals, if any. -/
def keyword_lookup (word : List UInt8) : Option token_type_t :=
  (keyword_table.find? fun e => strcmp word (ascii e.1) = 0).map fun e => e.2

/-- The routine `read_identifier_or_keyword`: the token type returned, the context
and the remaining log, or nothing when the run does not go on.  The word is made of
letters, digits and underscores (95).  On a word of the
table the routine returns the token type to its caller and adds no token; on every
other word it adds a `TOKEN_IDENTIFIER` that carries the word. -/
def read_identifier_or_keyword (ctx : compiler_context_t) (m : AllocLog) :
    Option (token_type_t × compiler_context_t × AllocLog) :=
  let start := ctx.position
  let ctx1 := scan_while (fun c => isalnum c || c = 95) (ctx.source_len - ctx.position) ctx
  let len := ctx1.position - start
  match compiler_malloc m with
  | none => none
  | some m1 =>
    let word := source_slice ctx1 start len
    match keyword_lookup word with
    | some type => some (type, ctx1, m1)
    | none =>
      match add_token ctx1 .TOKEN_IDENTIFIER (some word) len m1 with
      | none => none
      | some (ctx2, m2) => some (.TOKEN_IDENTIFIER, ctx2, m2)

/-- The routine `read_number`: digits, then, if a dot (46) follows, the dot and
further digits; one `TOKEN_FLOAT` or `TOKEN_INT` carrying the text read. -/
def read_number (ctx : compiler_context_t) (m : AllocLog) :
    Option (compiler_context_t × AllocLog) :=
  let start := ctx.position
  let ctx1 := scan_while isdigit (ctx.source_len - ctx.position) ctx
  let is_float : Bool := ctx1.position < ctx1.source_len ∧ source_at ctx1 ctx1.position = 46
  let ctx2 :=
    if is_float then
      let ctx3 := { ctx1 with position := ctx1.position + 1, column := ctx1.column + 1 }
      scan_while isdigit (ctx3.source_len - ctx3.position) ctx3
    else ctx1
  let len := ctx2.position - start
  match compiler_malloc m with
  | none => none
  | some m1 =>
    let number := source_slice ctx2 start len
    if is_float then add_token ctx2 .TOKEN_FLOAT (some number) len m1
    else add_token ctx2 .TOKEN_INT (some number) len m1

/-- The loop of `read_string`, up to the next double quote (34): a backslash (92)
makes the loop step over the byte that follows it. -/
def read_string_loop : Nat → compiler_context_t → compiler_context_t
  | 0, ctx => ctx
  | fuel + 1, ctx =>
    if ctx.position < ctx.source_len ∧ source_at ctx ctx.position ≠ 34 then
      let ctx1 :=
        if source_at ctx ctx.position = 92 then
          { ctx with position := ctx.position + 1, column := ctx.column + 1 }
        else ctx
      let ctx2 :=
        if source_at ctx1 ctx1.position = 10 then
          { ctx1 with line := ctx1.line + 1, column := 1 }
        else { ctx1 with column := ctx1.column + 1 }
      read_string_loop fuel { ctx2 with position := ctx2.position + 1 }
    else ctx

/-- The routine `read_string`, called on an opening double quote: the context and
the remaining log, or nothing when the run does not go on.  When the source ends
inside the literal the routine records an error and returns; it has no return
value. -/
def read_string (ctx : compiler_context_t) (m : AllocLog) :
    Option (compiler_context_t × AllocLog) :=
  let ctx0 := { ctx with position := ctx.position + 1, column := ctx.column + 1 }
  let start := ctx0.position
  let ctx1 := read_string_loop (ctx0.source_len - ctx0.position) ctx0
  if ctx1.position ≥ ctx1.source_len then
    compiler_set_error ctx1 (format_unterminated ctx1.line ctx1.column) m
  else
    let len := ctx1.position - start
    match compiler_malloc m with
    | none => none
    | some m1 =>
      let string := source_slice ctx1 start len
      match add_token ctx1 .TOKEN_STRING (some string) len m1 with
      | none => none
      | some (ctx2, m2) =>
        some ({ ctx2 with position := ctx2.position + 1, column := ctx2.column + 1 }, m2)

/-- The effect of one pass through the `switch` of `compiler_lex`: the loop goes on,
or `compiler_lex` returns -1, or the run does not go on. -/
inductive lex_step_t where
  | next (ctx : compiler_context_t) (m : AllocLog)
  | failed (ctx : compiler_context_t) (m : AllocLog)
  | stopped

/-- A case of the `switch` that adds a token without value and steps over `n`
bytes. -/
def lex_emit (ctx : compiler_context_t) (type : token_type_t) (n : Nat) (m : AllocLog) :
    lex_step_t :=
  match add_token ctx type none 0 m with
  | none => .stopped
  | some (ctx1, m1) =>
    .next { ctx1 with position := ctx1.position + n, column := ctx1.column + n } m1

/-- A case of the `switch` that records an error and returns -1. -/
def lex_fail (ctx : compiler_context_t) (text : String) (m : AllocLog) : lex_step_t :=
  match compiler_set_error ctx text m with
  | none => .stopped
  | some (ctx1, m1) => .failed ctx1 m1

/-- The test `ctx->position + 1 < ctx->source_len && ctx->source[ctx->position + 1] == c`. -/
def lex_peek (ctx : compiler_context_t) (c : UInt8) : Bool :=
  ctx.position + 1 < ctx.source_len ∧ source_at ctx (ctx.position + 1) = c

/-- The cases of the `switch (c)` of `compiler_lex`, in the order of the source.  An
entry gives the byte of the case; the bytes that the case looks for behind it, in
the order of its tests, each with the token of the operator of two bytes; and the
token that the case adds when none of them follows.  The cases of the ampersand
(38) and of the bar (124) add no such token: they report the byte as unexpected. -/
def operator_table : List (UInt8 × List (UInt8 × token_type_t) × Option token_type_t) :=
  [(43, [(61, .TOKEN_PLUS_ASSIGN), (43, .TOKEN_INCREMENT)], some .TOKEN_PLUS), -- '+'
   (45, [(61, .TOKEN_MINUS_ASSIGN), (45, .TOKEN_DECREMENT)], some .TOKEN_MINUS), -- '-'
   (42, [(61, .TOKEN_MULTIPLY_ASSIGN)], some .TOKEN_MULTIPLY), -- '*'
   (47, [(61, .TOKEN_DIVIDE_ASSIGN)], some .TOKEN_DIVIDE), -- '/'
   (37, [(61, .TOKEN_MODULO_ASSIGN)], some .TOKEN_MODULO), -- '%'
   (61, [(61, .TOKEN_EQUAL)], some .TOKEN_ASSIGN), -- '='
   (33, [(61, .TOKEN_NOT_EQUAL)], some .TOKEN_NOT), -- '!'
   (60, [(61, .TOKEN_LESS_EQUAL)], some .TOKEN_LESS_THAN), -- '<'
   (62, [(61, .TOKEN_GREATER_EQUAL)], some .TOKEN_GREATER_THAN), -- '>'
   (38, [(38, .TOKEN_AND)], none), -- '&'
   (124, [(124, .TOKEN_OR)], none), -- '|'
   (40, [], some .TOKEN_LEFT_PAREN), -- '('
   (41, [], some .TOKEN_RIGHT_PAREN), -- ')'
   (123, [], some .TOKEN_LEFT_BRACE), -- left brace
   (125, [], some .TOKEN_RIGHT_BRACE), -- right brace
   (91, [], some .TOKEN_LEFT_BRACKET), -- '['
   (93, [], some .TOKEN_RIGHT_BRACKET), -- ']'
   (59, [], some .TOKEN_SEMICOLON), -- ';'
   (44, [], some .TOKEN_COMMA), -- ','
   (46, [], some .TOKEN_DOT), -- '.'
   (63, [], some .TOKEN_QUESTION), -- '?'
   (58, [], some .TOKEN_COLON)] -- ':'

/-- The `switch (c)` of `compiler_lex` on operators and punctuation: the case of `c`
in `operator_table`, and the `default` case when there is none. -/
def lex_operator (ctx : compiler_context_t) (c : UInt8) (m : AllocLog) : lex_step_t :=
  match operator_table.find? fun e => e.1 = c with
  | none => lex_fail ctx (format_unexpected c ctx.line ctx.column) m
  | some (_, followers, single) =>
    match followers.find? fun f => lex_peek ctx f.1 with
    | some (_, type) => lex_emit ctx type 2 m
    | none =>
      match single with
      | some type => lex_emit ctx type 1 m
      | none => lex_fail ctx (format_unexpected c ctx.line ctx.column) m

/-- How a call of `compiler_lex` ends: it returns a status; or the run does not go
on (see `add_token`); or the bound given to the model of its loop is used up, which
`compiler_lex_total` excludes. -/
inductive lex_outcome_t where
  | returned (status : Int) (ctx : compiler_context_t) (m : AllocLog)
  | stopped
  | out_of_fuel

/-- The two statements behind the loop of `compiler_lex`: `TOKEN_EOF` is added and 0
is returned. -/
def lex_finish (ctx : compiler_context_t) (m : AllocLog) : lex_outcome_t :=
  match add_token ctx .TOKEN_EOF none 0 m with
  | none => .stopped
  | some (ctx1, m1) => .returned 0 ctx1 m1

/-- The loop `while (ctx->position < ctx->source_len)` of `compiler_lex`, followed by
`lex_finish`; `fuel` bounds the number of iterations.  The results of
`read_identifier_or_keyword`, `read_number` and `read_string` are not used. -/
def lex_loop : Nat → compiler_context_t → AllocLog → lex_outcome_t
  | fuel, ctx, m =>
    if ctx.position < ctx.source_len then
      match fuel with
      | 0 => .out_of_fuel
      | fuel + 1 =>
        let ctx1 := skip_comment (skip_whitespace ctx)
        if ctx1.position ≥ ctx1.source_len then lex_finish ctx1 m
        else
          let c := source_at ctx1 ctx1.position
          if isalpha c ∨ c = 95 then
            match read_identifier_or_keyword ctx1 m with
            | none => .stopped
            | some (_, ctx2, m2) => lex_loop fuel ctx2 m2
          else if isdigit c then
            match read_number ctx1 m with
            | none => .stopped
            | some (ctx2, m2) => lex_loop fuel ctx2 m2
          else if c = 34 then
            match read_string ctx1 m with
            | none => .stopped
            | some (ctx2, m2) => lex_loop fuel ctx2 m2
          else
            match lex_operator ctx1 c m with
            | .next ctx2 m2 => lex_loop fuel ctx2 m2
            | .failed ctx2 m2 => .returned (-1) ctx2 m2
            | .stopped => .stopped
    else lex_finish ctx m

/-- The routine `compiler_lex`.  Every iteration of its loop that does not return
steps over at least one byte, so that `source_len` iterations are never exceeded. -/
def compiler_lex (ctx : compiler_context_t) (m : AllocLog) : lex_outcome_t :=
  lex_loop ctx.source_len
    { ctx with position := 0, line := 1, column := 1, tokens := [], token_count := 0 } m

/-- The status that `compiler_lex` returned, if it returned. -/
def lex_status : lex_outcome_t → Option Int
  | .returned status _ _ => some status
  | _ => none

/-- The tokens of the context when `compiler_lex` returned. -/
def lex_tokens : lex_outcome_t → List token_t
  | .returned _ ctx _ => ctx.tokens
  | _ => []

/-- The error message of the context when `compiler_lex` returned. -/
def lex_error : lex_outcome_t → Option String
  | .returned _ ctx _ => ctx.error_msg
  | _ => none

/-- The context that `compiler_create` returns for a source when its allocations are
granted. -/
def compiler_context_of (source : List UInt8) : compiler_context_t :=
  { compiler_context_empty with source := source, source_len := source.length }

/-! ## Relations between contexts of the lexer -/

/-- Between `ctx` and `ctx1` only the cursor (`position`, `line`, `column`) may
differ, and `position` did not move backwards. -/
def cursor_moved (ctx ctx1 : compiler_context_t) : Prop :=
  ctx1 = { ctx with position := ctx1.position, line := ctx1.line, column := ctx1.column }
    ∧ ctx.position ≤ ctx1.position

/-- The context `ctx1` continues the lexing of `ctx`: the source is the same, and the
tokens are those of `ctx` followed by further tokens, none of them `TOKEN_EOF`. -/
def lex_continues (ctx ctx1 : compiler_context_t) : Prop :=
  ctx1.source = ctx.source ∧ ctx1.source_len = ctx.source_len
    ∧ ∃ extra : List token_t, ctx1.tokens = ctx.tokens ++ extra
      ∧ ctx1.token_count = ctx.token_count + extra.length
      ∧ ∀ t ∈ extra, t.type ≠ .TOKEN_EOF

/-! ## Modules and sources for closed statements -/

/-- A module without constants whose only function, the main function, has the code
block `code`. -/
def module_of_code (code : List instruction_t) : bytecode_t :=
  { magic := [77, 66, 67, 0]
    version := 1
    constant_count := 0
    constants := none
    function_count := 1
    functions := some [{ name := none, name_len := 0, code := some code,
                         code_size := code.length, local_count := 0, param_count := 0 }]
    main_offset := 0 }

/-- A freshly created context into which `module_of_code code` has been loaded. -/
def vm_of_code (code : List instruction_t) : vm_context_t :=
  { vm_fresh with bytecode := some (module_of_code code) }

/-! ## Parsing and the phases of the compiler (`compiler.c`, lines 604-609 and 722-727; `main.c`, lines 138-200) -/

/-- The routine `ast_create_node(type)`: a node of the given type whose other bytes
`memset` has cleared, with the remaining log, or nothing when the process is
aborted. -/
def ast_create_node (type : ast_node_type_t) (m : AllocLog) :
    Option (ast_node_t × AllocLog) :=
  match compiler_malloc m with
  | none => none
  | some m1 => some (.node type none none .zero, m1)

/-- The routine `compiler_parse`: the return code, the context and the remaining log,
or nothing when the process is aborted.  The source reads no token: it stores an
empty `AST_NODE_BLOCK` node and returns 0 (TODO). -/
def compiler_parse (ctx : compiler_context_t) (m : AllocLog) :
    Option (Int × compiler_context_t × AllocLog) :=
  match ast_create_node .AST_NODE_BLOCK m with
  | none => none
  | some (node, m1) => some (0, { ctx with ast_root := some node }, m1)

/-- The first two phases of `main`: `compiler_lex`, and `compiler_parse` when the
lexical analysis has returned 0.  The result is the status of the phase that returned
last, with the context and the log, or nothing when the run does not go on. -/
def compiler_front_end (ctx : compiler_context_t) (m : AllocLog) :
    Option (Int × compiler_context_t × AllocLog) :=
  match compiler_lex ctx m with
  | .returned status ctx1 m1 =>
    if status ≠ 0 then some (status, ctx1, m1) else compiler_parse ctx1 m1
  | _ => none

/-- The compilation that `main` performs on the bytes of its input file:
`compiler_create`, the two phases of `compiler_front_end`, then
`compiler_generate_bytecode`.  The result is the exit status of `main` and, when it
is 0, the bytes handed to `write_file` with their number (the file operations are
taken to succeed); nothing when the run does not go on.  `fresh` is the indeterminate
content of the output block. -/
def microphpc_compile (h : host_t) (source : List UInt8) (fresh : List UInt8)
    (m : AllocLog) : Option (Int × Option (List UInt8 × Nat) × AllocLog) :=
  match compiler_create source source.length m with
  | none => none
  | some (ctx, m1) =>
    match compiler_front_end ctx m1 with
    | none => none
    | some (status, ctx1, m2) =>
      if status ≠ 0 then some (1, none, m2)
      else
        match compiler_generate_bytecode h ctx1 fresh m2 with
        | none => none
        | some (status1, output, output_size, m3) =>
          if status1 ≠ 0 then some (1, none, m3)
          else some (0, some (output, output_size), m3)

/-! ## Integer addition, as the specification describes it -/

/-- The sum that the specification gives for two Integers: the mathematical sum
reduced to two's complement on 64 bits. -/
def wrap_int64 (x : Int) : Int := (x + 2 ^ 63) % 2 ^ 64 - 2 ^ 63

/-! ## Lines and columns of a source, as the specification counts them -/

/-- The white space that the lexer discards: blank (32), tab (9), line feed (10),
carriage return (13). -/
def is_whitespace (c : UInt8) : Bool := c = 32 || c = 9 || c = 10 || c = 13

/-- Whether a line terminator begins at index `i` of the source `s`: the byte is a
carriage return, or a line feed that no carriage return precedes.  A lone CR, a lone
LF and a CRLF pair each begin at exactly one index. -/
def starts_line_terminator (s : List UInt8) (i : Nat) : Bool :=
  s.getD i 0 = 13 || (s.getD i 0 = 10 && !(0 < i && s.getD (i - 1) 0 = 13))

/-- The number of line terminators that begin before index `p`. -/
def line_terminators_before (s : List UInt8) (p : Nat) : Nat :=
  (List.range p).countP (starts_line_terminator s)

/-- The 1-based line of index `p`: 1 plus the number of line terminators before it. -/
def line_of (s : List UInt8) (p : Nat) : Int := 1 + line_terminators_before s p

/-- The index at which the line of index `p` begins: behind the last carriage return
or line feed before `p`. -/
def line_start (s : List UInt8) : Nat → Nat
  | 0 => 0
  | p + 1 => if s.getD p 0 = 10 ∨ s.getD p 0 = 13 then p + 1 else line_start s p

/-- The 1-based column of index `p`: 1 plus the number of bytes between the start of
its line and `p`. -/
def column_of (s : List UInt8) (p : Nat) : Int := 1 + ((p : Int) - (line_start s p : Int))

/-- The token of a punctuation byte: the token of a case of `operator_table` that
looks at no following byte (parentheses, braces, brackets, semicolon, comma, dot,
question mark, colon). -/
def punctuation_token (c : UInt8) : Option token_type_t :=
  match operator_table.find? fun e => e.1 = c with
  | some (_, [], some type) => some type
  | _ => none

/-- The tokens that the specification expects for the punctuation bytes before index
`q` of the source `s`, each with the line and the column of its byte. -/
def punctuation_tokens (s : List UInt8) (q : Nat) : List token_t :=
  (List.range q).filterMap fun i =>
    (punctuation_token (s.getD i 0)).map fun type =>
      ⟨type, none, 0, line_of s i, column_of s i⟩

/-- Whether the byte at index `q` of the source `s` starts nothing that the lexer
knows: it is no white space, starts no identifier, number or string, and is no
operator of `operator_table`, or it is an ampersand or a bar that stands alone. -/
def unexpected_byte (s : List UInt8) (q : Nat) : Bool :=
  let c := s.getD q 0
  !is_whitespace c && !isalpha c && c ≠ 95 && !isdigit c && c ≠ 34 &&
    match operator_table.find? fun e => e.1 = c with
    | none => true
    | some (_, followers, single) =>
      single.isNone
        && (followers.find? fun f => q + 1 < s.length ∧ s.getD (q + 1) 0 = f.1).isNone

/-- The bodies of string literals: sequences of bytes other than the double quote
(34) and the backslash (92), and of pairs of a backslash and any byte. -/
def string_body : List UInt8 → Bool
  | [] => true
  | [c] => c ≠ 34 && c ≠ 92
  | c :: d :: rest => if c = 92 then string_body rest else c ≠ 34 && string_body (d :: rest)

/-- The lexer stands at index `ctx.position` of the source `s` with the line and the
column of that index, not between the two bytes of a CRLF pair. -/
def tracks_position (s : List UInt8) (ctx : compiler_context_t) : Prop :=
  ctx.source = s ∧ ctx.source_len = s.length ∧ ctx.position ≤ s.length
    ∧ ctx.line = line_of s ctx.position ∧ ctx.column = column_of s ctx.position
    ∧ ¬ (0 < ctx.position ∧ s.getD (ctx.position - 1) 0 = 13 ∧ s.getD ctx.position 0 = 10)

/-! ## Lemmas on the library model -/

theorem malloc_of_granted (m : AllocLog) (h : all_granted m = true) :
    (malloc m).1 = true ∧ all_granted (malloc m).2 = true := by
  cases m with
  | nil => simp [malloc, all_granted]
  | cons b t =>
    cases b with
    | refused => simp [all_granted, alloc_granted] at h
    | granted c =>
      simp only [all_granted, List.all_cons, Bool.and_eq_true] at h
      exact ⟨rfl, h.2⟩

theorem malloc_of_harmless (m : AllocLog) (h : all_harmless m = true) :
    (malloc_content m).all zval_junk_harmless = true ∧ all_harmless (malloc m).2 = true := by
  cases m with
  | nil => simp [malloc, malloc_content, all_harmless]
  | cons b t =>
    simp only [all_harmless, List.all_cons, Bool.and_eq_true] at h
    cases b with
    | refused => exact ⟨rfl, h.2⟩
    | granted c => exact ⟨h.1, h.2⟩

theorem double_eq_self (b : Nat) (h : double_is_nan b = false) : double_eq b b = true := by
  simp [double_eq, h]

theorem memcmp_self (x : List UInt8) (n : Nat) : memcmp x x n = 0 := by
  induction x generalizing n with
  | nil => cases n <;> simp [memcmp]
  | cons a t ih => cases n <;> simp [memcmp, ih]

theorem memcmp_take_self (x : List UInt8) (n : Nat) : memcmp (x.take n) x n = 0 := by
  induction x generalizing n with
  | nil => cases n <;> simp [memcmp]
  | cons a t ih => cases n <;> simp [memcmp, ih]

theorem memcmp_eq_zero_iff (n : Nat) (x y : List UInt8) (hx : n ≤ x.length)
    (hy : n ≤ y.length) : memcmp x y n = 0 ↔ ∀ i, i < n → x[i]? = y[i]? := by
  induction n generalizing x y with
  | zero => simp [memcmp]
  | succ n ih =>
    match x, y with
    | [], _ => simp at hx
    | _ :: _, [] => simp at hy
    | a :: xs, b :: ys =>
      simp at hx hy
      by_cases hab : a = b
      · subst hab
        simp only [memcmp, if_true, ih xs ys hx hy]
        constructor
        · intro h i hi
          cases i with
          | zero => simp
          | succ i => simpa using h i (by omega)
        · intro h i hi
          simpa using h (i + 1) (by omega)
      · simp only [memcmp, hab, if_false]
        constructor
        · intro h
          exfalso
          apply hab
          have : a.toNat = b.toNat := by omega
          exact UInt8.toNat.inj this
        · intro h
          have := h 0 (by omega)
          simp at this
          exact absurd this hab

/-! ## Lemmas on equality and copy -/

theorem zval_equals_elems_iff (n : Nat) (da db : List zval_t) (ha : n ≤ da.length)
    (hb : n ≤ db.length) :
    zval_equals_elems n da db = true ↔
      ∀ i, i < n → microphp_zval_equals (da.getD i .null) (db.getD i .null) = true := by
  induction n generalizing da db with
  | zero => simp [zval_equals_elems]
  | succ n ih =>
    match da, db with
    | [], _ => simp at ha
    | _ :: _, [] => simp at hb
    | a :: xs, b :: ys =>
      simp at ha hb
      simp only [zval_equals_elems, Bool.and_eq_true, ih xs ys ha hb]
      constructor
      · rintro ⟨h0, h⟩ i hi
        cases i with
        | zero => simpa using h0
        | succ i => simpa using h i (by omega)
      · intro h
        exact ⟨by simpa using h 0 (by omega), fun i hi => by simpa using h (i + 1) (by omega)⟩

theorem zval_equals_elems_append (n : Nat) (xs t d : List zval_t) (h : xs.length = n) :
    zval_equals_elems n (xs ++ t) d = zval_equals_elems n xs d := by
  induction n generalizing xs d with
  | zero => simp [zval_equals_elems]
  | succ n ih =>
    match xs, d with
    | [], _ => simp at h
    | x :: xs, [] => simp [zval_equals_elems]
    | x :: xs, y :: ys =>
      simp at h
      simp [zval_equals_elems, ih xs ys h]

theorem zval_equals_of_type_ne (a b : zval_t) (h : a.type ≠ b.type) :
    microphp_zval_equals a b = false := by
  cases a with
  | array_val d s c =>
    cases d <;> cases b <;> simp [microphp_zval_equals, zval_t.type] at h ⊢
  | _ => cases b <;> simp [microphp_zval_equals, zval_t.type] at h ⊢

theorem zval_destroy_at_value (v : zval_t) :
    microphp_zval_destroy_at (.value v) = some (microphp_zval_destroy v) := rfl

theorem zval_copy_undefined (dest : zval_slot_t) (v : zval_t) (m : AllocLog)
    (h : microphp_zval_destroy_at dest = none) : microphp_zval_copy dest v m = none := by
  cases v with
  | string_val s l => cases s <;> simp [microphp_zval_copy, h]
  | array_val d s c => cases d <;> simp [microphp_zval_copy, h]
  | _ => simp [microphp_zval_copy, h]

theorem zval_copy_dest_irrelevant (dest : zval_slot_t) (v : zval_t) (m : AllocLog)
    (h : (microphp_zval_destroy_at dest).isSome = true) :
    microphp_zval_copy dest v m = microphp_zval_copy (.value .null) v m := by
  obtain ⟨x, hx⟩ := Option.isSome_iff_exists.mp h
  cases v with
  | string_val s l => cases s <;> simp [microphp_zval_copy, hx, zval_destroy_at_value]
  | array_val d s c => cases d <;> simp [microphp_zval_copy, hx, zval_destroy_at_value]
  | _ => simp [microphp_zval_copy, hx, zval_destroy_at_value]

theorem zval_copy_dest_defined (dest : zval_slot_t) (v : zval_t) (m : AllocLog)
    (r : zval_t × AllocLog) (h : microphp_zval_copy dest v m = some r) :
    (microphp_zval_destroy_at dest).isSome = true := by
  cases hd : microphp_zval_destroy_at dest with
  | none => rw [zval_copy_undefined dest v m hd] at h; cases h
  | some x => rfl

theorem zval_destroy_at_indeterminate (j : zval_junk_t) :
    (microphp_zval_destroy_at (.indeterminate j)).isSome = zval_junk_harmless j := by
  simp only [microphp_zval_destroy_at]
  cases zval_junk_harmless j <;> simp

mutual
theorem zval_equals_self (v : zval_t) (hv : zval_valid v = true) (hr : zval_realized v = true)
    (hn : zval_nan_free v = true) : microphp_zval_equals v v = true := by
  cases v with
  | null => simp [microphp_zval_equals]
  | bool_val b => simp [microphp_zval_equals]
  | int_val i => simp [microphp_zval_equals]
  | float_val f =>
    simp [zval_nan_free] at hn
    simp [microphp_zval_equals, double_eq_self f hn]
  | string_val s l =>
    cases s <;> simp [microphp_zval_equals, memcmp_self]
  | array_val d s c =>
    cases d with
    | none =>
      simp [zval_valid] at hv
      simp [microphp_zval_equals, hv.1]
    | some d =>
      simp [zval_valid] at hv
      simp [zval_realized] at hr
      simp [zval_nan_free] at hn
      simp [microphp_zval_equals]
      exact zval_equals_elems_self s d hv.2 (by omega) hr hn
  | object => simp [zval_realized] at hr
  | closure => simp [zval_realized] at hr
  | resource => simp [zval_realized] at hr
theorem zval_equals_elems_self (n : Nat) (d : List zval_t) (hv : zval_valid_elems d = true)
    (hl : n ≤ d.length) (hr : zval_realized_elems n d = true)
    (hn : zval_nan_free_elems n d = true) : zval_equals_elems n d d = true := by
  match n, d with
  | 0, _ => simp [zval_equals_elems]
  | n + 1, [] => simp at hl
  | n + 1, x :: xs =>
    simp [zval_valid_elems] at hv
    simp [zval_realized_elems] at hr
    simp [zval_nan_free_elems] at hn
    simp at hl
    simp [zval_equals_elems]
    exact ⟨zval_equals_self x hv.1 hr.1 hn.1, zval_equals_elems_self n xs hv.2 hl hr.2 hn.2⟩
end

mutual
theorem zval_copy_equals (dest : zval_slot_t) (v : zval_t) (m : AllocLog) (c : zval_t)
    (m1 : AllocLog) (hv : zval_valid v = true) (hr : zval_realized v = true)
    (hn : zval_nan_free v = true) (hm : all_granted m = true)
    (hc : microphp_zval_copy dest v m = some (c, m1)) :
    microphp_zval_equals c v = true ∧ all_granted m1 = true := by
  rw [zval_copy_dest_irrelevant dest v m (zval_copy_dest_defined dest v m _ hc)] at hc
  cases v with
  | null =>
    simp [microphp_zval_copy, zval_destroy_at_value] at hc
    obtain ⟨rfl, rfl⟩ := hc
    simp [microphp_zval_equals, hm]
  | bool_val b =>
    simp [microphp_zval_copy, zval_destroy_at_value] at hc
    obtain ⟨rfl, rfl⟩ := hc
    simp [microphp_zval_equals, hm]
  | int_val i =>
    simp [microphp_zval_copy, zval_destroy_at_value] at hc
    obtain ⟨rfl, rfl⟩ := hc
    simp [microphp_zval_equals, hm]
  | float_val f =>
    simp [zval_nan_free] at hn
    simp [microphp_zval_copy, zval_destroy_at_value] at hc
    obtain ⟨rfl, rfl⟩ := hc
    simp [microphp_zval_equals, double_eq_self f hn, hm]
  | string_val s l =>
    cases s with
    | none =>
      simp [zval_valid] at hv
      simp [microphp_zval_copy, zval_destroy_at_value] at hc
      obtain ⟨rfl, rfl⟩ := hc
      simp [microphp_zval_equals, hv, hm]
    | some s =>
      simp [zval_valid] at hv
      obtain ⟨h1, h2⟩ := malloc_of_granted m hm
      rcases hmal : malloc m with ⟨ok, m2⟩
      rw [hmal] at h1 h2
      simp at h1 h2
      subst h1
      simp [microphp_zval_copy, zval_destroy_at_value, hv.1, hmal] at hc
      obtain ⟨rfl, rfl⟩ := hc
      simp [microphp_zval_equals, memcmp_take_self, h2]
  | array_val d s k =>
    cases d with
    | none =>
      simp [zval_valid] at hv
      simp [microphp_zval_copy, zval_destroy_at_value] at hc
      obtain ⟨rfl, rfl⟩ := hc
      simp [microphp_zval_equals, hv.1, hm]
    | some d =>
      simp [zval_valid] at hv
      simp [zval_realized] at hr
      simp [zval_nan_free] at hn
      obtain ⟨h1, h2⟩ := malloc_of_granted m hm
      rcases hmal : malloc m with ⟨ok, m2⟩
      rw [hmal] at h1 h2
      simp at h1 h2
      subst h1
      simp only [microphp_zval_copy, zval_destroy_at_value, hv.1.1.1, hmal, gt_iff_lt,
        if_true] at hc
      cases he : zval_copy_elems s d (malloc_content m) m2 with
      | none => simp [he] at hc
      | some r =>
        obtain ⟨cs, m3⟩ := r
        simp only [he, Option.some.injEq, Prod.mk.injEq] at hc
        obtain ⟨rfl, rfl⟩ := hc
        obtain ⟨e1, e2, e3⟩ :=
          zval_copy_elems_equals s d (malloc_content m) m2 cs m3 hv.2 (by omega) hr hn h2 he
        simp [microphp_zval_equals, e3, zval_equals_elems_append s _ _ d e2, e1]
  | object => simp [zval_realized] at hr
  | closure => simp [zval_realized] at hr
  | resource => simp [zval_realized] at hr
theorem zval_copy_elems_equals (n : Nat) (d : List zval_t) (block : List zval_junk_t)
    (m : AllocLog) (cs : List zval_t) (m1 : AllocLog)
    (hv : zval_valid_elems d = true) (hl : n ≤ d.length)
    (hr : zval_realized_elems n d = true) (hn : zval_nan_free_elems n d = true)
    (hm : all_granted m = true) (hc : zval_copy_elems n d block m = some (cs, m1)) :
    zval_equals_elems n cs d = true ∧ cs.length = n ∧ all_granted m1 = true := by
  match n, d with
  | 0, _ =>
    simp [zval_copy_elems] at hc
    obtain ⟨rfl, rfl⟩ := hc
    simp [zval_equals_elems, hm]
  | n + 1, [] => simp at hl
  | n + 1, x :: xs =>
    simp [zval_valid_elems] at hv
    simp [zval_realized_elems] at hr
    simp [zval_nan_free_elems] at hn
    simp at hl
    simp only [zval_copy_elems] at hc
    cases h1 : microphp_zval_copy (.indeterminate (junk_at block 0)) x m with
    | none => simp [h1] at hc
    | some r =>
      obtain ⟨y, m2⟩ := r
      simp only [h1] at hc
      cases h2 : zval_copy_elems n xs block.tail m2 with
      | none => simp [h2] at hc
      | some rs =>
        obtain ⟨ys, m3⟩ := rs
        simp only [h2, Option.some.injEq, Prod.mk.injEq] at hc
        obtain ⟨rfl, rfl⟩ := hc
        obtain ⟨a1, a2⟩ := zval_copy_equals _ x m y m2 hv.1 hr.1 hn.1 hm h1
        obtain ⟨b1, b2, b3⟩ := zval_copy_elems_equals n xs block.tail m2 ys m3 hv.2 hl hr.2 hn.2 a2 h2
        simp [zval_equals_elems, a1, b1, b2, b3]
end

mutual
theorem zval_copy_defined (dest : zval_slot_t) (v : zval_t) (m : AllocLog)
    (hd : (microphp_zval_destroy_at dest).isSome = true) (hh : all_harmless m = true) :
    ∃ r, microphp_zval_copy dest v m = some r ∧ all_harmless r.2 = true := by
  rw [zval_copy_dest_irrelevant dest v m hd]
  cases v with
  | null => exact ⟨(.null, m), by simp [microphp_zval_copy, zval_destroy_at_value], hh⟩
  | bool_val b => exact ⟨(.bool_val b, m), by simp [microphp_zval_copy, zval_destroy_at_value], hh⟩
  | int_val i => exact ⟨(.int_val i, m), by simp [microphp_zval_copy, zval_destroy_at_value], hh⟩
  | float_val f =>
    exact ⟨(.float_val f, m), by simp [microphp_zval_copy, zval_destroy_at_value], hh⟩
  | object => exact ⟨(.null, m), by simp [microphp_zval_copy, zval_destroy_at_value], hh⟩
  | closure => exact ⟨(.null, m), by simp [microphp_zval_copy, zval_destroy_at_value], hh⟩
  | resource => exact ⟨(.null, m), by simp [microphp_zval_copy, zval_destroy_at_value], hh⟩
  | string_val s l =>
    obtain ⟨_, g2⟩ := malloc_of_harmless m hh
    cases s with
    | none => exact ⟨(.string_val none 0, m), by simp [microphp_zval_copy, zval_destroy_at_value], hh⟩
    | some s =>
      by_cases hl : l > 0
      · rcases hmal : malloc m with ⟨ok, m2⟩
        rw [hmal] at g2
        cases ok with
        | true =>
          exact ⟨(.string_val (some (s.take l)) l, m2),
            by simp [microphp_zval_copy, zval_destroy_at_value, hl, hmal], g2⟩
        | false =>
          exact ⟨(.null, m2), by simp [microphp_zval_copy, zval_destroy_at_value, hl, hmal], g2⟩
      · exact ⟨(.string_val none 0, m),
          by simp [microphp_zval_copy, zval_destroy_at_value, hl], hh⟩
  | array_val d s k =>
    obtain ⟨g1, g2⟩ := malloc_of_harmless m hh
    cases d with
    | none => exact ⟨(.array_val none 0 0, m), by simp [microphp_zval_copy, zval_destroy_at_value], hh⟩
    | some d =>
      by_cases hk : k > 0
      · rcases hmal : malloc m with ⟨ok, m2⟩
        rw [hmal] at g2
        cases ok with
        | true =>
          obtain ⟨r, e1, e2⟩ := zval_copy_elems_defined s d (malloc_content m) m2 g1 g2
          exact ⟨(.array_val (some (r.1 ++ List.replicate (k - s) microphp_zval_null)) s k, r.2),
            by simp [microphp_zval_copy, zval_destroy_at_value, hk, hmal, e1], e2⟩
        | false =>
          exact ⟨(.null, m2), by simp [microphp_zval_copy, zval_destroy_at_value, hk, hmal], g2⟩
      · exact ⟨(.array_val none 0 0, m),
          by simp [microphp_zval_copy, zval_destroy_at_value, hk], hh⟩
theorem zval_copy_elems_defined (n : Nat) (d : List zval_t) (block : List zval_junk_t)
    (m : AllocLog) (hb : block.all zval_junk_harmless = true) (hh : all_harmless m = true) :
    ∃ r, zval_copy_elems n d block m = some r ∧ all_harmless r.2 = true := by
  match n, d with
  | 0, _ => exact ⟨([], m), by simp [zval_copy_elems], hh⟩
  | n + 1, [] => exact ⟨([], m), by simp [zval_copy_elems], hh⟩
  | n + 1, x :: xs =>
    have hhead : zval_junk_harmless (junk_at block 0) = true := by
      cases block with
      | nil => rfl
      | cons j t => simp at hb; simpa [junk_at] using hb.1
    have htail : block.tail.all zval_junk_harmless = true := by
      cases block with
      | nil => rfl
      | cons j t => simp at hb; simpa using hb.2
    obtain ⟨r, e1, e2⟩ := zval_copy_defined (.indeterminate (junk_at block 0)) x m
      (by rw [zval_destroy_at_indeterminate]; exact hhead) hh
    obtain ⟨rs, f1, f2⟩ := zval_copy_elems_defined n xs block.tail r.2 htail e2
    exact ⟨(r.1 :: rs.1, rs.2), by simp [zval_copy_elems, e1, f1], f2⟩
end

theorem zval_copy_array_undefined (dest : zval_slot_t) (x : zval_t) (d : List zval_t)
    (s k : Nat) (content : List zval_junk_t) (m : AllocLog) (hs : 0 < s) (hk : 0 < k)
    (hj : zval_junk_harmless (junk_at content 0) = false) :
    microphp_zval_copy dest (.array_val (some (x :: d)) s k) (.granted content :: m) = none := by
  cases hd : microphp_zval_destroy_at dest with
  | none => exact zval_copy_undefined dest _ _ hd
  | some y =>
    rw [zval_copy_dest_irrelevant dest _ _ (by rw [hd]; rfl)]
    obtain ⟨n, rfl⟩ : ∃ n, s = n + 1 := ⟨s - 1, by omega⟩
    have hx : microphp_zval_copy (.indeterminate (junk_at content 0)) x m = none :=
      zval_copy_undefined _ x m (by simp [microphp_zval_destroy_at, hj])
    simp [microphp_zval_copy, zval_destroy_at_value, hk, malloc, malloc_content,
      zval_copy_elems, hx]

/-! ## The value round-trip (C1) -/

/-- C1, on the code.  What `microphp_zval_copy` produces from a well-formed value whose
tag, and recursively the tags of its array elements, is Null, Bool, Integer, Float,
String or Array, and which holds no NaN, is equal to that value according to
`microphp_zval_equals`, the allocations being granted; and the copy does produce a
value when destroying its destination and the slots of the blocks it allocates
passes no pointer to `free`.  But in the array case the routine copies every element
into a slot of the block that `malloc` has just returned, and `microphp_zval_copy`
starts by destroying its destination: when the bytes of the first slot read as a
String or an Array whose pointer is not NULL, that pointer is passed to `free`, and
the copy of an array that has an element produces nothing.  So it is for the array
that holds the Integer 1 when the new block reads as a String with a pointer. -/
theorem zval_copy_round_trip :
    (∀ (dest : zval_slot_t) (v : zval_t) (m : AllocLog) (c : zval_t) (m1 : AllocLog),
      zval_valid v = true → zval_realized v = true → zval_nan_free v = true →
      all_granted m = true → microphp_zval_copy dest v m = some (c, m1) →
      microphp_zval_equals c v = true)
    ∧ (∀ (dest : zval_slot_t) (v : zval_t) (m : AllocLog),
      (microphp_zval_destroy_at dest).isSome = true → all_harmless m = true →
      ∃ c m1, microphp_zval_copy dest v m = some (c, m1))
    ∧ (∀ (dest : zval_slot_t) (x : zval_t) (d : List zval_t) (s k : Nat)
        (content : List zval_junk_t) (m : AllocLog),
      0 < s → 0 < k → zval_junk_harmless (junk_at content 0) = false →
      microphp_zval_copy dest (.array_val (some (x :: d)) s k) (.granted content :: m) = none)
    ∧ (zval_valid (.array_val (some [.int_val 1]) 1 1) = true
        ∧ zval_realized (.array_val (some [.int_val 1]) 1 1) = true
        ∧ zval_nan_free (.array_val (some [.int_val 1]) 1 1) = true
        ∧ microphp_zval_copy (.value .null) (.array_val (some [.int_val 1]) 1 1)
            [.granted [{ type := some .ZVAL_STRING, pointer_null := false }]] = none
        ∧ microphp_zval_copy (.value .null) (.array_val (some [.int_val 1]) 1 1)
            [.granted [{ type := some .ZVAL_STRING, pointer_null := true }]]
            = some (.array_val (some [.int_val 1]) 1 1, [])) := by
  refine ⟨?_, ?_, ?_, by decide, by decide, by decide, rfl, rfl⟩
  · intro dest v m c m1 hv hr hn hm hc
    exact (zval_copy_equals dest v m c m1 hv hr hn hm hc).1
  · intro dest v m hd hh
    obtain ⟨r, e, _⟩ := zval_copy_defined dest v m hd hh
    exact ⟨r.1, r.2, e⟩
  · intro dest x d s k content m hs hk hj
    exact zval_copy_array_undefined dest x d s k content m hs hk hj

/-- The copy of an Object is Null, which is not equal to the Object, and the copy of
a NaN Float is that NaN, which is not equal to itself; the same holds for an array
with such an element. -/
theorem zval_copy_not_equal_cases :
    microphp_zval_copy (.value .null) .object [] = some (.null, [])
    ∧ microphp_zval_equals .null .object = false
    ∧ microphp_zval_copy (.value .null) (.float_val 0x7ff8000000000000) []
        = some (.float_val 0x7ff8000000000000, [])
    ∧ microphp_zval_equals (.float_val 0x7ff8000000000000)
        (.float_val 0x7ff8000000000000) = false
    ∧ microphp_zval_copy (.value .null) (.array_val (some [.resource]) 1 1) []
        = some (.array_val (some [.null]) 1 1, [])
    ∧ microphp_zval_equals (.array_val (some [.null]) 1 1)
        (.array_val (some [.resource]) 1 1) = false
    ∧ microphp_zval_copy (.value .null)
        (.array_val (some [.float_val 0x7ff8000000000000]) 1 1) []
        = some (.array_val (some [.float_val 0x7ff8000000000000]) 1 1, [])
    ∧ microphp_zval_equals (.array_val (some [.float_val 0x7ff8000000000000]) 1 1)
        (.array_val (some [.float_val 0x7ff8000000000000]) 1 1) = false := by
  refine ⟨rfl, ?_, rfl, ?_, rfl, ?_, rfl, ?_⟩ <;> decide

/-! ## Reflexivity of equality (C2) -/

/-- C2, as amended.  For every well-formed value whose tag, and recursively the tags
of its array elements, is Null, Bool, Integer, Float, String or Array, and which
holds no NaN, `microphp_zval_equals(v, v)` is true. -/
theorem zval_equals_reflexive (v : zval_t) (hv : zval_valid v = true)
    (hr : zval_realized v = true) (hn : zval_nan_free v = true) :
    microphp_zval_equals v v = true :=
  zval_equals_self v hv hr hn

/-- C2, witness: an array holding a Bool, a Float and a String. -/
theorem zval_equals_reflexive_witness :
    microphp_zval_equals
      (.array_val (some [.bool_val true, .float_val 0x3ff0000000000000,
        .string_val (some [120]) 1]) 3 3)
      (.array_val (some [.bool_val true, .float_val 0x3ff0000000000000,
        .string_val (some [120]) 1]) 3 3) = true :=
  zval_equals_reflexive _ (by decide) (by decide) (by decide)

/-- C2 as stated fails on the realized tag Float: a NaN is a well-formed Float and is
not equal to itself, alone or as an element of an array. -/
theorem zval_equals_nan_irreflexive :
    zval_valid (.float_val 0x7ff8000000000000) = true
    ∧ zval_realized (.float_val 0x7ff8000000000000) = true
    ∧ microphp_zval_equals (.float_val 0x7ff8000000000000)
        (.float_val 0x7ff8000000000000) = false
    ∧ microphp_zval_equals (.array_val (some [.float_val 0x7ff8000000000000]) 1 1)
        (.array_val (some [.float_val 0x7ff8000000000000]) 1 1) = false := by
  refine ⟨?_, ?_, ?_, ?_⟩ <;> decide

/-! ## Equality against its reference definition (C3) -/

theorem zval_equals_string_unfold (sa sb : Option (List UInt8)) (la lb : Nat) :
    microphp_zval_equals (.string_val sa la) (.string_val sb lb) =
      (if la != lb then false
       else
        match sa, sb with
        | none, none => true
        | none, some _ => false
        | some _, none => false
        | some x, some y => memcmp x y la == 0) := by
  simp [microphp_zval_equals]

theorem zval_equals_array_none_unfold (db : Option (List zval_t)) (sa ca sb cb : Nat) :
    microphp_zval_equals (.array_val none sa ca) (.array_val db sb cb) =
      (if sa != sb then false else sa == 0) := by
  simp [microphp_zval_equals]

theorem zval_equals_array_some_unfold (da : List zval_t) (db : Option (List zval_t))
    (sa ca sb cb : Nat) :
    microphp_zval_equals (.array_val (some da) sa ca) (.array_val db sb cb) =
      (if sa != sb then false else zval_equals_elems sa da (db.getD [])) := by
  simp [microphp_zval_equals]

theorem zval_equals_string_iff (sa sb : Option (List UInt8)) (la lb : Nat)
    (ha : zval_valid (.string_val sa la) = true) (hb : zval_valid (.string_val sb lb) = true) :
    microphp_zval_equals (.string_val sa la) (.string_val sb lb) = true ↔
      la = lb ∧ ∀ i, i < la →
        (string_bytes (.string_val sa la))[i]? = (string_bytes (.string_val sb lb))[i]? := by
  rw [zval_equals_string_unfold]
  cases sa with
  | none =>
    cases sb with
    | none =>
      simp [zval_valid] at ha hb
      simp [ha, hb]
    | some y =>
      simp [zval_valid] at ha hb
      have : la ≠ lb := by omega
      simp [this]
  | some x =>
    cases sb with
    | none =>
      simp [zval_valid] at ha hb
      have : la ≠ lb := by omega
      simp [this]
    | some y =>
      simp [zval_valid] at ha hb
      by_cases hl : la = lb
      · subst hl
        have := memcmp_eq_zero_iff la x y (by omega) (by omega)
        simp [string_bytes, this]
      · simp [hl]

theorem zval_equals_array_iff (da db : Option (List zval_t)) (sa ca sb cb : Nat)
    (ha : zval_valid (.array_val da sa ca) = true) (hb : zval_valid (.array_val db sb cb) = true) :
    microphp_zval_equals (.array_val da sa ca) (.array_val db sb cb) = true ↔
      sa = sb ∧ ∀ i, i < sa →
        microphp_zval_equals (array_slot (.array_val da sa ca) i)
          (array_slot (.array_val db sb cb) i) = true := by
  cases da with
  | none =>
    rw [zval_equals_array_none_unfold]
    simp [zval_valid] at ha
    obtain ⟨h1, h2⟩ := ha
    subst h1
    simp
  | some x =>
    rw [zval_equals_array_some_unfold]
    simp [zval_valid] at ha
    by_cases hl : sa = sb
    · subst hl
      cases db with
      | none =>
        simp [zval_valid] at hb
        obtain ⟨h1, h2⟩ := hb
        subst h1
        simp [zval_equals_elems]
      | some y =>
        simp [zval_valid] at hb
        have := zval_equals_elems_iff sa x y (by omega) (by omega)
        simp [array_slot, array_data, this]
    · simp [hl]

theorem zval_equals_reserved (a b : zval_t)
    (h : a.type = .ZVAL_OBJECT ∨ a.type = .ZVAL_CLOSURE ∨ a.type = .ZVAL_RESOURCE) :
    microphp_zval_equals a b = false := by
  cases a <;> simp [zval_t.type] at h <;> cases b <;> simp [microphp_zval_equals]

/-- C3.  For all well-formed values a and b, `microphp_zval_equals` is false when the
tags differ, true for Null and Null, compares Bool and Integer by value, is true
for two Strings exactly when their lengths are equal and their bytes are pairwise
equal, is true for two Arrays exactly when their sizes are equal and the elements
at every index below the size are equal, and is false for the reserved tags
Object, Closure and Resource. -/
theorem zval_equals_reference (a b : zval_t) (ha : zval_valid a = true)
    (hb : zval_valid b = true) :
    (a.type ≠ b.type → microphp_zval_equals a b = false)
    ∧ (a.type = .ZVAL_NULL → b.type = .ZVAL_NULL → microphp_zval_equals a b = true)
    ∧ (∀ x y, a = .bool_val x → b = .bool_val y → (microphp_zval_equals a b = true ↔ x = y))
    ∧ (∀ x y, a = .int_val x → b = .int_val y → (microphp_zval_equals a b = true ↔ x = y))
    ∧ (a.type = .ZVAL_STRING → b.type = .ZVAL_STRING →
        (microphp_zval_equals a b = true ↔
          string_len a = string_len b
            ∧ ∀ i, i < string_len a → (string_bytes a)[i]? = (string_bytes b)[i]?))
    ∧ (a.type = .ZVAL_ARRAY → b.type = .ZVAL_ARRAY →
        (microphp_zval_equals a b = true ↔
          array_size a = array_size b
            ∧ ∀ i, i < array_size a →
                microphp_zval_equals (array_slot a i) (array_slot b i) = true))
    ∧ (a.type = .ZVAL_OBJECT ∨ a.type = .ZVAL_CLOSURE ∨ a.type = .ZVAL_RESOURCE →
        microphp_zval_equals a b = false) := by
  refine ⟨zval_equals_of_type_ne a b, ?_, ?_, ?_, ?_, ?_, zval_equals_reserved a b⟩
  · intro h1 h2
    cases a <;> simp [zval_t.type] at h1
    cases b <;> simp [zval_t.type] at h2
    simp [microphp_zval_equals]
  · intro x y h1 h2
    subst h1 h2
    simp [microphp_zval_equals]
  · intro x y h1 h2
    subst h1 h2
    simp [microphp_zval_equals]
  · intro h1 h2
    cases a <;> simp [zval_t.type] at h1
    cases b <;> simp [zval_t.type] at h2
    exact zval_equals_string_iff _ _ _ _ ha hb
  · intro h1 h2
    cases a <;> simp [zval_t.type] at h1
    cases b <;> simp [zval_t.type] at h2
    exact zval_equals_array_iff _ _ _ _ _ _ ha hb

/-- C3, witness: two Strings of length 2 that differ in their second byte are not
equal, which the String clause reads off the bytes. -/
theorem zval_equals_reference_witness :
    zval_valid (.string_val (some [97, 98]) 2) = true
    ∧ zval_valid (.string_val (some [97, 99]) 2) = true
    ∧ (microphp_zval_equals (.string_val (some [97, 98]) 2) (.string_val (some [97, 99]) 2)
          = true ↔
        string_len (.string_val (some [97, 98]) 2) = string_len (.string_val (some [97, 99]) 2)
          ∧ ∀ i, i < string_len (.string_val (some [97, 98]) 2) →
              (string_bytes (.string_val (some [97, 98]) 2))[i]?
                = (string_bytes (.string_val (some [97, 99]) 2))[i]?) :=
  ⟨by decide, by decide,
    (zval_equals_reference (.string_val (some [97, 98]) 2) (.string_val (some [97, 99]) 2)
      (by decide) (by decide)).2.2.2.2.1 rfl rfl⟩

/-! ## The array invariant (C4) -/

theorem array_push_defined (a v : zval_t) (m : AllocLog) (hh : all_harmless m = true) :
    ∃ r, microphp_array_push a v m = some r ∧ all_harmless r.2.2 = true := by
  cases a with
  | array_val data size capacity =>
    unfold microphp_array_push
    by_cases hg : size ≥ capacity
    · obtain ⟨_, g2⟩ := malloc_of_harmless m hh
      rcases hmal : malloc m with ⟨ok, m1⟩
      rw [hmal] at g2
      cases ok with
      | false => exact ⟨(-1, .array_val data size capacity, m1), by simp only [hg, hmal, if_true], g2⟩
      | true =>
        simp only [hg, hmal, if_true]
        obtain ⟨q, e1, e2⟩ := zval_copy_defined
          (.value ((List.take size (data.getD []) ++ List.replicate
            ((if (capacity == 0) = true then 8 else capacity * 2) - size)
            microphp_zval_null).getD size .null)) v m1 rfl g2
        exact ⟨_, by rw [e1], e2⟩
    · simp only [hg, if_false]
      obtain ⟨q, e1, e2⟩ := zval_copy_defined (.value ((data.getD []).getD size .null)) v m
        rfl hh
      exact ⟨_, by rw [e1], e2⟩
  | _ => exact ⟨_, rfl, hh⟩

theorem array_valid_block (data : Option (List zval_t)) (size capacity : Nat)
    (hv : zval_valid (.array_val data size capacity) = true) :
    size ≤ capacity ∧ (data.getD []).length = capacity ∧ (capacity = 0 ↔ data = none) := by
  cases data with
  | none =>
    simp [zval_valid] at hv
    simp [hv.1, hv.2]
  | some d =>
    simp [zval_valid] at hv
    simp [hv.1.1.2, hv.1.2]
    omega

theorem zval_copy_value_dest (x : zval_t) (v : zval_t) (m : AllocLog) :
    microphp_zval_copy (.value x) v m = microphp_zval_copy (.value .null) v m :=
  zval_copy_dest_irrelevant (.value x) v m rfl

/-- The two branches of `microphp_array_push` on an Array. -/
theorem array_push_eq (data : Option (List zval_t)) (size capacity : Nat) (v : zval_t)
    (m : AllocLog) :
    (size < capacity →
      microphp_array_push (.array_val data size capacity) v m
        = (microphp_zval_copy (.value .null) v m).map fun r =>
            ((0 : Int), zval_t.array_val (data.map fun d => d.set size r.1) (size + 1) capacity,
              r.2))
    ∧ (capacity ≤ size → (malloc m).1 = false →
      microphp_array_push (.array_val data size capacity) v m
        = some (-1, .array_val data size capacity, (malloc m).2))
    ∧ (capacity ≤ size → (malloc m).1 = true →
      microphp_array_push (.array_val data size capacity) v m
        = (microphp_zval_copy (.value .null) v (malloc m).2).map fun r =>
            ((0 : Int), zval_t.array_val
              (some (((data.getD []).take size ++ List.replicate
                ((if capacity = 0 then 8 else capacity * 2) - size) microphp_zval_null).set
                  size r.1))
              (size + 1) (if capacity = 0 then 8 else capacity * 2), r.2)) := by
  refine ⟨?_, ?_, ?_⟩
  · intro hlt
    have hg : ¬ size ≥ capacity := by omega
    unfold microphp_array_push
    simp only [hg, if_false]
    rw [zval_copy_value_dest]
    cases microphp_zval_copy (.value .null) v m <;> rfl
  · intro hle hm
    have hg : size ≥ capacity := hle
    unfold microphp_array_push
    rcases hmal : malloc m with ⟨ok, m1⟩
    rw [hmal] at hm
    simp only at hm
    subst hm
    simp only [hg, hmal, if_true]
  · intro hle hm
    have hg : size ≥ capacity := hle
    unfold microphp_array_push
    rcases hmal : malloc m with ⟨ok, m1⟩
    rw [hmal] at hm
    simp only at hm
    subst hm
    simp only [hg, hmal, if_true]
    rw [zval_copy_value_dest]
    have hc : (if (capacity == 0) = true then 8 else capacity * 2)
        = (if capacity = 0 then 8 else capacity * 2) := by
      by_cases h0 : capacity = 0 <;> simp [h0]
    rw [hc]
    cases microphp_zval_copy (.value .null) v m1 <;> rfl

/-- C5.  For every well-formed Array a with size n and every value v, a push that
returns 0 has made the size n+1, has stored at index n the value that
`microphp_zval_copy` produces from v (on the allocation log left by the
reallocation, if there was one), and has left the elements at the indices below n
unchanged.  The push returns 0 when there is room or the reallocation is granted,
and no new block holds bytes on which `microphp_zval_destroy` would call `free`;
it has no result exactly when the copy of v has none. -/
theorem array_push_appends (a v : zval_t) (m : AllocLog) (ht : a.type = .ZVAL_ARRAY)
    (hv : zval_valid a = true) :
    (∀ a1 m1, microphp_array_push a v m = some (0, a1, m1) →
      array_size a1 = array_size a + 1
      ∧ (∀ dest, (microphp_zval_destroy_at dest).isSome = true →
          microphp_zval_copy dest v
              (if array_size a < array_capacity a then m else (malloc m).2)
            = some (array_slot a1 (array_size a), m1))
      ∧ ∀ i, i < array_size a → array_slot a1 i = array_slot a i)
    ∧ ((array_size a < array_capacity a ∨ (malloc m).1 = true) → all_harmless m = true →
        ∃ a1 m1, microphp_array_push a v m = some (0, a1, m1))
    ∧ (microphp_array_push a v m = none ↔
        (array_size a < array_capacity a ∨ (malloc m).1 = true)
          ∧ microphp_zval_copy (.value .null) v
              (if array_size a < array_capacity a then m else (malloc m).2) = none) := by
  cases a <;> simp [zval_t.type] at ht
  rename_i data size capacity
  obtain ⟨h1, h2, h3⟩ := array_valid_block data size capacity hv
  obtain ⟨e1, e2, e3⟩ := array_push_eq data size capacity v m
  simp only [array_size, array_capacity]
  by_cases hlt : size < capacity
  · have e := e1 hlt
    simp only [hlt, if_true, true_or, true_and, forall_true_left]
    cases data with
    | none => simp at h2; omega
    | some d =>
      simp only [Option.getD_some] at h2
      refine ⟨?_, ?_, ?_⟩
      · intro a1 m1 hp
        rw [e] at hp
        cases hc : microphp_zval_copy (.value .null) v m with
        | none => rw [hc] at hp; cases hp
        | some q =>
          obtain ⟨c, m2⟩ := q
          rw [hc] at hp
          simp only [Option.map_some', Option.some.injEq, Prod.mk.injEq, true_and] at hp
          obtain ⟨rfl, rfl⟩ := hp
          refine ⟨rfl, ?_, ?_⟩
          · intro dest hd
            rw [zval_copy_dest_irrelevant dest v m hd]
            simp only [array_slot, array_data]
            rw [List.getD_eq_getElem?_getD, List.getElem?_set_self (by omega)]
            exact hc
          · intro i hi
            have hne : size ≠ i := by omega
            simp only [array_slot, array_data]
            rw [List.getD_eq_getElem?_getD, List.getElem?_set_ne hne,
              List.getD_eq_getElem?_getD]
      · intro hh
        obtain ⟨q, hq, _⟩ := zval_copy_defined (.value .null) v m rfl hh
        rw [e, hq]
        exact ⟨_, _, rfl⟩
      · rw [e]
        cases microphp_zval_copy (.value .null) v m <;> simp
  · have hle : capacity ≤ size := by omega
    have hsz : size = capacity := by omega
    simp only [hlt, if_false, false_or]
    have hd : (data.getD []).length = size := by omega
    rcases hmal : malloc m with ⟨ok, m2⟩
    cases ok with
    | false =>
      have e := e2 hle (by rw [hmal])
      rw [hmal] at e
      simp only at e
      rw [e]
      simp
    | true =>
      have e := e3 hle (by rw [hmal])
      rw [hmal] at e
      simp only at e
      simp only [true_and, forall_true_left]
      have hnc : size < (if capacity = 0 then 8 else capacity * 2) := by
        split <;> omega
      generalize (if capacity = 0 then 8 else capacity * 2) = nc at hnc e
      have htk : (List.take size (data.getD [])).length = size := by
        rw [List.length_take, hd]; omega
      have hlen : (List.take size (data.getD []) ++
          List.replicate (nc - size) microphp_zval_null).length = nc := by
        rw [List.length_append, htk, List.length_replicate]
        omega
      refine ⟨?_, ?_, ?_⟩
      · intro a1 m1 hp
        rw [e] at hp
        cases hc : microphp_zval_copy (.value .null) v m2 with
        | none => rw [hc] at hp; cases hp
        | some q =>
          obtain ⟨c, m3⟩ := q
          rw [hc] at hp
          simp only [Option.map_some', Option.some.injEq, Prod.mk.injEq, true_and] at hp
          obtain ⟨rfl, rfl⟩ := hp
          refine ⟨rfl, ?_, ?_⟩
          · intro dest hdd
            rw [zval_copy_dest_irrelevant dest v m2 hdd]
            simp only [array_slot, array_data]
            rw [List.getD_eq_getElem?_getD, List.getElem?_set_self (by omega)]
            exact hc
          · intro i hi
            have hne : size ≠ i := by omega
            simp only [array_slot, array_data]
            rw [List.getD_eq_getElem?_getD, List.getElem?_set_ne hne,
              List.getElem?_append_left (by omega), List.getElem?_take_of_lt hi]
            cases data <;> simp [List.getD_eq_getElem?_getD]
      · intro hh
        obtain ⟨_, g2⟩ := malloc_of_harmless m hh
        rw [hmal] at g2
        obtain ⟨q, hq, _⟩ := zval_copy_defined (.value .null) v m2 rfl g2
        rw [e, hq]
        exact ⟨_, _, rfl⟩
      · rw [e]
        cases microphp_zval_copy (.value .null) v m2 <;> simp

/-- C5, witness: a push onto a full array of capacity 1 grows it and appends the
copy of an array that holds a String; the block that receives the copy reads as an
Array with a NULL pointer. -/
theorem array_push_appends_witness :
    ∃ a1 m1,
      microphp_array_push (.array_val (some [.int_val 5]) 1 1)
          (.array_val (some [.string_val (some [104, 105]) 2]) 1 1)
          [.granted [], .granted [{ type := some .ZVAL_ARRAY, pointer_null := true }]]
        = some (0, a1, m1)
      ∧ array_size a1 = 2
      ∧ array_slot a1 1 = .array_val (some [.string_val (some [104, 105]) 2]) 1 1
      ∧ array_slot a1 0 = .int_val 5 :=
  have h := array_push_appends (.array_val (some [.int_val 5]) 1 1)
    (.array_val (some [.string_val (some [104, 105]) 2]) 1 1)
    [.granted [], .granted [{ type := some .ZVAL_ARRAY, pointer_null := true }]]
    rfl (by decide)
  have ⟨a1, m1, hp⟩ := h.2.1 (Or.inr rfl) (by decide)
  have hq := h.1 a1 m1 hp
  ⟨a1, m1, hp, hq.1,
    (Prod.mk.inj (Option.some.inj ((hq.2.1 (.value .null) rfl).symm.trans rfl))).1,
    hq.2.2 0 (by decide)⟩

/-- C6.  For every Array: when size < capacity a push leaves the capacity
unchanged; when size = capacity a push that returns 0 has made the capacity 8 if it
was 0 and exactly twice the old capacity otherwise, and a push that returns another
code has left it unchanged.  The push returns when no new block holds bytes on which
`microphp_zval_destroy` would call `free`. -/
theorem array_push_capacity (a v : zval_t) (m : AllocLog) (ht : a.type = .ZVAL_ARRAY) :
    (array_size a < array_capacity a → ∀ r, microphp_array_push a v m = some r →
      array_capacity r.2.1 = array_capacity a)
    ∧ (array_size a = array_capacity a → ∀ r, microphp_array_push a v m = some r →
      r.1 = 0 →
      array_capacity r.2.1 = if array_capacity a = 0 then 8 else 2 * array_capacity a)
    ∧ (array_size a = array_capacity a → ∀ r, microphp_array_push a v m = some r →
      r.1 ≠ 0 → array_capacity r.2.1 = array_capacity a)
    ∧ (all_harmless m = true → ∃ r, microphp_array_push a v m = some r) := by
  cases a <;> simp [zval_t.type] at ht
  rename_i data size capacity
  obtain ⟨e1, e2, e3⟩ := array_push_eq data size capacity v m
  simp only [array_size, array_capacity]
  refine ⟨?_, ?_, ?_, ?_⟩
  · intro hlt r hr
    rw [e1 hlt] at hr
    cases hc : microphp_zval_copy (.value .null) v m with
    | none => rw [hc] at hr; cases hr
    | some q =>
      rw [hc] at hr
      simp only [Option.map_some', Option.some.injEq] at hr
      subst hr
      rfl
  · intro heq r hr hret
    rcases hmal : malloc m with ⟨ok, m1⟩
    cases ok with
    | false =>
      rw [e2 (by omega) (by rw [hmal]), Option.some.injEq] at hr
      subst hr
      simp at hret
    | true =>
      rw [e3 (by omega) (by rw [hmal])] at hr
      cases hc : microphp_zval_copy (.value .null) v (malloc m).2 with
      | none => rw [hc] at hr; cases hr
      | some q =>
        rw [hc] at hr
        simp only [Option.map_some', Option.some.injEq] at hr
        subst hr
        simp only [array_capacity]
        by_cases h0 : capacity = 0
        · simp [h0]
        · simp [h0]; omega
  · intro heq r hr hret
    rcases hmal : malloc m with ⟨ok, m1⟩
    cases ok with
    | false =>
      rw [e2 (by omega) (by rw [hmal]), Option.some.injEq] at hr
      subst hr
      rfl
    | true =>
      rw [e3 (by omega) (by rw [hmal])] at hr
      cases hc : microphp_zval_copy (.value .null) v (malloc m).2 with
      | none => rw [hc] at hr; cases hr
      | some q =>
        rw [hc] at hr
        simp only [Option.map_some', Option.some.injEq] at hr
        subst hr
        simp at hret
  · intro hh
    obtain ⟨r, hr, _⟩ := array_push_defined (.array_val data size capacity) v m hh
    exact ⟨r, hr⟩

/-- C6, witness: pushing onto the empty array of capacity 0 gives capacity 8, and
pushing onto a full array of capacity 3 gives capacity 6. -/
theorem array_push_capacity_witness :
    (microphp_array_push (.array_val none 0 0) (.int_val 1) []).map
        (fun r => array_capacity r.2.1) = some 8
    ∧ (microphp_array_push (.array_val (some [.null, .null, .null]) 3 3) (.int_val 1) []).map
        (fun r => array_capacity r.2.1) = some 6 :=
  ⟨congrArg some
      ((array_push_capacity (.array_val none 0 0) (.int_val 1) [] rfl).2.1 rfl
        (0, .array_val (some [.int_val 1, .null, .null, .null, .null, .null, .null, .null])
          1 8, []) rfl rfl),
   congrArg some
      ((array_push_capacity (.array_val (some [.null, .null, .null]) 3 3) (.int_val 1) []
        rfl).2.1 rfl
        (0, .array_val (some [.null, .null, .null, .int_val 1, .null, .null]) 4 6, [])
        rfl rfl)⟩

/-! ## Get and set (C7, C8) -/

/-- C7, on the code.  For an Array a and an index i < size, `microphp_array_get`
does what `microphp_zval_copy` does from element i into the result slot: it returns
0 with the value the copy produces and leaves the array unchanged, and it has no
result when the copy has none.  When i >= size, or when the value is not an Array,
it returns -1 and the result slot is unchanged.  The copy produces a value when
destroying the result slot and the slots of the new blocks passes no pointer to
`free`.  But when element i is an array that has an element, the copy destroys the
first slot of the block that `malloc` has just returned before it writes it: on the
array whose element 0 is the array holding the Integer 1, with a new block that reads
as a String with a pointer, the get of index 0 has no result. -/
theorem array_get_contract :
    (∀ (a : zval_t) (i : Nat) (result : zval_slot_t) (m : AllocLog),
      a.type = .ZVAL_ARRAY → i < array_size a →
      microphp_array_get a i result m
        = (microphp_zval_copy result (array_slot a i) m).map fun r =>
            ((0 : Int), a, zval_slot_t.value r.1, r.2))
    ∧ (∀ (a : zval_t) (i : Nat) (result : zval_slot_t) (m : AllocLog),
      a.type = .ZVAL_ARRAY → array_size a ≤ i →
      microphp_array_get a i result m = some (-1, a, result, m))
    ∧ (∀ (a : zval_t) (i : Nat) (result : zval_slot_t) (m : AllocLog),
      a.type ≠ .ZVAL_ARRAY → microphp_array_get a i result m = some (-1, a, result, m))
    ∧ (∀ (a : zval_t) (i : Nat) (result : zval_slot_t) (m : AllocLog),
      a.type = .ZVAL_ARRAY → i < array_size a →
      (microphp_zval_destroy_at result).isSome = true → all_harmless m = true →
      ∃ c m1, microphp_array_get a i result m = some (0, a, .value c, m1))
    ∧ (zval_valid (.array_val (some [.array_val (some [.int_val 1]) 1 1]) 1 1) = true
        ∧ microphp_array_get (.array_val (some [.array_val (some [.int_val 1]) 1 1]) 1 1) 0
            (.value .null) [.granted [{ type := some .ZVAL_STRING, pointer_null := false }]]
            = none
        ∧ microphp_array_get (.array_val (some [.array_val (some [.int_val 1]) 1 1]) 1 1) 0
            (.value .null) [.granted [{ type := some .ZVAL_STRING, pointer_null := true }]]
            = some (0, .array_val (some [.array_val (some [.int_val 1]) 1 1]) 1 1,
                .value (.array_val (some [.int_val 1]) 1 1), [])) := by
  refine ⟨?_, ?_, ?_, ?_, by decide, rfl, rfl⟩
  · intro a i result m ht hi
    cases a <;> simp [zval_t.type] at ht
    rename_i data size capacity
    simp only [array_size] at hi
    have hg : ¬ i ≥ size := by omega
    unfold microphp_array_get
    simp only [hg, if_false, array_slot]
    have hd : array_data (.array_val data size capacity) = data.getD [] := by
      cases data <;> rfl
    rw [hd]
    cases microphp_zval_copy result ((data.getD []).getD i .null) m <;> rfl
  · intro a i result m ht hi
    cases a <;> simp [zval_t.type] at ht
    rename_i data size capacity
    simp only [array_size] at hi
    have hg : i ≥ size := hi
    unfold microphp_array_get
    simp only [hg, if_true]
  · intro a i result m ht
    cases a <;> simp [zval_t.type] at ht <;> rfl
  · intro a i result m ht hi hd hh
    cases a <;> simp [zval_t.type] at ht
    rename_i data size capacity
    simp only [array_size] at hi
    have hg : ¬ i ≥ size := by omega
    obtain ⟨q, hq, _⟩ := zval_copy_defined result ((data.getD []).getD i .null) m hd hh
    unfold microphp_array_get
    simp only [hg, if_false, hq]
    exact ⟨_, _, rfl⟩

/-- C8, on the code.  For a well-formed Array a and an index i < size,
`microphp_array_set` does what `microphp_zval_copy` does from v: it returns 0 with
element i replaced by the value the copy produces, the size, the capacity and every
other element unchanged, and it has no result when the copy has none.  For i >= size,
or for a target that is not an Array, it returns -1 and the target is unchanged.
The copy produces a value when no new block holds bytes on which
`microphp_zval_destroy` would call `free`.  But when v is an array that has an
element, the copy destroys the first slot of the block that `malloc` has just
returned before it writes it: setting index 0 to the array that holds the Integer 1,
with a new block that reads as an Array with a pointer, has no result. -/
theorem array_set_contract :
    (∀ (a v : zval_t) (i : Nat) (m : AllocLog),
      zval_valid a = true → a.type = .ZVAL_ARRAY → i < array_size a →
      (∀ r, microphp_array_set a i v m = some r →
        r.1 = 0
        ∧ microphp_zval_copy (.value .null) v m = some (array_slot r.2.1 i, r.2.2)
        ∧ r.2.1.type = .ZVAL_ARRAY
        ∧ array_size r.2.1 = array_size a
        ∧ array_capacity r.2.1 = array_capacity a
        ∧ ∀ j, j ≠ i → array_slot r.2.1 j = array_slot a j)
      ∧ (microphp_array_set a i v m = none ↔ microphp_zval_copy (.value .null) v m = none))
    ∧ (∀ (a v : zval_t) (i : Nat) (m : AllocLog),
      a.type = .ZVAL_ARRAY → array_size a ≤ i →
      microphp_array_set a i v m = some (-1, a, m))
    ∧ (∀ (a v : zval_t) (i : Nat) (m : AllocLog),
      a.type ≠ .ZVAL_ARRAY → microphp_array_set a i v m = some (-1, a, m))
    ∧ (∀ (a v : zval_t) (i : Nat) (m : AllocLog),
      a.type = .ZVAL_ARRAY → i < array_size a → all_harmless m = true →
      ∃ a1 m1, microphp_array_set a i v m = some (0, a1, m1))
    ∧ (zval_valid (.array_val (some [.int_val 5, .int_val 6, .null]) 2 3) = true
        ∧ zval_valid (.array_val (some [.int_val 1]) 1 1) = true
        ∧ microphp_array_set (.array_val (some [.int_val 5, .int_val 6, .null]) 2 3) 0
            (.array_val (some [.int_val 1]) 1 1)
            [.granted [{ type := some .ZVAL_ARRAY, pointer_null := false }]] = none
        ∧ microphp_array_set (.array_val (some [.int_val 5, .int_val 6, .null]) 2 3) 0
            (.array_val (some [.int_val 1]) 1 1)
            [.granted [{ type := some .ZVAL_ARRAY, pointer_null := true }]]
            = some (0, .array_val (some [.array_val (some [.int_val 1]) 1 1, .int_val 6,
                .null]) 2 3, [])) := by
  refine ⟨?_, ?_, ?_, ?_, by decide, by decide, rfl, rfl⟩
  · intro a v i m hv ht hi
    cases a <;> simp [zval_t.type] at ht
    rename_i data size capacity
    obtain ⟨h1, h2, h3⟩ := array_valid_block data size capacity hv
    simp only [array_size] at hi
    have hg : ¬ i ≥ size := by omega
    have e : microphp_array_set (.array_val data size capacity) i v m
        = (microphp_zval_copy (.value .null) v m).map fun r =>
            ((0 : Int), zval_t.array_val (data.map fun d => d.set i r.1) size capacity,
              r.2) := by
      unfold microphp_array_set
      simp only [hg, if_false]
      rw [zval_copy_value_dest]
      cases microphp_zval_copy (.value .null) v m <;> rfl
    cases data with
    | none => simp at h2; omega
    | some d =>
      simp only [Option.getD_some] at h2
      refine ⟨?_, ?_⟩
      · intro r hr
        rw [e] at hr
        cases hc : microphp_zval_copy (.value .null) v m with
        | none => rw [hc] at hr; cases hr
        | some q =>
          obtain ⟨c, m2⟩ := q
          rw [hc] at hr
          simp only [Option.map_some', Option.some.injEq] at hr
          subst hr
          simp only [array_slot, array_data, array_size, array_capacity, zval_t.type,
            true_and]
          refine ⟨?_, ?_⟩
          · rw [List.getD_eq_getElem?_getD, List.getElem?_set_self (by omega)]
            rfl
          · intro j hj
            have hne : i ≠ j := fun h => hj h.symm
            rw [List.getD_eq_getElem?_getD, List.getElem?_set_ne hne,
              List.getD_eq_getElem?_getD]
      · rw [e]
        cases microphp_zval_copy (.value .null) v m <;> simp
  · intro a v i m ht hi
    cases a <;> simp [zval_t.type] at ht
    rename_i data size capacity
    simp only [array_size] at hi
    have hg : i ≥ size := hi
    unfold microphp_array_set
    simp only [hg, if_true]
  · intro a v i m ht
    cases a <;> simp [zval_t.type] at ht <;> rfl
  · intro a v i m ht hi hh
    cases a <;> simp [zval_t.type] at ht
    rename_i data size capacity
    simp only [array_size] at hi
    have hg : ¬ i ≥ size := by omega
    obtain ⟨q, hq, _⟩ := zval_copy_defined
      (.value (microphp_zval_destroy ((data.getD []).getD i .null))) v m rfl hh
    unfold microphp_array_set
    simp only [hg, if_false, hq]
    exact ⟨_, _, rfl⟩

/-! ## String concatenation (C9, C10) -/

theorem string_valid_bytes (str : Option (List UInt8)) (len : Nat)
    (hv : zval_valid (.string_val str len) = true) :
    (str.getD []).length = len ∧ (len = 0 ↔ str = none) := by
  cases str with
  | none =>
    simp [zval_valid] at hv
    simp [hv]
  | some s =>
    simp [zval_valid] at hv
    simp [hv.2]
    omega

/-- C9.  For every pair of well-formed String values a and b, and every allocation
log that grants all requests, `microphp_string_concat(a, b)` is a String whose
length is len(a) + len(b) and whose bytes are the bytes of a followed by the bytes
of b. -/
theorem string_concat_strings (a b : zval_t) (m : AllocLog)
    (hta : a.type = .ZVAL_STRING) (htb : b.type = .ZVAL_STRING)
    (ha : zval_valid a = true) (hb : zval_valid b = true) (hm : all_granted m = true) :
    (microphp_string_concat a b m).1.type = .ZVAL_STRING
    ∧ string_len (microphp_string_concat a b m).1 = string_len a + string_len b
    ∧ string_bytes (microphp_string_concat a b m).1 = string_bytes a ++ string_bytes b := by
  cases a <;> simp [zval_t.type] at hta
  cases b <;> simp [zval_t.type] at htb
  rename_i sa la sb lb
  obtain ⟨a1, a2⟩ := string_valid_bytes sa la ha
  obtain ⟨b1, b2⟩ := string_valid_bytes sb lb hb
  obtain ⟨g1, g2⟩ := malloc_of_granted m hm
  rcases hmal : malloc m with ⟨ok, m1⟩
  rw [hmal] at g1 g2
  simp only at g1 g2
  subst g1
  obtain ⟨k1, k2⟩ := malloc_of_granted m1 g2
  rcases hmal1 : malloc m1 with ⟨ok1, m2⟩
  rw [hmal1] at k1 k2
  simp only at k1 k2
  subst k1
  have hsa : string_bytes (.string_val sa la) = sa.getD [] := by cases sa <;> rfl
  have hsb : string_bytes (.string_val sb lb) = sb.getD [] := by cases sb <;> rfl
  rw [hsa, hsb]
  simp only [microphp_string_concat, string_concat_operand, hmal, microphp_zval_string, string_len]
  have ta : List.take la (sa.getD []) = sa.getD [] := List.take_of_length_le (by omega)
  have tb : List.take lb (sb.getD []) = sb.getD [] := List.take_of_length_le (by omega)
  rw [ta, tb]
  by_cases hz : la + lb > 0
  · simp only [hz, if_true, hmal1, zval_t.type, string_len, string_bytes, true_and]
    exact List.take_of_length_le (by rw [List.length_append]; omega)
  · have hla : la = 0 := by omega
    have hlb : lb = 0 := by omega
    have ea : sa = none := a2.mp hla
    have eb : sb = none := b2.mp hlb
    subst ea eb hla hlb
    simp [zval_t.type, string_len, string_bytes]

/-- C9, witness: "ab" followed by "c", and "ab" followed by the empty string. -/
theorem string_concat_strings_witness :
    (microphp_string_concat (.string_val (some [97, 98]) 2) (.string_val (some [99]) 1) []).1
        = .string_val (some [97, 98, 99]) 3
    ∧ string_bytes
        (microphp_string_concat (.string_val (some [97, 98]) 2) (.string_val none 0) []).1
        = string_bytes (.string_val (some [97, 98]) 2) ++ string_bytes (.string_val none 0) :=
  ⟨rfl,
   (string_concat_strings (.string_val (some [97, 98]) 2) (.string_val none 0) [] rfl rfl
      (by decide) (by decide) (by decide)).2.2⟩

/-- C10, on the code: an Integer operand contributes no bytes.  The concatenation of
Integer 42 and the String "x" is the String "x" of length 1, not "42x". -/
theorem string_concat_int_operand_empty :
    microphp_string_concat (.int_val 42) (.string_val (some [120]) 1) []
        = (.string_val (some [120]) 1, [])
    ∧ string_bytes (microphp_string_concat (.int_val 42) (.string_val (some [120]) 1) []).1
        ≠ [52, 50, 120]
    ∧ ∀ (i : Int) (s : zval_t) (m : AllocLog),
        microphp_string_concat (.int_val i) s m
          = microphp_string_concat (.string_val none 0) s m := by
  refine ⟨rfl, by decide, ?_⟩
  intro i s m
  simp [microphp_string_concat, string_concat_operand]

/-! ## Every routine leaves well-formed values -/

theorem zval_valid_elems_iff (d : List zval_t) :
    zval_valid_elems d = true ↔ ∀ x, x ∈ d → zval_valid x = true := by
  induction d with
  | nil => simp [zval_valid_elems]
  | cons a t ih => simp [zval_valid_elems, ih]

theorem zval_valid_elems_append (xs ys : List zval_t) (hx : zval_valid_elems xs = true)
    (hy : zval_valid_elems ys = true) : zval_valid_elems (xs ++ ys) = true := by
  rw [zval_valid_elems_iff] at hx hy ⊢
  intro x hmem
  rcases List.mem_append.mp hmem with h | h
  · exact hx x h
  · exact hy x h

theorem zval_valid_elems_replicate_null (n : Nat) :
    zval_valid_elems (List.replicate n microphp_zval_null) = true := by
  rw [zval_valid_elems_iff]
  intro x hmem
  rw [(List.mem_replicate.mp hmem).2]
  rfl

theorem zval_valid_elems_take (n : Nat) (d : List zval_t) (h : zval_valid_elems d = true) :
    zval_valid_elems (d.take n) = true := by
  rw [zval_valid_elems_iff] at h ⊢
  exact fun x hmem => h x (List.mem_of_mem_take hmem)

theorem zval_valid_elems_set (d : List zval_t) (i : Nat) (v : zval_t)
    (h : zval_valid_elems d = true) (hv : zval_valid v = true) :
    zval_valid_elems (d.set i v) = true := by
  rw [zval_valid_elems_iff] at h ⊢
  intro x hmem
  rcases List.mem_or_eq_of_mem_set hmem with hx | hx
  · exact h x hx
  · rw [hx]; exact hv

theorem zval_string_valid (str : Option (List UInt8)) (len : Nat) (m : AllocLog)
    (h : len ≤ (str.getD []).length) : zval_valid (microphp_zval_string str len m).1 = true := by
  unfold microphp_zval_string
  cases str with
  | none => simp [zval_valid]
  | some s =>
    simp only [Option.getD_some] at h
    by_cases hl : len > 0
    · rcases hmal : malloc m with ⟨ok, m1⟩
      cases ok <;> simp [hl, hmal, zval_valid, h]
    · simp [hl, zval_valid]

theorem zval_array_valid (c : Nat) (m : AllocLog) :
    zval_valid (microphp_zval_array c m).1 = true := by
  unfold microphp_zval_array
  by_cases hc : c > 0
  · rcases hmal : malloc m with ⟨ok, m1⟩
    cases ok <;> simp [hc, hmal, zval_valid, zval_valid_elems_replicate_null]
  · simp [hc, zval_valid]

mutual
theorem zval_copy_valid (dest : zval_slot_t) (v : zval_t) (m : AllocLog) (c : zval_t)
    (m1 : AllocLog) (hv : zval_valid v = true)
    (hc : microphp_zval_copy dest v m = some (c, m1)) : zval_valid c = true := by
  rw [zval_copy_dest_irrelevant dest v m (zval_copy_dest_defined dest v m _ hc)] at hc
  cases v with
  | null =>
    simp [microphp_zval_copy, zval_destroy_at_value] at hc
    rw [← hc.1]; rfl
  | bool_val b =>
    simp [microphp_zval_copy, zval_destroy_at_value] at hc
    rw [← hc.1]; rfl
  | int_val i =>
    simp [microphp_zval_copy, zval_destroy_at_value] at hc
    rw [← hc.1]; exact hv
  | float_val f =>
    simp [microphp_zval_copy, zval_destroy_at_value] at hc
    rw [← hc.1]; exact hv
  | string_val s l =>
    cases s with
    | none =>
      simp [microphp_zval_copy, zval_destroy_at_value] at hc
      rw [← hc.1]; rfl
    | some s =>
      simp [zval_valid] at hv
      rcases hmal : malloc m with ⟨ok, m2⟩
      cases ok with
      | false =>
        simp [microphp_zval_copy, zval_destroy_at_value, hv.1, hmal] at hc
        rw [← hc.1]; rfl
      | true =>
        simp [microphp_zval_copy, zval_destroy_at_value, hv.1, hmal] at hc
        rw [← hc.1]
        simp [zval_valid, hv.1, hv.2]
  | array_val d s k =>
    cases d with
    | none =>
      simp [microphp_zval_copy, zval_destroy_at_value] at hc
      rw [← hc.1]; rfl
    | some d =>
      simp [zval_valid] at hv
      rcases hmal : malloc m with ⟨ok, m2⟩
      cases ok with
      | false =>
        simp [microphp_zval_copy, zval_destroy_at_value, hv.1.1.1, hmal] at hc
        rw [← hc.1]; rfl
      | true =>
        simp only [microphp_zval_copy, zval_destroy_at_value, hv.1.1.1, hmal, gt_iff_lt,
          if_true] at hc
        cases he : zval_copy_elems s d (malloc_content m) m2 with
        | none => simp [he] at hc
        | some r =>
          obtain ⟨cs, m3⟩ := r
          simp only [he, Option.some.injEq, Prod.mk.injEq] at hc
          obtain ⟨e1, e2⟩ := zval_copy_elems_valid s d (malloc_content m) m2 cs m3 hv.2
            (by omega) he
          have hz := zval_valid_elems_append _ _ e1 (zval_valid_elems_replicate_null (k - s))
          rw [← hc.1]
          simp [zval_valid, e2, hz, hv.1.1.1]
          omega
  | object =>
    simp [microphp_zval_copy, zval_destroy_at_value] at hc
    rw [← hc.1]; rfl
  | closure =>
    simp [microphp_zval_copy, zval_destroy_at_value] at hc
    rw [← hc.1]; rfl
  | resource =>
    simp [microphp_zval_copy, zval_destroy_at_value] at hc
    rw [← hc.1]; rfl
theorem zval_copy_elems_valid (n : Nat) (d : List zval_t) (block : List zval_junk_t)
    (m : AllocLog) (cs : List zval_t) (m1 : AllocLog) (hv : zval_valid_elems d = true)
    (hl : n ≤ d.length) (hc : zval_copy_elems n d block m = some (cs, m1)) :
    zval_valid_elems cs = true ∧ cs.length = n := by
  match n, d with
  | 0, _ =>
    simp [zval_copy_elems] at hc
    rw [hc.1]
    exact ⟨rfl, rfl⟩
  | n + 1, [] => simp at hl
  | n + 1, x :: xs =>
    simp [zval_valid_elems] at hv
    simp at hl
    simp only [zval_copy_elems] at hc
    cases h1 : microphp_zval_copy (.indeterminate (junk_at block 0)) x m with
    | none => simp [h1] at hc
    | some r =>
      obtain ⟨y, m2⟩ := r
      simp only [h1] at hc
      cases h2 : zval_copy_elems n xs block.tail m2 with
      | none => simp [h2] at hc
      | some rs =>
        obtain ⟨ys, m3⟩ := rs
        simp only [h2, Option.some.injEq, Prod.mk.injEq] at hc
        have a1 := zval_copy_valid _ x m y m2 hv.1 h1
        obtain ⟨b1, b2⟩ := zval_copy_elems_valid n xs block.tail m2 ys m3 hv.2 hl h2
        rw [← hc.1]
        simp [zval_valid_elems, a1, b1, b2]
end

theorem array_push_valid (a v : zval_t) (m : AllocLog) (r : Int × zval_t × AllocLog)
    (ha : zval_valid a = true) (hv : zval_valid v = true)
    (hr : microphp_array_push a v m = some r) : zval_valid r.2.1 = true := by
  cases a with
  | array_val data size capacity =>
    obtain ⟨h1, h2, h3⟩ := array_valid_block data size capacity ha
    obtain ⟨e1, e2, e3⟩ := array_push_eq data size capacity v m
    have hel : zval_valid_elems (data.getD []) = true := by
      cases data with
      | none => rfl
      | some d =>
        simp [zval_valid] at ha
        simpa using ha.2
    by_cases hlt : size < capacity
    · rw [e1 hlt] at hr
      cases hc : microphp_zval_copy (.value .null) v m with
      | none => rw [hc] at hr; cases hr
      | some q =>
        obtain ⟨c, m2⟩ := q
        rw [hc] at hr
        simp only [Option.map_some', Option.some.injEq] at hr
        subst hr
        cases data with
        | none => simp at h2; omega
        | some d =>
          simp only [Option.getD_some] at h2 hel
          have hz := zval_valid_elems_set d size _ hel
            (zval_copy_valid _ v m c m2 hv hc)
          simp only [Option.map_some', zval_valid, hz, List.length_set, h2, Bool.and_true,
            beq_self_eq_true, Bool.and_eq_true, decide_eq_true_eq]
          omega
    · rcases hmal : malloc m with ⟨ok, m1⟩
      cases ok with
      | false =>
        rw [e2 (by omega) (by rw [hmal]), Option.some.injEq] at hr
        subst hr
        exact ha
      | true =>
        rw [e3 (by omega) (by rw [hmal])] at hr
        cases hc : microphp_zval_copy (.value .null) v (malloc m).2 with
        | none => rw [hc] at hr; cases hr
        | some q =>
          obtain ⟨c, m2⟩ := q
          rw [hc] at hr
          simp only [Option.map_some', Option.some.injEq] at hr
          subst hr
          have hnc : size < (if capacity = 0 then 8 else capacity * 2) := by
            split <;> omega
          generalize (if capacity = 0 then 8 else capacity * 2) = nc at hnc ⊢
          have hd : (data.getD []).length = size := by omega
          have hlen : (List.take size (data.getD []) ++
              List.replicate (nc - size) microphp_zval_null).length = nc := by
            rw [List.length_append, List.length_take, List.length_replicate, hd]
            omega
          have hz := zval_valid_elems_set _ size _
            (zval_valid_elems_append _ _ (zval_valid_elems_take size _ hel)
              (zval_valid_elems_replicate_null (nc - size)))
            (zval_copy_valid _ v _ c m2 hv hc)
          simp only [zval_valid, hz, List.length_set, hlen, Bool.and_true, beq_self_eq_true,
            Bool.and_eq_true, decide_eq_true_eq]
          omega
  | _ =>
    simp only [microphp_array_push, Option.some.injEq] at hr
    subst hr
    exact ha

theorem array_set_valid (a v : zval_t) (i : Nat) (m : AllocLog) (r : Int × zval_t × AllocLog)
    (ha : zval_valid a = true) (hv : zval_valid v = true)
    (hr : microphp_array_set a i v m = some r) : zval_valid r.2.1 = true := by
  cases a with
  | array_val data size capacity =>
    unfold microphp_array_set at hr
    by_cases hg : i ≥ size
    · simp only [hg, if_true, Option.some.injEq] at hr
      subst hr
      exact ha
    · simp only [hg, if_false] at hr
      cases hc : microphp_zval_copy
          (.value (microphp_zval_destroy ((data.getD []).getD i .null))) v m with
      | none => simp only [hc] at hr; cases hr
      | some q =>
        obtain ⟨c, m2⟩ := q
        simp only [hc, Option.some.injEq] at hr
        subst hr
        cases data with
        | none => exact ha
        | some d =>
          simp [zval_valid] at ha
          have hz := zval_valid_elems_set d i _ ha.2 (zval_copy_valid _ v m c m2 hv hc)
          simp only [Option.map_some', zval_valid, hz, List.length_set, ha.1.1.2, ha.1.1.1,
            ha.1.2, Bool.and_true, beq_self_eq_true, decide_True]
  | _ =>
    simp only [microphp_array_set, Option.some.injEq] at hr
    subst hr
    exact ha

theorem string_concat_valid (a b : zval_t) (m : AllocLog) (ha : zval_valid a = true)
    (hb : zval_valid b = true) : zval_valid (microphp_string_concat a b m).1 = true := by
  have key : ∀ v : zval_t, zval_valid v = true →
      (((string_concat_operand v).1.getD []).take (string_concat_operand v).2).length
        = (string_concat_operand v).2 := by
    intro v hv
    cases v with
    | string_val s l =>
      obtain ⟨h1, _⟩ := string_valid_bytes s l hv
      simp [string_concat_operand, h1]
    | _ => simp [string_concat_operand]
  have ka := key a ha
  have kb := key b hb
  unfold microphp_string_concat
  rcases hoa : string_concat_operand a with ⟨a_str, a_len⟩
  rcases hob : string_concat_operand b with ⟨b_str, b_len⟩
  rw [hoa] at ka
  rw [hob] at kb
  simp only at ka kb ⊢
  rcases hmal : malloc m with ⟨ok, m1⟩
  cases ok with
  | false => rfl
  | true =>
    simp only
    apply zval_string_valid
    simp only [Option.getD_some, List.length_append, ka, kb]
    exact Nat.le_refl _

/-! ## The paths after a failed allocation -/

theorem array_push_returns_zero_iff (a v : zval_t) (m : AllocLog)
    (r : Int × zval_t × AllocLog) (ht : a.type = .ZVAL_ARRAY)
    (hr : microphp_array_push a v m = some r) :
    r.1 = 0 ↔ array_size a < array_capacity a ∨ (malloc m).1 = true := by
  cases a <;> simp [zval_t.type] at ht
  rename_i data size capacity
  obtain ⟨e1, e2, e3⟩ := array_push_eq data size capacity v m
  simp only [array_size, array_capacity]
  by_cases hlt : size < capacity
  · rw [e1 hlt] at hr
    cases hc : microphp_zval_copy (.value .null) v m with
    | none => rw [hc] at hr; cases hr
    | some q =>
      rw [hc] at hr
      simp only [Option.map_some', Option.some.injEq] at hr
      subst hr
      simp [hlt]
  · rcases hmal : malloc m with ⟨ok, m1⟩
    cases ok with
    | false =>
      rw [e2 (by omega) (by rw [hmal]), Option.some.injEq] at hr
      subst hr
      simp [hlt]
    | true =>
      rw [e3 (by omega) (by rw [hmal])] at hr
      cases hc : microphp_zval_copy (.value .null) v (malloc m).2 with
      | none => rw [hc] at hr; cases hr
      | some q =>
        rw [hc] at hr
        simp only [Option.map_some', Option.some.injEq] at hr
        subst hr
        simp

theorem array_push_failure_unchanged (a v : zval_t) (m : AllocLog)
    (r : Int × zval_t × AllocLog) (hr : microphp_array_push a v m = some r)
    (h : r.1 ≠ 0) : r.2.1 = a := by
  cases a with
  | array_val data size capacity =>
    obtain ⟨e1, e2, e3⟩ := array_push_eq data size capacity v m
    by_cases hlt : size < capacity
    · rw [e1 hlt] at hr
      cases hc : microphp_zval_copy (.value .null) v m with
      | none => rw [hc] at hr; cases hr
      | some q =>
        rw [hc] at hr
        simp only [Option.map_some', Option.some.injEq] at hr
        subst hr
        simp at h
    · rcases hmal : malloc m with ⟨ok, m1⟩
      cases ok with
      | false =>
        rw [e2 (by omega) (by rw [hmal]), Option.some.injEq] at hr
        subst hr
        rfl
      | true =>
        rw [e3 (by omega) (by rw [hmal])] at hr
        cases hc : microphp_zval_copy (.value .null) v (malloc m).2 with
        | none => rw [hc] at hr; cases hr
        | some q =>
          rw [hc] at hr
          simp only [Option.map_some', Option.some.injEq] at hr
          subst hr
          simp at h
  | _ =>
    simp only [microphp_array_push, Option.some.injEq] at hr
    subst hr
    rfl

theorem string_concat_first_request_refused (a b : zval_t) (m : AllocLog)
    (h : (malloc m).1 = false) : (microphp_string_concat a b m).1 = .null := by
  unfold microphp_string_concat
  rcases hmal : malloc m with ⟨ok, m1⟩
  rw [hmal] at h
  simp only at h
  subst h
  rfl

/-! ## Destroy (C11) -/

theorem zval_destroy_eq_null (v : zval_t) : microphp_zval_destroy v = .null := by
  cases v with
  | array_val d s c => cases d <;> simp [microphp_zval_destroy]
  | _ => simp [microphp_zval_destroy]

/-- C11.  For every value v, after `microphp_zval_destroy(v)` the tag of v is Null,
and destroying it a second time leaves it exactly as the first destroy left it and
releases no block. -/
theorem zval_destroy_idempotent (v : zval_t) :
    (microphp_zval_destroy v).type = .ZVAL_NULL
    ∧ microphp_zval_destroy (microphp_zval_destroy v) = microphp_zval_destroy v
    ∧ zval_destroy_released (microphp_zval_destroy v) = 0 := by
  rw [zval_destroy_eq_null v]
  refine ⟨rfl, ?_, ?_⟩
  · simp [microphp_zval_destroy]
  · simp [zval_destroy_released]

/-! ## Loading (C12, C13) -/

theorem vm_create_fresh : microphp_vm_create [] = some (vm_fresh, []) := rfl

theorem memcmp_four_ne_zero_iff (x y : List UInt8) (hx : x.length = 4) (hy : y.length = 4) :
    memcmp x y 4 ≠ 0 ↔ x ≠ y := by
  rw [Ne, memcmp_eq_zero_iff 4 x y (by omega) (by omega)]
  constructor
  · intro h1 h2
    exact h1 (fun i _ => by rw [h2])
  · intro h1 h2
    apply h1
    apply List.ext_getElem? 
    intro i
    by_cases hi : i < 4
    · exact h2 i hi
    · rw [List.getElem?_eq_none (by omega), List.getElem?_eq_none (by omega)]

theorem bytes_at_length (data : List UInt8) (off n : Nat) (h : off + n ≤ data.length) :
    (bytes_at data off n).length = n := by
  simp [bytes_at]
  omega

theorem vm_load_short (h : host_t) (fc : Nat → zval_t) (ff : Nat → function_t)
    (vm : vm_context_t) (data : List UInt8) (size : Nat) (m : AllocLog)
    (hs : size < sizeof_bytecode_t h) :
    microphp_vm_load_bytecode h fc ff vm data size m = some (-1, vm, m) := by
  simp [microphp_vm_load_bytecode, hs]

theorem vm_load_bad_magic (h : host_t) (fc : Nat → zval_t) (ff : Nat → function_t)
    (vm : vm_context_t) (data : List UInt8) (size : Nat) (m : AllocLog)
    (hs : sizeof_bytecode_t h ≤ size) (hd : 4 ≤ data.length)
    (hmagic : data.take 4 ≠ [77, 66, 67, 0]) :
    microphp_vm_load_bytecode h fc ff vm data size m
      = some (-1, { vm with error_msg := (strdup "Invalid bytecode magic" m).1 },
          (strdup "Invalid bytecode magic" m).2) := by
  have hlt : ¬ size < sizeof_bytecode_t h := by omega
  have hm : memcmp (bytecode_load h data).magic [77, 66, 67, 0] 4 ≠ 0 := by
    rw [memcmp_four_ne_zero_iff (bytecode_load h data).magic [77, 66, 67, 0]
      (by simp [bytecode_load, bytes_at]; omega) rfl]
    simpa [bytecode_load, bytes_at] using hmagic
  simp only [microphp_vm_load_bytecode, hlt, if_false]
  rw [if_pos hm]

theorem vm_load_bad_version (h : host_t) (fc : Nat → zval_t) (ff : Nat → function_t)
    (vm : vm_context_t) (data : List UInt8) (size : Nat) (m : AllocLog)
    (hs : sizeof_bytecode_t h ≤ size) (hd : 4 ≤ data.length)
    (hmagic : data.take 4 = [77, 66, 67, 0])
    (hver : (bytecode_load h data).version ≠ 1) :
    microphp_vm_load_bytecode h fc ff vm data size m
      = some (-1, { vm with error_msg := (strdup "Unsupported bytecode version" m).1 },
          (strdup "Unsupported bytecode version" m).2) := by
  have hlt : ¬ size < sizeof_bytecode_t h := by omega
  have hm : ¬ memcmp (bytecode_load h data).magic [77, 66, 67, 0] 4 ≠ 0 := by
    rw [memcmp_four_ne_zero_iff (bytecode_load h data).magic [77, 66, 67, 0]
      (by simp [bytecode_load, bytes_at]; omega) rfl]
    simpa [bytecode_load, bytes_at] using hmagic
  simp only [microphp_vm_load_bytecode, hlt, if_false]
  rw [if_neg hm, if_pos hver]

theorem strdup_of_granted (s : String) (m : AllocLog) (h : all_granted m = true) :
    (strdup s m).1 = some s ∧ all_granted (strdup s m).2 = true := by
  obtain ⟨h1, h2⟩ := malloc_of_granted m h
  unfold strdup
  rcases hmal : malloc m with ⟨ok, m1⟩
  rw [hmal] at h1 h2
  simp only at h1 h2
  subst h1
  exact ⟨rfl, h2⟩

/-- C12, on the code.  A load that fails never sets the module, and with granted
allocations a buffer of at least the header size that is rejected has an error
recorded; but a buffer shorter than the header is rejected by the first guard,
which returns -1 and records nothing: on a fresh context the last error is still
NULL after the failed load. -/
theorem vm_load_short_buffer_records_nothing :
    (microphp_vm_load_bytecode (host_of_ptr_size 8) (fun _ => .null)
        (fun _ => ⟨none, 0, none, 0, 0, 0⟩) vm_fresh [77, 66, 67] 3 []
      = some (-1, vm_fresh, []))
    ∧ microphp_get_error vm_fresh = none
    ∧ (∀ (h : host_t) (fc : Nat → zval_t) (ff : Nat → function_t) (vm : vm_context_t)
        (data : List UInt8) (size : Nat) (m : AllocLog),
        size < sizeof_bytecode_t h →
          microphp_vm_load_bytecode h fc ff vm data size m = some (-1, vm, m))
    ∧ (∀ (h : host_t) (fc : Nat → zval_t) (ff : Nat → function_t) (vm : vm_context_t)
        (data : List UInt8) (size : Nat) (m : AllocLog) (r : Int) (vm1 : vm_context_t)
        (m1 : AllocLog),
        microphp_vm_load_bytecode h fc ff vm data size m = some (r, vm1, m1) → r ≠ 0 →
          vm1.bytecode = vm.bytecode
          ∧ (sizeof_bytecode_t h ≤ size → all_granted m = true →
              (microphp_get_error vm1).isSome = true)) := by
  refine ⟨rfl, rfl, vm_load_short, ?_⟩
  intro h fc ff vm data size m r vm1 m1 hload hr
  unfold microphp_vm_load_bytecode at hload
  by_cases hs : size < sizeof_bytecode_t h
  · simp only [hs, if_true, Option.some.injEq, Prod.mk.injEq] at hload
    obtain ⟨_, h2, _⟩ := hload
    subst h2
    exact ⟨rfl, fun h3 => absurd hs (by omega)⟩
  · simp only [hs, if_false] at hload
    by_cases hm : memcmp (bytecode_load h data).magic [77, 66, 67, 0] 4 ≠ 0
    · rw [if_pos hm] at hload
      simp only [Option.some.injEq, Prod.mk.injEq] at hload
      obtain ⟨_, h2, _⟩ := hload
      subst h2
      refine ⟨rfl, fun _ hg => ?_⟩
      simp [microphp_get_error, (strdup_of_granted _ m hg).1]
    · rw [if_neg hm] at hload
      by_cases hv : (bytecode_load h data).version ≠ 1
      · rw [if_pos hv] at hload
        simp only [Option.some.injEq, Prod.mk.injEq] at hload
        obtain ⟨_, h2, _⟩ := hload
        subst h2
        refine ⟨rfl, fun _ hg => ?_⟩
        simp [microphp_get_error, (strdup_of_granted _ m hg).1]
      · rw [if_neg hv] at hload
        exfalso
        cases hm1 : microphp_malloc m with
        | none => simp [hm1] at hload
        | some m1 =>
          simp only [hm1] at hload
          split at hload
          · simp at hload
          · split at hload
            · simp at hload
            · simp only [Option.some.injEq, Prod.mk.injEq] at hload
              exact hr hload.1.symm

/-- C13, as amended.  For every buffer of at least the header size whose first four
bytes are not 'M', 'B', 'C', 0, `microphp_vm_load_bytecode` returns -1, leaves the
context as it was but for the last error, in particular unloaded, and (the
allocation of the message being granted) records the error
"Invalid bytecode magic". -/
theorem vm_load_invalid_magic (h : host_t) (fc : Nat → zval_t) (ff : Nat → function_t)
    (vm : vm_context_t) (data : List UInt8) (size : Nat) (m : AllocLog)
    (hs : sizeof_bytecode_t h ≤ size) (hd : 4 ≤ data.length)
    (hmagic : data.take 4 ≠ [77, 66, 67, 0]) (hg : all_granted m = true) :
    microphp_vm_load_bytecode h fc ff vm data size m
      = some (-1, { vm with error_msg := some "Invalid bytecode magic" }, (malloc m).2) := by
  rw [vm_load_bad_magic h fc ff vm data size m hs hd hmagic]
  have h1 := (strdup_of_granted "Invalid bytecode magic" m hg).1
  have h2 : (strdup "Invalid bytecode magic" m).2 = (malloc m).2 := by
    unfold strdup
    rcases malloc m with ⟨ok, m1⟩
    cases ok <;> rfl
  rw [h1, h2]

/-- C13, witness: the buffer "XYZ\0" followed by 44 zero bytes, on a fresh context
of a host with 8-byte pointers. -/
theorem vm_load_invalid_magic_witness :
    microphp_vm_load_bytecode (host_of_ptr_size 8) (fun _ => .null)
        (fun _ => ⟨none, 0, none, 0, 0, 0⟩) vm_fresh
        ([88, 89, 90, 0] ++ List.replicate 44 0) 48 []
      = some (-1, { vm_fresh with error_msg := some "Invalid bytecode magic" }, []) :=
  vm_load_invalid_magic (host_of_ptr_size 8) (fun _ => .null)
    (fun _ => ⟨none, 0, none, 0, 0, 0⟩) vm_fresh ([88, 89, 90, 0] ++ List.replicate 44 0) 48 []
    (by decide) (by decide) (by decide) (by decide)

/-- C13 as stated fails: for the buffer "XYZ\0" followed by 44 zero bytes the load
fails and the context stays unloaded, but the recorded string is
"Invalid bytecode magic", not "invalid magic". -/
theorem vm_load_magic_message_differs :
    (microphp_vm_load_bytecode (host_of_ptr_size 8) (fun _ => .null)
        (fun _ => ⟨none, 0, none, 0, 0, 0⟩) vm_fresh
        ([88, 89, 90, 0] ++ List.replicate 44 0) 48 []
      = some (-1, { vm_fresh with error_msg := some "Invalid bytecode magic" }, []))
    ∧ microphp_get_error { vm_fresh with error_msg := some "Invalid bytecode magic" }
        ≠ some "invalid magic" := by
  refine ⟨rfl, ?_⟩
  simp [microphp_get_error]

/-! ## Run without a module (C14) -/

/-- C14, on the code.  On a context with no module `microphp_vm_run` returns -1
and leaves the whole context as it was: no instruction is executed and the stack is
unchanged, but no error is recorded either.  On a fresh context the last error is
still NULL after the run, and after a load that failed on its magic it is still
"Invalid bytecode magic"; in neither case is it "no module loaded". -/
theorem vm_run_unloaded_records_nothing :
    (∀ (h : host_t) (locals : Nat → add_locals_t) (fuel : Nat) (vm : vm_context_t)
        (m : AllocLog),
        vm.bytecode = none → microphp_vm_run h locals fuel vm m = .returned (-1) vm m)
    ∧ microphp_vm_run (host_of_ptr_size 8) add_locals_zero 100 vm_fresh []
        = .returned (-1) vm_fresh []
    ∧ microphp_get_error vm_fresh = none
    ∧ microphp_vm_run (host_of_ptr_size 8) add_locals_zero 100
        { vm_fresh with error_msg := some "Invalid bytecode magic" } []
        = .returned (-1) { vm_fresh with error_msg := some "Invalid bytecode magic" } []
    ∧ microphp_get_error { vm_fresh with error_msg := some "Invalid bytecode magic" }
        ≠ some "no module loaded" := by
  refine ⟨?_, rfl, rfl, rfl, ?_⟩
  · intro h locals fuel vm m hb
    simp [microphp_vm_run, hb]
  · simp [microphp_get_error]

/-! ## The layout of the header -/

theorem align_up_ge (x a : Nat) (ha : 0 < a) : x ≤ align_up x a := by
  unfold align_up
  have h1 := Nat.div_add_mod (x + a - 1) a
  have h2 := Nat.mod_lt (x + a - 1) ha
  rw [Nat.mul_comm] at h1
  generalize (x + a - 1) / a * a = q at h1 ⊢
  omega

theorem layout_order (h : host_t) (hp : 0 < h.ptr_size) :
    12 ≤ offsetof_constants h
    ∧ offsetof_function_count h + 4 ≤ offsetof_functions h
    ∧ offsetof_main_offset h + 4 ≤ sizeof_bytecode_t h := by
  refine ⟨align_up_ge 12 _ hp, align_up_ge _ _ hp, align_up_ge _ _ ?_⟩
  omega

theorem layout_ilp32 (h : host_t) (hp : h.ptr_size = 4) :
    offsetof_constants h = 12 ∧ offsetof_function_count h = 16 ∧ offsetof_functions h = 20
    ∧ offsetof_main_offset h = 24 ∧ sizeof_bytecode_t h = 28 := by
  simp [offsetof_constants, offsetof_function_count, offsetof_functions, offsetof_main_offset,
    sizeof_bytecode_t, align_up, hp]

theorem layout_lp64 (h : host_t) (hp : h.ptr_size = 8) :
    offsetof_constants h = 16 ∧ offsetof_function_count h = 24 ∧ offsetof_functions h = 32
    ∧ offsetof_main_offset h = 40 ∧ sizeof_bytecode_t h = 48 := by
  simp [offsetof_constants, offsetof_function_count, offsetof_functions, offsetof_main_offset,
    sizeof_bytecode_t, align_up, hp]

theorem bytes_write_length (d bs : List UInt8) (off : Nat) (h : off + bs.length ≤ d.length) :
    (bytes_write d off bs).length = d.length := by
  simp [bytes_write]
  omega

theorem bytes_write_getElem? (d bs : List UInt8) (off j : Nat) (h : off ≤ d.length) :
    (bytes_write d off bs)[j]? =
      if j < off then d[j]? else if j < off + bs.length then bs[j - off]?
      else d[j]? := by
  unfold bytes_write
  by_cases h1 : j < off
  · rw [if_pos h1, List.append_assoc, List.getElem?_append_left (by simp; omega),
      List.getElem?_take_of_lt h1]
  · rw [if_neg h1, List.append_assoc,
      List.getElem?_append_right (by simp; omega)]
    have ht : (List.take off d).length = off := by simp; omega
    rw [ht]
    by_cases h2 : j < off + bs.length
    · rw [if_pos h2, List.getElem?_append_left (by omega)]
    · rw [if_neg h2, List.getElem?_append_right (by omega), List.getElem?_drop]
      congr 1
      omega

theorem bytes_at_getElem? (d : List UInt8) (off n i : Nat) :
    (bytes_at d off n)[i]? = if i < n then d[off + i]? else none := by
  unfold bytes_at
  by_cases h : i < n
  · rw [if_pos h, List.getElem?_take_of_lt h, List.getElem?_drop]
  · rw [if_neg h, List.getElem?_eq_none]
    simp
    omega

theorem bytes_at_write_same (d bs : List UInt8) (off : Nat) (h : off + bs.length ≤ d.length) :
    bytes_at (bytes_write d off bs) off bs.length = bs := by
  apply List.ext_getElem?
  intro i
  rw [bytes_at_getElem?, bytes_write_getElem? d bs off (off + i) (by omega)]
  by_cases hi : i < bs.length
  · have h1 : ¬ off + i < off := by omega
    have h2 : off + i < off + bs.length := by omega
    rw [if_pos hi, if_neg h1, if_pos h2]
    congr 1
    omega
  · rw [if_neg hi, List.getElem?_eq_none (by omega)]

theorem bytes_at_write_other (d bs : List UInt8) (off o n : Nat)
    (h : off + bs.length ≤ d.length) (hd : o + n ≤ off ∨ off + bs.length ≤ o) :
    bytes_at (bytes_write d off bs) o n = bytes_at d o n := by
  apply List.ext_getElem?
  intro i
  rw [bytes_at_getElem?, bytes_at_getElem?]
  by_cases hi : i < n
  · rw [if_pos hi, if_pos hi, bytes_write_getElem? d bs off (o + i) (by omega)]
    rcases hd with hd | hd
    · rw [if_pos (by omega)]
    · rw [if_neg (by omega), if_neg (by omega)]
  · rw [if_neg hi, if_neg hi]

theorem store_ptr_length (h : host_t) : (store_ptr h).length = h.ptr_size := by
  simp [store_ptr]

theorem load_uint_replicate_zero (n : Nat) : load_uint (List.replicate n 0) = 0 := by
  induction n with
  | zero => rfl
  | succ n ih => simp [List.replicate_succ, load_uint, ih]

/-- The bytes that the emitter leaves in each field of the header, whatever the
block held before. -/
theorem bytecode_store_header_fields (h : host_t) (hp : 0 < h.ptr_size)
    (ctx : compiler_context_t) (fresh : List UInt8)
    (hf : fresh.length = sizeof_bytecode_t h) :
    (bytecode_store h (compiler_bytecode_header ctx) fresh).length = sizeof_bytecode_t h
    ∧ bytes_at (bytecode_store h (compiler_bytecode_header ctx) fresh) 0 4 = [77, 66, 67, 0]
    ∧ bytes_at (bytecode_store h (compiler_bytecode_header ctx) fresh) 4 4 = [1, 0, 0, 0]
    ∧ bytes_at (bytecode_store h (compiler_bytecode_header ctx) fresh) 8 4 = [0, 0, 0, 0]
    ∧ bytes_at (bytecode_store h (compiler_bytecode_header ctx) fresh)
        (offsetof_constants h) h.ptr_size = List.replicate h.ptr_size 0
    ∧ bytes_at (bytecode_store h (compiler_bytecode_header ctx) fresh)
        (offsetof_function_count h) 4 = [0, 0, 0, 0]
    ∧ bytes_at (bytecode_store h (compiler_bytecode_header ctx) fresh)
        (offsetof_functions h) h.ptr_size = List.replicate h.ptr_size 0
    ∧ bytes_at (bytecode_store h (compiler_bytecode_header ctx) fresh)
        (offsetof_main_offset h) 4 = [0, 0, 0, 0] := by
  obtain ⟨o1, o2, o3⟩ := layout_order h hp
  have e1 : offsetof_function_count h = offsetof_constants h + h.ptr_size := rfl
  have e2 : offsetof_main_offset h = offsetof_functions h + h.ptr_size := rfl
  have hptr := store_ptr_length h
  simp only [bytecode_store, compiler_bytecode_header, List.take]
  generalize hs0 : bytes_write fresh 0 [77, 66, 67, 0] = s0
  have l0 : s0.length = sizeof_bytecode_t h := by
    rw [← hs0, bytes_write_length _ _ _ (by simp; omega), hf]
  generalize hs1 : bytes_write s0 4 (store_u32 1) = s1
  have l1 : s1.length = sizeof_bytecode_t h := by
    rw [← hs1, bytes_write_length _ _ _ (by simp [store_u32]; omega), l0]
  generalize hs2 : bytes_write s1 8 (store_u32 0) = s2
  have l2 : s2.length = sizeof_bytecode_t h := by
    rw [← hs2, bytes_write_length _ _ _ (by simp [store_u32]; omega), l1]
  generalize hs3 : bytes_write s2 (offsetof_constants h) (store_ptr h) = s3
  have l3 : s3.length = sizeof_bytecode_t h := by
    rw [← hs3, bytes_write_length _ _ _ (by rw [hptr]; omega), l2]
  generalize hs4 : bytes_write s3 (offsetof_function_count h) (store_u32 0) = s4
  have l4 : s4.length = sizeof_bytecode_t h := by
    rw [← hs4, bytes_write_length _ _ _ (by simp [store_u32]; omega), l3]
  generalize hs5 : bytes_write s4 (offsetof_functions h) (store_ptr h) = s5
  have l5 : s5.length = sizeof_bytecode_t h := by
    rw [← hs5, bytes_write_length _ _ _ (by rw [hptr]; omega), l4]
  have u32 : ∀ x, (store_u32 x).length = 4 := fun x => rfl
  refine ⟨by rw [bytes_write_length _ _ _ (by rw [u32]; omega), l5], ?_⟩
  have r6 : ∀ o n, o + n ≤ offsetof_main_offset h →
      bytes_at (bytes_write s5 (offsetof_main_offset h) (store_u32 0)) o n = bytes_at s5 o n :=
    fun o n hh => bytes_at_write_other _ _ _ _ _ (by rw [u32]; omega) (Or.inl hh)
  have r5 : ∀ o n, o + n ≤ offsetof_functions h → bytes_at s5 o n = bytes_at s4 o n := by
    intro o n hh
    rw [← hs5]
    exact bytes_at_write_other _ _ _ _ _ (by rw [hptr]; omega) (Or.inl hh)
  have r4 : ∀ o n, o + n ≤ offsetof_function_count h → bytes_at s4 o n = bytes_at s3 o n := by
    intro o n hh
    rw [← hs4]
    exact bytes_at_write_other _ _ _ _ _ (by rw [u32]; omega) (Or.inl hh)
  have r3 : ∀ o n, o + n ≤ offsetof_constants h → bytes_at s3 o n = bytes_at s2 o n := by
    intro o n hh
    rw [← hs3]
    exact bytes_at_write_other _ _ _ _ _ (by rw [hptr]; omega) (Or.inl hh)
  have r2 : ∀ o n, o + n ≤ 8 → bytes_at s2 o n = bytes_at s1 o n := by
    intro o n hh
    rw [← hs2]
    exact bytes_at_write_other _ _ _ _ _ (by rw [u32]; omega) (Or.inl hh)
  have r1 : ∀ o n, o + n ≤ 4 → bytes_at s1 o n = bytes_at s0 o n := by
    intro o n hh
    rw [← hs1]
    exact bytes_at_write_other _ _ _ _ _ (by rw [u32]; omega) (Or.inl hh)
  have f_magic : bytes_at (bytes_write s5 (offsetof_main_offset h) (store_u32 0)) 0 4
      = [77, 66, 67, 0] := by
    rw [r6 _ _ (by omega), r5 _ _ (by omega), r4 _ _ (by omega), r3 _ _ (by omega),
      r2 _ _ (by omega), r1 _ _ (by omega), ← hs0]
    exact bytes_at_write_same fresh [77, 66, 67, 0] 0 (by simp; omega)
  have f_version : bytes_at (bytes_write s5 (offsetof_main_offset h) (store_u32 0)) 4 4
      = [1, 0, 0, 0] := by
    rw [r6 _ _ (by omega), r5 _ _ (by omega), r4 _ _ (by omega), r3 _ _ (by omega),
      r2 _ _ (by omega), ← hs1]
    exact bytes_at_write_same s0 (store_u32 1) 4 (by rw [u32]; omega)
  have f_cc : bytes_at (bytes_write s5 (offsetof_main_offset h) (store_u32 0)) 8 4
      = [0, 0, 0, 0] := by
    rw [r6 _ _ (by omega), r5 _ _ (by omega), r4 _ _ (by omega), r3 _ _ (by omega), ← hs2]
    exact bytes_at_write_same s1 (store_u32 0) 8 (by rw [u32]; omega)
  have f_cs : bytes_at (bytes_write s5 (offsetof_main_offset h) (store_u32 0))
      (offsetof_constants h) h.ptr_size = List.replicate h.ptr_size 0 := by
    rw [r6 _ _ (by omega), r5 _ _ (by omega), r4 _ _ (by omega), ← hs3]
    have := bytes_at_write_same s2 (store_ptr h) (offsetof_constants h) (by rw [hptr]; omega)
    rwa [hptr] at this
  have f_fc : bytes_at (bytes_write s5 (offsetof_main_offset h) (store_u32 0))
      (offsetof_function_count h) 4 = [0, 0, 0, 0] := by
    rw [r6 _ _ (by omega), r5 _ _ (by omega), ← hs4]
    exact bytes_at_write_same s3 (store_u32 0) (offsetof_function_count h) (by rw [u32]; omega)
  have f_fs : bytes_at (bytes_write s5 (offsetof_main_offset h) (store_u32 0))
      (offsetof_functions h) h.ptr_size = List.replicate h.ptr_size 0 := by
    rw [r6 _ _ (by omega), ← hs5]
    have := bytes_at_write_same s4 (store_ptr h) (offsetof_functions h) (by rw [hptr]; omega)
    rwa [hptr] at this
  have f_mo : bytes_at (bytes_write s5 (offsetof_main_offset h) (store_u32 0))
      (offsetof_main_offset h) 4 = [0, 0, 0, 0] :=
    bytes_at_write_same s5 (store_u32 0) (offsetof_main_offset h) (by rw [u32]; omega)
  exact ⟨f_magic, f_version, f_cc, f_cs, f_fc, f_fs, f_mo⟩

/-- The fields that the cast in the loader reads from the block that the emitter
leaves: the header of the emitter. -/
theorem bytecode_load_store_header (h : host_t) (hp : 0 < h.ptr_size)
    (ctx : compiler_context_t) (fresh : List UInt8)
    (hf : fresh.length = sizeof_bytecode_t h) :
    bytecode_load h (bytecode_store h (compiler_bytecode_header ctx) fresh)
      = compiler_bytecode_header ctx := by
  obtain ⟨_, f1, f2, f3, f4, f5, f6, f7⟩ := bytecode_store_header_fields h hp ctx fresh hf
  simp only [bytecode_load, f1, f2, f3, f4, f5, f6, f7, load_ptr, load_uint_replicate_zero,
    if_true]
  rfl

theorem microphp_malloc_of_granted (m : AllocLog) (hg : all_granted m = true) :
    microphp_malloc m = some (malloc m).2 ∧ all_granted (malloc m).2 = true := by
  obtain ⟨h1, h2⟩ := malloc_of_granted m hg
  unfold microphp_malloc
  rcases hmal : malloc m with ⟨ok, m1⟩
  rw [hmal] at h1 h2
  simp only at h1 h2
  subst h1
  exact ⟨rfl, h2⟩

theorem compiler_malloc_of_granted (m : AllocLog) (hg : all_granted m = true) :
    compiler_malloc m = some (malloc m).2 := by
  obtain ⟨h1, _⟩ := malloc_of_granted m hg
  unfold compiler_malloc
  rcases hmal : malloc m with ⟨ok, m1⟩
  rw [hmal] at h1
  simp only at h1
  subst h1
  rfl

theorem vm_load_accepts (h : host_t) (fc : Nat → zval_t) (ff : Nat → function_t)
    (vm : vm_context_t) (data : List UInt8) (size : Nat) (m : AllocLog)
    (hs : sizeof_bytecode_t h ≤ size) (hd : 4 ≤ data.length)
    (hmagic : data.take 4 = [77, 66, 67, 0]) (hver : (bytecode_load h data).version = 1)
    (hg : all_granted m = true) :
    ∃ b m1, microphp_vm_load_bytecode h fc ff vm data size m
        = some (0, { vm with bytecode := some b }, m1)
      ∧ b.magic = (bytecode_load h data).magic
      ∧ b.version = 1
      ∧ b.constant_count = (bytecode_load h data).constant_count
      ∧ b.function_count = (bytecode_load h data).function_count
      ∧ b.main_offset = (bytecode_load h data).main_offset
      ∧ ((bytecode_load h data).constant_count = 0 →
          b.constants = (bytecode_load h data).constants)
      ∧ ((bytecode_load h data).function_count = 0 →
          b.functions = (bytecode_load h data).functions) := by
  have hlt : ¬ size < sizeof_bytecode_t h := by omega
  have hm : ¬ memcmp (bytecode_load h data).magic [77, 66, 67, 0] 4 ≠ 0 := by
    rw [memcmp_four_ne_zero_iff (bytecode_load h data).magic [77, 66, 67, 0]
      (by simp [bytecode_load, bytes_at]; omega) rfl]
    simpa [bytecode_load, bytes_at] using hmagic
  have hv : ¬ (bytecode_load h data).version ≠ 1 := by simp [hver]
  obtain ⟨a1, a2⟩ := microphp_malloc_of_granted m hg
  obtain ⟨b1, b2⟩ := microphp_malloc_of_granted _ a2
  obtain ⟨c1, c2⟩ := microphp_malloc_of_granted _ b2
  simp only [microphp_vm_load_bytecode, hlt, if_false]
  rw [if_neg hm, if_neg hv]
  simp only [a1]
  by_cases hc : (bytecode_load h data).constant_count > 0
  · simp only [hc, if_true, b1, Option.map_some']
    by_cases hfn : (bytecode_load h data).function_count > 0
    · simp only [hfn, if_true, c1, Option.map_some']
      exact ⟨_, _, rfl, rfl, hver, rfl, rfl, rfl, fun h0 => absurd hc (by omega),
        fun h0 => absurd hfn (by omega)⟩
    · simp only [hfn, if_false]
      exact ⟨_, _, rfl, rfl, hver, rfl, rfl, rfl, fun h0 => absurd hc (by omega), fun _ => rfl⟩
  · simp only [hc, if_false]
    by_cases hfn : (bytecode_load h data).function_count > 0
    · simp only [hfn, if_true, b1, Option.map_some']
      exact ⟨_, _, rfl, rfl, hver, rfl, rfl, rfl, fun _ => rfl,
        fun h0 => absurd hfn (by omega)⟩
    · simp only [hfn, if_false]
      exact ⟨_, _, rfl, rfl, hver, rfl, rfl, rfl, fun _ => rfl, fun _ => rfl⟩

/-! ## The loader round-trip and the emitted bytes (C15, C16) -/

/-- The bytes of the block that lie in no field of the header keep what the block
held: the emitter does not write the padding. -/
theorem bytecode_store_padding (h : host_t) (hp : 0 < h.ptr_size)
    (ctx : compiler_context_t) (fresh : List UInt8)
    (hf : fresh.length = sizeof_bytecode_t h) (o n : Nat)
    (hpad : (12 ≤ o ∧ o + n ≤ offsetof_constants h)
      ∨ (offsetof_function_count h + 4 ≤ o ∧ o + n ≤ offsetof_functions h)
      ∨ offsetof_main_offset h + 4 ≤ o) :
    bytes_at (bytecode_store h (compiler_bytecode_header ctx) fresh) o n = bytes_at fresh o n := by
  obtain ⟨o1, o2, o3⟩ := layout_order h hp
  have e1 : offsetof_function_count h = offsetof_constants h + h.ptr_size := rfl
  have e2 : offsetof_main_offset h = offsetof_functions h + h.ptr_size := rfl
  have hptr := store_ptr_length h
  have u32 : ∀ x, (store_u32 x).length = 4 := fun x => rfl
  simp only [bytecode_store, compiler_bytecode_header, List.take]
  generalize hs0 : bytes_write fresh 0 [77, 66, 67, 0] = s0
  have l0 : s0.length = sizeof_bytecode_t h := by
    rw [← hs0, bytes_write_length _ _ _ (by simp; omega), hf]
  generalize hs1 : bytes_write s0 4 (store_u32 1) = s1
  have l1 : s1.length = sizeof_bytecode_t h := by
    rw [← hs1, bytes_write_length _ _ _ (by rw [u32]; omega), l0]
  generalize hs2 : bytes_write s1 8 (store_u32 0) = s2
  have l2 : s2.length = sizeof_bytecode_t h := by
    rw [← hs2, bytes_write_length _ _ _ (by rw [u32]; omega), l1]
  generalize hs3 : bytes_write s2 (offsetof_constants h) (store_ptr h) = s3
  have l3 : s3.length = sizeof_bytecode_t h := by
    rw [← hs3, bytes_write_length _ _ _ (by rw [hptr]; omega), l2]
  generalize hs4 : bytes_write s3 (offsetof_function_count h) (store_u32 0) = s4
  have l4 : s4.length = sizeof_bytecode_t h := by
    rw [← hs4, bytes_write_length _ _ _ (by rw [u32]; omega), l3]
  generalize hs5 : bytes_write s4 (offsetof_functions h) (store_ptr h) = s5
  have l5 : s5.length = sizeof_bytecode_t h := by
    rw [← hs5, bytes_write_length _ _ _ (by rw [hptr]; omega), l4]
  rw [bytes_at_write_other s5 _ _ o n (by rw [u32]; omega) (by rw [u32]; omega), ← hs5,
    bytes_at_write_other s4 _ _ o n (by rw [hptr]; omega) (by rw [hptr]; omega), ← hs4,
    bytes_at_write_other s3 _ _ o n (by rw [u32]; omega) (by rw [u32]; omega), ← hs3,
    bytes_at_write_other s2 _ _ o n (by rw [hptr]; omega) (by rw [hptr]; omega), ← hs2,
    bytes_at_write_other s1 _ _ o n (by rw [u32]; omega) (by rw [u32]; omega), ← hs1,
    bytes_at_write_other s0 _ _ o n (by rw [u32]; omega) (by rw [u32]; omega), ← hs0,
    bytes_at_write_other fresh _ _ o n (by simp; omega) (by simp; omega)]

theorem bytes_at_sub (d : List UInt8) (o k a n : Nat) (h : a + n ≤ k) :
    bytes_at (bytes_at d o k) a n = bytes_at d (o + a) n := by
  apply List.ext_getElem?
  intro i
  rw [bytes_at_getElem?, bytes_at_getElem?, bytes_at_getElem?]
  by_cases hi : i < n
  · rw [if_pos hi, if_pos hi, if_pos (by omega), Nat.add_assoc]
  · rw [if_neg hi, if_neg hi]

theorem bytecode_load_congr (h1 h2 : host_t) (hp : h1.ptr_size = h2.ptr_size)
    (data : List UInt8) : bytecode_load h1 data = bytecode_load h2 data := by
  simp only [bytecode_load, offsetof_main_offset, offsetof_functions, offsetof_function_count,
    offsetof_constants, hp]

theorem sizeof_bytecode_congr (h1 h2 : host_t) (hp : h1.ptr_size = h2.ptr_size) :
    sizeof_bytecode_t h1 = sizeof_bytecode_t h2 := by
  simp only [sizeof_bytecode_t, offsetof_main_offset, offsetof_functions,
    offsetof_function_count, offsetof_constants, hp]

theorem generate_bytecode_granted (h : host_t) (ctx : compiler_context_t)
    (fresh : List UInt8) (m : AllocLog) (hm : all_granted m = true) :
    compiler_generate_bytecode h ctx fresh m
      = some (0, bytecode_store h (compiler_bytecode_header ctx) fresh,
          sizeof_bytecode_t h, (malloc m).2) := by
  simp [compiler_generate_bytecode, compiler_malloc_of_granted m hm]

/-- The module that a loader with 4-byte pointers reads from the 48 bytes that an
emitter with 8-byte pointers has left. -/
theorem bytecode_load_cross (hc hv : host_t) (hpc : hc.ptr_size = 8) (hpv : hv.ptr_size = 4)
    (ctx : compiler_context_t) (fresh : List UInt8) (hf : fresh.length = 48) :
    bytecode_load hv (bytecode_store hc (compiler_bytecode_header ctx) fresh)
      = { magic := [77, 66, 67, 0], version := 1, constant_count := 0,
          constants := load_ptr (bytes_at fresh 12 4), function_count := 0,
          functions := none, main_offset := 0 } := by
  obtain ⟨c1, c2, c3, c4, c5⟩ := layout_lp64 hc hpc
  obtain ⟨v1, v2, v3, v4, v5⟩ := layout_ilp32 hv hpv
  have hf2 : fresh.length = sizeof_bytecode_t hc := by rw [c5, hf]
  obtain ⟨_, f1, f2, f3, f4, f5, f6, f7⟩ :=
    bytecode_store_header_fields hc (by omega) ctx fresh hf2
  have pad := bytecode_store_padding hc (by omega) ctx fresh hf2 12 4
    (Or.inl ⟨by omega, by omega⟩)
  rw [c1, hpc] at f4
  rw [c2] at f5
  have g1 : bytes_at (bytecode_store hc (compiler_bytecode_header ctx) fresh) 16 4
      = [0, 0, 0, 0] := by
    have := bytes_at_sub (bytecode_store hc (compiler_bytecode_header ctx) fresh) 16 8 0 4
      (by omega)
    rw [f4] at this
    rw [← this]
    rfl
  have g2 : bytes_at (bytecode_store hc (compiler_bytecode_header ctx) fresh) 20 4
      = [0, 0, 0, 0] := by
    have := bytes_at_sub (bytecode_store hc (compiler_bytecode_header ctx) fresh) 16 8 4 4
      (by omega)
    rw [f4] at this
    rw [← this]
    rfl
  simp only [bytecode_load, v1, v2, v3, v4, hpv, f1, f2, f3, pad, g1, g2, f5]
  rfl

/-- C15, on the code.  The container that `compiler_generate_bytecode` emits is the
struct `bytecode_t` as it lies in the memory of the compiler (the source has a TODO
there), and `microphp_vm_load_bytecode` reads it back through a cast to the struct
of the virtual machine.  When both have the same pointer size the bytes are accepted
and the module loaded is the header that the emitter built.  When the compiler has
4-byte pointers and the virtual machine 8-byte pointers, the 28 bytes emitted are
refused by the size guard: the load returns -1, records nothing and leaves the
context unloaded.  When the compiler has 8-byte pointers and the virtual machine
4-byte pointers, as on the targets of `src/hal`, the 48 bytes are accepted and the
pointer `constants` of the loaded module is read from the bytes 12 to 15, padding
that the emitter has not written: with a block that held 0xAA the module loaded
has a `constants` pointer that is not NULL, unlike the module emitted. -/
theorem loader_round_trip :
    (∀ (hc hv : host_t) (ctx : compiler_context_t) (fresh : List UInt8)
        (fc : Nat → zval_t) (ff : Nat → function_t) (vm : vm_context_t) (m mv : AllocLog),
      0 < hc.ptr_size → hv.ptr_size = hc.ptr_size → fresh.length = sizeof_bytecode_t hc →
      all_granted m = true → all_granted mv = true →
      compiler_generate_bytecode hc ctx fresh m
        = some (0, bytecode_store hc (compiler_bytecode_header ctx) fresh,
            sizeof_bytecode_t hc, (malloc m).2)
      ∧ microphp_vm_load_bytecode hv fc ff vm
          (bytecode_store hc (compiler_bytecode_header ctx) fresh) (sizeof_bytecode_t hc) mv
        = some (0, { vm with bytecode := some (compiler_bytecode_header ctx) },
            (malloc mv).2))
    ∧ (∀ (hc hv : host_t) (ctx : compiler_context_t) (fresh : List UInt8)
        (fc : Nat → zval_t) (ff : Nat → function_t) (vm : vm_context_t) (m mv : AllocLog),
      hc.ptr_size = 4 → hv.ptr_size = 8 → all_granted m = true →
      compiler_generate_bytecode hc ctx fresh m
        = some (0, bytecode_store hc (compiler_bytecode_header ctx) fresh, 28, (malloc m).2)
      ∧ microphp_vm_load_bytecode hv fc ff vm
          (bytecode_store hc (compiler_bytecode_header ctx) fresh) 28 mv
        = some (-1, vm, mv))
    ∧ (∀ (hc hv : host_t) (ctx : compiler_context_t) (fresh : List UInt8)
        (fc : Nat → zval_t) (ff : Nat → function_t) (vm : vm_context_t) (m mv : AllocLog),
      hc.ptr_size = 8 → hv.ptr_size = 4 → fresh.length = 48 →
      all_granted m = true → all_granted mv = true →
      compiler_generate_bytecode hc ctx fresh m
        = some (0, bytecode_store hc (compiler_bytecode_header ctx) fresh, 48, (malloc m).2)
      ∧ microphp_vm_load_bytecode hv fc ff vm
          (bytecode_store hc (compiler_bytecode_header ctx) fresh) 48 mv
        = some (0,
            { vm with
              bytecode := some ⟨[77, 66, 67, 0], 1, 0, load_ptr (bytes_at fresh 12 4), 0, none, 0⟩ },
            (malloc mv).2))
    ∧ (compiler_generate_bytecode (host_of_ptr_size 8) compiler_context_empty
          (List.replicate 48 170) []
        = some (0, [77, 66, 67, 0, 1, 0, 0, 0, 0, 0, 0, 0, 170, 170, 170, 170,
            0, 0, 0, 0, 0, 0, 0, 0, 0, 0, 0, 0, 170, 170, 170, 170,
            0, 0, 0, 0, 0, 0, 0, 0, 0, 0, 0, 0, 170, 170, 170, 170], 48, [])
      ∧ microphp_vm_load_bytecode (host_of_ptr_size 4) (fun _ => .null)
          (fun _ => ⟨none, 0, none, 0, 0, 0⟩) vm_fresh
          [77, 66, 67, 0, 1, 0, 0, 0, 0, 0, 0, 0, 170, 170, 170, 170,
            0, 0, 0, 0, 0, 0, 0, 0, 0, 0, 0, 0, 170, 170, 170, 170,
            0, 0, 0, 0, 0, 0, 0, 0, 0, 0, 0, 0, 170, 170, 170, 170] 48 []
        = some (0, { vm_fresh with
            bytecode := some ⟨[77, 66, 67, 0], 1, 0, some [], 0, none, 0⟩ }, [])
      ∧ (compiler_bytecode_header compiler_context_empty).constants = none
      ∧ compiler_generate_bytecode (host_of_ptr_size 4) compiler_context_empty
          (List.replicate 28 170) []
        = some (0, [77, 66, 67, 0, 1, 0, 0, 0, 0, 0, 0, 0, 0, 0, 0, 0,
            0, 0, 0, 0, 0, 0, 0, 0, 0, 0, 0, 0], 28, [])
      ∧ microphp_vm_load_bytecode (host_of_ptr_size 8) (fun _ => .null)
          (fun _ => ⟨none, 0, none, 0, 0, 0⟩) vm_fresh
          [77, 66, 67, 0, 1, 0, 0, 0, 0, 0, 0, 0, 0, 0, 0, 0,
            0, 0, 0, 0, 0, 0, 0, 0, 0, 0, 0, 0] 28 []
        = some (-1, vm_fresh, [])) := by
  refine ⟨?_, ?_, ?_, ?_, ?_, ?_, ?_, ?_⟩
  rotate_left 3
  · rfl
  · rfl
  · rfl
  · rfl
  · rfl
  · intro hc hv ctx fresh fc ff vm m mv hp hpv hf hm hmv
    refine ⟨generate_bytecode_granted hc ctx fresh m hm, ?_⟩
    have hload := bytecode_load_store_header hc hp ctx fresh hf
    rw [← bytecode_load_congr hv hc hpv] at hload
    have hsz := sizeof_bytecode_congr hv hc hpv
    have hlt : ¬ sizeof_bytecode_t hc < sizeof_bytecode_t hv := by omega
    have hmg : ¬ memcmp (compiler_bytecode_header ctx).magic [77, 66, 67, 0] 4 ≠ 0 := by
      simp [compiler_bytecode_header, memcmp]
    have hver : ¬ (compiler_bytecode_header ctx).version ≠ 1 := by
      simp [compiler_bytecode_header]
    simp only [microphp_vm_load_bytecode, hlt, if_false, hload]
    rw [if_neg hmg, if_neg hver]
    simp only [(microphp_malloc_of_granted mv hmv).1]
    rfl
  · intro hc hv ctx fresh fc ff vm m mv hpc hpv hm
    obtain ⟨_, _, _, _, c5⟩ := layout_ilp32 hc hpc
    obtain ⟨_, _, _, _, v5⟩ := layout_lp64 hv hpv
    refine ⟨by rw [generate_bytecode_granted hc ctx fresh m hm, c5], ?_⟩
    exact vm_load_short hv fc ff vm _ 28 mv (by rw [v5]; omega)
  · intro hc hv ctx fresh fc ff vm m mv hpc hpv hf hm hmv
    obtain ⟨_, _, _, _, c5⟩ := layout_lp64 hc hpc
    obtain ⟨_, _, _, _, v5⟩ := layout_ilp32 hv hpv
    refine ⟨by rw [generate_bytecode_granted hc ctx fresh m hm, c5], ?_⟩
    have hload := bytecode_load_cross hc hv hpc hpv ctx fresh hf
    have hlt : ¬ 48 < sizeof_bytecode_t hv := by rw [v5]; omega
    simp only [microphp_vm_load_bytecode, hlt, if_false, hload]
    have hmg : ¬ memcmp [77, 66, 67, 0] [77, 66, 67, 0] 4 ≠ 0 := by simp [memcmp]
    rw [if_neg hmg, if_neg (by simp)]
    simp only [(microphp_malloc_of_granted mv hmv).1]
    rfl

/-- C16, on the code.  For every compiler context, on a host with 4-byte or 8-byte
pointers, `compiler_generate_bytecode` returns 0 and produces `sizeof(bytecode_t)`
bytes, 28 or 48 and never 20: the struct as it lies in memory (the source has a
TODO there).  The magic 4D 42 43 00 is at offset 0, version 1 as little-endian
uint32 at offset 4 and constant_count 0 at offset 8, but a NULL `constants`
pointer follows at offset 12 or 16, function_count 0 is at offset 16 or 24, not 12,
a NULL `functions` pointer is at offset 20 or 32, and main_offset 0 is at offset 24
or 40, not 16; the bytes in between and behind are padding, which keeps what the
block held. -/
theorem generate_bytecode_layout (h : host_t) (ctx : compiler_context_t)
    (fresh : List UInt8) (m : AllocLog)
    (hp : h.ptr_size = 4 ∨ h.ptr_size = 8) (hf : fresh.length = sizeof_bytecode_t h)
    (hm : all_granted m = true) :
    ∃ out, compiler_generate_bytecode h ctx fresh m
        = some (0, out, sizeof_bytecode_t h, (malloc m).2)
      ∧ out.length = sizeof_bytecode_t h
      ∧ sizeof_bytecode_t h = (if h.ptr_size = 4 then 28 else 48)
      ∧ sizeof_bytecode_t h ≠ 20
      ∧ bytes_at out 0 4 = [0x4D, 0x42, 0x43, 0x00]
      ∧ bytes_at out 4 4 = [1, 0, 0, 0]
      ∧ bytes_at out 8 4 = [0, 0, 0, 0]
      ∧ offsetof_constants h = (if h.ptr_size = 4 then 12 else 16)
      ∧ bytes_at out (offsetof_constants h) h.ptr_size = List.replicate h.ptr_size 0
      ∧ offsetof_function_count h = (if h.ptr_size = 4 then 16 else 24)
      ∧ bytes_at out (offsetof_function_count h) 4 = [0, 0, 0, 0]
      ∧ offsetof_functions h = (if h.ptr_size = 4 then 20 else 32)
      ∧ bytes_at out (offsetof_functions h) h.ptr_size = List.replicate h.ptr_size 0
      ∧ offsetof_main_offset h = (if h.ptr_size = 4 then 24 else 40)
      ∧ bytes_at out (offsetof_main_offset h) 4 = [0, 0, 0, 0]
      ∧ (h.ptr_size = 8 →
          bytes_at out 12 4 = bytes_at fresh 12 4
          ∧ bytes_at out 28 4 = bytes_at fresh 28 4
          ∧ bytes_at out 44 4 = bytes_at fresh 44 4) := by
  have hpos : 0 < h.ptr_size := by omega
  obtain ⟨hlen, f1, f2, f3, f4, f5, f6, f7⟩ := bytecode_store_header_fields h hpos ctx fresh hf
  refine ⟨bytecode_store h (compiler_bytecode_header ctx) fresh, ?_, hlen, ?_, ?_, f1, f2, f3,
    ?_, f4, ?_, f5, ?_, f6, ?_, f7, ?_⟩
  · exact generate_bytecode_granted h ctx fresh m hm
  · rcases hp with hp | hp
    · obtain ⟨e1, e2, e3, e4, e5⟩ := layout_ilp32 h hp
      simp [hp, e5]
    · obtain ⟨e1, e2, e3, e4, e5⟩ := layout_lp64 h hp
      simp [hp, e5]
  · rcases hp with hp | hp
    · obtain ⟨e1, e2, e3, e4, e5⟩ := layout_ilp32 h hp
      omega
    · obtain ⟨e1, e2, e3, e4, e5⟩ := layout_lp64 h hp
      omega
  · rcases hp with hp | hp
    · obtain ⟨e1, e2, e3, e4, e5⟩ := layout_ilp32 h hp
      simp [hp, e1]
    · obtain ⟨e1, e2, e3, e4, e5⟩ := layout_lp64 h hp
      simp [hp, e1]
  · rcases hp with hp | hp
    · obtain ⟨e1, e2, e3, e4, e5⟩ := layout_ilp32 h hp
      simp [hp, e2]
    · obtain ⟨e1, e2, e3, e4, e5⟩ := layout_lp64 h hp
      simp [hp, e2]
  · rcases hp with hp | hp
    · obtain ⟨e1, e2, e3, e4, e5⟩ := layout_ilp32 h hp
      simp [hp, e3]
    · obtain ⟨e1, e2, e3, e4, e5⟩ := layout_lp64 h hp
      simp [hp, e3]
  · rcases hp with hp | hp
    · obtain ⟨e1, e2, e3, e4, e5⟩ := layout_ilp32 h hp
      simp [hp, e4]
    · obtain ⟨e1, e2, e3, e4, e5⟩ := layout_lp64 h hp
      simp [hp, e4]
  · intro h8
    obtain ⟨e1, e2, e3, e4, e5⟩ := layout_lp64 h h8
    exact ⟨bytecode_store_padding h hpos ctx fresh hf 12 4 (Or.inl ⟨by omega, by omega⟩),
      bytecode_store_padding h hpos ctx fresh hf 28 4 (Or.inr (Or.inl ⟨by omega, by omega⟩)),
      bytecode_store_padding h hpos ctx fresh hf 44 4 (Or.inr (Or.inr (by omega)))⟩

/-- C16, witness: the 28 bytes emitted with 4-byte pointers. -/
theorem generate_bytecode_layout_witness :
    ∃ out, compiler_generate_bytecode (host_of_ptr_size 4) compiler_context_empty
        (List.replicate 28 170) [] = some (0, out, 28, [])
      ∧ out.length = 28
      ∧ bytes_at out 0 4 = [0x4D, 0x42, 0x43, 0x00]
      ∧ bytes_at out 16 4 = [0, 0, 0, 0]
      ∧ bytes_at out 24 4 = [0, 0, 0, 0] :=
  have ⟨out, h1, h2, _, _, h4, _, _, _, _, _, h10, _, _, _, h14, _⟩ :=
    generate_bytecode_layout (host_of_ptr_size 4) compiler_context_empty
      (List.replicate 28 170) [] (Or.inl rfl) (by decide) (by decide)
  ⟨out, h1, h2, h4, h10, h14⟩

/-- C16 as stated fails: the emitter writes the header as it lies in memory, with
its two pointer fields and its padding.  With 8-byte pointers the output has 48
bytes, not 20, and the bytes at offsets 12 to 15 are padding that keeps what the
block held (here 0xAA), not function_count; with 4-byte pointers the output has 28
bytes. -/
theorem generate_bytecode_not_twenty_bytes :
    compiler_generate_bytecode (host_of_ptr_size 8) compiler_context_empty
        (List.replicate 48 170) []
      = some (0, [77, 66, 67, 0, 1, 0, 0, 0, 0, 0, 0, 0, 170, 170, 170, 170,
          0, 0, 0, 0, 0, 0, 0, 0, 0, 0, 0, 0, 170, 170, 170, 170,
          0, 0, 0, 0, 0, 0, 0, 0, 0, 0, 0, 0, 170, 170, 170, 170], 48, [])
    ∧ compiler_generate_bytecode (host_of_ptr_size 4) compiler_context_empty
        (List.replicate 28 170) []
      = some (0, [77, 66, 67, 0, 1, 0, 0, 0, 0, 0, 0, 0, 0, 0, 0, 0,
          0, 0, 0, 0, 0, 0, 0, 0, 0, 0, 0, 0], 28, [])
    ∧ (48 : Nat) ≠ 20 ∧ (28 : Nat) ≠ 20 := by
  refine ⟨rfl, rfl, by decide, by decide⟩

/-! ## The main offset (C17) -/

/-- C17, as amended.  A module whose main_offset is not a valid index into its
function table (main_offset >= function_count) is not rejected at load time: every
buffer with the magic and version 1 is accepted with the main offset it carries.
It is rejected by `microphp_vm_run`, which executes nothing, sets the running flag
false, records "Invalid main function offset" and returns -1. -/
theorem vm_main_offset_checked_at_run (h : host_t) (locals : Nat → add_locals_t)
    (fuel : Nat) (vm : vm_context_t)
    (b : bytecode_t) (m : AllocLog) (hb : vm.bytecode = some b)
    (ho : b.function_count ≤ b.main_offset) (hg : all_granted m = true) :
    microphp_vm_run h locals fuel vm m
      = .returned (-1)
          { vm with running := false, error_msg := some "Invalid main function offset" }
          (malloc m).2
    ∧ ∀ (fc : Nat → zval_t) (ff : Nat → function_t) (vm0 : vm_context_t)
        (data : List UInt8) (size : Nat) (mv : AllocLog),
        sizeof_bytecode_t h ≤ size → 4 ≤ data.length → data.take 4 = [77, 66, 67, 0] →
        (bytecode_load h data).version = 1 → all_granted mv = true →
        ∃ b1 m1, microphp_vm_load_bytecode h fc ff vm0 data size mv
            = some (0, { vm0 with bytecode := some b1 }, m1)
          ∧ b1.function_count = (bytecode_load h data).function_count
          ∧ b1.main_offset = (bytecode_load h data).main_offset := by
  constructor
  · have hn : ¬ b.main_offset < b.function_count := by omega
    have h1 := (strdup_of_granted "Invalid main function offset" m hg).1
    have h2 : (strdup "Invalid main function offset" m).2 = (malloc m).2 := by
      unfold strdup
      rcases malloc m with ⟨ok, m1⟩
      cases ok <;> rfl
    simp only [microphp_vm_run, hb, hn, if_false, h1, h2]
  · intro fc ff vm0 data size mv hs hd hmagic hver hgv
    obtain ⟨b1, m1, e, _, _, _, e4, e5, _⟩ :=
      vm_load_accepts h fc ff vm0 data size mv hs hd hmagic hver hgv
    exact ⟨b1, m1, e, e4, e5⟩

/-- C17, witness: the module that the emitter produces has no function and main
offset 0; a context holding it fails to run. -/
theorem vm_main_offset_checked_at_run_witness :
    microphp_vm_run (host_of_ptr_size 8) add_locals_zero 100
        { vm_fresh with bytecode := some ⟨[77, 66, 67, 0], 1, 0, none, 0, none, 0⟩ } []
      = .returned (-1)
          { vm_fresh with bytecode := some ⟨[77, 66, 67, 0], 1, 0, none, 0, none, 0⟩,
                          running := false,
                          error_msg := some "Invalid main function offset" } [] :=
  (vm_main_offset_checked_at_run (host_of_ptr_size 8) add_locals_zero 100
    { vm_fresh with bytecode := some ⟨[77, 66, 67, 0], 1, 0, none, 0, none, 0⟩ }
    ⟨[77, 66, 67, 0], 1, 0, none, 0, none, 0⟩ [] rfl (by decide) (by decide)).1

/-- C17 as stated fails: the 48 bytes that the emitter produces with 8-byte
pointers carry function_count 0 and main_offset 0, so the main offset is not a
valid index, and `microphp_vm_load_bytecode` accepts them: it returns 0 and the
context holds the module. -/
theorem vm_load_accepts_invalid_main_offset :
    microphp_vm_load_bytecode (host_of_ptr_size 8) (fun _ => .null)
        (fun _ => ⟨none, 0, none, 0, 0, 0⟩) vm_fresh
        [77, 66, 67, 0, 1, 0, 0, 0, 0, 0, 0, 0, 170, 170, 170, 170,
          0, 0, 0, 0, 0, 0, 0, 0, 0, 0, 0, 0, 170, 170, 170, 170,
          0, 0, 0, 0, 0, 0, 0, 0, 0, 0, 0, 0, 170, 170, 170, 170] 48 []
      = some (0, { vm_fresh with
          bytecode := some ⟨[77, 66, 67, 0], 1, 0, none, 0, none, 0⟩ }, [])
    ∧ ¬ ((⟨[77, 66, 67, 0], 1, 0, none, 0, none, 0⟩ : bytecode_t).main_offset
        < (⟨[77, 66, 67, 0], 1, 0, none, 0, none, 0⟩ : bytecode_t).function_count) := by
  refine ⟨rfl, by decide⟩

/-! ## Stack primitives -/

theorem microphp_realloc_of_granted (size : Nat) (m : AllocLog) (hg : all_granted m = true) :
    microphp_realloc size m = some (true, (malloc m).2) ∧ all_granted (malloc m).2 = true := by
  obtain ⟨h1, h2⟩ := malloc_of_granted m hg
  unfold microphp_realloc
  rcases hmal : malloc m with ⟨ok, m1⟩
  rw [hmal] at h1 h2
  simp only at h1 h2
  subst h1
  exact ⟨rfl, h2⟩

theorem zval_block_length (n : Nat) (content : List zval_junk_t) :
    (zval_block n content).length = n := by
  induction n generalizing content with
  | zero => rfl
  | succ n ih => simp [zval_block, ih]

theorem zval_block_head (n : Nat) (content : List zval_junk_t) (hn : 0 < n) :
    (zval_block n content)[0]? = some (.indeterminate (junk_at content 0)) := by
  cases n with
  | zero => omega
  | succ n => simp [zval_block]

theorem stack_pop_empty (vm : vm_context_t) (result : zval_slot_t) (m : AllocLog)
    (h : vm.stack_top = 0) : stack_pop vm result m = some (-1, vm, result, m) := by
  simp only [stack_pop, h, if_true]

theorem stack_pop_eq (vm : vm_context_t) (result : zval_slot_t) (v : zval_t) (m : AllocLog)
    (k : Nat) (htop : vm.stack_top = k + 1) (hv : vm.stack[k]? = some (.value v)) :
    stack_pop vm result m
      = (microphp_zval_copy result v m).map fun r =>
          ((0 : Int), { vm with stack_top := k, stack := vm.stack.set k (.value .null) },
            zval_slot_t.value r.1, r.2) := by
  have hne : ¬ vm.stack_top = 0 := by omega
  have hk : vm.stack_top - 1 = k := by omega
  simp only [stack_pop, hne, if_false, hk, hv, zval_destroy_eq_null]
  cases microphp_zval_copy result v m <;> rfl

theorem stack_push_some (vm : vm_context_t) (value : zval_t) (m : AllocLog)
    (slot : zval_slot_t) (r : zval_t × AllocLog) (hlt : vm.stack_top < vm.stack_size)
    (hs : vm.stack[vm.stack_top]? = some slot)
    (hc : microphp_zval_copy slot value m = some r) :
    stack_push vm value m
      = .returned (0,
          { vm with stack := vm.stack.set vm.stack_top (.value r.1),
                    stack_top := vm.stack_top + 1 }, r.2) := by
  have hn : ¬ vm.stack_top ≥ vm.stack_size := by omega
  simp only [stack_push, hn, if_false, hs, hc]

theorem stack_push_none (vm : vm_context_t) (value : zval_t) (m : AllocLog)
    (slot : zval_slot_t) (hlt : vm.stack_top < vm.stack_size)
    (hs : vm.stack[vm.stack_top]? = some slot)
    (hc : microphp_zval_copy slot value m = none) :
    stack_push vm value m = .undefined := by
  have hn : ¬ vm.stack_top ≥ vm.stack_size := by omega
  simp only [stack_push, hn, if_false, hs, hc]

theorem stack_full_slot (vm : vm_context_t) (m : AllocLog)
    (hfull : vm.stack_top = vm.stack_size) (hlen : vm.stack.length = vm.stack_size)
    (hpos : 0 < vm.stack_size) :
    (List.take (vm.stack_size * 2) vm.stack
        ++ zval_block (vm.stack_size * 2 - vm.stack.length) (malloc_content m))
      = vm.stack ++ zval_block vm.stack_size (malloc_content m)
    ∧ (vm.stack ++ zval_block vm.stack_size (malloc_content m))[vm.stack_top]?
      = some (.indeterminate (junk_at (malloc_content m) 0)) := by
  have ht : List.take (vm.stack_size * 2) vm.stack = vm.stack :=
    List.take_of_length_le (by omega)
  have hr : vm.stack_size * 2 - vm.stack.length = vm.stack_size := by omega
  refine ⟨by rw [ht, hr], ?_⟩
  rw [List.getElem?_append_right (by omega), hfull, hlen, Nat.sub_self]
  exact zval_block_head _ _ hpos

theorem stack_push_full_some (vm : vm_context_t) (value : zval_t) (m : AllocLog)
    (r : zval_t × AllocLog)
    (hfull : vm.stack_top = vm.stack_size) (hlen : vm.stack.length = vm.stack_size)
    (hpos : 0 < vm.stack_size) (hg : all_granted m = true)
    (hc : microphp_zval_copy (.indeterminate (junk_at (malloc_content m) 0)) value (malloc m).2
      = some r) :
    stack_push vm value m
      = .returned (0,
          { vm with
            stack := (vm.stack ++ zval_block vm.stack_size (malloc_content m)).set vm.stack_top
              (.value r.1),
            stack_size := vm.stack_size * 2,
            stack_top := vm.stack_top + 1 }, r.2) := by
  have hn : vm.stack_top ≥ vm.stack_size := by omega
  obtain ⟨e1, e2⟩ := stack_full_slot vm m hfull hlen hpos
  simp only [stack_push, hn, if_true, (microphp_realloc_of_granted _ m hg).1, e1, e2, hc]

theorem stack_push_full_none (vm : vm_context_t) (value : zval_t) (m : AllocLog)
    (hfull : vm.stack_top = vm.stack_size) (hlen : vm.stack.length = vm.stack_size)
    (hpos : 0 < vm.stack_size) (hg : all_granted m = true)
    (hc : microphp_zval_copy (.indeterminate (junk_at (malloc_content m) 0)) value (malloc m).2
      = none) :
    stack_push vm value m = .undefined := by
  have hn : vm.stack_top ≥ vm.stack_size := by omega
  obtain ⟨e1, e2⟩ := stack_full_slot vm m hfull hlen hpos
  simp only [stack_push, hn, if_true, (microphp_realloc_of_granted _ m hg).1, e1, e2, hc]

/-! ## CONST (C18) -/

/-- C18, on the code.  CONST k, for k below the constant count, calls `stack_push`,
which copies the constant into the slot at `stack_top`; `microphp_zval_copy` destroys
that slot first.  When the copy produces a value, the stack depth increases by one,
the new top holds that value, the stack below it, the module (so the constant pool),
the last error and the running flag are unchanged and pc advances by one
instruction; this is so whenever the slot holds a value that the program has
written.  But `microphp_vm_create` leaves the stack block as `malloc` returns it, and
`stack_push` leaves the slots that a reallocation adds as `realloc` returns them:
when the slot at `stack_top` has never been written and its bytes read as a String
or an Array with a pointer that is not NULL, that pointer is passed to `free` and
the instruction has no defined effect.  So it is for the first CONST executed in a
context that `microphp_vm_create` has built on such a block. -/
theorem vm_const_pushes_copy :
    (∀ (h : host_t) (locals : add_locals_t) (vm : vm_context_t) (b : bytecode_t)
        (c : zval_t) (k op2 : Nat) (m : AllocLog) (slot : zval_slot_t),
      vm.bytecode = some b → k < b.constant_count → (b.constants.getD [])[k]? = some c →
      vm.stack_top < vm.stack_size → vm.stack[vm.stack_top]? = some slot →
      (∀ r, microphp_zval_copy slot c m = some r →
        ∃ vm1, vm_dispatch h locals vm ⟨.OP_CONST, k, op2⟩ m = .next vm1 r.2
          ∧ vm1.stack_top = vm.stack_top + 1
          ∧ vm1.stack[vm.stack_top]? = some (.value r.1)
          ∧ (∀ i, i < vm.stack_top → vm1.stack[i]? = vm.stack[i]?)
          ∧ vm1.bytecode = vm.bytecode
          ∧ vm1.error_msg = vm.error_msg
          ∧ vm1.running = vm.running
          ∧ vm1.pc = vm.pc.map fun p => { p with index := p.index + 1 })
      ∧ (microphp_zval_copy slot c m = none →
          vm_dispatch h locals vm ⟨.OP_CONST, k, op2⟩ m = .undefined)
      ∧ (microphp_zval_destroy_at slot = none →
          vm_dispatch h locals vm ⟨.OP_CONST, k, op2⟩ m = .undefined)
      ∧ ((microphp_zval_destroy_at slot).isSome = true → all_harmless m = true →
          ∃ r, microphp_zval_copy slot c m = some r))
    ∧ (∀ (h : host_t) (locals : add_locals_t) (vm : vm_context_t) (b : bytecode_t)
        (c : zval_t) (k op2 : Nat) (m : AllocLog),
      vm.bytecode = some b → k < b.constant_count → (b.constants.getD [])[k]? = some c →
      vm.stack_top = vm.stack_size → vm.stack.length = vm.stack_size → 0 < vm.stack_size →
      all_granted m = true →
      (∀ r, microphp_zval_copy (.indeterminate (junk_at (malloc_content m) 0)) c (malloc m).2
          = some r →
        ∃ vm1, vm_dispatch h locals vm ⟨.OP_CONST, k, op2⟩ m = .next vm1 r.2
          ∧ vm1.stack_top = vm.stack_top + 1
          ∧ vm1.stack[vm.stack_top]? = some (.value r.1)
          ∧ (∀ i, i < vm.stack_top → vm1.stack[i]? = vm.stack[i]?)
          ∧ vm1.bytecode = vm.bytecode
          ∧ vm1.error_msg = vm.error_msg
          ∧ vm1.running = vm.running
          ∧ vm1.pc = vm.pc.map fun p => { p with index := p.index + 1 })
      ∧ (zval_junk_harmless (junk_at (malloc_content m) 0) = false →
          vm_dispatch h locals vm ⟨.OP_CONST, k, op2⟩ m = .undefined))
    ∧ (microphp_vm_create
          [.granted [], .granted [{ type := some .ZVAL_STRING, pointer_null := false }]]
        = some ({ vm_fresh with
            stack := zval_block 1024 [{ type := some .ZVAL_STRING, pointer_null := false }] },
          [])
      ∧ vm_dispatch (host_of_ptr_size 8) (add_locals_zero 0)
          { vm_fresh with
            stack := zval_block 1024 [{ type := some .ZVAL_STRING, pointer_null := false }],
            bytecode := some ⟨[77, 66, 67, 0], 1, 1, some [.int_val 7], 0, none, 0⟩,
            running := true, pc := some ⟨0, 0⟩ }
          ⟨.OP_CONST, 0, 0⟩ [] = .undefined
      ∧ ∃ vm1, vm_dispatch (host_of_ptr_size 8) (add_locals_zero 0)
          { vm_fresh with
            bytecode := some ⟨[77, 66, 67, 0], 1, 1, some [.int_val 7], 0, none, 0⟩,
            running := true, pc := some ⟨0, 0⟩ }
          ⟨.OP_CONST, 0, 0⟩ [] = .next vm1 []
        ∧ vm1.stack_top = 1 ∧ vm1.stack[0]? = some (.value (.int_val 7))) := by
  have room : ∀ (h : host_t) (locals : add_locals_t) (vm : vm_context_t) (b : bytecode_t)
        (c : zval_t) (k op2 : Nat) (m : AllocLog) (slot : zval_slot_t),
      vm.bytecode = some b → k < b.constant_count → (b.constants.getD [])[k]? = some c →
      vm.stack_top < vm.stack_size → vm.stack[vm.stack_top]? = some slot →
      (∀ r, microphp_zval_copy slot c m = some r →
        ∃ vm1, vm_dispatch h locals vm ⟨.OP_CONST, k, op2⟩ m = .next vm1 r.2
          ∧ vm1.stack_top = vm.stack_top + 1
          ∧ vm1.stack[vm.stack_top]? = some (.value r.1)
          ∧ (∀ i, i < vm.stack_top → vm1.stack[i]? = vm.stack[i]?)
          ∧ vm1.bytecode = vm.bytecode
          ∧ vm1.error_msg = vm.error_msg
          ∧ vm1.running = vm.running
          ∧ vm1.pc = vm.pc.map fun p => { p with index := p.index + 1 })
      ∧ (microphp_zval_copy slot c m = none →
          vm_dispatch h locals vm ⟨.OP_CONST, k, op2⟩ m = .undefined)
      ∧ (microphp_zval_destroy_at slot = none →
          vm_dispatch h locals vm ⟨.OP_CONST, k, op2⟩ m = .undefined)
      ∧ ((microphp_zval_destroy_at slot).isSome = true → all_harmless m = true →
          ∃ r, microphp_zval_copy slot c m = some r) := by
    intro h locals vm b c k op2 m slot hb hk hc hlt hs
    have hlenn : vm.stack_top < vm.stack.length := (List.getElem?_eq_some_iff.mp hs).1
    have hnone : microphp_zval_copy slot c m = none →
        vm_dispatch h locals vm ⟨.OP_CONST, k, op2⟩ m = .undefined := by
      intro hcp
      simp only [vm_dispatch, hb, hk, if_true, hc, stack_push_none vm c m slot hlt hs hcp]
    refine ⟨?_, hnone, fun hd => hnone (zval_copy_undefined slot c m hd), ?_⟩
    · intro r hcp
      simp only [vm_dispatch, hb, hk, if_true, hc, stack_push_some vm c m slot r hlt hs hcp]
      refine ⟨_, rfl, rfl, ?_, ?_, rfl, rfl, rfl, rfl⟩
      · simp only [vm_pc_advance]
        rw [List.getElem?_set_self hlenn]
      · intro i hi
        simp only [vm_pc_advance]
        rw [List.getElem?_set_ne (by omega)]
    · intro hd hh
      obtain ⟨r, hr, _⟩ := zval_copy_defined slot c m hd hh
      exact ⟨r, hr⟩
  refine ⟨room, ?_, ?_, ?_, ?_⟩
  rotate_left
  · rfl
  · exact (room (host_of_ptr_size 8) (add_locals_zero 0)
      { vm_fresh with
        stack := zval_block 1024 [{ type := some .ZVAL_STRING, pointer_null := false }],
        bytecode := some ⟨[77, 66, 67, 0], 1, 1, some [.int_val 7], 0, none, 0⟩,
        running := true, pc := some ⟨0, 0⟩ }
      ⟨[77, 66, 67, 0], 1, 1, some [.int_val 7], 0, none, 0⟩ (.int_val 7) 0 0 []
      (.indeterminate { type := some .ZVAL_STRING, pointer_null := false })
      rfl (by decide) rfl (by decide) (zval_block_head 1024 _ (by decide))).2.2.1 rfl
  · obtain ⟨vm1, e1, e2, e3, _⟩ := (room (host_of_ptr_size 8) (add_locals_zero 0)
      { vm_fresh with
        bytecode := some ⟨[77, 66, 67, 0], 1, 1, some [.int_val 7], 0, none, 0⟩,
        running := true, pc := some ⟨0, 0⟩ }
      ⟨[77, 66, 67, 0], 1, 1, some [.int_val 7], 0, none, 0⟩ (.int_val 7) 0 0 []
      (.indeterminate zval_junk_zero)
      rfl (by decide) rfl (by decide) (zval_block_head 1024 _ (by decide))).1
        (.int_val 7, []) rfl
    exact ⟨vm1, e1, e2, e3⟩
  · intro h locals vm b c k op2 m hb hk hc hfull hlen hpos hg
    refine ⟨?_, ?_⟩
    · intro r hcp
      simp only [vm_dispatch, hb, hk, if_true, hc,
        stack_push_full_some vm c m r hfull hlen hpos hg hcp]
      refine ⟨_, rfl, rfl, ?_, ?_, rfl, rfl, rfl, rfl⟩
      · simp only [vm_pc_advance]
        rw [List.getElem?_set_self (by rw [List.length_append, zval_block_length]; omega)]
      · intro i hi
        simp only [vm_pc_advance]
        rw [List.getElem?_set_ne (by omega), List.getElem?_append_left (by omega)]
    · intro hj
      have hcp := zval_copy_undefined (.indeterminate (junk_at (malloc_content m) 0)) c
        (malloc m).2 (by simp [microphp_zval_destroy_at, hj])
      simp only [vm_dispatch, hb, hk, if_true, hc,
        stack_push_full_none vm c m hfull hlen hpos hg hcp]

/-! ## ADD (C19, C20) -/

theorem wrap_int64_spec (x : Int) :
    -(2 : Int) ^ 63 ≤ wrap_int64 x ∧ wrap_int64 x < (2 : Int) ^ 63
      ∧ wrap_int64 x % 2 ^ 64 = x % 2 ^ 64 := by
  unfold wrap_int64
  norm_num
  omega

theorem wrap_int64_of_range (x : Int) (h1 : -(2 : Int) ^ 63 ≤ x) (h2 : x < (2 : Int) ^ 63) :
    wrap_int64 x = x := by
  unfold wrap_int64
  norm_num at h1 h2 ⊢
  omega

theorem zval_copy_junk_undefined (j : zval_junk_t) (v : zval_t) (m : AllocLog)
    (hj : zval_junk_harmless j = false) :
    microphp_zval_copy (.indeterminate j) v m = none :=
  zval_copy_undefined _ v m (by simp [microphp_zval_destroy_at, hj])

theorem zval_copy_int (dest : zval_slot_t) (i : Int) (m : AllocLog)
    (hd : (microphp_zval_destroy_at dest).isSome = true) :
    microphp_zval_copy dest (.int_val i) m = some (.int_val i, m) := by
  rw [zval_copy_dest_irrelevant dest _ m hd]
  simp [microphp_zval_copy, zval_destroy_at_value]

theorem zval_copy_float (dest : zval_slot_t) (f : Nat) (m : AllocLog)
    (hd : (microphp_zval_destroy_at dest).isSome = true) :
    microphp_zval_copy dest (.float_val f) m = some (.float_val f, m) := by
  rw [zval_copy_dest_irrelevant dest _ m hd]
  simp [microphp_zval_copy, zval_destroy_at_value]

/-- The two pops of the ADD instruction: `rb` is what the copy of the top slot into
the local `b` produces, `ra` what the copy of the slot below it into the local `a`
produces. -/
theorem vm_add_popped (vm : vm_context_t) (locals : add_locals_t) (n : Nat) (a b : zval_t)
    (m : AllocLog) (rb ra : zval_t × AllocLog) (htop : vm.stack_top = n + 2)
    (ha : vm.stack[n]? = some (.value a)) (hb : vm.stack[n + 1]? = some (.value b))
    (hcb : microphp_zval_copy (.indeterminate locals.b) b m = some rb)
    (hca : microphp_zval_copy (.indeterminate locals.a) a rb.2 = some ra) :
    stack_pop vm (.indeterminate locals.b) m
        = some (0, { vm with stack_top := n + 1, stack := vm.stack.set (n + 1) (.value .null) },
            .value rb.1, rb.2)
    ∧ stack_pop { vm with stack_top := n + 1, stack := vm.stack.set (n + 1) (.value .null) }
          (.indeterminate locals.a) rb.2
        = some (0,
            { vm with
              stack_top := n,
              stack := (vm.stack.set (n + 1) (.value .null)).set n (.value .null) },
            .value ra.1, ra.2) := by
  constructor
  · rw [stack_pop_eq vm _ b m (n + 1) htop hb, hcb]
    rfl
  · rw [stack_pop_eq
      { vm with stack_top := n + 1, stack := vm.stack.set (n + 1) (.value .null) } _ a rb.2 n rfl
      (by simp only; rw [List.getElem?_set_ne (by omega)]; exact ha), hca]
    rfl

/-- The push that ends a successful ADD: the slot it writes is the one that the
second pop has destroyed. -/
theorem vm_add_push (vm : vm_context_t) (n : Nat) (result : zval_t) (m : AllocLog)
    (r : zval_t × AllocLog) (hlen : n < vm.stack.length) (hsz : n < vm.stack_size)
    (hc : microphp_zval_copy (.value .null) result m = some r) :
    stack_push
        { vm with
          stack_top := n,
          stack := (vm.stack.set (n + 1) (.value .null)).set n (.value .null) }
        result m
      = .returned (0,
          { vm with
            stack := ((vm.stack.set (n + 1) (.value .null)).set n (.value .null)).set n
              (.value r.1),
            stack_top := n + 1 }, r.2) := by
  rw [stack_push_some _ result m (.value .null) r (by simp only; exact hsz)
    (by simp only; rw [List.getElem?_set_self (by simp; exact hlen)]) hc]

theorem vm_add_first_pop_undefined (h : host_t) (locals : add_locals_t) (vm : vm_context_t)
    (k o1 o2 : Nat) (b : zval_t) (m : AllocLog) (htop : vm.stack_top = k + 1)
    (hb : vm.stack[k]? = some (.value b)) (hj : zval_junk_harmless locals.b = false) :
    vm_dispatch h locals vm ⟨.OP_ADD, o1, o2⟩ m = .undefined := by
  have p1 : stack_pop vm (.indeterminate locals.b) m = none := by
    rw [stack_pop_eq vm _ b m k htop hb, zval_copy_junk_undefined _ b m hj]
    rfl
  simp only [vm_dispatch, p1]

theorem vm_add_second_pop_undefined (h : host_t) (locals : add_locals_t) (vm : vm_context_t)
    (n o1 o2 : Nat) (a b : zval_t) (m : AllocLog) (rb : zval_t × AllocLog)
    (htop : vm.stack_top = n + 2)
    (ha : vm.stack[n]? = some (.value a)) (hb : vm.stack[n + 1]? = some (.value b))
    (hcb : microphp_zval_copy (.indeterminate locals.b) b m = some rb)
    (hj : zval_junk_harmless locals.a = false) :
    vm_dispatch h locals vm ⟨.OP_ADD, o1, o2⟩ m = .undefined := by
  have p1 : stack_pop vm (.indeterminate locals.b) m
      = some (0, { vm with stack_top := n + 1, stack := vm.stack.set (n + 1) (.value .null) },
          .value rb.1, rb.2) := by
    rw [stack_pop_eq vm _ b m (n + 1) htop hb, hcb]
    rfl
  have p2 : stack_pop
      { vm with stack_top := n + 1, stack := vm.stack.set (n + 1) (.value .null) }
      (.indeterminate locals.a) rb.2 = none := by
    rw [stack_pop_eq
      { vm with stack_top := n + 1, stack := vm.stack.set (n + 1) (.value .null) } _ a rb.2 n rfl
      (by simp only; rw [List.getElem?_set_ne (by omega)]; exact ha),
      zval_copy_junk_undefined _ a _ hj]
    rfl
  simp only [vm_dispatch, p1, ne_eq, not_true_eq_false, if_false, p2]

theorem vm_add_int_int (h : host_t) (locals : add_locals_t) (vm : vm_context_t)
    (n o1 o2 : Nat) (a b : Int) (m : AllocLog) (htop : vm.stack_top = n + 2)
    (hsz : vm.stack_top ≤ vm.stack_size)
    (ha : vm.stack[n]? = some (.value (.int_val a)))
    (hb : vm.stack[n + 1]? = some (.value (.int_val b)))
    (hjb : zval_junk_harmless locals.b = true) (hja : zval_junk_harmless locals.a = true) :
    vm_dispatch h locals vm ⟨.OP_ADD, o1, o2⟩ m
      = match int64_add a b with
        | none => .undefined
        | some sum =>
          .next (vm_pc_advance
            { vm with
              stack := ((vm.stack.set (n + 1) (.value .null)).set n (.value .null)).set n
                (.value (.int_val sum)),
              stack_top := n + 1 }) m := by
  have hdb : (microphp_zval_destroy_at (.indeterminate locals.b)).isSome = true := by
    rw [zval_destroy_at_indeterminate]; exact hjb
  have hda : (microphp_zval_destroy_at (.indeterminate locals.a)).isSome = true := by
    rw [zval_destroy_at_indeterminate]; exact hja
  obtain ⟨p1, p2⟩ := vm_add_popped vm locals n (.int_val a) (.int_val b) m (.int_val b, m)
    (.int_val a, m) htop ha hb (zval_copy_int _ b m hdb) (zval_copy_int _ a m hda)
  have hlenn : n < vm.stack.length := (List.getElem?_eq_some_iff.mp ha).1
  simp only [vm_dispatch, p1, p2, ne_eq, not_true_eq_false, if_false, zval_slot_value]
  cases hs : int64_add a b with
  | none => rfl
  | some sum =>
    simp only [microphp_zval_int]
    rw [vm_add_push vm n (.int_val sum) m (.int_val sum, m) hlenn (by omega)
      (zval_copy_int _ sum m rfl)]

/-- C19, on the code.  With the Integers a (below) and b (top) on the stack, ADD pops
both into the local variables `b` and `a`, adds them with the C operator `+` on
`int64_t` and pushes the sum.  When the sum is representable it is the sum that the
specification gives, the depth decreases by one, the slot of a holds the sum, the
stack below it, the module, the last error and the running flag are unchanged, no
allocation is requested and pc advances by one instruction.  But the sum does not
wrap: when a + b is not representable the addition overflows, which is undefined;
so it is for 2^63 - 1 plus 1, where the specification gives -2^63.  And the locals
are declared without initializer while `stack_pop` copies into them, the copy
destroying its destination first: when the bytes of `b` or of `a` read as a String
or an Array with a pointer that is not NULL, that pointer is passed to `free` and
the instruction has no defined effect, whatever the operands are. -/
theorem vm_add_integers :
    (∀ (h : host_t) (locals : add_locals_t) (vm : vm_context_t) (n o1 o2 : Nat) (a b : Int)
        (m : AllocLog),
      vm.stack_top = n + 2 → vm.stack_top ≤ vm.stack_size →
      vm.stack[n]? = some (.value (.int_val a)) →
      vm.stack[n + 1]? = some (.value (.int_val b)) →
      zval_junk_harmless locals.b = true → zval_junk_harmless locals.a = true →
      (-(2 : Int) ^ 63 ≤ a + b ∧ a + b < (2 : Int) ^ 63 →
        ∃ vm1, vm_dispatch h locals vm ⟨.OP_ADD, o1, o2⟩ m = .next vm1 m
          ∧ vm1.stack_top = n + 1
          ∧ vm1.stack[n]? = some (.value (.int_val (a + b)))
          ∧ a + b = wrap_int64 (a + b)
          ∧ (∀ i, i < n → vm1.stack[i]? = vm.stack[i]?)
          ∧ vm1.bytecode = vm.bytecode
          ∧ vm1.error_msg = vm.error_msg
          ∧ vm1.running = vm.running
          ∧ vm1.pc = vm.pc.map fun p => { p with index := p.index + 1 })
      ∧ (¬ (-(2 : Int) ^ 63 ≤ a + b ∧ a + b < (2 : Int) ^ 63) →
        vm_dispatch h locals vm ⟨.OP_ADD, o1, o2⟩ m = .undefined))
    ∧ (∀ (h : host_t) (locals : add_locals_t) (vm : vm_context_t) (n o1 o2 : Nat) (a b : Int)
        (m : AllocLog),
      vm.stack_top = n + 2 →
      vm.stack[n]? = some (.value (.int_val a)) →
      vm.stack[n + 1]? = some (.value (.int_val b)) →
      zval_junk_harmless locals.b = false ∨ zval_junk_harmless locals.a = false →
      vm_dispatch h locals vm ⟨.OP_ADD, o1, o2⟩ m = .undefined)
    ∧ (vm_dispatch (host_of_ptr_size 8) (add_locals_zero 0)
          { vm_fresh with
            stack := [.value (.int_val 9223372036854775807), .value (.int_val 1),
              .indeterminate zval_junk_zero, .indeterminate zval_junk_zero],
            stack_size := 4, stack_top := 2, running := true, pc := some ⟨0, 3⟩ }
          ⟨.OP_ADD, 0, 0⟩ [] = .undefined
      ∧ wrap_int64 (9223372036854775807 + 1) = -9223372036854775808
      ∧ vm_dispatch (host_of_ptr_size 8)
          { b := { type := some .ZVAL_STRING, pointer_null := false }, a := zval_junk_zero }
          { vm_fresh with
            stack := [.value (.int_val 1), .value (.int_val 2),
              .indeterminate zval_junk_zero, .indeterminate zval_junk_zero],
            stack_size := 4, stack_top := 2, running := true, pc := some ⟨0, 3⟩ }
          ⟨.OP_ADD, 0, 0⟩ [] = .undefined
      ∧ vm_dispatch (host_of_ptr_size 8) (add_locals_zero 0)
          { vm_fresh with
            stack := [.value (.int_val 1), .value (.int_val 2),
              .indeterminate zval_junk_zero, .indeterminate zval_junk_zero],
            stack_size := 4, stack_top := 2, running := true, pc := some ⟨0, 3⟩ }
          ⟨.OP_ADD, 0, 0⟩ []
        = .next
          { vm_fresh with
            stack := [.value (.int_val 3), .value .null,
              .indeterminate zval_junk_zero, .indeterminate zval_junk_zero],
            stack_size := 4, stack_top := 1, running := true, pc := some ⟨0, 4⟩ } []) := by
  refine ⟨?_, ?_, ?_, ?_, ?_, ?_⟩
  rotate_left 2
  · rfl
  · decide
  · rfl
  · rfl
  · intro h locals vm n o1 o2 a b m htop hsz ha hb hjb hja
    have key := vm_add_int_int h locals vm n o1 o2 a b m htop hsz ha hb hjb hja
    have hlenn : n < vm.stack.length := (List.getElem?_eq_some_iff.mp ha).1
    refine ⟨?_, ?_⟩
    · intro hr
      have hs : int64_add a b = some (a + b) := by simp only [int64_add, hr, and_self, if_true]
      rw [hs] at key
      refine ⟨_, key, rfl, ?_, (wrap_int64_of_range _ hr.1 hr.2).symm, ?_, rfl, rfl, rfl, rfl⟩
      · simp only [vm_pc_advance]
        rw [List.getElem?_set_self (by simp; omega)]
      · intro i hi
        simp only [vm_pc_advance]
        rw [List.getElem?_set_ne (by omega), List.getElem?_set_ne (by omega),
          List.getElem?_set_ne (by omega)]
    · intro hr
      have hs : int64_add a b = none := by simp only [int64_add, hr, if_false]
      rw [hs] at key
      exact key
  · intro h locals vm n o1 o2 a b m htop ha hb hj
    by_cases hjb : zval_junk_harmless locals.b = true
    · rcases hj with hj | hj
      · rw [hjb] at hj; cases hj
      · exact vm_add_second_pop_undefined h locals vm n o1 o2 (.int_val a) (.int_val b) m
          (.int_val b, m) htop ha hb
          (zval_copy_int _ b m (by rw [zval_destroy_at_indeterminate]; exact hjb)) hj
    · exact vm_add_first_pop_undefined h locals vm (n + 1) o1 o2 (.int_val b) m htop hb
        (by simpa using hjb)

theorem vm_add_float_on_top (h : host_t) (locals : add_locals_t) (vm : vm_context_t)
    (n o1 o2 : Nat) (a : zval_t) (fb : Nat) (m : AllocLog) (ra : zval_t × AllocLog)
    (htop : vm.stack_top = n + 2) (hsz : vm.stack_top ≤ vm.stack_size)
    (ha : vm.stack[n]? = some (.value a)) (hb : vm.stack[n + 1]? = some (.value (.float_val fb)))
    (hjb : zval_junk_harmless locals.b = true)
    (hca : microphp_zval_copy (.indeterminate locals.a) a m = some ra) :
    vm_dispatch h locals vm ⟨.OP_ADD, o1, o2⟩ m
      = .next
          (vm_pc_advance
            { vm with
              stack := ((vm.stack.set (n + 1) (.value .null)).set n (.value .null)).set n
                (.value (.float_val (h.double_add (vm_add_operand h ra.1) fb))),
              stack_top := n + 1 })
          ra.2 := by
  have hdb : (microphp_zval_destroy_at (.indeterminate locals.b)).isSome = true := by
    rw [zval_destroy_at_indeterminate]; exact hjb
  obtain ⟨p1, p2⟩ := vm_add_popped vm locals n a (.float_val fb) m (.float_val fb, m) ra htop
    ha hb (zval_copy_float _ fb m hdb) hca
  have hlenn : n < vm.stack.length := (List.getElem?_eq_some_iff.mp ha).1
  simp only [vm_dispatch, p1, p2, ne_eq, not_true_eq_false, if_false, zval_slot_value]
  split
  · rename_i heq1 heq2
    cases heq2
  · simp only [zval_t.type, or_true, if_true, vm_add_operand, microphp_zval_float]
    rw [vm_add_push vm n _ ra.2 (_, ra.2) hlenn (by omega) (zval_copy_float _ _ _ rfl)]

theorem vm_add_rejects_without_float (h : host_t) (locals : add_locals_t) (vm : vm_context_t)
    (n o1 o2 : Nat) (a b : zval_t) (m : AllocLog) (rb ra : zval_t × AllocLog)
    (htop : vm.stack_top = n + 2)
    (ha : vm.stack[n]? = some (.value a)) (hb : vm.stack[n + 1]? = some (.value b))
    (hcb : microphp_zval_copy (.indeterminate locals.b) b m = some rb)
    (hca : microphp_zval_copy (.indeterminate locals.a) a rb.2 = some ra)
    (hfa : ra.1.type ≠ .ZVAL_FLOAT) (hfb : rb.1.type ≠ .ZVAL_FLOAT)
    (hint : ra.1.type ≠ .ZVAL_INT ∨ rb.1.type ≠ .ZVAL_INT) :
    vm_dispatch h locals vm ⟨.OP_ADD, o1, o2⟩ m
      = .next
          { vm with
            stack := (vm.stack.set (n + 1) (.value .null)).set n (.value .null),
            stack_top := n,
            error_msg := (strdup "Invalid types for ADD operation" ra.2).1,
            running := false }
          (strdup "Invalid types for ADD operation" ra.2).2 := by
  obtain ⟨p1, p2⟩ := vm_add_popped vm locals n a b m rb ra htop ha hb hcb hca
  simp only [vm_dispatch, p1, p2, ne_eq, not_true_eq_false, if_false, zval_slot_value]
  split
  · rename_i x y heq1 heq2
    rw [heq1, heq2] at hint
    simp [zval_t.type] at hint
  · have hno : ¬ (ra.1.type = .ZVAL_FLOAT ∨ rb.1.type = .ZVAL_FLOAT) := by
      rintro (h1 | h1)
      · exact hfa h1
      · exact hfb h1
    rw [if_neg hno]

/-- C20, on the code.  When neither popped operand is a Float and they are not both
Integers, ADD records "Invalid types for ADD operation", sets the running flag
false and pushes nothing.  But when the top operand is a Float, the Float branch is
taken whatever the other operand is: with the String "x" below the Float 1.0, ADD
records no error, leaves the running flag true and pushes the Float that the host
computes from the bytes of the String's union member and 1.0.  The general parts
are about the executions in which the two pops are defined, `rb` and `ra` being
what the copies into the locals `b` and `a` produce. -/
theorem vm_add_float_with_non_numeric :
    (∀ h : host_t, vm_dispatch h (add_locals_zero 0)
        { vm_fresh with
          stack := [.value (.string_val (some [120]) 1), .value (.float_val 0x3ff0000000000000),
            .indeterminate zval_junk_zero, .indeterminate zval_junk_zero],
          stack_size := 4, stack_top := 2, running := true, pc := some ⟨0, 0⟩ }
        ⟨.OP_ADD, 0, 0⟩ []
      = .next
        { vm_fresh with
          stack := [.value (.float_val (h.double_add
              (h.double_of_union (.string_val (some [120]) 1)) 0x3ff0000000000000)),
            .value .null, .indeterminate zval_junk_zero, .indeterminate zval_junk_zero],
          stack_size := 4, stack_top := 1, running := true, pc := some ⟨0, 1⟩,
          error_msg := none } [])
    ∧ (∀ (h : host_t) (locals : add_locals_t) (vm : vm_context_t) (n o1 o2 : Nat)
        (a : zval_t) (fb : Nat) (m : AllocLog) (ra : zval_t × AllocLog),
        vm.stack_top = n + 2 → vm.stack_top ≤ vm.stack_size →
        vm.stack[n]? = some (.value a) → vm.stack[n + 1]? = some (.value (.float_val fb)) →
        zval_junk_harmless locals.b = true →
        microphp_zval_copy (.indeterminate locals.a) a m = some ra →
        ∃ vm1 m1, vm_dispatch h locals vm ⟨.OP_ADD, o1, o2⟩ m = .next vm1 m1
          ∧ vm1.error_msg = vm.error_msg ∧ vm1.running = vm.running
          ∧ vm1.stack_top = n + 1
          ∧ vm1.stack[n]? = some (.value (.float_val (h.double_add
              (vm_add_operand h ra.1) fb))))
    ∧ (∀ (h : host_t) (locals : add_locals_t) (vm : vm_context_t) (n o1 o2 : Nat)
        (a b : zval_t) (m : AllocLog) (rb ra : zval_t × AllocLog),
        vm.stack_top = n + 2 → vm.stack[n]? = some (.value a) →
        vm.stack[n + 1]? = some (.value b) →
        microphp_zval_copy (.indeterminate locals.b) b m = some rb →
        microphp_zval_copy (.indeterminate locals.a) a rb.2 = some ra →
        ra.1.type ≠ .ZVAL_FLOAT → rb.1.type ≠ .ZVAL_FLOAT →
        (ra.1.type ≠ .ZVAL_INT ∨ rb.1.type ≠ .ZVAL_INT) →
        all_granted ra.2 = true →
        ∃ vm1 m1, vm_dispatch h locals vm ⟨.OP_ADD, o1, o2⟩ m = .next vm1 m1
          ∧ vm1.error_msg = some "Invalid types for ADD operation"
          ∧ vm1.running = false ∧ vm1.stack_top = n) := by
  refine ⟨fun h => rfl, ?_, ?_⟩
  · intro h locals vm n o1 o2 a fb m ra htop hsz ha hb hjb hca
    refine ⟨_, _, vm_add_float_on_top h locals vm n o1 o2 a fb m ra htop hsz ha hb hjb hca,
      rfl, rfl, rfl, ?_⟩
    have hlenn : n < vm.stack.length := (List.getElem?_eq_some_iff.mp ha).1
    simp only [vm_pc_advance]
    rw [List.getElem?_set_self (by simp; omega)]
  · intro h locals vm n o1 o2 a b m rb ra htop ha hb hcb hca hfa hfb hint hg
    refine ⟨_, _, vm_add_rejects_without_float h locals vm n o1 o2 a b m rb ra htop ha hb
      hcb hca hfa hfb hint, ?_, rfl, rfl⟩
    exact (strdup_of_granted _ _ hg).1

/-! ## Division and modulo (C21) -/

theorem strdup_snd (s : String) (m : AllocLog) : (strdup s m).2 = (malloc m).2 := by
  unfold strdup
  rcases malloc m with ⟨ok, m1⟩
  cases ok <;> rfl

theorem vm_loop_stopped (h : host_t) (locals : Nat → add_locals_t) (fuel : Nat)
    (vm : vm_context_t) (m : AllocLog)
    (hrun : vm.running = false) : vm_loop h locals fuel vm m = .returned (-1) vm m := by
  rw [vm_loop.eq_def]
  simp [hrun]

theorem vm_fetch_pc (vm : vm_context_t) (instr : instruction_t)
    (hfetch : vm_fetch vm = some instr) : vm.pc.isSome = true := by
  unfold vm_fetch at hfetch
  cases hp : vm.pc with
  | none =>
    rw [hp] at hfetch
    cases hb : vm.bytecode <;> rw [hb] at hfetch <;> simp at hfetch
  | some p => rfl

theorem vm_loop_unimplemented (h : host_t) (locals : Nat → add_locals_t) (vm : vm_context_t)
    (instr : instruction_t) (m : AllocLog) (fuel : Nat)
    (hop : instr.opcode ≠ .OP_NOP ∧ instr.opcode ≠ .OP_CONST ∧ instr.opcode ≠ .OP_ADD
      ∧ instr.opcode ≠ .OP_RETURN)
    (hrun : vm.running = true) (hfetch : vm_fetch vm = some instr)
    (hg : all_granted m = true) :
    vm_loop h locals (fuel + 1) vm m
      = .returned (-1) { vm with error_msg := some "Unimplemented opcode", running := false }
          (malloc m).2 := by
  have hpc : vm.pc.isSome = true := vm_fetch_pc vm instr hfetch
  have hd : vm_dispatch h (locals fuel) vm instr m
      = .next { vm with error_msg := some "Unimplemented opcode", running := false }
          (malloc m).2 := by
    obtain ⟨h1, h2, h3, h4⟩ := hop
    unfold vm_dispatch
    split
    · rename_i heq; exact absurd heq h1
    · rename_i heq; exact absurd heq h2
    · rename_i heq; exact absurd heq h3
    · rename_i heq; exact absurd heq h4
    · simp only [(strdup_of_granted _ m hg).1, strdup_snd]
  rw [vm_loop.eq_def]
  simp only [hrun, hpc, Bool.and_self, if_true, hfetch, hd]
  rw [vm_loop_stopped h locals fuel _ _ rfl]

/-- C21, on the code.  The dispatch of `microphp_vm_run` has no case for DIV and
MOD; they reach the `default` case, which is the stub for the opcodes that are not
implemented yet.  Executing either of them, whatever the stack holds (so also with
two Integers and the divisor 0 on top), records the error "Unimplemented opcode",
sets the running flag false, leaves the stack and pc as they were, and the run
returns the nonzero status -1: the status is the one the claim gives, the error
string is not. -/
theorem vm_div_mod_unimplemented (h : host_t) (locals : Nat → add_locals_t)
    (vm : vm_context_t) (instr : instruction_t) (m : AllocLog) (fuel : Nat)
    (hop : instr.opcode = .OP_DIV ∨ instr.opcode = .OP_MOD)
    (hrun : vm.running = true) (hfetch : vm_fetch vm = some instr)
    (hg : all_granted m = true) :
    vm_loop h locals (fuel + 1) vm m
      = .returned (-1) { vm with error_msg := some "Unimplemented opcode", running := false }
          (malloc m).2 := by
  apply vm_loop_unimplemented h locals vm instr m fuel _ hrun hfetch hg
  rcases hop with hop | hop <;> rw [hop] <;> decide

theorem vm_div_mod_unimplemented_witness :
    vm_loop (host_of_ptr_size 8) add_locals_zero 1
        { vm_of_code [⟨.OP_DIV, 0, 0⟩] with
          stack := [.value (.int_val 1), .value (.int_val 0)], stack_size := 2,
          stack_top := 2, running := true, pc := some ⟨0, 0⟩ } []
      = .returned (-1)
        { vm_of_code [⟨.OP_DIV, 0, 0⟩] with
          stack := [.value (.int_val 1), .value (.int_val 0)], stack_size := 2,
          stack_top := 2, running := false, pc := some ⟨0, 0⟩,
          error_msg := some "Unimplemented opcode" } [] :=
  vm_div_mod_unimplemented (host_of_ptr_size 8) add_locals_zero
    { vm_of_code [⟨.OP_DIV, 0, 0⟩] with
      stack := [.value (.int_val 1), .value (.int_val 0)], stack_size := 2, stack_top := 2,
      running := true, pc := some ⟨0, 0⟩ } ⟨.OP_DIV, 0, 0⟩ [] 0 (Or.inl rfl) rfl rfl rfl

/-- C21 as stated fails: running a module whose main function is the single
instruction DIV (and likewise MOD) on a stack that holds the Integers 1 and, on top,
0 returns -1 with the last error "Unimplemented opcode", which is not "division by
zero"; the two operands are still on the stack. -/
theorem vm_div_by_zero_message_differs :
    (∃ vm1 m1, microphp_vm_run (host_of_ptr_size 8) add_locals_zero 1
        { vm_of_code [⟨.OP_DIV, 0, 0⟩] with
          stack := [.value (.int_val 1), .value (.int_val 0)], stack_size := 2,
          stack_top := 2 } []
        = .returned (-1) vm1 m1
      ∧ microphp_get_error vm1 = some "Unimplemented opcode"
      ∧ microphp_get_error vm1 ≠ some "division by zero"
      ∧ vm1.stack = [.value (.int_val 1), .value (.int_val 0)] ∧ vm1.stack_top = 2)
    ∧ (∃ vm1 m1, microphp_vm_run (host_of_ptr_size 8) add_locals_zero 1
        { vm_of_code [⟨.OP_MOD, 0, 0⟩] with
          stack := [.value (.int_val 1), .value (.int_val 0)], stack_size := 2,
          stack_top := 2 } []
        = .returned (-1) vm1 m1
      ∧ microphp_get_error vm1 = some "Unimplemented opcode"
      ∧ microphp_get_error vm1 ≠ some "division by zero"
      ∧ vm1.stack = [.value (.int_val 1), .value (.int_val 0)] ∧ vm1.stack_top = 2) :=
  ⟨⟨_, _, rfl, rfl, by decide, rfl, rfl⟩, ⟨_, _, rfl, rfl, by decide, rfl, rfl⟩⟩

/-! ## RETURN and the status of a run (C22) -/

theorem stack_push_pc (vm vm1 : vm_context_t) (v : zval_t) (m m1 : AllocLog) (r : Int)
    (hp : stack_push vm v m = .returned (r, vm1, m1)) : vm1.pc = vm.pc := by
  unfold stack_push at hp
  simp only at hp
  split at hp
  · split at hp
    · exact absurd hp (by simp)
    · simp only [vm_call_t.returned.injEq, Prod.mk.injEq] at hp
      rw [← hp.2.1]
    · split at hp
      · exact absurd hp (by simp)
      · split at hp
        · exact absurd hp (by simp)
        · simp only [vm_call_t.returned.injEq, Prod.mk.injEq] at hp
          rw [← hp.2.1]
  · split at hp
    · exact absurd hp (by simp)
    · split at hp
      · exact absurd hp (by simp)
      · simp only [vm_call_t.returned.injEq, Prod.mk.injEq] at hp
        rw [← hp.2.1]

theorem stack_pop_pc (vm : vm_context_t) (result : zval_slot_t) (m : AllocLog)
    (p : Int × vm_context_t × zval_slot_t × AllocLog)
    (hp : stack_pop vm result m = some p) : p.2.1.pc = vm.pc := by
  unfold stack_pop at hp
  split at hp
  · simp only [Option.some.injEq] at hp
    rw [← hp]
  · simp only at hp
    split at hp
    · split at hp
      · exact absurd hp (by simp)
      · simp only [Option.some.injEq] at hp
        rw [← hp]
    · exact absurd hp (by simp)

theorem vm_pc_advance_isSome (vm : vm_context_t) :
    (vm_pc_advance vm).pc.isSome = vm.pc.isSome := by
  unfold vm_pc_advance
  cases vm.pc <;> rfl

theorem vm_dispatch_pc (h : host_t) (locals : add_locals_t) (vm vm1 : vm_context_t)
    (instr : instruction_t)
    (m m1 : AllocLog) (hd : vm_dispatch h locals vm instr m = .next vm1 m1) :
    vm1.pc.isSome = vm.pc.isSome := by
  have hfin : ∀ (vm2 : vm_context_t) (res : zval_t) (m2 : AllocLog),
      vm2.pc = vm.pc →
      (match stack_push vm2 res m2 with
        | .aborted => vm_step_t.aborted
        | .undefined => vm_step_t.undefined
        | .returned (_, vm3, m3) => vm_step_t.next (vm_pc_advance vm3) m3) = .next vm1 m1 →
      vm1.pc.isSome = vm.pc.isSome := by
    intro vm2 res m2 h2 hm
    split at hm
    · exact absurd hm (by simp)
    · exact absurd hm (by simp)
    · rename_i r vm3 m3 hpush
      simp only [vm_step_t.next.injEq] at hm
      rw [← hm.1, vm_pc_advance_isSome, stack_push_pc _ _ _ _ _ _ hpush, h2]
  unfold vm_dispatch at hd
  split at hd
  · simp only [vm_step_t.next.injEq] at hd
    rw [← hd.1, vm_pc_advance_isSome]
  · split at hd
    · exact absurd hd (by simp)
    · split at hd
      · split at hd
        · exact absurd hd (by simp)
        · exact hfin _ _ _ rfl hd
      · simp only [vm_step_t.next.injEq] at hd
        rw [← hd.1, vm_pc_advance_isSome]
  · simp only at hd
    split at hd
    · exact absurd hd (by simp)
    · rename_i pb hpb
      have e1 := stack_pop_pc _ _ _ _ hpb
      split at hd
      · simp only [vm_step_t.next.injEq] at hd
        rw [← hd.1]
        simp only [e1]
      · split at hd
        · exact absurd hd (by simp)
        · rename_i pa hpa
          have e2 := stack_pop_pc _ _ _ _ hpa
          split at hd
          · simp only [vm_step_t.next.injEq] at hd
            rw [← hd.1]
            simp only [e2, e1]
          · split at hd
            · split at hd
              · exact absurd hd (by simp)
              · exact hfin _ _ _ (by rw [e2, e1]) hd
            · split at hd
              · exact hfin _ _ _ (by rw [e2, e1]) hd
              · simp only [vm_step_t.next.injEq] at hd
                rw [← hd.1]
                simp only [e2, e1]
  · simp only [vm_step_t.next.injEq] at hd
    rw [← hd.1]
  · simp only [vm_step_t.next.injEq] at hd
    rw [← hd.1]

theorem vm_loop_status (h : host_t) (locals : Nat → add_locals_t) (fuel : Nat)
    (vm vm1 : vm_context_t) (m m1 : AllocLog)
    (s : Int) (hpc : vm.pc.isSome = true)
    (hr : vm_loop h locals fuel vm m = .returned s vm1 m1) :
    s = -1 := by
  induction fuel generalizing vm m with
  | zero =>
    rw [vm_loop.eq_def] at hr
    cases hrun : vm.running <;> simp [hrun, hpc] at hr
    exact hr.1.symm
  | succ n ih =>
    rw [vm_loop.eq_def] at hr
    cases hrun : vm.running
    · simp [hrun] at hr
      exact hr.1.symm
    · simp only [hrun, hpc, Bool.and_self, if_true] at hr
      split at hr
      · exact absurd hr (by simp)
      · split at hr
        · rename_i vm2 m2 hd
          exact ih vm2 m2 (by rw [vm_dispatch_pc h _ _ _ _ _ _ hd, hpc]) hr
        · exact absurd hr (by simp)
        · exact absurd hr (by simp)

/-- C22, on the code.  `microphp_vm_run` returns `vm->running ? 0 : -1` and RETURN
ends the loop by clearing `running`: a module whose main function starts with
RETURN runs to the status -1 with no error recorded; more generally every run that
enters the loop with a code block and returns, returns -1, whether or not an error
string was recorded.  Evaluated on the module whose main function is the single
instruction RETURN, and on NOP followed by RETURN. -/
theorem vm_return_reports_failure :
    (∀ (h : host_t) (locals : Nat → add_locals_t) (fuel : Nat) (vm : vm_context_t)
        (b : bytecode_t) (f : function_t)
        (code : List instruction_t) (o1 o2 : Nat) (m : AllocLog),
        vm.bytecode = some b → b.main_offset < b.function_count →
        (b.functions.getD [])[b.main_offset]? = some f → f.code = some code →
        code[0]? = some ⟨.OP_RETURN, o1, o2⟩ →
        microphp_vm_run h locals (fuel + 1) vm m
          = .returned (-1) { vm with running := false, pc := some ⟨b.main_offset, 0⟩ } m)
    ∧ (∀ (h : host_t) (locals : Nat → add_locals_t) (fuel : Nat) (vm vm1 : vm_context_t)
        (m m1 : AllocLog) (s : Int),
        vm.pc.isSome = true → vm_loop h locals fuel vm m = .returned s vm1 m1 → s = -1)
    ∧ microphp_vm_run (host_of_ptr_size 8) add_locals_zero 1
          (vm_of_code [⟨.OP_RETURN, 0, 0⟩]) []
        = .returned (-1) { vm_of_code [⟨.OP_RETURN, 0, 0⟩] with pc := some ⟨0, 0⟩ } []
    ∧ microphp_get_error { vm_of_code [⟨.OP_RETURN, 0, 0⟩] with pc := some ⟨0, 0⟩ } = none
    ∧ microphp_vm_run (host_of_ptr_size 8) add_locals_zero 2
          (vm_of_code [⟨.OP_NOP, 0, 0⟩, ⟨.OP_RETURN, 0, 0⟩]) []
        = .returned (-1)
            { vm_of_code [⟨.OP_NOP, 0, 0⟩, ⟨.OP_RETURN, 0, 0⟩] with pc := some ⟨0, 1⟩ } [] := by
  refine ⟨?_, ?_, rfl, rfl, rfl⟩
  · intro h locals fuel vm b f code o1 o2 m hb hmain hf hcode h0
    cases vm
    simp only at hb
    subst hb
    simp only [microphp_vm_run, hmain, if_true, hf, hcode, Option.map_some']
    rw [vm_loop.eq_def]
    simp only [Option.isSome_some, Bool.and_self, if_true, vm_fetch, hf, hcode,
      Option.getD_some, h0, vm_dispatch]
    rw [vm_loop_stopped h locals fuel _ _ rfl]
  · intro h locals fuel vm vm1 m m1 s hpc hr
    exact vm_loop_status h locals fuel vm vm1 m m1 s hpc hr

/-! ## Running past the end of the code (C23) -/

theorem vm_loop_nops (h : host_t) (locals : Nat → add_locals_t) (b : bytecode_t)
    (f : function_t)
    (code : List instruction_t) (hnop : ∀ i ∈ code, i.opcode = .OP_NOP) (k : Nat) :
    ∀ (j : Nat) (vm : vm_context_t) (m : AllocLog), j + k = code.length →
      vm.bytecode = some b → (b.functions.getD [])[b.main_offset]? = some f →
      f.code = some code → vm.running = true → vm.pc = some ⟨b.main_offset, j⟩ →
      ∀ (fuel : Nat), vm_loop h locals (fuel + k + 1) vm m
        = .undefined { vm with pc := some ⟨b.main_offset, code.length⟩ } := by
  induction k with
  | zero =>
    intro j vm m hj hb hf hcode hrun hpc fuel
    have hfetch : vm_fetch vm = none := by
      simp only [vm_fetch, hb, hpc, hf, hcode, Option.getD_some]
      exact List.getElem?_eq_none (by omega)
    have hj2 : j = code.length := by omega
    rw [vm_loop.eq_def]
    simp only [hrun, hpc, Option.isSome_some, Bool.and_self, if_true, hfetch]
    subst hj2
    cases vm
    simp only at hpc hrun
    subst hpc
    subst hrun
    rfl
  | succ k ih =>
    intro j vm m hj hb hf hcode hrun hpc fuel
    have hlt : j < code.length := by omega
    have hfetch : vm_fetch vm = some (code.get ⟨j, hlt⟩) := by
      simp only [vm_fetch, hb, hpc, hf, hcode, Option.getD_some]
      exact List.getElem?_eq_getElem hlt
    have hop : (code.get ⟨j, hlt⟩).opcode = .OP_NOP := hnop _ (List.get_mem code j hlt)
    have hd : ∀ l, vm_dispatch h l vm (code.get ⟨j, hlt⟩) m = .next (vm_pc_advance vm) m := by
      intro l
      unfold vm_dispatch
      rw [hop]
    have e : fuel + (k + 1) + 1 = (fuel + k + 1) + 1 := by omega
    rw [e, vm_loop.eq_def]
    simp only [hrun, hpc, Option.isSome_some, Bool.and_self, if_true, hfetch, hd]
    rw [ih (j + 1) (vm_pc_advance vm) m (by omega) hb hf hcode hrun
      (by simp [vm_pc_advance, hpc]) fuel]
    simp [vm_pc_advance, hrun]

/-- C23, on the code.  The loop of `microphp_vm_run` tests `vm->running && vm->pc`
and nothing else: neither it nor `vm->pc++` compares pc with `code_size`.  For every
loaded module with a valid main offset whose main function consists of NOPs only (in
particular of a single NOP), the run executes them and then fetches the instruction
at index `code_size`, outside the code block: it ends in an out-of-bounds read, no
error string being recorded, whatever the stack holds. -/
theorem vm_run_past_code_end :
    (∀ (h : host_t) (locals : Nat → add_locals_t) (fuel : Nat) (vm : vm_context_t)
        (b : bytecode_t) (f : function_t)
        (code : List instruction_t) (m : AllocLog),
        vm.bytecode = some b → b.main_offset < b.function_count →
        (b.functions.getD [])[b.main_offset]? = some f → f.code = some code →
        f.code_size = code.length → (∀ i ∈ code, i.opcode = .OP_NOP) →
        microphp_vm_run h locals (fuel + code.length + 1) vm m
          = .undefined { vm with running := true, pc := some ⟨b.main_offset, f.code_size⟩ })
    ∧ microphp_vm_run (host_of_ptr_size 8) add_locals_zero 2
          (vm_of_code [⟨.OP_NOP, 0, 0⟩]) []
        = .undefined { vm_of_code [⟨.OP_NOP, 0, 0⟩] with running := true, pc := some ⟨0, 1⟩ }
    ∧ vm_fetch { vm_of_code [⟨.OP_NOP, 0, 0⟩] with running := true, pc := some ⟨0, 1⟩ } = none
    ∧ microphp_get_error
        { vm_of_code [⟨.OP_NOP, 0, 0⟩] with running := true, pc := some ⟨0, 1⟩ } = none := by
  refine ⟨?_, rfl, rfl, rfl⟩
  intro h locals fuel vm b f code m hb hmain hf hcode hsize hnop
  cases vm
  simp only at hb
  subst hb
  simp only [microphp_vm_run, hmain, if_true, hf, hcode, Option.map_some']
  rw [vm_loop_nops h locals _ f code hnop code.length 0 _ m (by omega) rfl hf hcode rfl rfl fuel,
    hsize]

/-! ## Reset (C24) -/

theorem zval_destroy_at_null (s : zval_slot_t)
    (h : (microphp_zval_destroy_at s).isSome = true) :
    microphp_zval_destroy_at s = some .null := by
  cases s with
  | value v => simp only [microphp_zval_destroy_at, zval_destroy_eq_null]
  | indeterminate j =>
    simp only [microphp_zval_destroy_at] at h ⊢
    cases hj : zval_junk_harmless j
    · rw [hj] at h; simp at h
    · simp

theorem vm_reset_stack_eq (l : List zval_slot_t)
    (h : ∀ s ∈ l, (microphp_zval_destroy_at s).isSome = true) :
    vm_reset_stack l = some (List.replicate l.length (.value .null)) := by
  induction l with
  | nil => rfl
  | cons s rest ih =>
    simp only [vm_reset_stack, zval_destroy_at_null s (h s (List.mem_cons_self _ _)),
      ih (fun t ht => h t (List.mem_cons_of_mem _ ht)), List.length_cons, List.replicate_succ]

/-- C24.  After `microphp_vm_reset`, on a context whose blocks of locals and globals
hold `local_count` and `global_count` slots (128 and 256 in every context that
`microphp_vm_create` returns), whose `stack_top` lies within the stack block and
whose stack slots below `stack_top` can be destroyed (they hold values, as the slots
that `stack_push` has written do): the reset is defined, the stack is empty, every
local and every global is Null, no error is recorded, pc is NULL and `running` is
false; the loaded module, the counts and the size of the stack block are unchanged,
and the stack slots that were in use hold Null. -/
theorem vm_reset_clears (vm : vm_context_t) (hl : vm.locals.length = vm.local_count)
    (hg : vm.globals.length = vm.global_count) (hs : vm.stack_top ≤ vm.stack.length)
    (hd : ∀ s ∈ vm.stack.take vm.stack_top, (microphp_zval_destroy_at s).isSome = true) :
    ∃ vm1, microphp_vm_reset vm = some vm1
    ∧ vm1.stack_top = 0
    ∧ vm1.locals = List.replicate vm.local_count zval_t.null
    ∧ vm1.globals = List.replicate vm.global_count zval_t.null
    ∧ microphp_get_error vm1 = none
    ∧ vm1.pc = none
    ∧ vm1.running = false
    ∧ vm1.bytecode = vm.bytecode
    ∧ vm1.local_count = vm.local_count
    ∧ vm1.global_count = vm.global_count
    ∧ vm1.stack_size = vm.stack_size
    ∧ vm1.stack
        = List.replicate vm.stack_top (.value zval_t.null) ++ vm.stack.drop vm.stack_top := by
  have hmap : ∀ (l : List zval_t) (g : zval_t → zval_t), (∀ v, g v = zval_t.null) →
      l.map g = List.replicate l.length zval_t.null := by
    intro l g hgv
    induction l with
    | nil => rfl
    | cons a t ih => simp [List.replicate_succ, hgv, ih]
  have hst := vm_reset_stack_eq _ hd
  rw [List.length_take, Nat.min_eq_left hs] at hst
  have e : microphp_vm_reset vm
      = some { vm with
          stack := List.replicate vm.stack_top (.value .null) ++ vm.stack.drop vm.stack_top,
          stack_top := 0,
          locals := (vm.locals.take vm.local_count).map (fun _ => microphp_zval_null)
            ++ vm.locals.drop vm.local_count,
          globals := (vm.globals.take vm.global_count).map (fun _ => microphp_zval_null)
            ++ vm.globals.drop vm.global_count,
          pc := none,
          running := false,
          error_msg := if vm.error_msg.isSome then none else vm.error_msg } := by
    simp only [microphp_vm_reset, hst]
  refine ⟨_, e, rfl, ?_, ?_, ?_, rfl, rfl, rfl, rfl, rfl, rfl, rfl⟩
  · show List.map (fun _ => microphp_zval_null) (vm.locals.take vm.local_count)
      ++ vm.locals.drop vm.local_count = _
    rw [hmap _ (fun _ => microphp_zval_null) (fun _ => rfl), List.drop_of_length_le (by omega),
      List.append_nil, List.length_take, hl, Nat.min_self]
  · show List.map (fun _ => microphp_zval_null) (vm.globals.take vm.global_count)
      ++ vm.globals.drop vm.global_count = _
    rw [hmap _ (fun _ => microphp_zval_null) (fun _ => rfl), List.drop_of_length_le (by omega),
      List.append_nil, List.length_take, hg, Nat.min_self]
  · simp only [microphp_get_error]
    cases vm.error_msg <;> rfl

theorem vm_reset_clears_witness :
    ∃ vm1, microphp_vm_reset
        { vm_of_code [⟨.OP_RETURN, 0, 0⟩] with
          stack := [.value (.int_val 1), .value (.string_val (some [104, 105]) 2),
            .indeterminate { type := some .ZVAL_STRING, pointer_null := false },
            .indeterminate zval_junk_zero],
          stack_size := 4, stack_top := 2,
          locals := List.replicate 128 (.int_val 5),
          globals := List.replicate 256 (.bool_val true),
          pc := some ⟨0, 0⟩, running := true,
          error_msg := some "Unimplemented opcode" } = some vm1
    ∧ vm1.stack_top = 0
    ∧ vm1.locals = List.replicate 128 zval_t.null
    ∧ vm1.globals = List.replicate 256 zval_t.null
    ∧ microphp_get_error vm1 = none
    ∧ vm1.pc = none
    ∧ vm1.running = false
    ∧ vm1.bytecode = some (module_of_code [⟨.OP_RETURN, 0, 0⟩])
    ∧ vm1.local_count = 128
    ∧ vm1.global_count = 256
    ∧ vm1.stack_size = 4
    ∧ vm1.stack = [.value .null, .value .null,
        .indeterminate { type := some .ZVAL_STRING, pointer_null := false },
        .indeterminate zval_junk_zero] :=
  vm_reset_clears
    { vm_of_code [⟨.OP_RETURN, 0, 0⟩] with
      stack := [.value (.int_val 1), .value (.string_val (some [104, 105]) 2),
        .indeterminate { type := some .ZVAL_STRING, pointer_null := false },
        .indeterminate zval_junk_zero],
      stack_size := 4, stack_top := 2,
      locals := List.replicate 128 (.int_val 5),
      globals := List.replicate 256 (.bool_val true),
      pc := some ⟨0, 0⟩, running := true,
      error_msg := some "Unimplemented opcode" }
    (List.length_replicate 128 _) (List.length_replicate 256 _) (by decide)
    (by
      intro s hs
      simp only [List.take, List.mem_cons, List.mem_singleton, List.not_mem_nil, or_false] at hs
      rcases hs with hs | hs <;> subst hs <;> rfl)

/-! ## Lemmas on the lexer -/

theorem compiler_malloc_granted (m : AllocLog) (hg : all_granted m = true) :
    compiler_malloc m = some (malloc m).2 ∧ all_granted (malloc m).2 = true :=
  ⟨compiler_malloc_of_granted m hg, (malloc_of_granted m hg).2⟩

theorem compiler_realloc_granted (size : Nat) (m : AllocLog) (hg : all_granted m = true) :
    compiler_realloc size m = some (true, (malloc m).2) := by
  obtain ⟨h1, _⟩ := malloc_of_granted m hg
  unfold compiler_realloc
  rcases hmal : malloc m with ⟨ok, m1⟩
  rw [hmal] at h1
  simp only at h1
  subst h1
  rfl

theorem scan_while_shape (p : UInt8 → Bool) (fuel : Nat) (ctx : compiler_context_t) :
    ∃ k : Nat, scan_while p fuel ctx
      = { ctx with position := ctx.position + k, column := ctx.column + k } := by
  induction fuel generalizing ctx with
  | zero => exact ⟨0, by simp [scan_while]⟩
  | succ n ih =>
    rw [scan_while]
    split
    · obtain ⟨k, hk⟩ := ih { ctx with position := ctx.position + 1, column := ctx.column + 1 }
      refine ⟨k + 1, ?_⟩
      rw [hk]
      simp only [Nat.cast_add, Nat.cast_one, compiler_context_t.mk.injEq, true_and, and_true]
      constructor
      · omega
      · omega
    · exact ⟨0, by simp⟩

theorem scan_while_run (p : UInt8 → Bool) (k : Nat) :
    ∀ (fuel : Nat) (ctx : compiler_context_t), k ≤ fuel →
      ctx.position + k ≤ ctx.source_len →
      (∀ i, i < k → p (source_at ctx (ctx.position + i)) = true) →
      (ctx.position + k < ctx.source_len → p (source_at ctx (ctx.position + k)) = false) →
      scan_while p fuel ctx
        = { ctx with position := ctx.position + k, column := ctx.column + k } := by
  induction k with
  | zero =>
    intro fuel ctx _ _ _ hstop
    cases fuel with
    | zero => simp [scan_while]
    | succ n =>
      rw [scan_while]
      have hn : ¬ (ctx.position < ctx.source_len ∧ p (source_at ctx ctx.position) = true) := by
        intro hc
        have := hstop (by simpa using hc.1)
        simp only [Nat.add_zero] at this
        rw [this] at hc
        exact absurd hc.2 (by simp)
      simp [hn]
  | succ k ih =>
    intro fuel ctx hfuel hlen hall hstop
    cases fuel with
    | zero => omega
    | succ n =>
      rw [scan_while]
      have hc : ctx.position < ctx.source_len ∧ p (source_at ctx ctx.position) = true :=
        ⟨by omega, by simpa using hall 0 (by omega)⟩
      simp only [hc, and_self, if_true]
      rw [ih n { ctx with position := ctx.position + 1, column := ctx.column + 1 } (by omega)
        (by simp only; omega)
        (by
          intro i hi
          have := hall (i + 1) (by omega)
          simpa [source_at, Nat.add_assoc, Nat.add_comm 1 i] using this)
        (by
          intro hlt
          have := hstop (by simp only at hlt; omega)
          simpa [source_at, Nat.add_assoc, Nat.add_comm 1 k] using this)]
      simp only [Nat.cast_add, Nat.cast_one, compiler_context_t.mk.injEq, true_and, and_true]
      constructor
      · omega
      · omega

theorem cursor_moved_refl (ctx : compiler_context_t) : cursor_moved ctx ctx :=
  ⟨rfl, Nat.le_refl _⟩

theorem cursor_moved_trans (a b c : compiler_context_t) (h1 : cursor_moved a b)
    (h2 : cursor_moved b c) : cursor_moved a c := by
  refine ⟨?_, Nat.le_trans h1.2 h2.2⟩
  have e1 := h1.1
  have e2 := h2.1
  rw [e2, e1]

theorem cursor_moved_of_eq (ctx ctx1 : compiler_context_t) (position : Nat) (line column : Int)
    (h : ctx1 = { ctx with position := position, line := line, column := column })
    (hle : ctx.position ≤ position) : cursor_moved ctx ctx1 := by
  subst h
  exact ⟨rfl, hle⟩

theorem cursor_moved_continues (ctx ctx1 : compiler_context_t) (h : cursor_moved ctx ctx1) :
    lex_continues ctx ctx1 := by
  have e := h.1
  refine ⟨by rw [e], by rw [e], [], ?_, ?_, ?_⟩
  · rw [e]; simp
  · rw [e]; simp
  · intro t ht; simp at ht

theorem lex_continues_refl (ctx : compiler_context_t) : lex_continues ctx ctx :=
  ⟨rfl, rfl, [], by simp, by simp, by simp⟩

theorem lex_continues_trans (a b c : compiler_context_t) (h1 : lex_continues a b)
    (h2 : lex_continues b c) : lex_continues a c := by
  obtain ⟨s1, l1, x1, t1, n1, e1⟩ := h1
  obtain ⟨s2, l2, x2, t2, n2, e2⟩ := h2
  refine ⟨by rw [s2, s1], by rw [l2, l1], x1 ++ x2, ?_, ?_, ?_⟩
  · rw [t2, t1, List.append_assoc]
  · rw [n2, n1, List.length_append]; omega
  · intro t ht
    rcases List.mem_append.mp ht with h | h
    · exact e1 t h
    · exact e2 t h

theorem scan_while_moved (p : UInt8 → Bool) (fuel : Nat) (ctx : compiler_context_t) :
    cursor_moved ctx (scan_while p fuel ctx) := by
  obtain ⟨k, hk⟩ := scan_while_shape p fuel ctx
  rw [hk]
  exact ⟨rfl, by simp⟩

theorem skip_whitespace_loop_moved (fuel : Nat) (ctx : compiler_context_t) :
    cursor_moved ctx (skip_whitespace_loop fuel ctx) := by
  induction fuel generalizing ctx with
  | zero => exact cursor_moved_refl ctx
  | succ n ih =>
    rw [skip_whitespace_loop]
    split
    · simp only
      split
      · exact cursor_moved_trans _ _ _ (cursor_moved_of_eq _ _ _ _ _ rfl (by simp)) (ih _)
      · split
        · exact cursor_moved_trans _ _ _ (cursor_moved_of_eq _ _ _ _ _ rfl (by simp)) (ih _)
        · split
          · refine cursor_moved_trans _ _ _ (cursor_moved_of_eq _ _ _ _ _ rfl ?_) (ih _)
            split <;> omega
          · exact cursor_moved_refl ctx
    · exact cursor_moved_refl ctx

theorem skip_whitespace_moved (ctx : compiler_context_t) :
    cursor_moved ctx (skip_whitespace ctx) :=
  skip_whitespace_loop_moved _ ctx

theorem skip_block_comment_loop_moved (fuel : Nat) (ctx : compiler_context_t) :
    cursor_moved ctx (skip_block_comment_loop fuel ctx) := by
  induction fuel generalizing ctx with
  | zero => exact cursor_moved_refl ctx
  | succ n ih =>
    rw [skip_block_comment_loop]
    split
    · split
      · exact cursor_moved_of_eq _ _ _ _ _ rfl (by simp)
      · split
        · exact cursor_moved_trans _ _ _ (cursor_moved_of_eq _ _ _ _ _ rfl (by simp)) (ih _)
        · exact cursor_moved_trans _ _ _ (cursor_moved_of_eq _ _ _ _ _ rfl (by simp)) (ih _)
    · exact cursor_moved_refl ctx

theorem skip_comment_moved (ctx : compiler_context_t) : cursor_moved ctx (skip_comment ctx) := by
  unfold skip_comment
  split
  · simp only
    split
    · exact cursor_moved_trans _ _ _ (cursor_moved_of_eq _ _ _ _ _ rfl (by simp))
        (scan_while_moved _ _ _)
    · split
      · exact cursor_moved_trans _ _ _
          (cursor_moved_of_eq _ _ (ctx.position + 1 + 1) ctx.line (ctx.column + 1 + 1) rfl
            (by omega))
          (skip_block_comment_loop_moved _ _)
      · exact cursor_moved_of_eq _ _ _ _ _ rfl (by simp)
  · exact cursor_moved_refl ctx

theorem read_string_loop_moved (fuel : Nat) (ctx : compiler_context_t) :
    cursor_moved ctx (read_string_loop fuel ctx) := by
  induction fuel generalizing ctx with
  | zero => exact cursor_moved_refl ctx
  | succ n ih =>
    rw [read_string_loop]
    split
    · refine cursor_moved_trans _ _ _ ?_ (ih _)
      split <;> split <;> exact cursor_moved_of_eq _ _ _ _ _ rfl (by simp only; omega)
    · exact cursor_moved_refl ctx

theorem add_token_shape (ctx ctx1 : compiler_context_t) (type : token_type_t)
    (value : Option (List UInt8)) (value_len : Nat) (m m1 : AllocLog)
    (h : add_token ctx type value value_len m = some (ctx1, m1)) :
    ∃ (tok : token_t) (cap : Nat), tok.type = type ∧ tok.line = ctx.line
      ∧ tok.column = ctx.column
      ∧ ctx1 = { ctx with tokens := ctx.tokens ++ [tok], token_count := ctx.token_count + 1,
                          token_capacity := cap } := by
  have hstore : ∀ (cap : Nat) (mm : AllocLog),
      (if value.isSome = true ∧ value_len > 0 then
        match compiler_malloc mm with
        | none => none
        | some m2 =>
          some ({ ctx with
                  tokens := ctx.tokens ++ [{ type := type,
                                             value := value.map fun bytes => bytes.take value_len,
                                             value_len := value_len, line := ctx.line,
                                             column := ctx.column }],
                  token_count := ctx.token_count + 1, token_capacity := cap }, m2)
      else
        (some ({ ctx with
                tokens := ctx.tokens ++ [{ type := type, value := none, value_len := 0,
                                           line := ctx.line, column := ctx.column }],
                token_count := ctx.token_count + 1, token_capacity := cap }, mm) :
          Option (compiler_context_t × AllocLog))) = some (ctx1, m1) →
      ∃ (tok : token_t) (cap : Nat), tok.type = type ∧ tok.line = ctx.line
        ∧ tok.column = ctx.column
        ∧ ctx1 = { ctx with tokens := ctx.tokens ++ [tok],
                            token_count := ctx.token_count + 1, token_capacity := cap } := by
    intro cap mm hs
    split at hs
    · split at hs
      · exact absurd hs (by simp)
      · simp only [Option.some.injEq, Prod.mk.injEq] at hs
        exact ⟨⟨type, value.map fun bytes => bytes.take value_len, value_len, ctx.line,
          ctx.column⟩, cap, rfl, rfl, rfl, hs.1.symm⟩
    · simp only [Option.some.injEq, Prod.mk.injEq] at hs
      exact ⟨⟨type, none, 0, ctx.line, ctx.column⟩, cap, rfl, rfl, rfl, hs.1.symm⟩
  unfold add_token at h
  simp only at h
  split at h
  · split at h
    · exact absurd h (by simp)
    · split at h
      · exact hstore _ _ h
      · exact absurd h (by simp)
  · exact hstore ctx.token_capacity m h

theorem add_token_continues (ctx ctx1 : compiler_context_t) (type : token_type_t)
    (value : Option (List UInt8)) (value_len : Nat) (m m1 : AllocLog)
    (h : add_token ctx type value value_len m = some (ctx1, m1))
    (hne : type ≠ .TOKEN_EOF) :
    lex_continues ctx ctx1 ∧ ctx1.position = ctx.position := by
  obtain ⟨tok, cap, ht, _, _, e⟩ := add_token_shape ctx ctx1 type value value_len m m1 h
  subst e
  refine ⟨⟨rfl, rfl, [tok], rfl, rfl, ?_⟩, rfl⟩
  intro t hmem
  simp only [List.mem_singleton] at hmem
  rw [hmem, ht]
  exact hne

theorem add_token_granted (ctx : compiler_context_t) (type : token_type_t)
    (value : Option (List UInt8)) (value_len : Nat) (m : AllocLog)
    (hg : all_granted m = true) (hcap : 0 < ctx.token_capacity)
    (hcount : ctx.token_count ≤ ctx.token_capacity) :
    ∃ (cap : Nat) (m1 : AllocLog),
      add_token ctx type value value_len m
        = some ({ ctx with
                  tokens := ctx.tokens ++
                    [if value.isSome = true ∧ value_len > 0 then
                      { type := type, value := value.map fun bytes => bytes.take value_len,
                        value_len := value_len, line := ctx.line, column := ctx.column }
                     else { type := type, value := none, value_len := 0, line := ctx.line,
                            column := ctx.column }],
                  token_count := ctx.token_count + 1, token_capacity := cap }, m1)
      ∧ all_granted m1 = true ∧ 0 < cap ∧ ctx.token_count + 1 ≤ cap := by
  unfold add_token
  simp only
  by_cases hfull : ctx.token_count ≥ ctx.token_capacity
  · have hlt : ctx.token_count < ctx.token_capacity * 2 := by omega
    have hg1 := (malloc_of_granted m hg).2
    simp only [hfull, if_true, compiler_realloc_granted _ m hg, hlt]
    by_cases hv : value.isSome = true ∧ value_len > 0
    · simp only [hv, and_self, if_true, (compiler_malloc_granted _ hg1).1]
      exact ⟨_, _, rfl, (compiler_malloc_granted _ hg1).2, by omega, by omega⟩
    · simp only [hv, if_false]
      exact ⟨_, _, rfl, hg1, by omega, by omega⟩
  · simp only [hfull, if_false]
    by_cases hv : value.isSome = true ∧ value_len > 0
    · simp only [hv, and_self, if_true, (compiler_malloc_granted _ hg).1]
      refine ⟨ctx.token_capacity, _, rfl, (compiler_malloc_granted _ hg).2, hcap, by omega⟩
    · simp only [hv, if_false]
      exact ⟨ctx.token_capacity, _, rfl, hg, hcap, by omega⟩

theorem cursor_moved_source (ctx ctx1 : compiler_context_t) (h : cursor_moved ctx ctx1) :
    ctx1.source = ctx.source ∧ ctx1.source_len = ctx.source_len
      ∧ ctx1.tokens = ctx.tokens ∧ ctx1.token_count = ctx.token_count
      ∧ ctx1.token_capacity = ctx.token_capacity ∧ ctx1.error_msg = ctx.error_msg
      ∧ ctx1.has_error = ctx.has_error := by
  have e := h.1
  refine ⟨?_, ?_, ?_, ?_, ?_, ?_, ?_⟩ <;> rw [e]

theorem scan_while_progress (p : UInt8 → Bool) (fuel : Nat) (ctx : compiler_context_t)
    (hpos : ctx.position < ctx.source_len) (hp : p (source_at ctx ctx.position) = true)
    (hfuel : 0 < fuel) : ctx.position < (scan_while p fuel ctx).position := by
  cases fuel with
  | zero => omega
  | succ n =>
    rw [scan_while]
    simp only [hpos, hp, and_self, if_true]
    have h := (scan_while_moved p n
      { ctx with position := ctx.position + 1, column := ctx.column + 1 }).2
    simp only at h
    omega

theorem compiler_set_error_shape (ctx ctx1 : compiler_context_t) (text : String)
    (m m1 : AllocLog) (h : compiler_set_error ctx text m = some (ctx1, m1)) :
    ctx1 = { ctx with error_msg := ctx1.error_msg, has_error := ctx1.has_error }
      ∧ (text.length > 0 → ctx1.error_msg = some text ∧ ctx1.has_error = true) := by
  unfold compiler_set_error at h
  split at h
  · split at h
    · exact absurd h (by simp)
    · simp only [Option.some.injEq, Prod.mk.injEq] at h
      rw [← h.1]
      exact ⟨rfl, fun _ => ⟨rfl, rfl⟩⟩
  · rename_i hlen
    simp only [Option.some.injEq, Prod.mk.injEq] at h
    rw [← h.1]
    exact ⟨rfl, fun hl => absurd hl hlen⟩

theorem compiler_set_error_continues (ctx ctx1 : compiler_context_t) (text : String)
    (m m1 : AllocLog) (h : compiler_set_error ctx text m = some (ctx1, m1)) :
    lex_continues ctx ctx1 ∧ ctx1.position = ctx.position := by
  have e := (compiler_set_error_shape ctx ctx1 text m m1 h).1
  refine ⟨⟨by rw [e], by rw [e], [], ?_, ?_, by simp⟩, by rw [e]⟩
  · rw [e]; simp
  · rw [e]; simp

theorem read_identifier_continues (ctx ctx1 : compiler_context_t) (m m1 : AllocLog)
    (t : token_type_t) (h : read_identifier_or_keyword ctx m = some (t, ctx1, m1)) :
    lex_continues ctx ctx1
      ∧ (ctx.position < ctx.source_len →
          (isalpha (source_at ctx ctx.position) = true ∨ source_at ctx ctx.position = 95) →
          ctx.position < ctx1.position) := by
  have hmv := scan_while_moved (fun c => isalnum c || c = 95)
    (ctx.source_len - ctx.position) ctx
  have hprog : ctx.position < ctx.source_len →
      (isalpha (source_at ctx ctx.position) = true ∨ source_at ctx ctx.position = 95) →
      ctx.position < (scan_while (fun c => isalnum c || c = 95)
        (ctx.source_len - ctx.position) ctx).position := by
    intro hpos hc
    apply scan_while_progress _ _ _ hpos _ (by omega)
    rcases hc with hc | hc
    · simp [isalnum, hc]
    · simp [hc]
  unfold read_identifier_or_keyword at h
  simp only at h
  split at h
  · exact absurd h (by simp)
  · split at h
    · simp only [Option.some.injEq, Prod.mk.injEq] at h
      rw [← h.2.1]
      exact ⟨cursor_moved_continues _ _ hmv, hprog⟩
    · split at h
      · exact absurd h (by simp)
      · rename_i ctx2 m2 hadd
        simp only [Option.some.injEq, Prod.mk.injEq] at h
        rw [← h.2.1]
        obtain ⟨hc, hp⟩ := add_token_continues _ _ _ _ _ _ _ hadd (by decide)
        refine ⟨lex_continues_trans _ _ _ (cursor_moved_continues _ _ hmv) hc, ?_⟩
        intro hpos hch
        rw [hp]
        exact hprog hpos hch

theorem read_number_continues (ctx ctx1 : compiler_context_t) (m m1 : AllocLog)
    (h : read_number ctx m = some (ctx1, m1)) :
    lex_continues ctx ctx1
      ∧ (ctx.position < ctx.source_len → isdigit (source_at ctx ctx.position) = true →
          ctx.position < ctx1.position) := by
  have hmv1 := scan_while_moved isdigit (ctx.source_len - ctx.position) ctx
  have hmv : cursor_moved ctx
      (if (decide ((scan_while isdigit (ctx.source_len - ctx.position) ctx).position
            < (scan_while isdigit (ctx.source_len - ctx.position) ctx).source_len
          ∧ source_at (scan_while isdigit (ctx.source_len - ctx.position) ctx)
            (scan_while isdigit (ctx.source_len - ctx.position) ctx).position = 46)) = true
       then
        scan_while isdigit
          ((scan_while isdigit (ctx.source_len - ctx.position) ctx).source_len
            - ((scan_while isdigit (ctx.source_len - ctx.position) ctx).position + 1))
          { scan_while isdigit (ctx.source_len - ctx.position) ctx with
            position := (scan_while isdigit (ctx.source_len - ctx.position) ctx).position + 1,
            column := (scan_while isdigit (ctx.source_len - ctx.position) ctx).column + 1 }
       else scan_while isdigit (ctx.source_len - ctx.position) ctx) := by
    split
    · exact cursor_moved_trans _ _ _ hmv1
        (cursor_moved_trans _ _ _ (cursor_moved_of_eq _ _ _ _ _ rfl (by simp))
          (scan_while_moved _ _ _))
    · exact hmv1
  have hprog : ctx.position < ctx.source_len → isdigit (source_at ctx ctx.position) = true →
      ctx.position < (scan_while isdigit (ctx.source_len - ctx.position) ctx).position := by
    intro hpos hc
    exact scan_while_progress _ _ _ hpos hc (by omega)
  have hle : ∀ c2 : compiler_context_t,
      cursor_moved (scan_while isdigit (ctx.source_len - ctx.position) ctx) c2 →
      ctx.position < ctx.source_len → isdigit (source_at ctx ctx.position) = true →
      ctx.position < c2.position := by
    intro c2 h2 hpos hc
    have := hprog hpos hc
    have := h2.2
    omega
  unfold read_number at h
  simp only at h
  split at h
  · exact absurd h (by simp)
  · split at h
    · rename_i hfl
      obtain ⟨hc, hp⟩ := add_token_continues _ _ _ _ _ _ _ h (by decide)
      simp only [hfl, if_true] at hmv hc hp
      refine ⟨lex_continues_trans _ _ _ (cursor_moved_continues _ _ hmv) hc, ?_⟩
      intro hpos hch
      rw [hp]
      exact hle _ (cursor_moved_trans _ _ _ (cursor_moved_of_eq _ _ _ _ _ rfl (by simp))
          (scan_while_moved _ _ _)) hpos hch
    · rename_i hfl
      obtain ⟨hc, hp⟩ := add_token_continues _ _ _ _ _ _ _ h (by decide)
      simp only [hfl] at hmv hc hp
      refine ⟨lex_continues_trans _ _ _ (cursor_moved_continues _ _ hmv) hc, ?_⟩
      intro hpos hch
      rw [hp]
      exact hprog hpos hch

theorem read_string_continues (ctx ctx1 : compiler_context_t) (m m1 : AllocLog)
    (h : read_string ctx m = some (ctx1, m1)) :
    lex_continues ctx ctx1 ∧ ctx.position < ctx1.position := by
  have hmv : cursor_moved ctx
      (read_string_loop (ctx.source_len - (ctx.position + 1))
        { ctx with position := ctx.position + 1, column := ctx.column + 1 }) :=
    cursor_moved_trans _ _ _ (cursor_moved_of_eq _ _ _ _ _ rfl (by simp))
      (read_string_loop_moved _ _)
  have hlt : ctx.position < (read_string_loop (ctx.source_len - (ctx.position + 1))
        { ctx with position := ctx.position + 1, column := ctx.column + 1 }).position := by
    have := (read_string_loop_moved (ctx.source_len - (ctx.position + 1))
        { ctx with position := ctx.position + 1, column := ctx.column + 1 }).2
    simp only at this
    omega
  unfold read_string at h
  simp only at h
  split at h
  · obtain ⟨hc, hp⟩ := compiler_set_error_continues _ _ _ _ _ h
    exact ⟨lex_continues_trans _ _ _ (cursor_moved_continues _ _ hmv) hc, by rw [hp]; exact hlt⟩
  · split at h
    · exact absurd h (by simp)
    · split at h
      · exact absurd h (by simp)
      · rename_i ctx2 m2 hadd
        simp only [Option.some.injEq, Prod.mk.injEq] at h
        obtain ⟨hc, hp⟩ := add_token_continues _ _ _ _ _ _ _ hadd (by decide)
        rw [← h.1]
        refine ⟨lex_continues_trans _ _ _ (cursor_moved_continues _ _ hmv)
          (lex_continues_trans _ _ _ hc
            (cursor_moved_continues _ _ (cursor_moved_of_eq _ _ _ _ _ rfl (by simp)))), ?_⟩
        simp only [hp]
        omega

theorem lex_emit_continues (ctx ctx1 : compiler_context_t) (type : token_type_t) (n : Nat)
    (m m1 : AllocLog) (hne : type ≠ .TOKEN_EOF) (hn : 0 < n)
    (h : lex_emit ctx type n m = .next ctx1 m1) :
    lex_continues ctx ctx1 ∧ ctx.position < ctx1.position := by
  unfold lex_emit at h
  split at h
  · exact absurd h (by simp)
  · rename_i ctx2 m2 hadd
    simp only [lex_step_t.next.injEq] at h
    obtain ⟨hc, hp⟩ := add_token_continues _ _ _ _ _ _ _ hadd hne
    rw [← h.1]
    refine ⟨lex_continues_trans _ _ _ hc
      (cursor_moved_continues _ _ (cursor_moved_of_eq _ _ _ _ _ rfl (by simp))), ?_⟩
    simp only [hp]
    omega

theorem lex_emit_not_failed (ctx ctx1 : compiler_context_t) (type : token_type_t) (n : Nat)
    (m m1 : AllocLog) : lex_emit ctx type n m ≠ .failed ctx1 m1 := by
  unfold lex_emit
  split <;> simp

theorem lex_fail_not_next (ctx ctx1 : compiler_context_t) (text : String)
    (m m1 : AllocLog) : lex_fail ctx text m ≠ .next ctx1 m1 := by
  unfold lex_fail
  split <;> simp

theorem lex_fail_shape (ctx ctx1 : compiler_context_t) (text : String)
    (m m1 : AllocLog) (hlen : text.length > 0) (h : lex_fail ctx text m = .failed ctx1 m1) :
    ctx1 = { ctx with error_msg := some text, has_error := true } := by
  unfold lex_fail at h
  split at h
  · exact absurd h (by simp)
  · rename_i ctx2 m2 hset
    simp only [lex_step_t.failed.injEq] at h
    rw [← h.1]
    obtain ⟨e, hm⟩ := compiler_set_error_shape _ _ _ _ _ hset
    obtain ⟨h1, h2⟩ := hm hlen
    rw [e, h1, h2]

theorem format_unexpected_length (c : UInt8) (line column : Int) :
    (format_unexpected c line column).length > 0 := by
  unfold format_unexpected
  simp only [String.length_append]
  have : "Unexpected character ".length = 21 := by decide
  omega

theorem format_unterminated_length (line column : Int) :
    (format_unterminated line column).length > 0 := by
  unfold format_unterminated
  simp only [String.length_append]
  have : "Unterminated string at line ".length = 28 := by decide
  omega

theorem operator_table_types :
    ∀ e ∈ operator_table, (∀ f ∈ e.2.1, f.2 ≠ token_type_t.TOKEN_EOF)
      ∧ ∀ t, e.2.2 = some t → t ≠ token_type_t.TOKEN_EOF := by
  decide

theorem lex_operator_next (ctx ctx1 : compiler_context_t) (c : UInt8) (m m1 : AllocLog)
    (h : lex_operator ctx c m = .next ctx1 m1) :
    lex_continues ctx ctx1 ∧ ctx.position < ctx1.position := by
  unfold lex_operator at h
  split at h
  · exact absurd h (lex_fail_not_next _ _ _ _ _)
  · rename_i c1 followers single hfind
    have hty := operator_table_types _ (List.mem_of_find?_eq_some hfind)
    split at h
    · rename_i c2 type hf
      exact lex_emit_continues _ _ _ _ _ _
        (hty.1 _ (List.mem_of_find?_eq_some hf)) (by decide) h
    · split at h
      · rename_i type
        exact lex_emit_continues _ _ _ _ _ _ (hty.2 _ rfl) (by decide) h
      · exact absurd h (lex_fail_not_next _ _ _ _ _)

theorem lex_operator_failed (ctx ctx1 : compiler_context_t) (c : UInt8) (m m1 : AllocLog)
    (h : lex_operator ctx c m = .failed ctx1 m1) :
    ctx1 = { ctx with error_msg := some (format_unexpected c ctx.line ctx.column),
                      has_error := true } := by
  unfold lex_operator at h
  split at h
  · exact lex_fail_shape _ _ _ _ _ (format_unexpected_length _ _ _) h
  · split at h
    · exact absurd h (lex_emit_not_failed _ _ _ _ _ _)
    · split at h
      · exact absurd h (lex_emit_not_failed _ _ _ _ _ _)
      · exact lex_fail_shape _ _ _ _ _ (format_unexpected_length _ _ _) h

theorem lex_finish_shape (ctx ctx1 : compiler_context_t) (m m1 : AllocLog) (s : Int)
    (h : lex_finish ctx m = .returned s ctx1 m1) :
    s = 0 ∧ ∃ (tok : token_t) (cap : Nat), tok.type = .TOKEN_EOF ∧ tok.line = ctx.line
      ∧ tok.column = ctx.column
      ∧ ctx1 = { ctx with tokens := ctx.tokens ++ [tok], token_count := ctx.token_count + 1,
                          token_capacity := cap } := by
  unfold lex_finish at h
  split at h
  · exact absurd h (by simp)
  · rename_i ctx2 m2 hadd
    simp only [lex_outcome_t.returned.injEq] at h
    rw [← h.2.1]
    exact ⟨h.1.symm, add_token_shape _ _ _ _ _ _ _ hadd⟩

/-- What a call of the loop of `compiler_lex` that returns leaves behind: either
status 0, with `TOKEN_EOF` added behind tokens that are not `TOKEN_EOF` and the
cursor at or behind the end of the source; or status -1, with the byte under the
cursor reported as unexpected. -/
theorem lex_loop_returned (fuel : Nat) : ∀ (ctx ctx1 : compiler_context_t) (m m1 : AllocLog)
    (s : Int), lex_loop fuel ctx m = .returned s ctx1 m1 →
    ∃ mid : compiler_context_t, lex_continues ctx mid
      ∧ ((s = 0 ∧ mid.source_len ≤ mid.position
          ∧ ∃ (tok : token_t) (cap : Nat), tok.type = .TOKEN_EOF ∧ tok.line = mid.line
            ∧ tok.column = mid.column
            ∧ ctx1 = { mid with tokens := mid.tokens ++ [tok],
                                token_count := mid.token_count + 1, token_capacity := cap })
        ∨ (s = -1 ∧ mid.position < mid.source_len
          ∧ ctx1 = { mid with
                     error_msg := some (format_unexpected (source_at mid mid.position)
                       mid.line mid.column),
                     has_error := true })) := by
  induction fuel with
  | zero =>
    intro ctx ctx1 m m1 s h
    rw [lex_loop.eq_def] at h
    simp only at h
    split at h
    · exact absurd h (by simp)
    · rename_i hpos
      obtain ⟨hs, hx⟩ := lex_finish_shape _ _ _ _ _ h
      exact ⟨ctx, lex_continues_refl ctx, Or.inl ⟨hs, by omega, hx⟩⟩
  | succ n ih =>
    intro ctx ctx1 m m1 s h
    rw [lex_loop.eq_def] at h
    simp only at h
    have hskip : lex_continues ctx (skip_comment (skip_whitespace ctx)) :=
      cursor_moved_continues _ _
        (cursor_moved_trans _ _ _ (skip_whitespace_moved ctx) (skip_comment_moved _))
    have hnext : ∀ (ctx2 : compiler_context_t) (m2 : AllocLog),
        lex_continues (skip_comment (skip_whitespace ctx)) ctx2 →
        lex_loop n ctx2 m2 = .returned s ctx1 m1 →
        ∃ mid : compiler_context_t, lex_continues ctx mid
          ∧ ((s = 0 ∧ mid.source_len ≤ mid.position
              ∧ ∃ (tok : token_t) (cap : Nat), tok.type = .TOKEN_EOF ∧ tok.line = mid.line
                ∧ tok.column = mid.column
                ∧ ctx1 = { mid with tokens := mid.tokens ++ [tok],
                                    token_count := mid.token_count + 1, token_capacity := cap })
            ∨ (s = -1 ∧ mid.position < mid.source_len
              ∧ ctx1 = { mid with
                         error_msg := some (format_unexpected (source_at mid mid.position)
                           mid.line mid.column),
                         has_error := true })) := by
      intro ctx2 m2 hc hl
      obtain ⟨mid, hmid, hres⟩ := ih ctx2 ctx1 m2 m1 s hl
      exact ⟨mid, lex_continues_trans _ _ _ hskip (lex_continues_trans _ _ _ hc hmid), hres⟩
    split at h
    · split at h
      · rename_i hend
        obtain ⟨hs, hx⟩ := lex_finish_shape _ _ _ _ _ h
        exact ⟨_, hskip, Or.inl ⟨hs, hend, hx⟩⟩
      · rename_i hend
        split at h
        · split at h
          · exact absurd h (by simp)
          · rename_i t ctx2 m2 hr
            exact hnext ctx2 m2 (read_identifier_continues _ _ _ _ _ hr).1 h
        · split at h
          · split at h
            · exact absurd h (by simp)
            · rename_i ctx2 m2 hr
              exact hnext ctx2 m2 (read_number_continues _ _ _ _ hr).1 h
          · split at h
            · split at h
              · exact absurd h (by simp)
              · rename_i ctx2 m2 hr
                exact hnext ctx2 m2 (read_string_continues _ _ _ _ hr).1 h
            · split at h
              · rename_i ctx2 m2 hr
                exact hnext ctx2 m2 (lex_operator_next _ _ _ _ _ hr).1 h
              · rename_i ctx2 m2 hr
                simp only [lex_outcome_t.returned.injEq] at h
                have e := lex_operator_failed _ _ _ _ _ hr
                rw [← h.2.1, e]
                exact ⟨_, hskip, Or.inr ⟨h.1.symm, by omega, rfl⟩⟩
              · exact absurd h (by simp)
    · rename_i hpos
      obtain ⟨hs, hx⟩ := lex_finish_shape _ _ _ _ _ h
      exact ⟨ctx, lex_continues_refl ctx, Or.inl ⟨hs, by omega, hx⟩⟩

theorem lex_loop_total (fuel : Nat) : ∀ (ctx : compiler_context_t) (m : AllocLog),
    ctx.source_len - ctx.position ≤ fuel → lex_loop fuel ctx m ≠ .out_of_fuel := by
  induction fuel with
  | zero =>
    intro ctx m hf
    rw [lex_loop.eq_def]
    simp only
    have hn : ¬ ctx.position < ctx.source_len := by omega
    simp only [hn, if_false]
    unfold lex_finish
    split <;> simp
  | succ n ih =>
    intro ctx m hf
    have hmv := cursor_moved_trans _ _ _ (skip_whitespace_moved ctx)
      (skip_comment_moved (skip_whitespace ctx))
    have hlen := (cursor_moved_source _ _ hmv).2.1
    have hle := hmv.2
    have hfin : ∀ (c : compiler_context_t) (mm : AllocLog),
        lex_finish c mm ≠ .out_of_fuel := by
      intro c mm
      unfold lex_finish
      split <;> simp
    have hnext : ∀ (ctx2 : compiler_context_t) (m2 : AllocLog),
        lex_continues (skip_comment (skip_whitespace ctx)) ctx2 →
        (skip_comment (skip_whitespace ctx)).position < ctx2.position →
        lex_loop n ctx2 m2 ≠ .out_of_fuel := by
      intro ctx2 m2 hc hp
      apply ih
      have := hc.2.1
      omega
    rw [lex_loop.eq_def]
    simp only
    split
    · split
      · exact hfin _ _
      · rename_i hend
        split
        · rename_i hch
          split
          · simp
          · rename_i t ctx2 m2 hr
            obtain ⟨h1, h2⟩ := read_identifier_continues _ _ _ _ _ hr
            exact hnext ctx2 m2 h1 (h2 (by omega) (by simpa using hch))
        · split
          · rename_i hch
            split
            · simp
            · rename_i ctx2 m2 hr
              obtain ⟨h1, h2⟩ := read_number_continues _ _ _ _ hr
              exact hnext ctx2 m2 h1 (h2 (by omega) hch)
          · split
            · split
              · simp
              · rename_i ctx2 m2 hr
                obtain ⟨h1, h2⟩ := read_string_continues _ _ _ _ hr
                exact hnext ctx2 m2 h1 h2
            · split
              · rename_i ctx2 m2 hr
                obtain ⟨h1, h2⟩ := lex_operator_next _ _ _ _ _ hr
                exact hnext ctx2 m2 h1 h2
              · simp
              · simp
    · exact hfin _ _

/-- The bound that `compiler_lex` gives to the model of its loop is never used up. -/
theorem compiler_lex_total (ctx : compiler_context_t) (m : AllocLog) :
    compiler_lex ctx m ≠ .out_of_fuel := by
  unfold compiler_lex
  apply lex_loop_total
  simp

theorem skip_whitespace_stay (ctx : compiler_context_t)
    (h : ctx.position < ctx.source_len → source_at ctx ctx.position ≠ 32
      ∧ source_at ctx ctx.position ≠ 9 ∧ source_at ctx ctx.position ≠ 10
      ∧ source_at ctx ctx.position ≠ 13) :
    skip_whitespace ctx = ctx := by
  unfold skip_whitespace
  cases hf : ctx.source_len - ctx.position with
  | zero => rfl
  | succ n =>
    obtain ⟨h1, h2, h3, h4⟩ := h (by omega)
    rw [skip_whitespace_loop]
    simp [h1, h2, h3, h4]

theorem skip_comment_stay (ctx : compiler_context_t)
    (h : ctx.position < ctx.source_len → source_at ctx ctx.position ≠ 47) :
    skip_comment ctx = ctx := by
  unfold skip_comment
  have hn : ¬ (ctx.position < ctx.source_len ∧ source_at ctx ctx.position = 47) :=
    fun hc => h hc.1 hc.2
  simp only [hn, if_false]

theorem isdigit_class (c : UInt8) (h : isdigit c = true) :
    isalpha c = false ∧ c ≠ 95 ∧ c ≠ 34 ∧ c ≠ 32 ∧ c ≠ 9 ∧ c ≠ 10 ∧ c ≠ 13 ∧ c ≠ 47
      ∧ c ≠ 46 ∧ c ≠ 0 := by
  simp only [isdigit, Bool.and_eq_true, decide_eq_true_eq] at h
  refine ⟨?_, ?_, ?_, ?_, ?_, ?_, ?_, ?_, ?_, ?_⟩
  · simp only [isalpha, Bool.or_eq_false_iff, Bool.and_eq_false_iff, decide_eq_false_iff_not]
    omega
  all_goals
    intro hc
    rw [hc] at h
    revert h
    decide

theorem isalpha_class (c : UInt8) (h : isalpha c = true ∨ c = 95) :
    (isalnum c || decide (c = 95)) = true ∧ c ≠ 34 ∧ c ≠ 32 ∧ c ≠ 9 ∧ c ≠ 10 ∧ c ≠ 13
      ∧ c ≠ 47 ∧ c ≠ 0 := by
  refine ⟨?_, ?_, ?_, ?_, ?_, ?_, ?_, ?_⟩
  · rcases h with h | h
    · simp [isalnum, h]
    · simp [h]
  all_goals
    intro hc
    rw [hc] at h
    revert h
    decide

theorem lex_loop_end (fuel : Nat) (ctx : compiler_context_t) (m : AllocLog)
    (h : ctx.source_len ≤ ctx.position) : lex_loop fuel ctx m = lex_finish ctx m := by
  have hn : ¬ ctx.position < ctx.source_len := by omega
  rw [lex_loop.eq_def]
  simp only [hn, if_false]

theorem lex_loop_step_number (n : Nat) (ctx : compiler_context_t) (m : AllocLog)
    (hpos : ctx.position < ctx.source_len) (hd : isdigit (source_at ctx ctx.position) = true) :
    lex_loop (n + 1) ctx m
      = match read_number ctx m with
        | none => .stopped
        | some (ctx2, m2) => lex_loop n ctx2 m2 := by
  obtain ⟨h1, h2, h3, h4, h5, h6, h7, h8, _, _⟩ := isdigit_class _ hd
  have hn : ¬ ctx.position ≥ ctx.source_len := by omega
  rw [lex_loop.eq_def]
  simp only [hpos, if_true, skip_whitespace_stay ctx (fun _ => ⟨h4, h5, h6, h7⟩),
    skip_comment_stay ctx (fun _ => h8), hn, if_false, h1, h2, hd, Bool.false_eq_true,
    or_self]

theorem lex_loop_step_identifier (n : Nat) (ctx : compiler_context_t) (m : AllocLog)
    (hpos : ctx.position < ctx.source_len)
    (hc : isalpha (source_at ctx ctx.position) = true ∨ source_at ctx ctx.position = 95) :
    lex_loop (n + 1) ctx m
      = match read_identifier_or_keyword ctx m with
        | none => .stopped
        | some (_, ctx2, m2) => lex_loop n ctx2 m2 := by
  obtain ⟨_, h3, h4, h5, h6, h7, h8, _⟩ := isalpha_class _ hc
  have hn : ¬ ctx.position ≥ ctx.source_len := by omega
  rw [lex_loop.eq_def]
  simp only [hpos, if_true, skip_whitespace_stay ctx (fun _ => ⟨h4, h5, h6, h7⟩),
    skip_comment_stay ctx (fun _ => h8), hn, if_false, hc]

theorem lex_finish_granted (ctx : compiler_context_t) (m : AllocLog)
    (hg : all_granted m = true) (hcap : 0 < ctx.token_capacity)
    (hcount : ctx.token_count ≤ ctx.token_capacity) :
    ∃ (cap : Nat) (m1 : AllocLog),
      lex_finish ctx m
        = .returned 0
            { ctx with
              tokens := ctx.tokens ++ [⟨.TOKEN_EOF, none, 0, ctx.line, ctx.column⟩],
              token_count := ctx.token_count + 1, token_capacity := cap } m1
      ∧ all_granted m1 = true := by
  obtain ⟨cap, m1, h1, h2, _, _⟩ :=
    add_token_granted ctx .TOKEN_EOF none 0 m hg hcap hcount
  refine ⟨cap, m1, ?_, h2⟩
  unfold lex_finish
  rw [h1]
  simp

theorem source_slice_take (ctx : compiler_context_t) (start len : Nat) :
    (source_slice ctx start len).take len = source_slice ctx start len := by
  unfold source_slice
  rw [List.take_take, Nat.min_self]

theorem read_number_int (ctx : compiler_context_t) (m : AllocLog) (k : Nat)
    (hg : all_granted m = true) (hcap : 0 < ctx.token_capacity)
    (hcount : ctx.token_count ≤ ctx.token_capacity) (hk : 0 < k)
    (hlen : ctx.position + k ≤ ctx.source_len)
    (hdig : ∀ i, i < k → isdigit (source_at ctx (ctx.position + i)) = true)
    (hstop : ctx.position + k < ctx.source_len →
      isdigit (source_at ctx (ctx.position + k)) = false
        ∧ source_at ctx (ctx.position + k) ≠ 46) :
    ∃ (cap : Nat) (m1 : AllocLog),
      read_number ctx m
        = some ({ ctx with
                  position := ctx.position + k, column := ctx.column + k,
                  tokens := ctx.tokens ++
                    [⟨.TOKEN_INT, some (source_slice ctx ctx.position k), k, ctx.line,
                      ctx.column + k⟩],
                  token_count := ctx.token_count + 1, token_capacity := cap }, m1)
      ∧ all_granted m1 = true ∧ 0 < cap ∧ ctx.token_count + 1 ≤ cap := by
  have hscan := scan_while_run isdigit k (ctx.source_len - ctx.position) ctx (by omega) hlen
    hdig (fun hlt => (hstop hlt).1)
  have hnf : ¬ (ctx.position + k < ctx.source_len
      ∧ source_at ctx (ctx.position + k) = 46) := fun hc => (hstop hc.1).2 hc.2
  obtain ⟨hm, hg1⟩ := compiler_malloc_granted m hg
  obtain ⟨cap, m1, h1, h2, h3, h4⟩ := add_token_granted
    { ctx with position := ctx.position + k, column := ctx.column + k } .TOKEN_INT
    (some (source_slice ctx ctx.position k)) k _ hg1 hcap hcount
  refine ⟨cap, m1, ?_, h2, h3, h4⟩
  obtain ⟨src, len, pos, line, col, toks, cnt, tcap, ast, err, has⟩ := ctx
  simp only [source_at, source_slice] at hscan hnf h1 ⊢
  have hdec : decide (pos + k < len ∧ src.getD (pos + k) 0 = 46) = false :=
    decide_eq_false hnf
  simp only [read_number, hscan, source_at, source_slice, hdec, Bool.false_eq_true, if_false,
    hm, Nat.add_sub_cancel_left, h1]
  simp [hk, List.take_take]

theorem read_number_float (ctx : compiler_context_t) (m : AllocLog) (k j : Nat)
    (hg : all_granted m = true) (hcap : 0 < ctx.token_capacity)
    (hcount : ctx.token_count ≤ ctx.token_capacity)
    (hlen : ctx.position + k + 1 + j ≤ ctx.source_len)
    (hdig : ∀ i, i < k → isdigit (source_at ctx (ctx.position + i)) = true)
    (hdot : source_at ctx (ctx.position + k) = 46)
    (hfrac : ∀ i, i < j → isdigit (source_at ctx (ctx.position + k + 1 + i)) = true)
    (hstop : ctx.position + k + 1 + j < ctx.source_len →
      isdigit (source_at ctx (ctx.position + k + 1 + j)) = false) :
    ∃ (cap : Nat) (m1 : AllocLog),
      read_number ctx m
        = some ({ ctx with
                  position := ctx.position + k + 1 + j, column := ctx.column + k + 1 + j,
                  tokens := ctx.tokens ++
                    [⟨.TOKEN_FLOAT, some (source_slice ctx ctx.position (k + 1 + j)), k + 1 + j,
                      ctx.line, ctx.column + k + 1 + j⟩],
                  token_count := ctx.token_count + 1, token_capacity := cap }, m1)
      ∧ all_granted m1 = true ∧ 0 < cap ∧ ctx.token_count + 1 ≤ cap := by
  have hscan := scan_while_run isdigit k (ctx.source_len - ctx.position) ctx (by omega)
    (by omega) hdig
    (fun _ => by
      rw [hdot]
      decide)
  have hscan2 := scan_while_run isdigit j (ctx.source_len - (ctx.position + k + 1))
    { ctx with position := ctx.position + k + 1, column := ctx.column + k + 1 } (by omega)
    (by simp only; omega) hfrac hstop
  have hf : ctx.position + k < ctx.source_len ∧ source_at ctx (ctx.position + k) = 46 :=
    ⟨by omega, hdot⟩
  obtain ⟨hm, hg1⟩ := compiler_malloc_granted m hg
  obtain ⟨cap, m1, h1, h2, h3, h4⟩ := add_token_granted
    { ctx with position := ctx.position + k + 1 + j, column := ctx.column + k + 1 + j }
    .TOKEN_FLOAT (some (source_slice ctx ctx.position (k + 1 + j))) (k + 1 + j) _ hg1 hcap hcount
  refine ⟨cap, m1, ?_, h2, h3, h4⟩
  obtain ⟨src, len, pos, line, col, toks, cnt, tcap, ast, err, has⟩ := ctx
  simp only [source_at, source_slice] at hscan hscan2 hf h1 ⊢
  have hdec : decide (pos + k < len ∧ src.getD (pos + k) 0 = 46) = true :=
    decide_eq_true hf
  have e : pos + k + 1 + j - pos = k + 1 + j := by omega
  simp only [read_number, hscan, source_at, source_slice, hdec, if_true, hscan2, hm, e, h1]
  simp [List.take_take]

theorem read_identifier_word (ctx : compiler_context_t) (m : AllocLog) (k : Nat)
    (hg : all_granted m = true) (hcap : 0 < ctx.token_capacity)
    (hcount : ctx.token_count ≤ ctx.token_capacity) (hk : 0 < k)
    (hlen : ctx.position + k ≤ ctx.source_len)
    (hword : ∀ i, i < k → (isalnum (source_at ctx (ctx.position + i))
      || decide (source_at ctx (ctx.position + i) = 95)) = true)
    (hstop : ctx.position + k < ctx.source_len →
      (isalnum (source_at ctx (ctx.position + k))
        || decide (source_at ctx (ctx.position + k) = 95)) = false)
    (hkw : keyword_lookup (source_slice ctx ctx.position k) = none) :
    ∃ (cap : Nat) (m1 : AllocLog),
      read_identifier_or_keyword ctx m
        = some (.TOKEN_IDENTIFIER,
                { ctx with
                  position := ctx.position + k, column := ctx.column + k,
                  tokens := ctx.tokens ++
                    [⟨.TOKEN_IDENTIFIER, some (source_slice ctx ctx.position k), k, ctx.line,
                      ctx.column + k⟩],
                  token_count := ctx.token_count + 1, token_capacity := cap }, m1)
      ∧ all_granted m1 = true ∧ 0 < cap ∧ ctx.token_count + 1 ≤ cap := by
  have hscan := scan_while_run (fun c => isalnum c || decide (c = 95)) k
    (ctx.source_len - ctx.position) ctx (by omega) hlen hword hstop
  obtain ⟨hm, hg1⟩ := compiler_malloc_granted m hg
  obtain ⟨cap, m1, h1, h2, h3, h4⟩ := add_token_granted
    { ctx with position := ctx.position + k, column := ctx.column + k } .TOKEN_IDENTIFIER
    (some (source_slice ctx ctx.position k)) k _ hg1 hcap hcount
  refine ⟨cap, m1, ?_, h2, h3, h4⟩
  obtain ⟨src, len, pos, line, col, toks, cnt, tcap, ast, err, has⟩ := ctx
  simp only [source_at, source_slice] at hscan hkw h1 ⊢
  simp only [read_identifier_or_keyword, hscan, source_at, source_slice, hm,
    Nat.add_sub_cancel_left, hkw, h1]
  simp [hk, List.take_take]

theorem read_identifier_keyword (ctx : compiler_context_t) (m : AllocLog) (k : Nat)
    (t : token_type_t) (hg : all_granted m = true)
    (hlen : ctx.position + k ≤ ctx.source_len)
    (hword : ∀ i, i < k → (isalnum (source_at ctx (ctx.position + i))
      || decide (source_at ctx (ctx.position + i) = 95)) = true)
    (hstop : ctx.position + k < ctx.source_len →
      (isalnum (source_at ctx (ctx.position + k))
        || decide (source_at ctx (ctx.position + k) = 95)) = false)
    (hkw : keyword_lookup (source_slice ctx ctx.position k) = some t) :
    read_identifier_or_keyword ctx m
      = some (t, { ctx with position := ctx.position + k, column := ctx.column + k },
          (malloc m).2) := by
  have hscan := scan_while_run (fun c => isalnum c || decide (c = 95)) k
    (ctx.source_len - ctx.position) ctx (by omega) hlen hword hstop
  obtain ⟨hm, _⟩ := compiler_malloc_granted m hg
  obtain ⟨src, len, pos, line, col, toks, cnt, tcap, ast, err, has⟩ := ctx
  simp only [source_at, source_slice] at hscan hkw ⊢
  simp only [read_identifier_or_keyword, hscan, source_at, source_slice, hm,
    Nat.add_sub_cancel_left, hkw]

theorem strcmp_eq_zero (x : List UInt8) : ∀ (y : List UInt8), (0 : UInt8) ∉ x →
    (0 : UInt8) ∉ y → strcmp x y = 0 → x = y := by
  induction x with
  | nil =>
    intro y _ hy h
    cases y with
    | nil => rfl
    | cons b t =>
      simp only [strcmp] at h
      have hb : b ≠ 0 := fun e => hy (by simp [e])
      have : b.toNat ≠ 0 := fun e => hb (UInt8.toNat.inj e)
      omega
  | cons a s ih =>
    intro y hx hy h
    have ha : a ≠ 0 := fun e => hx (by simp [e])
    cases y with
    | nil =>
      simp only [strcmp] at h
      have : a.toNat ≠ 0 := fun e => ha (UInt8.toNat.inj e)
      omega
    | cons b t =>
      simp only [strcmp] at h
      by_cases hab : a = b
      · simp only [hab, if_true] at h
        have hb : b ≠ 0 := hab ▸ ha
        simp only [hb, if_false] at h
        rw [hab, ih t (fun hm => hx (List.mem_cons_of_mem _ hm))
          (fun hm => hy (List.mem_cons_of_mem _ hm)) h]
      · simp only [hab, if_false] at h
        have : a.toNat ≠ b.toNat := fun e => hab (UInt8.toNat.inj e)
        omega

theorem strcmp_self (x : List UInt8) : strcmp x x = 0 := by
  induction x with
  | nil => rfl
  | cons a s ih =>
    simp only [strcmp, if_true]
    split
    · rfl
    · exact ih

theorem keyword_table_no_nul : ∀ e ∈ keyword_table, (0 : UInt8) ∉ ascii e.1 := by
  decide

theorem keyword_lookup_none (w : List UInt8) (hz : (0 : UInt8) ∉ w)
    (hw : ∀ e ∈ keyword_table, w ≠ ascii e.1) : keyword_lookup w = none := by
  unfold keyword_lookup
  rw [Option.map_eq_none', List.find?_eq_none]
  intro e he hc
  simp only [decide_eq_true_eq] at hc
  exact hw e he (strcmp_eq_zero w _ hz (keyword_table_no_nul e he) hc)

/-! ## Runs of the lexer on words, comments and string literals -/

theorem getD_of_all (p : UInt8 → Bool) (l : List UInt8) (h : ∀ d ∈ l, p d = true) (i : Nat)
    (hi : i < l.length) : p (l.getD i 0) = true := by
  rw [List.getD_eq_getElem l 0 hi]
  exact h _ (List.getElem_mem hi)

theorem word_class (d : UInt8) (h : isalnum d = true ∨ d = 95) :
    (isalnum d || decide (d = 95)) = true ∧ d ≠ 0 := by
  constructor
  · rcases h with h | h
    · simp [h]
    · simp [h]
  · intro hc
    rw [hc] at h
    revert h
    decide

theorem lex_identifier_word (ctx : compiler_context_t) (m : AllocLog) (c : UInt8)
    (rest : List UInt8) (hg : all_granted m = true) (hcap : 0 < ctx.token_capacity)
    (hc : isalpha c = true ∨ c = 95) (hrest : ∀ d ∈ rest, isalnum d = true ∨ d = 95)
    (hkw : ∀ e ∈ keyword_table, c :: rest ≠ ascii e.1) :
    ∃ (ctx1 : compiler_context_t) (m1 : AllocLog),
      compiler_lex { ctx with source := c :: rest, source_len := (c :: rest).length } m
        = .returned 0 ctx1 m1
      ∧ ctx1.tokens
          = [⟨.TOKEN_IDENTIFIER, some (c :: rest), (c :: rest).length, 1,
              1 + (c :: rest).length⟩,
             ⟨.TOKEN_EOF, none, 0, 1, 1 + (c :: rest).length⟩]
      ∧ ctx1.token_count = 2 := by
  have hall : ∀ d ∈ c :: rest, (isalnum d || decide (d = 95)) = true := by
    intro d hd
    rcases List.mem_cons.mp hd with h | h
    · rw [h]
      exact (isalpha_class c hc).1
    · exact (word_class d (hrest d h)).1
  have hz : (0 : UInt8) ∉ c :: rest := by
    intro hm
    rcases List.mem_cons.mp hm with h | h
    · exact (isalpha_class c hc).2.2.2.2.2.2.2 h.symm
    · exact (word_class 0 (hrest 0 h)).2 rfl
  obtain ⟨src, len, pos, line, col, toks, cnt, tcap, ast, err, has⟩ := ctx
  simp only at hcap
  obtain ⟨cap, m1, hr, hg1, hcap1, _⟩ := read_identifier_word
    ⟨c :: rest, (c :: rest).length, 0, 1, 1, [], 0, tcap, ast, err, has⟩ m (c :: rest).length
    hg hcap (Nat.zero_le _) (by simp) (by simp)
    (fun i hi => by
      simp only [source_at, Nat.zero_add]
      exact getD_of_all _ (c :: rest) hall i hi)
    (fun hlt => by simp at hlt)
    (by
      simp only [source_slice, List.drop_zero, List.take_length]
      exact keyword_lookup_none _ hz hkw)
  obtain ⟨cap2, m2, hfin, _⟩ := lex_finish_granted
    ⟨c :: rest, (c :: rest).length, 0 + (c :: rest).length, 1, 1 + (c :: rest).length,
      [] ++ [⟨.TOKEN_IDENTIFIER, some (source_slice
        ⟨c :: rest, (c :: rest).length, 0, 1, 1, [], 0, tcap, ast, err, has⟩ 0
        (c :: rest).length), (c :: rest).length, 1,
        1 + (c :: rest).length⟩], 0 + 1, cap, ast, err, has⟩ m1 hg1 hcap1 (by simpa using hcap1)
  have hlex : compiler_lex
        ⟨c :: rest, (c :: rest).length, pos, line, col, toks, cnt, tcap, ast, err, has⟩ m
      = lex_finish
          ⟨c :: rest, (c :: rest).length, 0 + (c :: rest).length, 1, 1 + (c :: rest).length,
            [] ++ [⟨.TOKEN_IDENTIFIER, some (source_slice
              ⟨c :: rest, (c :: rest).length, 0, 1, 1, [], 0, tcap, ast, err, has⟩ 0
              (c :: rest).length), (c :: rest).length, 1,
              1 + (c :: rest).length⟩], 0 + 1, cap, ast, err, has⟩ m1 := by
    unfold compiler_lex
    simp only
    rw [List.length_cons, lex_loop_step_identifier rest.length _ m (by simp)
      (by simpa [source_at] using hc), ← List.length_cons c rest, hr]
    simp only
    rw [lex_loop_end _ _ _ (by simp)]
  rw [hfin] at hlex
  refine ⟨_, m2, hlex, ?_, rfl⟩
  simp [source_slice]

theorem keyword_table_words : ∀ e ∈ keyword_table,
    (∃ (c : UInt8) (rest : List UInt8), ascii e.1 = c :: rest ∧ isalpha c = true)
      ∧ (∀ d ∈ ascii e.1, (isalnum d || decide (d = 95)) = true)
      ∧ keyword_lookup (ascii e.1) = some e.2 := by
  intro e he
  simp only [keyword_table, List.mem_cons, List.mem_singleton, List.not_mem_nil, or_false] at he
  rcases he with h | h | h | h | h | h | h | h | h | h | h | h | h | h | h | h | h | h | h <;>
    subst h <;> exact ⟨⟨_, _, rfl, rfl⟩, by decide, by decide⟩

theorem lex_keyword_word (ctx : compiler_context_t) (m : AllocLog) (w : List UInt8)
    (t : token_type_t) (hg : all_granted m = true) (hcap : 0 < ctx.token_capacity)
    (hfirst : ∃ (c : UInt8) (rest : List UInt8), w = c :: rest ∧ isalpha c = true)
    (hword : ∀ d ∈ w, (isalnum d || decide (d = 95)) = true)
    (hkw : keyword_lookup w = some t) :
    ∃ (ctx1 : compiler_context_t) (m1 : AllocLog),
      compiler_lex { ctx with source := w, source_len := w.length } m = .returned 0 ctx1 m1
      ∧ ctx1.tokens = [⟨.TOKEN_EOF, none, 0, 1, 1 + w.length⟩]
      ∧ ctx1.token_count = 1 := by
  obtain ⟨c, rest, hw, hc⟩ := hfirst
  obtain ⟨src, len, pos, line, col, toks, cnt, tcap, ast, err, has⟩ := ctx
  simp only at hcap
  have hr := read_identifier_keyword
    ⟨w, w.length, 0, 1, 1, [], 0, tcap, ast, err, has⟩ m w.length t hg (by simp)
    (fun i hi => by
      simp only [source_at, Nat.zero_add]
      exact getD_of_all _ w hword i hi)
    (fun hlt => by simp at hlt)
    (by
      simp only [source_slice, List.drop_zero, List.take_length]
      exact hkw)
  obtain ⟨cap2, m2, hfin, _⟩ := lex_finish_granted
    ⟨w, w.length, 0 + w.length, 1, 1 + w.length, [], 0, tcap, ast, err, has⟩ (malloc m).2
    (compiler_malloc_granted m hg).2 hcap (Nat.zero_le _)
  have hlex : compiler_lex ⟨w, w.length, pos, line, col, toks, cnt, tcap, ast, err, has⟩ m
      = lex_finish ⟨w, w.length, 0 + w.length, 1, 1 + w.length, [], 0, tcap, ast, err, has⟩
          (malloc m).2 := by
    unfold compiler_lex
    simp only
    have hlen : w.length = rest.length + 1 := by rw [hw, List.length_cons]
    rw [show lex_loop w.length = lex_loop (rest.length + 1) from by rw [hlen],
      lex_loop_step_identifier rest.length _ m (by simp only; omega)
        (by
          left
          simp only [source_at]
          rw [hw]
          exact hc), hr]
    simp only
    rw [lex_loop_end _ _ _ (by simp)]
  rw [hfin] at hlex
  exact ⟨_, m2, hlex, by simp, rfl⟩

theorem skip_comment_line (ctx : compiler_context_t) (k : Nat)
    (hlen : ctx.position + 1 + k ≤ ctx.source_len) (hk : 0 < k)
    (hs : source_at ctx ctx.position = 47) (hs1 : source_at ctx (ctx.position + 1) = 47)
    (hbody : ∀ i, i < k → source_at ctx (ctx.position + 1 + i) ≠ 10)
    (hend : ctx.position + 1 + k < ctx.source_len →
      source_at ctx (ctx.position + 1 + k) = 10) :
    skip_comment ctx
      = { ctx with position := ctx.position + 1 + k, column := ctx.column + 1 + k } := by
  obtain ⟨src, len, pos, line, col, toks, cnt, tcap, ast, err, has⟩ := ctx
  simp only [source_at] at hlen hs hs1 hbody hend ⊢
  have h0 : pos < len := by omega
  have h1 : pos + 1 < len := by omega
  unfold skip_comment
  simp only [source_at, h0, hs, h1, hs1, and_self, if_true]
  rw [scan_while_run _ k _ _ (by omega) (by simp only; omega)
    (fun i hi => by simpa [source_at] using hbody i hi)
    (fun hlt => by simpa [source_at] using hend hlt)]

theorem lex_operator_default (ctx : compiler_context_t) (c : UInt8) (m : AllocLog)
    (hg : all_granted m = true) (hc : operator_table.find? (fun e => e.1 = c) = none) :
    lex_operator ctx c m
      = .failed { ctx with error_msg := some (format_unexpected c ctx.line ctx.column),
                           has_error := true } (malloc m).2 := by
  unfold lex_operator
  rw [hc]
  simp only [lex_fail, compiler_set_error, format_unexpected_length, if_true,
    (compiler_malloc_granted m hg).1]

theorem lex_loop_step_unexpected (n : Nat) (ctx ctx1 : compiler_context_t) (m : AllocLog)
    (hg : all_granted m = true) (hpos : ctx.position < ctx.source_len)
    (hskip : skip_comment (skip_whitespace ctx) = ctx1)
    (hpos1 : ctx1.position < ctx1.source_len)
    (ha : isalpha (source_at ctx1 ctx1.position) = false)
    (hu : source_at ctx1 ctx1.position ≠ 95)
    (hd : isdigit (source_at ctx1 ctx1.position) = false)
    (hq : source_at ctx1 ctx1.position ≠ 34)
    (hc : operator_table.find? (fun e => e.1 = source_at ctx1 ctx1.position) = none) :
    lex_loop (n + 1) ctx m
      = .returned (-1)
          { ctx1 with
            error_msg := some (format_unexpected (source_at ctx1 ctx1.position)
              ctx1.line ctx1.column),
            has_error := true } (malloc m).2 := by
  have hn : ¬ ctx1.position ≥ ctx1.source_len := by omega
  rw [lex_loop.eq_def]
  simp only [hpos, if_true, hskip, hn, if_false, ha, hu, hd, hq, or_self, Bool.false_eq_true,
    lex_operator_default ctx1 _ m hg hc]

theorem lex_line_comment (ctx : compiler_context_t) (m : AllocLog) (text s2 : List UInt8)
    (hg : all_granted m = true) (htext : ∀ b ∈ text, b ≠ 10) :
    compiler_lex { ctx with source := 47 :: 47 :: (text ++ 10 :: s2),
                            source_len := (47 :: 47 :: (text ++ 10 :: s2)).length } m
      = .returned (-1)
          { ctx with source := 47 :: 47 :: (text ++ 10 :: s2),
                     source_len := (47 :: 47 :: (text ++ 10 :: s2)).length,
                     position := 2 + text.length, line := 1, column := 3 + text.length,
                     tokens := [], token_count := 0,
                     error_msg := some (format_unexpected 10 1 (3 + text.length)),
                     has_error := true } (malloc m).2 := by
  obtain ⟨src, len, pos, line, col, toks, cnt, tcap, ast, err, has⟩ := ctx
  have hat : ∀ i, i < text.length →
      (47 :: 47 :: (text ++ 10 :: s2)).getD (0 + 1 + (i + 1)) 0 ≠ 10 := by
    intro i hi
    rw [show 0 + 1 + (i + 1) = (i + 1) + 1 from by omega, List.getD_cons_succ,
      List.getD_cons_succ, List.getD_append _ _ _ _ hi, List.getD_eq_getElem _ _ hi]
    exact htext _ (List.getElem_mem hi)
  have hnl : (47 :: 47 :: (text ++ 10 :: s2)).getD (0 + 1 + (text.length + 1)) 0 = 10 := by
    rw [show 0 + 1 + (text.length + 1) = (text.length + 1) + 1 from by omega,
      List.getD_cons_succ, List.getD_cons_succ, List.getD_append_right _ _ _ _ (Nat.le_refl _)]
    simp
  have hskip := skip_comment_line
    ⟨47 :: 47 :: (text ++ 10 :: s2), (47 :: 47 :: (text ++ 10 :: s2)).length, 0, 1, 1, [], 0,
      tcap, ast, err, has⟩ (text.length + 1)
    (by simp only [List.length_cons, List.length_append]; omega) (by omega) rfl rfl
    (fun i hi => by
      simp only [source_at]
      cases i with
      | zero =>
        show (47 : UInt8) ≠ 10
        decide
      | succ j => exact hat j (by omega))
    (fun _ => by
      simp only [source_at]
      exact hnl)
  simp only at hskip
  have hws := skip_whitespace_stay
    ⟨47 :: 47 :: (text ++ 10 :: s2), (47 :: 47 :: (text ++ 10 :: s2)).length, 0, 1, 1, [], 0,
      tcap, ast, err, has⟩
    (fun _ => by
      simp only [source_at]
      show (47 : UInt8) ≠ 32 ∧ (47 : UInt8) ≠ 9 ∧ (47 : UInt8) ≠ 10 ∧ (47 : UInt8) ≠ 13
      decide)
  have hcur : source_at
      (⟨47 :: 47 :: (text ++ 10 :: s2), (47 :: 47 :: (text ++ 10 :: s2)).length,
        0 + 1 + (text.length + 1), 1, 1 + 1 + (text.length + 1 : Nat), [], 0,
        tcap, ast, err, has⟩ : compiler_context_t) (0 + 1 + (text.length + 1)) = 10 := hnl
  have hstep := lex_loop_step_unexpected ((47 :: (text ++ 10 :: s2)).length)
    ⟨47 :: 47 :: (text ++ 10 :: s2), (47 :: 47 :: (text ++ 10 :: s2)).length, 0, 1, 1, [], 0,
      tcap, ast, err, has⟩
    ⟨47 :: 47 :: (text ++ 10 :: s2), (47 :: 47 :: (text ++ 10 :: s2)).length,
        0 + 1 + (text.length + 1), 1, 1 + 1 + (text.length + 1 : Nat), [], 0,
        tcap, ast, err, has⟩ m hg (by simp) (by rw [hws]; exact hskip)
    (by simp only [List.length_cons, List.length_append]; omega)
    (by simp only; rw [hcur]; decide) (by simp only; rw [hcur]; decide)
    (by simp only; rw [hcur]; decide) (by simp only; rw [hcur]; decide)
    (by simp only; rw [hcur]; decide)
  simp only [hcur] at hstep
  unfold compiler_lex
  simp only
  refine hstep.trans ?_
  have hcol : (1 + 1 + ((text.length + 1 : Nat) : Int)) = 3 + (text.length : Int) := by
    push_cast
    omega
  rw [hcol, show 0 + 1 + (text.length + 1) = 2 + text.length from by omega]

theorem read_string_loop_run (k : Nat) :
    ∀ (fuel : Nat) (ctx : compiler_context_t), k ≤ fuel →
      ctx.position + k = ctx.source_len →
      (∀ i, i < k → source_at ctx (ctx.position + i) ≠ 34
        ∧ source_at ctx (ctx.position + i) ≠ 92 ∧ source_at ctx (ctx.position + i) ≠ 10) →
      read_string_loop fuel ctx
        = { ctx with position := ctx.position + k, column := ctx.column + k } := by
  induction k with
  | zero =>
    intro fuel ctx _ hlen _
    have hn : ¬ ctx.position < ctx.source_len := by omega
    cases fuel with
    | zero => simp [read_string_loop]
    | succ n =>
      rw [read_string_loop]
      simp [hn]
  | succ k ih =>
    intro fuel ctx hfuel hlen hall
    cases fuel with
    | zero => omega
    | succ n =>
      obtain ⟨h1, h2, h3⟩ := hall 0 (by omega)
      simp only [Nat.add_zero] at h1 h2 h3
      have hpos : ctx.position < ctx.source_len := by omega
      rw [read_string_loop]
      simp only [hpos, h1, h2, h3, ne_eq, not_false_eq_true, and_self, if_true, if_false]
      rw [ih n _ (by omega) (by simp only; omega)
        (by
          intro i hi
          have := hall (i + 1) (by omega)
          simpa [source_at, Nat.add_assoc, Nat.add_comm 1 i] using this)]
      simp only [Nat.cast_add, Nat.cast_one, compiler_context_t.mk.injEq, true_and, and_true]
      constructor
      · omega
      · omega

theorem lex_loop_step_string (n : Nat) (ctx : compiler_context_t) (m : AllocLog)
    (hpos : ctx.position < ctx.source_len) (hq : source_at ctx ctx.position = 34) :
    lex_loop (n + 1) ctx m
      = match read_string ctx m with
        | none => .stopped
        | some (ctx2, m2) => lex_loop n ctx2 m2 := by
  have hn : ¬ ctx.position ≥ ctx.source_len := by omega
  have hws := skip_whitespace_stay ctx (fun _ => by rw [hq]; decide)
  have hsc := skip_comment_stay ctx (fun _ => by rw [hq]; decide)
  rw [lex_loop.eq_def]
  simp only [hpos, if_true, hws, hsc, hn, if_false, hq]
  rfl

theorem lex_unterminated (ctx : compiler_context_t) (m : AllocLog) (body : List UInt8)
    (hg : all_granted m = true) (hcap : 0 < ctx.token_capacity)
    (hbody : ∀ b ∈ body, b ≠ 34 ∧ b ≠ 92 ∧ b ≠ 10) :
    ∃ (ctx1 : compiler_context_t) (m1 : AllocLog),
      compiler_lex { ctx with source := 34 :: body, source_len := (34 :: body).length } m
        = .returned 0 ctx1 m1
      ∧ ctx1.tokens = [⟨.TOKEN_EOF, none, 0, 1, 2 + body.length⟩]
      ∧ ctx1.error_msg = some (format_unterminated 1 (2 + body.length))
      ∧ ctx1.has_error = true := by
  obtain ⟨src, len, pos, line, col, toks, cnt, tcap, ast, err, has⟩ := ctx
  simp only at hcap
  have hloop := read_string_loop_run body.length body.length
    ⟨34 :: body, (34 :: body).length, 0 + 1, 1, 1 + 1, [], 0, tcap, ast, err, has⟩
    (Nat.le_refl _) (by simp only [List.length_cons]; omega)
    (fun i hi => by
      simp only [source_at]
      rw [show 0 + 1 + i = i + 1 from by omega, List.getD_cons_succ,
        List.getD_eq_getElem _ _ hi]
      exact hbody _ (List.getElem_mem hi))
  simp only at hloop
  have hrs : read_string
      ⟨34 :: body, (34 :: body).length, 0, 1, 1, [], 0, tcap, ast, err, has⟩ m
      = some (⟨34 :: body, (34 :: body).length, 0 + 1 + body.length, 1,
          1 + 1 + (body.length : Int), [], 0, tcap, ast,
          some (format_unterminated 1 (1 + 1 + (body.length : Int))), true⟩, (malloc m).2) := by
    unfold read_string
    simp only
    rw [show (34 :: body).length - (0 + 1) = body.length from by
      simp only [List.length_cons]; omega, hloop]
    simp only [List.length_cons, ge_iff_le, show body.length + 1 ≤ 0 + 1 + body.length from by
      omega, if_true, compiler_set_error, format_unterminated_length,
      (compiler_malloc_granted m hg).1]
  obtain ⟨cap2, m2, hfin, _⟩ := lex_finish_granted
    ⟨34 :: body, (34 :: body).length, 0 + 1 + body.length, 1,
          1 + 1 + (body.length : Int), [], 0, tcap, ast,
          some (format_unterminated 1 (1 + 1 + (body.length : Int))), true⟩ (malloc m).2
    (compiler_malloc_granted m hg).2 hcap (Nat.zero_le _)
  have hlex : compiler_lex ⟨34 :: body, (34 :: body).length, pos, line, col, toks, cnt, tcap,
        ast, err, has⟩ m
      = lex_finish ⟨34 :: body, (34 :: body).length, 0 + 1 + body.length, 1,
          1 + 1 + (body.length : Int), [], 0, tcap, ast,
          some (format_unterminated 1 (1 + 1 + (body.length : Int))), true⟩ (malloc m).2 := by
    unfold compiler_lex
    simp only
    refine (lex_loop_step_string body.length
      ⟨34 :: body, (34 :: body).length, 0, 1, 1, [], 0, tcap, ast, err, has⟩ m (by simp)
      rfl).trans ?_
    rw [hrs]
    simp only
    rw [lex_loop_end _ _ _ (by simp only [List.length_cons]; omega)]
  rw [hfin] at hlex
  have hcol : (1 + 1 + (body.length : Int)) = 2 + (body.length : Int) := by omega
  refine ⟨_, m2, hlex, ?_, ?_, rfl⟩
  · simp only [List.nil_append, hcol]
  · simp only [hcol]

/-! ## Keywords (C25) -/

/-- C25, on the code.  For each of the 15 reserved keywords that
`read_identifier_or_keyword` compares with (if, else, while, for, function, return,
true, false, null, var, const, echo, print, sleep_ms, millis) the routine returns the
keyword token type to its caller and does not call `add_token`; `compiler_lex` does
not use the value returned.  So on the source consisting of such a word alone
`compiler_lex` returns 0 and leaves the single token `TOKEN_EOF` (for every context
with room for a token and every log of granted allocations, and evaluated for each
of the 15 words).  The word foreach is not among the words compared with: no entry
of the table yields `TOKEN_FOREACH`, and the source foreach is lexed to a
`TOKEN_IDENTIFIER` carrying the word, then `TOKEN_EOF`. -/
theorem lex_keyword_adds_no_token :
    (∀ (ctx : compiler_context_t) (m : AllocLog) (e : String × token_type_t),
      all_granted m = true → 0 < ctx.token_capacity → e ∈ keyword_table →
      ∃ (ctx1 : compiler_context_t) (m1 : AllocLog),
        compiler_lex { ctx with source := ascii e.1, source_len := (ascii e.1).length } m
          = .returned 0 ctx1 m1
        ∧ ctx1.tokens = [⟨.TOKEN_EOF, none, 0, 1, 1 + (ascii e.1).length⟩]
        ∧ ctx1.token_count = 1)
    ∧ (∀ k ∈ ["if", "else", "while", "for", "function", "return", "true", "false", "null",
              "var", "const", "echo", "print", "sleep_ms", "millis"],
        (∃ e ∈ keyword_table, e.1 = k)
        ∧ lex_status (compiler_lex (compiler_context_of (ascii k)) []) = some 0
        ∧ lex_tokens (compiler_lex (compiler_context_of (ascii k)) [])
            = [⟨.TOKEN_EOF, none, 0, 1, 1 + k.length⟩])
    ∧ (∀ e ∈ keyword_table, e.1 ≠ "foreach" ∧ e.2 ≠ .TOKEN_FOREACH)
    ∧ lex_status (compiler_lex (compiler_context_of (ascii "foreach")) []) = some 0
    ∧ lex_tokens (compiler_lex (compiler_context_of (ascii "foreach")) [])
        = [⟨.TOKEN_IDENTIFIER, some (ascii "foreach"), 7, 1, 8⟩, ⟨.TOKEN_EOF, none, 0, 1, 8⟩]
    ∧ read_identifier_or_keyword (compiler_context_of (ascii "if")) []
        = some (.TOKEN_IF, { compiler_context_of (ascii "if") with position := 2, column := 3 },
            []) := by
  refine ⟨?_, by decide, by decide, by decide, by decide, rfl⟩
  intro ctx m e hg hcap he
  obtain ⟨h1, h2, h3⟩ := keyword_table_words e he
  exact lex_keyword_word ctx m (ascii e.1) e.2 hg hcap h1 h2 h3

/-! ## Comments (C26) -/

/-- C26, on the code.  The loop of `compiler_lex` calls `skip_whitespace` and then
`skip_comment` once, and dispatches on the byte behind the comment without skipping
white space again.  A single line comment ends in front of its line feed, so that the
line feed reaches the `default` case of the `switch`: for every comment text without
a line feed and every rest `s2`, on the source made of two slashes, the text, a line
feed and `s2`, `compiler_lex` returns -1 with no token and the error "Unexpected
character" for the byte 10 at line 1 and the column of the line feed (granted
allocations).  The same happens with the blank behind a multi-line comment.  The
sources evaluated: two slashes, blank, c, line feed, x (the example of the claim);
slash, star, blank, c, blank, star, slash, blank, x; against line feed, x, which is
lexed to the identifier x and `TOKEN_EOF`.  A comment that the end of the source or
a token follows directly is skipped. -/
theorem lex_comment_then_blank_fails :
    (∀ (ctx : compiler_context_t) (m : AllocLog) (text s2 : List UInt8),
      all_granted m = true → (∀ b ∈ text, b ≠ 10) →
      compiler_lex { ctx with source := 47 :: 47 :: (text ++ 10 :: s2),
                              source_len := (47 :: 47 :: (text ++ 10 :: s2)).length } m
        = .returned (-1)
            { ctx with source := 47 :: 47 :: (text ++ 10 :: s2),
                       source_len := (47 :: 47 :: (text ++ 10 :: s2)).length,
                       position := 2 + text.length, line := 1, column := 3 + text.length,
                       tokens := [], token_count := 0,
                       error_msg := some (format_unexpected 10 1 (3 + text.length)),
                       has_error := true } (malloc m).2)
    ∧ lex_status (compiler_lex (compiler_context_of (ascii "// c\nx")) []) = some (-1)
    ∧ lex_tokens (compiler_lex (compiler_context_of (ascii "// c\nx")) []) = []
    ∧ lex_error (compiler_lex (compiler_context_of (ascii "// c\nx")) [])
        = some (format_unexpected 10 1 5)
    ∧ lex_status (compiler_lex (compiler_context_of (ascii "/* c */ x")) []) = some (-1)
    ∧ lex_tokens (compiler_lex (compiler_context_of (ascii "/* c */ x")) []) = []
    ∧ lex_error (compiler_lex (compiler_context_of (ascii "/* c */ x")) [])
        = some (format_unexpected 32 1 8)
    ∧ lex_status (compiler_lex (compiler_context_of (ascii "\nx")) []) = some 0
    ∧ lex_tokens (compiler_lex (compiler_context_of (ascii "\nx")) [])
        = [⟨.TOKEN_IDENTIFIER, some (ascii "x"), 1, 2, 2⟩, ⟨.TOKEN_EOF, none, 0, 2, 2⟩]
    ∧ lex_tokens (compiler_lex (compiler_context_of (ascii "/* c */x")) [])
        = [⟨.TOKEN_IDENTIFIER, some (ascii "x"), 1, 1, 9⟩, ⟨.TOKEN_EOF, none, 0, 1, 9⟩]
    ∧ lex_tokens (compiler_lex (compiler_context_of (ascii "x // c")) [])
        = [⟨.TOKEN_IDENTIFIER, some (ascii "x"), 1, 1, 2⟩, ⟨.TOKEN_EOF, none, 0, 1, 7⟩] := by
  refine ⟨?_, by decide, by decide, by decide, by decide, by decide, by decide, by decide,
    by decide, by decide, by decide⟩
  intro ctx m text s2 hg htext
  exact lex_line_comment ctx m text s2 hg htext

/-! ## Unterminated string literals (C27) -/

/-- C27, on the code.  When the source ends inside a string literal, `read_string`
records "Unterminated string at line %d, column %d" and returns; it has no return
value, and `compiler_lex` goes on with its loop, which ends because the end of the
source is reached, adds `TOKEN_EOF` and returns 0.  For every body without double
quote, backslash and line feed, on the source made of a double quote and the body,
`compiler_lex` returns 0 with the single token `TOKEN_EOF` and the error recorded
(granted allocations, room for a token).  The only status other than 0 that
`compiler_lex` returns is -1, and then the error recorded is "Unexpected character".
Evaluated on the sources made of a double quote and abc, and of a double quote, a,
a backslash and a double quote; and on the terminated literal abc between double
quotes, which is lexed to a `TOKEN_STRING`. -/
theorem lex_unterminated_string_returns_zero :
    (∀ (ctx : compiler_context_t) (m : AllocLog) (body : List UInt8),
      all_granted m = true → 0 < ctx.token_capacity →
      (∀ b ∈ body, b ≠ 34 ∧ b ≠ 92 ∧ b ≠ 10) →
      ∃ (ctx1 : compiler_context_t) (m1 : AllocLog),
        compiler_lex { ctx with source := 34 :: body, source_len := (34 :: body).length } m
          = .returned 0 ctx1 m1
        ∧ ctx1.tokens = [⟨.TOKEN_EOF, none, 0, 1, 2 + body.length⟩]
        ∧ ctx1.error_msg = some (format_unterminated 1 (2 + body.length))
        ∧ ctx1.has_error = true)
    ∧ (∀ (ctx ctx1 : compiler_context_t) (m m1 : AllocLog) (s : Int),
        compiler_lex ctx m = .returned s ctx1 m1 →
        s = 0 ∨ (s = -1 ∧ ∃ (c : UInt8) (line column : Int),
          ctx1.error_msg = some (format_unexpected c line column)))
    ∧ lex_status (compiler_lex (compiler_context_of [34, 97, 98, 99]) []) = some 0
    ∧ lex_tokens (compiler_lex (compiler_context_of [34, 97, 98, 99]) [])
        = [⟨.TOKEN_EOF, none, 0, 1, 5⟩]
    ∧ lex_error (compiler_lex (compiler_context_of [34, 97, 98, 99]) [])
        = some "Unterminated string at line 1, column 5"
    ∧ lex_status (compiler_lex (compiler_context_of [34, 97, 92, 34]) []) = some 0
    ∧ lex_tokens (compiler_lex (compiler_context_of [34, 97, 92, 34]) [])
        = [⟨.TOKEN_EOF, none, 0, 1, 5⟩]
    ∧ lex_error (compiler_lex (compiler_context_of [34, 97, 92, 34]) [])
        = some "Unterminated string at line 1, column 5"
    ∧ lex_tokens (compiler_lex (compiler_context_of [34, 97, 98, 99, 34]) [])
        = [⟨.TOKEN_STRING, some (ascii "abc"), 3, 1, 5⟩, ⟨.TOKEN_EOF, none, 0, 1, 6⟩]
    ∧ lex_error (compiler_lex (compiler_context_of [34, 97, 98, 99, 34]) []) = none := by
  refine ⟨?_, ?_, by decide, by decide, by decide, by decide, by decide, by decide,
    by decide, by decide⟩
  · intro ctx m body hg hcap hbody
    exact lex_unterminated ctx m body hg hcap hbody
  · intro ctx ctx1 m m1 s h
    unfold compiler_lex at h
    obtain ⟨mid, _, hres⟩ := lex_loop_returned _ _ _ _ _ _ h
    rcases hres with ⟨hs, _⟩ | ⟨hs, _, e⟩
    · exact Or.inl hs
    · exact Or.inr ⟨hs, source_at mid mid.position, mid.line, mid.column, by rw [e]⟩

/-! ## The end of the token stream (C28) -/

/-- C28.  Whenever `compiler_lex` returns 0, the tokens of the context, which are
`token_count` many, are not empty: the last one is `TOKEN_EOF` and none of the
tokens before it is. -/
theorem lex_tokens_end_with_eof (ctx ctx1 : compiler_context_t) (m m1 : AllocLog)
    (h : compiler_lex ctx m = .returned 0 ctx1 m1) :
    ctx1.tokens ≠ [] ∧ ctx1.token_count = ctx1.tokens.length
      ∧ ∃ (init : List token_t) (last : token_t), ctx1.tokens = init ++ [last]
        ∧ last.type = .TOKEN_EOF ∧ ∀ t ∈ init, t.type ≠ .TOKEN_EOF := by
  unfold compiler_lex at h
  obtain ⟨mid, ⟨_, _, extra, ht, hn, hne⟩, hres⟩ := lex_loop_returned _ _ _ _ _ _ h
  simp only [List.nil_append, Nat.zero_add] at ht hn
  rcases hres with ⟨_, _, tok, cap, htok, _, _, e⟩ | ⟨hs, _⟩
  · subst e
    simp only
    rw [ht, hn]
    exact ⟨by simp, by simp, extra, tok, rfl, htok, hne⟩
  · exact absurd hs (by decide)

theorem lex_tokens_end_with_eof_witness :
    ∃ (ctx1 : compiler_context_t) (m1 : AllocLog),
      compiler_lex { compiler_context_empty with source := [120], source_len := [120].length } []
        = .returned 0 ctx1 m1
      ∧ (ctx1.tokens ≠ [] ∧ ctx1.token_count = ctx1.tokens.length
        ∧ ∃ (init : List token_t) (last : token_t), ctx1.tokens = init ++ [last]
          ∧ last.type = .TOKEN_EOF ∧ ∀ t ∈ init, t.type ≠ .TOKEN_EOF) :=
  have ⟨ctx1, m1, h, _⟩ := lex_identifier_word compiler_context_empty [] 120 [] rfl
    (by decide) (by decide) (by decide) (by decide)
  ⟨ctx1, m1, h, lex_tokens_end_with_eof _ ctx1 [] m1 h⟩

/-! ## Identifiers (C29) -/

/-- C29, on the code.  A word made of a letter or an underscore followed by letters,
digits and underscores that is none of the 17 words which
`read_identifier_or_keyword` compares with is lexed to one `TOKEN_IDENTIFIER`
carrying the word, then `TOKEN_EOF` (granted allocations, room for a token).  Among
those 17 words are OUTPUT and INPUT, which are not reserved keywords: for them the
routine frees the word and returns `TOKEN_IDENTIFIER` to its caller (with the comment
"Treat as identifier for now") without calling `add_token`, so that the source OUTPUT
and the source INPUT are lexed to the single token `TOKEN_EOF`. -/
theorem lex_identifier_output_input_dropped :
    (∀ (ctx : compiler_context_t) (m : AllocLog) (c : UInt8) (rest : List UInt8),
      all_granted m = true → 0 < ctx.token_capacity →
      (isalpha c = true ∨ c = 95) → (∀ d ∈ rest, isalnum d = true ∨ d = 95) →
      (∀ e ∈ keyword_table, c :: rest ≠ ascii e.1) →
      ∃ (ctx1 : compiler_context_t) (m1 : AllocLog),
        compiler_lex { ctx with source := c :: rest, source_len := (c :: rest).length } m
          = .returned 0 ctx1 m1
        ∧ ctx1.tokens
            = [⟨.TOKEN_IDENTIFIER, some (c :: rest), (c :: rest).length, 1,
                1 + (c :: rest).length⟩,
               ⟨.TOKEN_EOF, none, 0, 1, 1 + (c :: rest).length⟩]
        ∧ ctx1.token_count = 2)
    ∧ lex_status (compiler_lex (compiler_context_of (ascii "OUTPUT")) []) = some 0
    ∧ lex_tokens (compiler_lex (compiler_context_of (ascii "OUTPUT")) [])
        = [⟨.TOKEN_EOF, none, 0, 1, 7⟩]
    ∧ lex_status (compiler_lex (compiler_context_of (ascii "INPUT")) []) = some 0
    ∧ lex_tokens (compiler_lex (compiler_context_of (ascii "INPUT")) [])
        = [⟨.TOKEN_EOF, none, 0, 1, 6⟩]
    ∧ lex_tokens (compiler_lex (compiler_context_of (ascii "OUTPUT1")) [])
        = [⟨.TOKEN_IDENTIFIER, some (ascii "OUTPUT1"), 7, 1, 8⟩, ⟨.TOKEN_EOF, none, 0, 1, 8⟩]
    ∧ read_identifier_or_keyword (compiler_context_of (ascii "OUTPUT")) []
        = some (.TOKEN_IDENTIFIER,
            { compiler_context_of (ascii "OUTPUT") with position := 6, column := 7 }, []) := by
  refine ⟨?_, by decide, by decide, by decide, by decide, by decide, rfl⟩
  intro ctx m c rest hg hcap hc hrest hkw
  exact lex_identifier_word ctx m c rest hg hcap hc hrest hkw

/-! ## Number literals (C30) -/

/-- C30.  On a source made of one or more ASCII digits `compiler_lex` returns 0 and
leaves exactly two tokens: a `TOKEN_INT` whose value is the digits, then
`TOKEN_EOF`.  On a source made of one or more digits, a dot (46) and digits (at least
one in the claim; the routine does not need them) it returns 0 and leaves a
`TOKEN_FLOAT` whose value is the whole literal, then `TOKEN_EOF`.  Both tokens carry
line 1 and the column behind the literal.  The allocations are granted and the token
block has room for a token, as after `compiler_create`. -/
theorem lex_number_literals (ctx : compiler_context_t) (m : AllocLog) (ds fs : List UInt8)
    (hg : all_granted m = true) (hcap : 0 < ctx.token_capacity)
    (hds : ds ≠ [])
    (hd : ∀ d ∈ ds, isdigit d = true) (hf : ∀ d ∈ fs, isdigit d = true) :
    (∃ (ctx1 : compiler_context_t) (m1 : AllocLog),
      compiler_lex { ctx with source := ds, source_len := ds.length } m = .returned 0 ctx1 m1
      ∧ ctx1.tokens = [⟨.TOKEN_INT, some ds, ds.length, 1, 1 + ds.length⟩,
                       ⟨.TOKEN_EOF, none, 0, 1, 1 + ds.length⟩]
      ∧ ctx1.token_count = 2)
    ∧ (∃ (ctx1 : compiler_context_t) (m1 : AllocLog),
      compiler_lex { ctx with source := ds ++ 46 :: fs,
                              source_len := (ds ++ 46 :: fs).length } m
        = .returned 0 ctx1 m1
      ∧ ctx1.tokens
          = [⟨.TOKEN_FLOAT, some (ds ++ 46 :: fs), (ds ++ 46 :: fs).length, 1,
              1 + (ds ++ 46 :: fs).length⟩,
             ⟨.TOKEN_EOF, none, 0, 1, 1 + (ds ++ 46 :: fs).length⟩]
      ∧ ctx1.token_count = 2) := by
  have hdl : 0 < ds.length := List.length_pos.mpr hds
  obtain ⟨src, len, pos, line, col, toks, cnt, tcap, ast, err, has⟩ := ctx
  simp only at hcap
  constructor
  · obtain ⟨n, hn⟩ : ∃ n, ds.length = n + 1 := ⟨ds.length - 1, by omega⟩
    have h0 : isdigit (ds.getD 0 0) = true := getD_of_all _ ds hd 0 hdl
    obtain ⟨cap, m1, hr, hg1, hcap1, _⟩ := read_number_int
      ⟨ds, ds.length, 0, 1, 1, [], 0, tcap, ast, err, has⟩ m ds.length hg hcap
      (Nat.zero_le _) hdl (by simp)
      (fun i hi => by
        simp only [source_at, Nat.zero_add]
        exact getD_of_all _ ds hd i hi)
      (fun hlt => by simp at hlt)
    obtain ⟨cap2, m2, hfin, _⟩ := lex_finish_granted
      ⟨ds, ds.length, 0 + ds.length, 1, 1 + ds.length,
        [] ++ [⟨.TOKEN_INT, some (source_slice
          ⟨ds, ds.length, 0, 1, 1, [], 0, tcap, ast, err, has⟩ 0 ds.length), ds.length, 1,
          1 + ds.length⟩], 0 + 1, cap, ast, err, has⟩ m1 hg1 hcap1 (by simpa using hcap1)
    have hlex : compiler_lex ⟨ds, ds.length, pos, line, col, toks, cnt, tcap, ast, err, has⟩ m
        = lex_finish
            ⟨ds, ds.length, 0 + ds.length, 1, 1 + ds.length,
              [] ++ [⟨.TOKEN_INT, some (source_slice
                ⟨ds, ds.length, 0, 1, 1, [], 0, tcap, ast, err, has⟩ 0 ds.length), ds.length, 1,
                1 + ds.length⟩], 0 + 1, cap, ast, err, has⟩ m1 := by
      unfold compiler_lex
      simp only
      rw [hn, lex_loop_step_number n _ m (by simp) (by simpa [source_at] using h0), ← hn, hr]
      simp only
      rw [lex_loop_end _ _ _ (by simp)]
    rw [hfin] at hlex
    exact ⟨_, m2, hlex, by simp [source_slice], rfl⟩
  · have hll : (ds ++ 46 :: fs).length = ds.length + 1 + fs.length := by
      simp only [List.length_append, List.length_cons]
      omega
    obtain ⟨n, hn⟩ : ∃ n, (ds ++ 46 :: fs).length = n + 1 := ⟨ds.length + fs.length, by omega⟩
    have h0 : isdigit ((ds ++ 46 :: fs).getD 0 0) = true := by
      rw [List.getD_append _ _ _ _ hdl]
      exact getD_of_all _ ds hd 0 hdl
    obtain ⟨cap, m1, hr, hg1, hcap1, _⟩ := read_number_float
      ⟨ds ++ 46 :: fs, (ds ++ 46 :: fs).length, 0, 1, 1, [], 0, tcap, ast, err, has⟩ m
      ds.length fs.length hg hcap (Nat.zero_le _) (by simp only; omega)
      (fun i hi => by
        simp only [source_at, Nat.zero_add]
        rw [List.getD_append _ _ _ _ hi]
        exact getD_of_all _ ds hd i hi)
      (by
        simp only [source_at, Nat.zero_add]
        rw [List.getD_append_right _ _ _ _ (Nat.le_refl _)]
        simp)
      (fun i hi => by
        simp only [source_at, Nat.zero_add]
        rw [List.getD_append_right _ _ _ _ (by omega)]
        have e : ds.length + 1 + i - ds.length = i + 1 := by omega
        rw [e, List.getD_cons_succ]
        exact getD_of_all _ fs hf i hi)
      (fun hlt => by simp only at hlt; omega)
    obtain ⟨cap2, m2, hfin, _⟩ := lex_finish_granted
      ⟨ds ++ 46 :: fs, (ds ++ 46 :: fs).length, 0 + ds.length + 1 + fs.length, 1,
        1 + ds.length + 1 + fs.length,
        [] ++ [⟨.TOKEN_FLOAT, some (source_slice
          ⟨ds ++ 46 :: fs, (ds ++ 46 :: fs).length, 0, 1, 1, [], 0, tcap, ast, err, has⟩ 0
          (ds.length + 1 + fs.length)), ds.length + 1 + fs.length, 1,
          1 + ds.length + 1 + fs.length⟩], 0 + 1, cap, ast, err, has⟩ m1 hg1 hcap1
      (by simpa using hcap1)
    have hlex : compiler_lex
          ⟨ds ++ 46 :: fs, (ds ++ 46 :: fs).length, pos, line, col, toks, cnt, tcap, ast, err,
            has⟩ m
        = lex_finish
            ⟨ds ++ 46 :: fs, (ds ++ 46 :: fs).length, 0 + ds.length + 1 + fs.length, 1,
              1 + ds.length + 1 + fs.length,
              [] ++ [⟨.TOKEN_FLOAT, some (source_slice
                ⟨ds ++ 46 :: fs, (ds ++ 46 :: fs).length, 0, 1, 1, [], 0, tcap, ast, err, has⟩ 0
                (ds.length + 1 + fs.length)), ds.length + 1 + fs.length, 1,
                1 + ds.length + 1 + fs.length⟩], 0 + 1, cap, ast, err, has⟩ m1 := by
      unfold compiler_lex
      simp only
      rw [hn, lex_loop_step_number n _ m (by simp) (by simpa [source_at] using h0), ← hn, hr]
      simp only
      rw [lex_loop_end _ _ _ (by simp only; omega)]
    rw [hfin] at hlex
    refine ⟨_, m2, hlex, ?_, rfl⟩
    rw [hll]
    simp only [source_slice, List.drop_zero, List.nil_append, List.cons_append,
      List.cons.injEq, and_true]
    constructor
    · refine congrArg₂ (fun (v : Option (List UInt8)) (c : Int) =>
        (⟨.TOKEN_FLOAT, v, ds.length + 1 + fs.length, 1, c⟩ : token_t)) ?_ ?_
      · rw [← hll, List.take_length]
      · push_cast
        ring
    · push_cast
      ring_nf

theorem lex_number_literals_witness :
    (∃ (ctx1 : compiler_context_t) (m1 : AllocLog),
      compiler_lex (compiler_context_of (ascii "2024")) [] = .returned 0 ctx1 m1
      ∧ ctx1.tokens = [⟨.TOKEN_INT, some (ascii "2024"), 4, 1, 5⟩,
                       ⟨.TOKEN_EOF, none, 0, 1, 5⟩]
      ∧ ctx1.token_count = 2)
    ∧ (∃ (ctx1 : compiler_context_t) (m1 : AllocLog),
      compiler_lex (compiler_context_of (ascii "3.14")) [] = .returned 0 ctx1 m1
      ∧ ctx1.tokens = [⟨.TOKEN_FLOAT, some (ascii "3.14"), 4, 1, 5⟩,
                       ⟨.TOKEN_EOF, none, 0, 1, 5⟩]
      ∧ ctx1.token_count = 2) :=
  ⟨(lex_number_literals compiler_context_empty [] (ascii "2024") (ascii "14") rfl
      (by decide) (by decide) (by decide) (by decide)).1,
   (lex_number_literals compiler_context_empty [] (ascii "3") (ascii "14") rfl
      (by decide) (by decide) (by decide) (by decide)).2⟩

/-! ## Lemmas on lines and columns -/

theorem line_terminators_before_succ (s : List UInt8) (p : Nat) :
    line_terminators_before s (p + 1)
      = line_terminators_before s p + (if starts_line_terminator s p = true then 1 else 0) := by
  unfold line_terminators_before
  rw [List.range_succ, List.countP_append, List.countP_singleton]

theorem line_of_succ_plain (s : List UInt8) (p : Nat)
    (h : starts_line_terminator s p = false) : line_of s (p + 1) = line_of s p := by
  unfold line_of
  rw [line_terminators_before_succ, h]
  simp

theorem line_of_succ_terminator (s : List UInt8) (p : Nat)
    (h : starts_line_terminator s p = true) : line_of s (p + 1) = line_of s p + 1 := by
  unfold line_of
  rw [line_terminators_before_succ, h]
  simp only [if_true]
  push_cast
  omega

theorem column_of_succ_plain (s : List UInt8) (p : Nat)
    (h10 : s.getD p 0 ≠ 10) (h13 : s.getD p 0 ≠ 13) :
    column_of s (p + 1) = column_of s p + 1 := by
  unfold column_of
  rw [line_start]
  simp only [h10, h13, or_self, if_false]
  push_cast
  omega

theorem column_of_succ_terminator (s : List UInt8) (p : Nat)
    (h : s.getD p 0 = 10 ∨ s.getD p 0 = 13) : column_of s (p + 1) = 1 := by
  unfold column_of
  rw [line_start]
  simp only [h, if_true]
  omega

theorem punctuation_tokens_succ (s : List UInt8) (q : Nat) :
    punctuation_tokens s (q + 1)
      = punctuation_tokens s q
        ++ (match punctuation_token (s.getD q 0) with
            | some type => [⟨type, none, 0, line_of s q, column_of s q⟩]
            | none => []) := by
  unfold punctuation_tokens
  rw [List.range_succ, List.filterMap_append]
  congr 1
  cases hp : punctuation_token (s.getD q 0) <;>
    simp only [List.filterMap_cons, List.filterMap_nil, hp, Option.map_none', Option.map_some']

theorem operator_table_class : ∀ e ∈ operator_table,
    is_whitespace e.1 = false ∧ isalpha e.1 = false ∧ e.1 ≠ 95 ∧ isdigit e.1 = false
      ∧ e.1 ≠ 34 ∧ (operator_table.find? fun x => x.1 = e.1) = some e
      ∧ (e.2.1 = [] → e.1 ≠ 47 ∧ e.2.2.isSome = true) := by
  decide

theorem operator_find_mem (c : UInt8)
    (e : UInt8 × List (UInt8 × token_type_t) × Option token_type_t)
    (h : (operator_table.find? fun x => x.1 = c) = some e) :
    e ∈ operator_table ∧ e.1 = c := by
  refine ⟨List.mem_of_find?_eq_some h, ?_⟩
  have := List.find?_some h
  simpa using this

theorem punctuation_token_find (c : UInt8) (type : token_type_t)
    (h : punctuation_token c = some type) :
    (operator_table.find? fun x => x.1 = c) = some (c, [], some type) := by
  unfold punctuation_token at h
  split at h
  · rename_i c1 t1 hfind
    simp only [Option.some.injEq] at h
    obtain ⟨_, hc⟩ := operator_find_mem c _ hfind
    simp only at hc
    rw [hfind, hc, h]
  · exact absurd h (by simp)

theorem punctuation_token_class (c : UInt8) (type : token_type_t)
    (h : punctuation_token c = some type) :
    is_whitespace c = false ∧ isalpha c = false ∧ c ≠ 95 ∧ isdigit c = false ∧ c ≠ 34
      ∧ c ≠ 47 ∧ type ≠ .TOKEN_EOF := by
  have hfind := punctuation_token_find c type h
  obtain ⟨hmem, _⟩ := operator_find_mem c _ hfind
  obtain ⟨h1, h2, h3, h4, h5, _, h7⟩ := operator_table_class _ hmem
  refine ⟨h1, h2, h3, h4, h5, (h7 rfl).1, ?_⟩
  have := operator_table_types _ hmem
  exact this.2 type rfl

theorem is_whitespace_iff (c : UInt8) :
    is_whitespace c = true ↔ (c = 32 ∨ c = 9 ∨ c = 10 ∨ c = 13) := by
  simp [is_whitespace, or_assoc]

theorem starts_line_terminator_plain (s : List UInt8) (i : Nat)
    (h10 : s.getD i 0 ≠ 10) (h13 : s.getD i 0 ≠ 13) : starts_line_terminator s i = false := by
  unfold starts_line_terminator
  rw [decide_eq_false h13, decide_eq_false h10]
  rfl

theorem starts_line_terminator_cr (s : List UInt8) (i : Nat) (h13 : s.getD i 0 = 13) :
    starts_line_terminator s i = true := by
  unfold starts_line_terminator
  rw [decide_eq_true h13]
  rfl

theorem starts_line_terminator_lf (s : List UInt8) (i : Nat) (h10 : s.getD i 0 = 10)
    (hp : ¬ (0 < i ∧ s.getD (i - 1) 0 = 13)) : starts_line_terminator s i = true := by
  unfold starts_line_terminator
  rw [decide_eq_true h10]
  by_cases hz : 0 < i
  · have hq : s.getD (i - 1) 0 ≠ 13 := fun hq => hp ⟨hz, hq⟩
    rw [decide_eq_false hq]
    cases decide (s.getD i 0 = 13) <;> cases decide (0 < i) <;> rfl
  · rw [decide_eq_false hz]
    cases decide (s.getD i 0 = 13) <;> rfl

theorem starts_line_terminator_crlf (s : List UInt8) (i : Nat) (h13 : s.getD i 0 = 13)
    (h10 : s.getD (i + 1) 0 = 10) : starts_line_terminator s (i + 1) = false := by
  have hn : s.getD (i + 1) 0 ≠ 13 := by
    rw [h10]
    decide
  unfold starts_line_terminator
  rw [decide_eq_false hn, decide_eq_true h10, Nat.add_sub_cancel, decide_eq_true h13,
    decide_eq_true (Nat.succ_pos i)]
  rfl

theorem skip_whitespace_loop_tracks (s : List UInt8) (fuel : Nat) :
    ∀ (ctx : compiler_context_t), tracks_position s ctx → s.length - ctx.position ≤ fuel →
      ∃ p1 : Nat,
        skip_whitespace_loop fuel ctx
          = { ctx with position := p1, line := line_of s p1, column := column_of s p1 }
        ∧ ctx.position ≤ p1 ∧ p1 ≤ s.length
        ∧ (∀ i, ctx.position ≤ i → i < p1 → is_whitespace (s.getD i 0) = true)
        ∧ (p1 < s.length → is_whitespace (s.getD p1 0) = false)
        ∧ ¬ (0 < p1 ∧ s.getD (p1 - 1) 0 = 13 ∧ s.getD p1 0 = 10) := by
  induction fuel with
  | zero =>
    intro ctx ht hf
    obtain ⟨src, len, pos, line, col, toks, cnt, tcap, ast, err, has⟩ := ctx
    obtain ⟨hsrc, hlen, hpos, hline, hcol, hb⟩ := ht
    simp only at hsrc hlen hpos hline hcol hb hf
    subst hsrc hlen hline hcol
    exact ⟨pos, rfl, Nat.le_refl _, hpos, fun i h1 h2 => by simp only at h1; omega,
      fun h => absurd h (by omega), hb⟩
  | succ n ih =>
    intro ctx ht hf
    obtain ⟨src, len, pos, line, col, toks, cnt, tcap, ast, err, has⟩ := ctx
    obtain ⟨hsrc, hlen, hpos, hline, hcol, hb⟩ := ht
    simp only at hsrc hlen hpos hline hcol hb hf
    subst hsrc hlen hline hcol
    rw [skip_whitespace_loop]
    simp only [source_at]
    by_cases hlt : pos < src.length
    · simp only [hlt, if_true]
      by_cases h1 : src.getD pos 0 = 32 ∨ src.getD pos 0 = 9
      · have h10 : src.getD pos 0 ≠ 10 := by
          rcases h1 with h | h <;> rw [h] <;> decide
        have h13 : src.getD pos 0 ≠ 13 := by
          rcases h1 with h | h <;> rw [h] <;> decide
        have hst := starts_line_terminator_plain src pos h10 h13
        obtain ⟨p1, e, hle, hle2, hws, hstop, hb1⟩ := ih
          ⟨src, src.length, pos + 1, line_of src pos, column_of src pos + 1, toks, cnt, tcap,
            ast, err, has⟩
          ⟨rfl, rfl, by simp only; omega, (line_of_succ_plain src pos hst).symm,
            (column_of_succ_plain src pos h10 h13).symm,
            by simp only [Nat.add_sub_cancel]; exact fun hc => h13 hc.2.1⟩
          (by simp only; omega)
        simp only at e hle hws
        simp only [h1, if_true]
        refine ⟨p1, e, by omega, hle2, ?_, hstop, hb1⟩
        intro i hi1 hi2
        by_cases hip : i = pos
        · rw [hip, is_whitespace_iff]
          rcases h1 with h | h
          · exact Or.inl h
          · exact Or.inr (Or.inl h)
        · exact hws i (by omega) hi2
      · simp only [h1, if_false]
        by_cases h10 : src.getD pos 0 = 10
        · have hst := starts_line_terminator_lf src pos h10 (fun hc => hb ⟨hc.1, hc.2, h10⟩)
          obtain ⟨p1, e, hle, hle2, hws, hstop, hb1⟩ := ih
            ⟨src, src.length, pos + 1, line_of src pos + 1, 1, toks, cnt, tcap,
              ast, err, has⟩
            ⟨rfl, rfl, by simp only; omega, (line_of_succ_terminator src pos hst).symm,
              (column_of_succ_terminator src pos (Or.inl h10)).symm,
              by
                simp only [Nat.add_sub_cancel]
                intro hc
                rw [h10] at hc
                exact absurd hc.2.1 (by decide)⟩
            (by simp only; omega)
          simp only at e hle hws
          simp only [h10, if_true]
          refine ⟨p1, e, by omega, hle2, ?_, hstop, hb1⟩
          intro i hi1 hi2
          by_cases hip : i = pos
          · rw [hip, is_whitespace_iff]
            exact Or.inr (Or.inr (Or.inl h10))
          · exact hws i (by omega) hi2
        · simp only [h10, if_false]
          by_cases h13 : src.getD pos 0 = 13
          · simp only [h13, if_true]
            have hst := starts_line_terminator_cr src pos h13
            by_cases hnext : pos + 1 < src.length ∧ src.getD (pos + 1) 0 = 10
            · simp only [hnext, and_self, if_true]
              have hst1 := starts_line_terminator_crlf src pos h13 hnext.2
              obtain ⟨p1, e, hle, hle2, hws, hstop, hb1⟩ := ih
                ⟨src, src.length, pos + 1 + 1, line_of src pos + 1, 1, toks, cnt, tcap,
                  ast, err, has⟩
                ⟨rfl, rfl, by simp only; omega,
                  by
                    simp only
                    rw [line_of_succ_plain src (pos + 1) hst1,
                      line_of_succ_terminator src pos hst],
                  (column_of_succ_terminator src (pos + 1) (Or.inl hnext.2)).symm,
                  by
                    simp only [Nat.add_sub_cancel]
                    intro hc
                    rw [hnext.2] at hc
                    exact absurd hc.2.1 (by decide)⟩
                (by simp only; omega)
              simp only at e hle hws
              refine ⟨p1, e, by omega, hle2, ?_, hstop, hb1⟩
              intro i hi1 hi2
              by_cases hip : i = pos
              · rw [hip, is_whitespace_iff]
                exact Or.inr (Or.inr (Or.inr h13))
              · by_cases hip1 : i = pos + 1
                · rw [hip1, is_whitespace_iff]
                  exact Or.inr (Or.inr (Or.inl hnext.2))
                · exact hws i (by omega) hi2
            · simp only [hnext, if_false]
              obtain ⟨p1, e, hle, hle2, hws, hstop, hb1⟩ := ih
                ⟨src, src.length, pos + 1, line_of src pos + 1, 1, toks, cnt, tcap,
                  ast, err, has⟩
                ⟨rfl, rfl, by simp only; omega, (line_of_succ_terminator src pos hst).symm,
                  (column_of_succ_terminator src pos (Or.inr h13)).symm,
                  by
                    simp only [Nat.add_sub_cancel]
                    intro hc
                    by_cases hl : pos + 1 < src.length
                    · exact hnext ⟨hl, hc.2.2⟩
                    · have hz : src.getD (pos + 1) 0 = 0 := by
                        rw [List.getD_eq_default _ _ (by omega)]
                      rw [hz] at hc
                      exact absurd hc.2.2 (by decide)⟩
                (by simp only; omega)
              simp only at e hle hws
              refine ⟨p1, e, by omega, hle2, ?_, hstop, hb1⟩
              intro i hi1 hi2
              by_cases hip : i = pos
              · rw [hip, is_whitespace_iff]
                exact Or.inr (Or.inr (Or.inr h13))
              · exact hws i (by omega) hi2
          · simp only [h13, if_false]
            refine ⟨pos, rfl, Nat.le_refl _, hpos, fun i h1 h2 => by omega, ?_,
              hb⟩
            intro _
            have : ¬ is_whitespace (src.getD pos 0) = true := by
              rw [is_whitespace_iff]
              rintro (h | h | h | h)
              · exact h1 (Or.inl h)
              · exact h1 (Or.inr h)
              · exact h10 h
              · exact h13 h
            simpa using this
    · simp only [hlt, if_false]
      exact ⟨pos, rfl, Nat.le_refl _, hpos, fun i h1 h2 => by omega,
        fun h => absurd h hlt, hb⟩

theorem lex_emit_granted (ctx : compiler_context_t) (type : token_type_t) (n : Nat)
    (m : AllocLog) (hg : all_granted m = true) (hcap : 0 < ctx.token_capacity)
    (hcount : ctx.token_count ≤ ctx.token_capacity) :
    ∃ (cap : Nat) (m1 : AllocLog),
      lex_emit ctx type n m
        = .next { ctx with
                  tokens := ctx.tokens ++ [⟨type, none, 0, ctx.line, ctx.column⟩],
                  token_count := ctx.token_count + 1, token_capacity := cap,
                  position := ctx.position + n, column := ctx.column + n } m1
      ∧ all_granted m1 = true ∧ 0 < cap ∧ ctx.token_count + 1 ≤ cap := by
  obtain ⟨cap, m1, h1, h2, h3, h4⟩ := add_token_granted ctx type none 0 m hg hcap hcount
  refine ⟨cap, m1, ?_, h2, h3, h4⟩
  unfold lex_emit
  rw [h1]
  simp

theorem lex_loop_step_finish (n : Nat) (ctx ctx1 : compiler_context_t) (m : AllocLog)
    (hpos : ctx.position < ctx.source_len)
    (hskip : skip_comment (skip_whitespace ctx) = ctx1)
    (hend : ctx1.source_len ≤ ctx1.position) :
    lex_loop (n + 1) ctx m = lex_finish ctx1 m := by
  have hn : ctx1.position ≥ ctx1.source_len := hend
  rw [lex_loop.eq_def]
  simp only [hpos, if_true, hskip, hn]

theorem lex_loop_step_switch (n : Nat) (ctx ctx1 : compiler_context_t) (m : AllocLog)
    (hpos : ctx.position < ctx.source_len)
    (hskip : skip_comment (skip_whitespace ctx) = ctx1)
    (hpos1 : ctx1.position < ctx1.source_len)
    (ha : isalpha (source_at ctx1 ctx1.position) = false)
    (hu : source_at ctx1 ctx1.position ≠ 95)
    (hd : isdigit (source_at ctx1 ctx1.position) = false)
    (hq : source_at ctx1 ctx1.position ≠ 34) :
    lex_loop (n + 1) ctx m
      = match lex_operator ctx1 (source_at ctx1 ctx1.position) m with
        | .next ctx2 m2 => lex_loop n ctx2 m2
        | .failed ctx2 m2 => .returned (-1) ctx2 m2
        | .stopped => .stopped := by
  have hn : ¬ ctx1.position ≥ ctx1.source_len := by omega
  rw [lex_loop.eq_def]
  simp only [hpos, if_true, hskip, hn, if_false, ha, hu, hd, hq, or_self, Bool.false_eq_true]

theorem lex_operator_punctuation (ctx : compiler_context_t) (c : UInt8) (type : token_type_t)
    (m : AllocLog) (h : punctuation_token c = some type) :
    lex_operator ctx c m = lex_emit ctx type 1 m := by
  unfold lex_operator
  rw [punctuation_token_find c type h]
  rfl

theorem unexpected_byte_class (s : List UInt8) (q : Nat) (h : unexpected_byte s q = true) :
    is_whitespace (s.getD q 0) = false ∧ isalpha (s.getD q 0) = false ∧ s.getD q 0 ≠ 95
      ∧ isdigit (s.getD q 0) = false ∧ s.getD q 0 ≠ 34 ∧ s.getD q 0 ≠ 47
      ∧ punctuation_token (s.getD q 0) = none := by
  unfold unexpected_byte at h
  simp only [Bool.and_eq_true, Bool.not_eq_true', decide_eq_true_eq, ne_eq] at h
  obtain ⟨⟨⟨⟨⟨h1, h2⟩, h3⟩, h4⟩, h5⟩, h6⟩ := h
  have hsingle : ∀ e, (operator_table.find? fun x => x.1 = s.getD q 0) = some e →
      e.2.2 = none := by
    intro e he
    rw [he] at h6
    simp only [Bool.and_eq_true, Option.isNone_iff_eq_none] at h6
    exact h6.1
  refine ⟨h1, h2, h3, h4, h5, ?_, ?_⟩
  · intro hc
    have := hsingle (47, [(61, .TOKEN_DIVIDE_ASSIGN)], some .TOKEN_DIVIDE) (by rw [hc]; rfl)
    exact absurd this (by simp)
  · unfold punctuation_token
    split
    · rename_i c1 t1 hfind
      have := hsingle _ hfind
      exact absurd this (by simp)
    · rfl

theorem lex_operator_unexpected (ctx : compiler_context_t) (m : AllocLog)
    (hlen : ctx.source_len = ctx.source.length) (hg : all_granted m = true)
    (h : unexpected_byte ctx.source ctx.position = true) :
    lex_operator ctx (source_at ctx ctx.position) m
      = .failed { ctx with
                  error_msg := some (format_unexpected (source_at ctx ctx.position)
                    ctx.line ctx.column),
                  has_error := true } (malloc m).2 := by
  unfold unexpected_byte at h
  simp only [Bool.and_eq_true, Bool.not_eq_true', decide_eq_true_eq, ne_eq] at h
  obtain ⟨_, h6⟩ := h
  have hfail : lex_fail ctx (format_unexpected (source_at ctx ctx.position) ctx.line ctx.column) m
      = .failed { ctx with
                  error_msg := some (format_unexpected (source_at ctx ctx.position)
                    ctx.line ctx.column),
                  has_error := true } (malloc m).2 := by
    simp only [lex_fail, compiler_set_error, format_unexpected_length, if_true,
      (compiler_malloc_granted m hg).1]
  unfold lex_operator
  simp only [source_at] at hfail ⊢
  split at h6
  · rename_i hfind
    rw [hfind]
    exact hfail
  · rename_i c1 followers single hfind
    rw [hfind]
    simp only [Bool.and_eq_true, Option.isNone_iff_eq_none] at h6
    obtain ⟨hs, hf⟩ := h6
    have hpeek : (followers.find? fun f => lex_peek ctx f.1) = none := by
      rw [List.find?_eq_none] at hf ⊢
      intro f hmem hc
      apply hf f hmem
      simp only [lex_peek, source_at, decide_eq_true_eq] at hc
      simp only [decide_eq_true_eq]
      exact ⟨by rw [← hlen]; exact hc.1, hc.2⟩
    simp only [hpeek, hs]
    exact hfail

theorem punctuation_tokens_whitespace (s : List UInt8) (p : Nat) : ∀ (k : Nat),
    (∀ i, p ≤ i → i < p + k → is_whitespace (s.getD i 0) = true) →
    punctuation_tokens s (p + k) = punctuation_tokens s p := by
  intro k
  induction k with
  | zero => intro _; rfl
  | succ k ih =>
    intro h
    rw [← Nat.add_assoc, punctuation_tokens_succ, ih (fun i h1 h2 => h i h1 (by omega))]
    have hw := h (p + k) (by omega) (by omega)
    have hn : punctuation_token (s.getD (p + k) 0) = none := by
      cases hp : punctuation_token (s.getD (p + k) 0) with
      | none => rfl
      | some t =>
        have := (punctuation_token_class _ t hp).1
        rw [hw] at this
        exact absurd this (by simp)
    rw [hn]
    simp

theorem lex_loop_punctuation (s : List UInt8) (q : Nat) (hq : q ≤ s.length)
    (halpha : ∀ i, i < q → is_whitespace (s.getD i 0) = true
      ∨ (punctuation_token (s.getD i 0)).isSome = true)
    (hend : q < s.length → unexpected_byte s q = true) (fuel : Nat) :
    ∀ (ctx : compiler_context_t) (m : AllocLog), tracks_position s ctx → ctx.position ≤ q →
      ctx.tokens = punctuation_tokens s ctx.position →
      ctx.token_count = ctx.tokens.length → all_granted m = true →
      0 < ctx.token_capacity → ctx.token_count ≤ ctx.token_capacity →
      s.length - ctx.position ≤ fuel →
      ∃ (ctx1 : compiler_context_t) (m1 : AllocLog),
        lex_loop fuel ctx m = .returned (if q < s.length then -1 else 0) ctx1 m1
        ∧ ctx1.tokens = punctuation_tokens s q
            ++ (if q < s.length then []
                else [⟨.TOKEN_EOF, none, 0, line_of s q, column_of s q⟩])
        ∧ ctx1.token_count = ctx1.tokens.length
        ∧ ctx1.error_msg = (if q < s.length then
              some (format_unexpected (s.getD q 0) (line_of s q) (column_of s q))
            else ctx.error_msg)
        ∧ ctx1.has_error = (if q < s.length then true else ctx.has_error) := by
  have hfinish : ∀ (p : Nat) (toks : List token_t) (cnt tcap : Nat)
      (ast : Option ast_node_t) (err : Option String) (has : Bool) (m : AllocLog),
      p = s.length → p ≤ q → toks = punctuation_tokens s p → cnt = toks.length →
      all_granted m = true → 0 < tcap → cnt ≤ tcap →
      ∃ (ctx1 : compiler_context_t) (m1 : AllocLog),
        lex_finish ⟨s, s.length, p, line_of s p, column_of s p, toks, cnt, tcap, ast, err,
            has⟩ m
          = .returned (if q < s.length then -1 else 0) ctx1 m1
        ∧ ctx1.tokens = punctuation_tokens s q
            ++ (if q < s.length then []
                else [⟨.TOKEN_EOF, none, 0, line_of s q, column_of s q⟩])
        ∧ ctx1.token_count = ctx1.tokens.length
        ∧ ctx1.error_msg = (if q < s.length then
              some (format_unexpected (s.getD q 0) (line_of s q) (column_of s q))
            else err)
        ∧ ctx1.has_error = (if q < s.length then true else has) := by
    intro p toks cnt tcap ast err has m hp hpq htoks hcnt hg hcap hcount
    have hqe : p = q := by omega
    have hnl : ¬ q < s.length := by omega
    subst hqe
    obtain ⟨cap, m1, hfin, _⟩ := lex_finish_granted
      ⟨s, s.length, p, line_of s p, column_of s p, toks, cnt, tcap, ast, err, has⟩ m hg hcap
      hcount
    simp only at hfin
    refine ⟨⟨s, s.length, p, line_of s p, column_of s p,
      toks ++ [⟨.TOKEN_EOF, none, 0, line_of s p, column_of s p⟩], cnt + 1, cap, ast, err,
      has⟩, m1, ?_, ?_, ?_, ?_, ?_⟩
    · rw [hfin]
      simp only [hnl, if_false]
    · simp only [hnl, if_false, htoks]
    · simp only [List.length_append, List.length_singleton, hcnt]
    · simp only [hnl, if_false]
    · simp only [hnl, if_false]
  induction fuel with
  | zero =>
    intro ctx m ht hpq htoks hcnt hg hcap hcount hf
    obtain ⟨src, len, pos, line, col, toks, cnt, tcap, ast, err, has⟩ := ctx
    obtain ⟨hsrc, hlen, hpos, hline, hcol, hb⟩ := ht
    simp only at hsrc hlen hpos hline hcol hb hf hpq htoks hcnt hcap hcount
    subst hsrc hlen hline hcol
    rw [lex_loop_end _ _ _ (by simp only; omega)]
    exact hfinish pos toks cnt tcap ast err has m (by omega) hpq htoks hcnt hg hcap hcount
  | succ n ih =>
    intro ctx m ht hpq htoks hcnt hg hcap hcount hf
    by_cases hlt : ctx.position < s.length
    · obtain ⟨p1, e, hle, hle2, hws, hstop, hb1⟩ :=
        skip_whitespace_loop_tracks s (s.length - ctx.position) ctx ht (Nat.le_refl _)
      obtain ⟨src, len, pos, line, col, toks, cnt, tcap, ast, err, has⟩ := ctx
      obtain ⟨hsrc, hlen, hpos, hline, hcol, hb⟩ := ht
      simp only at hsrc hlen hpos hline hcol hb hf hpq htoks hcnt hcap hcount hlt e hle hws
      subst hsrc hlen hline hcol
      have hp1q : p1 ≤ q := by
        by_contra hc
        have hql : q < src.length := by omega
        have h1 := hws q hpq (by omega)
        have h2 := (unexpected_byte_class src q (hend hql)).1
        rw [h1] at h2
        exact absurd h2 (by simp)
      have hclass : p1 < src.length → src.getD p1 0 ≠ 47 := by
        intro hl
        by_cases hpq1 : p1 < q
        · rcases halpha p1 hpq1 with h | h
          · rw [hstop hl] at h
            exact absurd h (by simp)
          · obtain ⟨t, ht⟩ := Option.isSome_iff_exists.mp h
            exact (punctuation_token_class _ t ht).2.2.2.2.2.1
        · have hqe : q = p1 := by omega
          rw [← hqe]
          exact (unexpected_byte_class src q (hend (by omega))).2.2.2.2.2.1
      have hskip : skip_comment (skip_whitespace
            ⟨src, src.length, pos, line_of src pos, column_of src pos, toks, cnt, tcap, ast, err,
              has⟩)
          = ⟨src, src.length, p1, line_of src p1, column_of src p1, toks, cnt, tcap, ast, err,
              has⟩ := by
        have : skip_whitespace
            ⟨src, src.length, pos, line_of src pos, column_of src pos, toks, cnt, tcap, ast, err,
              has⟩
          = ⟨src, src.length, p1, line_of src p1, column_of src p1, toks, cnt, tcap, ast, err,
              has⟩ := e
        rw [this]
        exact skip_comment_stay _ (fun hl => hclass hl)
      have htoks1 : toks = punctuation_tokens src p1 := by
        obtain ⟨k, hk⟩ : ∃ k, p1 = pos + k := ⟨p1 - pos, by omega⟩
        rw [htoks, hk]
        exact (punctuation_tokens_whitespace src pos k
          (fun i h1 h2 => hws i h1 (by omega))).symm
      by_cases hl1 : p1 < src.length
      · by_cases hpq1 : p1 < q
        · have hpt : ∃ t, punctuation_token (src.getD p1 0) = some t := by
            rcases halpha p1 hpq1 with h | h
            · rw [hstop hl1] at h
              exact absurd h (by simp)
            · exact Option.isSome_iff_exists.mp h
          obtain ⟨t, hpt⟩ := hpt
          obtain ⟨c1, c2, c3, c4, c5, c6, _⟩ := punctuation_token_class _ t hpt
          have h10 : src.getD p1 0 ≠ 10 := by
            intro hc
            rw [hc] at c1
            exact absurd c1 (by decide)
          have h13 : src.getD p1 0 ≠ 13 := by
            intro hc
            rw [hc] at c1
            exact absurd c1 (by decide)
          obtain ⟨cap, m1, hemit, hg1, hcap1, hcount1⟩ := lex_emit_granted
            ⟨src, src.length, p1, line_of src p1, column_of src p1, toks, cnt, tcap, ast, err,
              has⟩ t 1 m hg hcap hcount
          obtain ⟨ctx1, m2, hr, r1, r2, r3, r4⟩ := ih
            ⟨src, src.length, p1 + 1, line_of src p1, column_of src p1 + (1 : Nat),
              toks ++ [⟨t, none, 0, line_of src p1, column_of src p1⟩], cnt + 1, cap, ast, err,
              has⟩ m1
            ⟨rfl, rfl, by simp only; omega,
              (line_of_succ_plain src p1 (starts_line_terminator_plain src p1 h10 h13)).symm,
              by
                simp only
                rw [column_of_succ_plain src p1 h10 h13]
                rfl,
              by
                simp only [Nat.add_sub_cancel]
                exact fun hc => h13 hc.2.1⟩
            (by simp only; omega)
            (by
              simp only
              rw [punctuation_tokens_succ, hpt, htoks1])
            (by simp only [List.length_append, List.length_singleton, hcnt])
            hg1 hcap1 hcount1 (by simp only; omega)
          refine ⟨ctx1, m2, ?_, r1, r2, r3, r4⟩
          rw [lex_loop_step_switch n _ _ m (by simp only; omega) hskip hl1 c2 c3 c4 c5]
          simp only [source_at]
          rw [lex_operator_punctuation _ _ t m hpt, hemit]
          exact hr
        · have hqe : q = p1 := by omega
          subst hqe
          have hun := hend hl1
          obtain ⟨_, c2, c3, c4, c5, _, _⟩ := unexpected_byte_class src q hun
          have hop := lex_operator_unexpected
            ⟨src, src.length, q, line_of src q, column_of src q, toks, cnt, tcap, ast, err,
              has⟩ m rfl hg hun
          simp only at hop
          refine ⟨⟨src, src.length, q, line_of src q, column_of src q, toks, cnt, tcap, ast,
            some (format_unexpected (source_at
              ⟨src, src.length, q, line_of src q, column_of src q, toks, cnt, tcap, ast, err,
                has⟩ q) (line_of src q) (column_of src q)), true⟩,
            (malloc m).2, ?_, ?_, ?_, ?_, ?_⟩
          · rw [lex_loop_step_switch n _ _ m (by simp only; omega) hskip hl1 c2 c3 c4 c5, hop]
            simp only [hl1, if_true]
          · simp only [hl1, if_true, List.append_nil, htoks1]
          · exact hcnt
          · simp only [hl1, if_true, source_at]
          · simp only [hl1, if_true]
      · rw [lex_loop_step_finish n _ _ m (by simp only; omega) hskip (by simp only; omega)]
        exact hfinish p1 toks cnt tcap ast err has m (by omega) hp1q htoks1 hcnt hg hcap hcount
    · obtain ⟨src, len, pos, line, col, toks, cnt, tcap, ast, err, has⟩ := ctx
      obtain ⟨hsrc, hlen, hpos, hline, hcol, hb⟩ := ht
      simp only at hsrc hlen hpos hline hcol hb hf hpq htoks hcnt hcap hcount hlt
      subst hsrc hlen hline hcol
      rw [lex_loop_end _ _ _ (by simp only; omega)]
      exact hfinish pos toks cnt tcap ast err has m (by omega) hpq htoks hcnt hg hcap hcount

theorem lex_punctuation_source (ctx : compiler_context_t) (m : AllocLog) (s : List UInt8)
    (q : Nat) (hg : all_granted m = true) (hcap : 0 < ctx.token_capacity)
    (hq : q ≤ s.length)
    (halpha : ∀ i, i < q → is_whitespace (s.getD i 0) = true
      ∨ (punctuation_token (s.getD i 0)).isSome = true)
    (hend : q < s.length → unexpected_byte s q = true) :
    ∃ (ctx1 : compiler_context_t) (m1 : AllocLog),
      compiler_lex { ctx with source := s, source_len := s.length } m
        = .returned (if q < s.length then -1 else 0) ctx1 m1
      ∧ ctx1.tokens = punctuation_tokens s q
          ++ (if q < s.length then []
              else [⟨.TOKEN_EOF, none, 0, line_of s q, column_of s q⟩])
      ∧ ctx1.token_count = ctx1.tokens.length
      ∧ ctx1.error_msg = (if q < s.length then
            some (format_unexpected (s.getD q 0) (line_of s q) (column_of s q))
          else ctx.error_msg)
      ∧ ctx1.has_error = (if q < s.length then true else ctx.has_error) := by
  obtain ⟨src, len, pos, line, col, toks, cnt, tcap, ast, err, has⟩ := ctx
  simp only at hcap
  unfold compiler_lex
  exact lex_loop_punctuation s q hq halpha hend s.length
    ⟨s, s.length, 0, 1, 1, [], 0, tcap, ast, err, has⟩ m
    ⟨rfl, rfl, Nat.zero_le _, by simp [line_of, line_terminators_before],
      by simp [column_of, line_start], fun hc => absurd hc.1 (by simp)⟩
    (Nat.zero_le _) rfl rfl hg hcap (Nat.zero_le _) (by simp)

theorem punctuation_tokens_lines (s : List UInt8) (q : Nat) :
    (punctuation_tokens s q).map (fun t => t.line)
      = ((List.range q).filter fun i => (punctuation_token (s.getD i 0)).isSome).map
          fun i => 1 + (line_terminators_before s i : Int) := by
  induction q with
  | zero => rfl
  | succ q ih =>
    rw [punctuation_tokens_succ, List.range_succ, List.filter_append, List.map_append,
      List.map_append, ih]
    congr 1
    cases hp : punctuation_token (s.getD q 0) <;>
      simp only [List.filter_cons, List.filter_nil, hp, Option.isSome_none, Option.isSome_some,
        Bool.false_eq_true, if_false, if_true, List.map_nil, List.map_cons, line_of]

/-! ## Runs of the lexer on operators and on string literals -/

theorem skip_comment_backtrack (ctx : compiler_context_t)
    (hpos : ctx.position < ctx.source_len) (h47 : source_at ctx ctx.position = 47)
    (hn47 : ¬ (ctx.position + 1 < ctx.source_len ∧ source_at ctx (ctx.position + 1) = 47))
    (hn42 : ¬ (ctx.position + 1 < ctx.source_len ∧ source_at ctx (ctx.position + 1) = 42)) :
    skip_comment ctx = ctx := by
  obtain ⟨src, len, pos, line, col, toks, cnt, tcap, ast, err, has⟩ := ctx
  simp only [source_at] at hpos h47 hn47 hn42
  unfold skip_comment
  simp only [source_at, hpos, h47, and_self, if_true, hn47, hn42, if_false,
    Nat.add_sub_cancel, compiler_context_t.mk.injEq, true_and, and_true]
  omega

theorem lex_operator_alone (ctx : compiler_context_t) (m : AllocLog) (w : List UInt8)
    (t : token_type_t) (hg : all_granted m = true) (hcap : 0 < ctx.token_capacity)
    (hspell :
      (w.length = 1
        ∧ ((operator_table.find? fun x => x.1 = w.getD 0 0).bind fun e => e.2.2) = some t)
      ∨ (w.length = 2
        ∧ ((operator_table.find? fun x => x.1 = w.getD 0 0).bind fun e =>
            (e.2.1.find? fun f => f.1 = w.getD 1 0).map fun f => f.2) = some t
        ∧ (w.getD 0 0 = 47 → w.getD 1 0 ≠ 47 ∧ w.getD 1 0 ≠ 42))) :
    ∃ (ctx1 : compiler_context_t) (m1 : AllocLog),
      compiler_lex { ctx with source := w, source_len := w.length } m = .returned 0 ctx1 m1
      ∧ ctx1.tokens = [⟨t, none, 0, 1, 1⟩, ⟨.TOKEN_EOF, none, 0, 1, 1 + w.length⟩]
      ∧ ctx1.token_count = 2 := by
  obtain ⟨src, len, pos, line, col, toks, cnt, tcap, ast, err, has⟩ := ctx
  simp only at hcap
  have hfind : ∃ e, (operator_table.find? fun x => x.1 = w.getD 0 0) = some e := by
    rcases hspell with ⟨_, h⟩ | ⟨_, h, _⟩ <;>
      · obtain ⟨e, he, _⟩ := Option.bind_eq_some.mp h
        exact ⟨e, he⟩
  obtain ⟨e, hfind⟩ := hfind
  obtain ⟨hmem, he1⟩ := operator_find_mem _ e hfind
  obtain ⟨c1, c2, c3, c4, c5, _, _⟩ := operator_table_class e hmem
  rw [he1] at c1 c2 c3 c4 c5
  have hlen : 0 < w.length := by
    rcases hspell with ⟨h, _⟩ | ⟨h, _⟩ <;> omega
  have hws := skip_whitespace_stay
    ⟨w, w.length, 0, 1, 1, [], 0, tcap, ast, err, has⟩
    (fun _ => by
      simp only [source_at]
      refine ⟨?_, ?_, ?_, ?_⟩ <;>
        · intro hc
          rw [hc] at c1
          exact absurd c1 (by decide))
  have hsc : skip_comment ⟨w, w.length, 0, 1, 1, [], 0, tcap, ast, err, has⟩
      = ⟨w, w.length, 0, 1, 1, [], 0, tcap, ast, err, has⟩ := by
    by_cases h47 : w.getD 0 0 = 47
    · apply skip_comment_backtrack ⟨w, w.length, 0, 1, 1, [], 0, tcap, ast, err, has⟩ hlen h47
      · simp only [source_at]
        rcases hspell with ⟨h, _⟩ | ⟨_, _, h⟩
        · intro hc
          omega
        · exact fun hc => (h h47).1 hc.2
      · simp only [source_at]
        rcases hspell with ⟨h, _⟩ | ⟨_, _, h⟩
        · intro hc
          omega
        · exact fun hc => (h h47).2 hc.2
    · exact skip_comment_stay _ (fun _ => h47)
  have hop : lex_operator ⟨w, w.length, 0, 1, 1, [], 0, tcap, ast, err, has⟩ (w.getD 0 0) m
      = lex_emit ⟨w, w.length, 0, 1, 1, [], 0, tcap, ast, err, has⟩ t w.length m := by
    unfold lex_operator
    rw [hfind]
    obtain ⟨c, fs, single⟩ := e
    rcases hspell with ⟨hl, h⟩ | ⟨hl, h, _⟩
    · rw [hfind] at h
      simp only [Option.some_bind] at h
      have hpeek : (fs.find? fun f =>
          lex_peek ⟨w, w.length, 0, 1, 1, [], 0, tcap, ast, err, has⟩ f.1) = none := by
        rw [List.find?_eq_none]
        intro f _ hc
        simp only [lex_peek, decide_eq_true_eq] at hc
        omega
      simp only [hpeek, h]
      rw [hl]
    · rw [hfind] at h
      simp only [Option.some_bind, Option.map_eq_some'] at h
      obtain ⟨f, hf, hft⟩ := h
      have hfun : (fun f : UInt8 × token_type_t =>
            lex_peek ⟨w, w.length, 0, 1, 1, [], 0, tcap, ast, err, has⟩ f.1)
          = fun f => decide (f.1 = w.getD 1 0) := by
        funext f
        have h12 : 0 + 1 < w.length := by omega
        simp only [lex_peek, source_at, h12, true_and, Nat.zero_add]
        exact decide_eq_decide.mpr eq_comm
      simp only [hfun, hf, hft]
      rw [hl]
  obtain ⟨cap, m1, hemit, hg1, hcap1, hcount1⟩ := lex_emit_granted
    ⟨w, w.length, 0, 1, 1, [], 0, tcap, ast, err, has⟩ t w.length m hg hcap (Nat.zero_le _)
  simp only at hemit
  obtain ⟨cap2, m2, hfin, _⟩ := lex_finish_granted
    ⟨w, w.length, 0 + w.length, 1, 1 + (w.length : Int),
      [] ++ [⟨t, none, 0, 1, 1⟩], 0 + 1, cap, ast, err, has⟩ m1 hg1 hcap1 hcount1
  simp only at hfin
  refine ⟨⟨w, w.length, 0 + w.length, 1, 1 + (w.length : Int),
      [] ++ [⟨t, none, 0, 1, 1⟩] ++ [⟨.TOKEN_EOF, none, 0, 1, 1 + (w.length : Int)⟩],
      0 + 1 + 1, cap2, ast, err, has⟩, m2, ?_, by simp, rfl⟩
  unfold compiler_lex
  simp only
  obtain ⟨n, hn⟩ : ∃ n, w.length = n + 1 := ⟨w.length - 1, by omega⟩
  rw [show lex_loop w.length = lex_loop (n + 1) from by rw [hn],
    lex_loop_step_switch n ⟨w, w.length, 0, 1, 1, [], 0, tcap, ast, err, has⟩
      ⟨w, w.length, 0, 1, 1, [], 0, tcap, ast, err, has⟩ m hlen (by rw [hws]; exact hsc) hlen
      c2 c3 c4 c5]
  simp only [source_at]
  rw [hop, hemit]
  simp only
  rw [lex_loop_end _ _ _ (by simp), hfin]

theorem read_string_loop_plain (n : Nat) (ctx : compiler_context_t)
    (hpos : ctx.position < ctx.source_len) (h34 : source_at ctx ctx.position ≠ 34)
    (h92 : source_at ctx ctx.position ≠ 92) :
    ∃ (line column : Int),
      read_string_loop (n + 1) ctx
        = read_string_loop n
            { ctx with position := ctx.position + 1, line := line, column := column } := by
  obtain ⟨src, len, pos, line, col, toks, cnt, tcap, ast, err, has⟩ := ctx
  simp only [source_at] at hpos h34 h92
  rw [read_string_loop]
  simp only [source_at, hpos, h34, ne_eq, not_false_eq_true, and_self, if_true, h92, if_false]
  by_cases h10 : src.getD pos 0 = 10
  · exact ⟨line + 1, 1, by simp only [h10, if_true]⟩
  · exact ⟨line, col + 1, by simp only [h10, if_false]⟩

theorem read_string_loop_escape (n : Nat) (ctx : compiler_context_t)
    (hpos : ctx.position < ctx.source_len) (h92 : source_at ctx ctx.position = 92) :
    ∃ (line column : Int),
      read_string_loop (n + 1) ctx
        = read_string_loop n
            { ctx with position := ctx.position + 1 + 1, line := line, column := column } := by
  obtain ⟨src, len, pos, line, col, toks, cnt, tcap, ast, err, has⟩ := ctx
  simp only [source_at] at hpos h92
  have h34 : src.getD pos 0 ≠ 34 := by
    rw [h92]
    decide
  rw [read_string_loop]
  simp only [source_at, hpos, h34, ne_eq, not_false_eq_true, and_self, if_true]
  simp only [h92, if_true]
  by_cases h10 : src.getD (pos + 1) 0 = 10
  · exact ⟨line + 1, 1, by simp only [h10, if_true]⟩
  · exact ⟨line, col + 1 + 1, by simp only [h10, if_false]⟩

theorem read_string_loop_body (k : Nat) : ∀ (b : List UInt8) (fuel : Nat)
    (ctx : compiler_context_t), b.length = k → string_body b = true → b.length ≤ fuel →
    ctx.position + b.length < ctx.source_len →
    (∀ i, i < b.length → source_at ctx (ctx.position + i) = b.getD i 0) →
    source_at ctx (ctx.position + b.length) = 34 →
    ∃ (line column : Int),
      read_string_loop fuel ctx
        = { ctx with position := ctx.position + b.length, line := line, column := column } := by
  induction k using Nat.strong_induction_on with
  | _ k ih =>
    intro b fuel ctx hk hb hfuel hlen hsrc hclose
    match b, hk, hb, hfuel, hlen, hsrc, hclose with
    | [], _, _, _, hlen, _, hclose =>
      simp only [List.length_nil, Nat.add_zero] at hlen hclose
      refine ⟨ctx.line, ctx.column, ?_⟩
      cases fuel with
      | zero => rfl
      | succ n =>
        rw [read_string_loop]
        simp only [hclose, ne_eq, not_true_eq_false, and_false, if_false, List.length_nil,
          Nat.add_zero]
    | [c], hk, hb, hfuel, hlen, hsrc, hclose =>
      simp only [string_body, Bool.and_eq_true, decide_eq_true_eq, ne_eq] at hb
      simp only [List.length_singleton] at hfuel hlen hclose hsrc
      have h0 := hsrc 0 (by omega)
      simp only [Nat.add_zero, List.getD_cons_zero] at h0
      obtain ⟨n, hn⟩ : ∃ n, fuel = n + 1 := ⟨fuel - 1, by omega⟩
      subst hn
      obtain ⟨line, column, e⟩ := read_string_loop_plain n ctx (by omega)
        (by rw [h0]; exact hb.1) (by rw [h0]; exact hb.2)
      refine ⟨line, column, ?_⟩
      rw [e]
      cases n with
      | zero => rfl
      | succ n =>
        rw [read_string_loop]
        simp only [source_at] at hclose
        simp only [source_at, hclose, ne_eq, not_true_eq_false, and_false, if_false,
          List.length_singleton]
    | c :: d :: rest, hk, hb, hfuel, hlen, hsrc, hclose =>
      simp only [List.length_cons] at hfuel hlen hclose hsrc hk
      have h0 := hsrc 0 (by omega)
      simp only [Nat.add_zero, List.getD_cons_zero] at h0
      obtain ⟨n, hn⟩ : ∃ n, fuel = n + 1 := ⟨fuel - 1, by omega⟩
      subst hn
      rw [string_body] at hb
      by_cases h92 : c = 92
      · simp only [h92, if_true] at hb
        obtain ⟨line, column, e⟩ := read_string_loop_escape n ctx (by omega)
          (by rw [h0]; exact h92)
        obtain ⟨line1, column1, e1⟩ := ih rest.length (by omega) rest n
          { ctx with position := ctx.position + 1 + 1, line := line, column := column } rfl hb
          (by omega) (by simp only; omega)
          (fun i hi => by
            have := hsrc (i + 1 + 1) (by omega)
            simp only [List.getD_cons_succ] at this
            simp only [source_at] at this ⊢
            rw [← this]
            congr 1
            omega)
          (by
            simp only [source_at] at hclose ⊢
            rw [← hclose]
            congr 1
            omega)
        refine ⟨line1, column1, ?_⟩
        rw [e, e1]
        simp only [List.length_cons, compiler_context_t.mk.injEq, true_and, and_true]
        omega
      · simp only [h92, if_false, Bool.and_eq_true, decide_eq_true_eq, ne_eq] at hb
        obtain ⟨line, column, e⟩ := read_string_loop_plain n ctx (by omega)
          (by rw [h0]; exact hb.1) (by rw [h0]; exact h92)
        obtain ⟨line1, column1, e1⟩ := ih (rest.length + 1) (by omega) (d :: rest) n
          { ctx with position := ctx.position + 1, line := line, column := column }
          (by simp) hb.2
          (by simp only [List.length_cons]; omega) (by simp only [List.length_cons]; omega)
          (fun i hi => by
            simp only [List.length_cons] at hi
            have := hsrc (i + 1) (by omega)
            simp only [List.getD_cons_succ] at this
            simp only [source_at] at this ⊢
            rw [← this]
            congr 1
            omega)
          (by
            simp only [source_at, List.length_cons] at hclose ⊢
            rw [← hclose]
            congr 1
            omega)
        refine ⟨line1, column1, ?_⟩
        rw [e, e1]
        simp only [List.length_cons, compiler_context_t.mk.injEq, true_and, and_true]
        omega

theorem lex_string_literal (ctx : compiler_context_t) (m : AllocLog) (b : List UInt8)
    (hg : all_granted m = true) (hcap : 0 < ctx.token_capacity)
    (hb : string_body b = true) :
    ∃ (ctx1 : compiler_context_t) (m1 : AllocLog) (line column : Int),
      compiler_lex { ctx with source := 34 :: (b ++ [34]),
                              source_len := (34 :: (b ++ [34])).length } m
        = .returned 0 ctx1 m1
      ∧ ctx1.tokens
          = [⟨.TOKEN_STRING, if b = [] then none else some b, b.length, line, column⟩,
             ⟨.TOKEN_EOF, none, 0, line, column + 1⟩]
      ∧ ctx1.token_count = 2
      ∧ ctx1.error_msg = ctx.error_msg ∧ ctx1.has_error = ctx.has_error := by
  obtain ⟨src, len, pos, line0, col0, toks, cnt, tcap, ast, err, has⟩ := ctx
  simp only at hcap
  have hsl : (34 :: (b ++ [34])).length = b.length + 1 + 1 := by
    simp only [List.length_cons, List.length_append, List.length_nil]
  have hfuel : (34 :: (b ++ [34])).length - (0 + 1) = b.length + 1 := by
    rw [hsl]
    omega
  obtain ⟨line, column, hloop⟩ := read_string_loop_body b.length b (b.length + 1)
    ⟨34 :: (b ++ [34]), (34 :: (b ++ [34])).length, 0 + 1, 1, 1 + 1, [], 0, tcap, ast, err,
      has⟩ rfl hb (Nat.le_succ _) (by simp only [hsl]; omega)
    (fun i hi => by
      simp only [source_at]
      rw [show 0 + 1 + i = i + 1 from by omega, List.getD_cons_succ,
        List.getD_append _ _ _ _ hi])
    (by
      simp only [source_at]
      rw [show 0 + 1 + b.length = b.length + 1 from by omega, List.getD_cons_succ,
        List.getD_append_right _ _ _ _ (Nat.le_refl _)]
      simp)
  simp only at hloop
  have hslice : source_slice
      ⟨34 :: (b ++ [34]), (34 :: (b ++ [34])).length, 0 + 1 + b.length, line, column, [], 0,
        tcap, ast, err, has⟩ (0 + 1) b.length = b := by
    simp [source_slice]
  obtain ⟨hm, hg1⟩ := compiler_malloc_granted m hg
  obtain ⟨cap, m1, hadd, hg2, hcap2, hcount2⟩ := add_token_granted
    ⟨34 :: (b ++ [34]), (34 :: (b ++ [34])).length, 0 + 1 + b.length, line, column, [], 0,
      tcap, ast, err, has⟩ .TOKEN_STRING (some b) b.length (malloc m).2 hg1 hcap
    (Nat.zero_le _)
  simp only at hadd hcount2
  have htok : (if (some b).isSome = true ∧ b.length > 0 then
        ({ type := .TOKEN_STRING, value := (some b).map fun bytes => bytes.take b.length,
           value_len := b.length, line := line, column := column } : token_t)
      else { type := .TOKEN_STRING, value := none, value_len := 0, line := line,
             column := column })
      = ⟨.TOKEN_STRING, if b = [] then none else some b, b.length, line, column⟩ := by
    cases b with
    | nil => simp
    | cons c r => simp
  rw [htok] at hadd
  have hrs : read_string
      ⟨34 :: (b ++ [34]), (34 :: (b ++ [34])).length, 0, 1, 1, [], 0, tcap, ast, err, has⟩ m
      = some (⟨34 :: (b ++ [34]), (34 :: (b ++ [34])).length, 0 + 1 + b.length + 1, line,
          column + 1,
          [] ++ [⟨.TOKEN_STRING, if b = [] then none else some b, b.length, line, column⟩],
          0 + 1, cap, ast, err, has⟩, m1) := by
    unfold read_string
    simp only
    rw [hfuel, hloop]
    have hnot : ¬ (0 + 1 + b.length ≥ (34 :: (b ++ [34])).length) := by
      rw [hsl]
      omega
    simp only [hnot, if_false, hm]
    rw [show 0 + 1 + b.length - (0 + 1) = b.length from by omega, hslice, hadd]
  obtain ⟨cap3, m3, hfin, _⟩ := lex_finish_granted
    ⟨34 :: (b ++ [34]), (34 :: (b ++ [34])).length, 0 + 1 + b.length + 1, line, column + 1,
      [] ++ [⟨.TOKEN_STRING, if b = [] then none else some b, b.length, line, column⟩],
      0 + 1, cap, ast, err, has⟩ m1 hg2 hcap2 hcount2
  simp only at hfin
  refine ⟨⟨34 :: (b ++ [34]), (34 :: (b ++ [34])).length, 0 + 1 + b.length + 1, line,
      column + 1,
      [] ++ [⟨.TOKEN_STRING, if b = [] then none else some b, b.length, line, column⟩]
        ++ [⟨.TOKEN_EOF, none, 0, line, column + 1⟩],
      0 + 1 + 1, cap3, ast, err, has⟩, m3, line, column, ?_, rfl, rfl, rfl, rfl⟩
  unfold compiler_lex
  simp only
  rw [show lex_loop (34 :: (b ++ [34])).length = lex_loop (b.length + 1 + 1) from by rw [hsl],
    lex_loop_step_string (b.length + 1)
      ⟨34 :: (b ++ [34]), (34 :: (b ++ [34])).length, 0, 1, 1, [], 0, tcap, ast, err, has⟩ m
      (by simp) rfl, hrs]
  simp only
  rw [lex_loop_end _ _ _ (by simp only [hsl]; omega), hfin]

/-! ## Operators and punctuation (C31) -/

/-- C31.  For each of the 33 spellings of operators and punctuation, on the source
that consists of the spelling alone `compiler_lex` returns 0 and leaves exactly two
tokens: the token of the spelling, at line 1 and column 1, and `TOKEN_EOF` at the
column behind the spelling.  A spelling of two bytes yields its one token, not two
tokens of one byte.  The allocations are granted and the token block has room for a
token, as after `compiler_create`. -/
theorem lex_operators_longest_match (ctx : compiler_context_t) (m : AllocLog)
    (hg : all_granted m = true) (hcap : 0 < ctx.token_capacity) :
    ∀ e ∈ [("+", token_type_t.TOKEN_PLUS), ("-", .TOKEN_MINUS), ("*", .TOKEN_MULTIPLY),
           ("/", .TOKEN_DIVIDE), ("%", .TOKEN_MODULO), ("=", .TOKEN_ASSIGN),
           ("+=", .TOKEN_PLUS_ASSIGN), ("-=", .TOKEN_MINUS_ASSIGN),
           ("*=", .TOKEN_MULTIPLY_ASSIGN), ("/=", .TOKEN_DIVIDE_ASSIGN),
           ("%=", .TOKEN_MODULO_ASSIGN), ("++", .TOKEN_INCREMENT), ("--", .TOKEN_DECREMENT),
           ("==", .TOKEN_EQUAL), ("!=", .TOKEN_NOT_EQUAL), ("<", .TOKEN_LESS_THAN),
           ("<=", .TOKEN_LESS_EQUAL), (">", .TOKEN_GREATER_THAN),
           (">=", .TOKEN_GREATER_EQUAL), ("&&", .TOKEN_AND), ("||", .TOKEN_OR),
           ("!", .TOKEN_NOT), ("(", .TOKEN_LEFT_PAREN), (")", .TOKEN_RIGHT_PAREN),
           ("\x7b", .TOKEN_LEFT_BRACE), ("\x7d", .TOKEN_RIGHT_BRACE),
           ("[", .TOKEN_LEFT_BRACKET), ("]", .TOKEN_RIGHT_BRACKET), (";", .TOKEN_SEMICOLON),
           (",", .TOKEN_COMMA), (".", .TOKEN_DOT), ("?", .TOKEN_QUESTION),
           (":", .TOKEN_COLON)],
      ∃ (ctx1 : compiler_context_t) (m1 : AllocLog),
        compiler_lex { ctx with source := ascii e.1, source_len := (ascii e.1).length } m
          = .returned 0 ctx1 m1
        ∧ ctx1.tokens = [⟨e.2, none, 0, 1, 1⟩,
                         ⟨.TOKEN_EOF, none, 0, 1, 1 + (ascii e.1).length⟩]
        ∧ ctx1.token_count = 2 := by
  intro e he
  refine lex_operator_alone ctx m (ascii e.1) e.2 hg hcap ?_
  revert e
  decide

/-- C31, witness: the spelling of less-or-equal, in the context that `compiler_create`
returns. -/
theorem lex_operators_longest_match_witness :
    ∃ (ctx1 : compiler_context_t) (m1 : AllocLog),
      compiler_lex { compiler_context_empty with source := ascii "<=",
                                                 source_len := (ascii "<=").length } []
        = .returned 0 ctx1 m1
      ∧ ctx1.tokens = [⟨.TOKEN_LESS_EQUAL, none, 0, 1, 1⟩,
                       ⟨.TOKEN_EOF, none, 0, 1, 1 + (ascii "<=").length⟩]
      ∧ ctx1.token_count = 2 :=
  lex_operators_longest_match compiler_context_empty [] (by decide) (by decide)
    ("<=", .TOKEN_LESS_EQUAL) (by decide)

/-! ## String literals (C32) -/

/-- C32 (amended).  For every body made of bytes other than the double quote and the
backslash and of pairs of a backslash and any byte (so that every double quote of the
body is escaped and the body does not end in an escaping backslash), `compiler_lex` on
the body between two double quotes returns 0 and leaves one `TOKEN_STRING` whose
value is exactly the bytes of the body, backslashes and escaped bytes included, with
the length of the body, followed by `TOKEN_EOF`; no error is recorded.  For the empty
body the value is NULL and the length 0.  The token carries the line and the column
that the lexer has counted at the closing quote.  The allocations are granted and the
token block has room for a token. -/
theorem lex_string_verbatim (ctx : compiler_context_t) (m : AllocLog) (b : List UInt8)
    (hg : all_granted m = true) (hcap : 0 < ctx.token_capacity)
    (hb : string_body b = true) :
    ∃ (ctx1 : compiler_context_t) (m1 : AllocLog) (line column : Int),
      compiler_lex { ctx with source := 34 :: (b ++ [34]),
                              source_len := (34 :: (b ++ [34])).length } m
        = .returned 0 ctx1 m1
      ∧ ctx1.tokens
          = [⟨.TOKEN_STRING, if b = [] then none else some b, b.length, line, column⟩,
             ⟨.TOKEN_EOF, none, 0, line, column + 1⟩]
      ∧ ctx1.token_count = 2
      ∧ compiler_get_error ctx1 = compiler_get_error ctx
      ∧ ctx1.has_error = ctx.has_error :=
  lex_string_literal ctx m b hg hcap hb

/-- C32, witness: the body a, backslash, double quote, line feed, b. -/
theorem lex_string_verbatim_witness :
    ∃ (ctx1 : compiler_context_t) (m1 : AllocLog) (line column : Int),
      compiler_lex
          { compiler_context_empty with
            source := 34 :: ([97, 92, 34, 10, 98] ++ [34]),
            source_len := (34 :: ([97, 92, 34, 10, 98] ++ [34])).length } []
        = .returned 0 ctx1 m1
      ∧ ctx1.tokens
          = [⟨.TOKEN_STRING, some [97, 92, 34, 10, 98], 5, line, column⟩,
             ⟨.TOKEN_EOF, none, 0, line, column + 1⟩] :=
  have ⟨ctx1, m1, line, column, h1, h2, _⟩ := lex_string_verbatim compiler_context_empty []
    [97, 92, 34, 10, 98] (by decide) (by decide) (by decide)
  ⟨ctx1, m1, line, column, h1, h2⟩

/-- C32 as stated fails: the body that consists of a single backslash contains no
double quote, so that every double quote in it is escaped, but between two double
quotes its backslash escapes the closing quote: the literal is unterminated,
`compiler_lex` returns 0 with the single token `TOKEN_EOF` and records "Unterminated
string"; likewise for the body a, backslash.  For the empty body the token carries a
NULL value. -/
theorem lex_string_dangling_backslash :
    string_body [92] = false
    ∧ (∀ c ∈ ([92] : List UInt8), c ≠ 34)
    ∧ lex_status (compiler_lex (compiler_context_of [34, 92, 34]) []) = some 0
    ∧ lex_tokens (compiler_lex (compiler_context_of [34, 92, 34]) [])
        = [⟨.TOKEN_EOF, none, 0, 1, 4⟩]
    ∧ lex_error (compiler_lex (compiler_context_of [34, 92, 34]) [])
        = some (format_unterminated 1 4)
    ∧ lex_tokens (compiler_lex (compiler_context_of [34, 97, 92, 34]) [])
        = [⟨.TOKEN_EOF, none, 0, 1, 5⟩]
    ∧ lex_tokens (compiler_lex (compiler_context_of [34, 34]) [])
        = [⟨.TOKEN_STRING, none, 0, 1, 2⟩, ⟨.TOKEN_EOF, none, 0, 1, 3⟩] := by
  refine ⟨by decide, by decide, by decide!, by decide!, by decide!, by decide!, by decide!⟩

/-! ## Unexpected bytes (C33) -/

/-- C33, on the code.  The only failure of `compiler_lex` is the report of an
unexpected byte, and the message names the line and the column that the lexer has
counted when it meets the byte.  Behind white space and punctuation these are the line
and the column of the byte: for every source whose bytes before index `q` are white
space or punctuation and whose byte at `q` starts nothing that the lexer knows (for
instance an at sign, a hash, a dollar, an ampersand or a bar that stands alone),
`compiler_lex` returns -1 and records "Unexpected character" with that byte and the
line and the column of index `q`.  But behind a comment the lexer does not skip white
space before it dispatches: on the source made of two slashes, blank, c, line feed and
an at sign, the first byte that is neither white space nor part of the comment is the
at sign, at line 2, column 1, while the error recorded names the line feed, at line 1,
column 5; likewise behind a multi-line comment that a blank follows. -/
theorem lex_unexpected_position :
    (∀ (ctx : compiler_context_t) (m : AllocLog) (s : List UInt8) (q : Nat),
      all_granted m = true → 0 < ctx.token_capacity → q < s.length →
      (∀ i, i < q → is_whitespace (s.getD i 0) = true
        ∨ (punctuation_token (s.getD i 0)).isSome = true) →
      unexpected_byte s q = true →
      ∃ (ctx1 : compiler_context_t) (m1 : AllocLog),
        compiler_lex { ctx with source := s, source_len := s.length } m
          = .returned (-1) ctx1 m1
        ∧ compiler_get_error ctx1
            = some (format_unexpected (s.getD q 0) (line_of s q) (column_of s q))
        ∧ ctx1.has_error = true)
    ∧ (∀ (ctx ctx1 : compiler_context_t) (m m1 : AllocLog) (status : Int),
        compiler_lex ctx m = .returned status ctx1 m1 → status ≠ 0 →
        status = -1
          ∧ compiler_get_error ctx1
              = some (format_unexpected (source_at ctx1 ctx1.position) ctx1.line ctx1.column))
    ∧ (unexpected_byte (ascii "// c\n@") 5 = true
        ∧ line_of (ascii "// c\n@") 5 = 2 ∧ column_of (ascii "// c\n@") 5 = 1
        ∧ lex_status (compiler_lex (compiler_context_of (ascii "// c\n@")) []) = some (-1)
        ∧ lex_error (compiler_lex (compiler_context_of (ascii "// c\n@")) [])
            = some (format_unexpected 10 1 5)
        ∧ format_unexpected 10 1 5 ≠ format_unexpected 64 2 1)
    ∧ (unexpected_byte (ascii "/* c */ @") 8 = true
        ∧ line_of (ascii "/* c */ @") 8 = 1 ∧ column_of (ascii "/* c */ @") 8 = 9
        ∧ lex_status (compiler_lex (compiler_context_of (ascii "/* c */ @")) []) = some (-1)
        ∧ lex_error (compiler_lex (compiler_context_of (ascii "/* c */ @")) [])
            = some (format_unexpected 32 1 8))
    ∧ (unexpected_byte (ascii " ab 12 \"s\"\n  $") 13 = true
        ∧ line_of (ascii " ab 12 \"s\"\n  $") 13 = 2
        ∧ column_of (ascii " ab 12 \"s\"\n  $") 13 = 3
        ∧ lex_status (compiler_lex (compiler_context_of (ascii " ab 12 \"s\"\n  $")) [])
            = some (-1)
        ∧ lex_error (compiler_lex (compiler_context_of (ascii " ab 12 \"s\"\n  $")) [])
            = some (format_unexpected 36 2 3)) := by
  refine ⟨?_, ?_, by decide!, by decide!, by decide!⟩
  · intro ctx m s q hg hcap hq halpha hun
    obtain ⟨ctx1, m1, h1, _, _, h4, h5⟩ := lex_punctuation_source ctx m s q hg hcap
      (Nat.le_of_lt hq) halpha (fun _ => hun)
    simp only [hq, if_true] at h1 h4 h5
    exact ⟨ctx1, m1, h1, h4, h5⟩
  · intro ctx ctx1 m m1 status h hs
    unfold compiler_lex at h
    obtain ⟨mid, _, hres⟩ := lex_loop_returned _ _ _ _ _ _ h
    rcases hres with ⟨h0, _⟩ | ⟨h1, _, e⟩
    · exact absurd h0 hs
    · refine ⟨h1, ?_⟩
      rw [e]
      rfl

/-! ## Line tracking (C34) -/

/-- C34.  On a source made only of white space (blank, tab, CR, LF) and of
punctuation bytes (parentheses, braces, brackets, semicolon, comma, dot, question
mark, colon), `compiler_lex` returns 0, and the tokens are those of the punctuation
bytes in their order followed by `TOKEN_EOF`, each with the line and the column of its
byte: the line recorded is 1 plus the number of line terminators before the byte, a
lone CR, a lone LF and a CRLF pair counting as one terminator each.  The allocations
are granted and the token block has room for a token, as after `compiler_create`. -/
theorem lex_line_tracking (ctx : compiler_context_t) (m : AllocLog) (s : List UInt8)
    (hg : all_granted m = true) (hcap : 0 < ctx.token_capacity)
    (hs : ∀ c ∈ s, is_whitespace c = true ∨ (punctuation_token c).isSome = true) :
    ∃ (ctx1 : compiler_context_t) (m1 : AllocLog),
      compiler_lex { ctx with source := s, source_len := s.length } m = .returned 0 ctx1 m1
      ∧ ctx1.tokens = punctuation_tokens s s.length
          ++ [⟨.TOKEN_EOF, none, 0, line_of s s.length, column_of s s.length⟩]
      ∧ ctx1.tokens.map (fun t => t.line)
          = (((List.range s.length).filter
                fun i => (punctuation_token (s.getD i 0)).isSome).map
              fun i => 1 + (line_terminators_before s i : Int))
            ++ [1 + (line_terminators_before s s.length : Int)]
      ∧ ctx1.token_count = ctx1.tokens.length := by
  obtain ⟨ctx1, m1, h1, h2, h3, _⟩ := lex_punctuation_source ctx m s s.length hg hcap
    (Nat.le_refl _)
    (fun i hi => by
      rw [List.getD_eq_getElem s 0 hi]
      exact hs _ (List.getElem_mem hi))
    (fun hc => absurd hc (Nat.lt_irrefl _))
  simp only [Nat.lt_irrefl, if_false] at h1 h2
  refine ⟨ctx1, m1, h1, h2, ?_, h3⟩
  rw [h2, List.map_append, punctuation_tokens_lines]
  rfl

/-- C34, witness: a source with a CRLF pair, a lone CR, two LF, a blank and a tab
between four punctuation bytes. -/
theorem lex_line_tracking_witness :
    ∃ (ctx1 : compiler_context_t) (m1 : AllocLog),
      compiler_lex
          { compiler_context_empty with
            source := [40, 13, 10, 59, 13, 44, 10, 10, 32, 9, 46],
            source_len := [40, 13, 10, 59, 13, 44, 10, 10, 32, 9, 46].length } []
        = .returned 0 ctx1 m1
      ∧ ctx1.tokens.map (fun t => (t.type, t.line))
          = [(.TOKEN_LEFT_PAREN, 1), (.TOKEN_SEMICOLON, 2), (.TOKEN_COMMA, 3),
             (.TOKEN_DOT, 5), (.TOKEN_EOF, 5)] :=
  have ⟨ctx1, m1, h1, h2, _⟩ := lex_line_tracking compiler_context_empty []
    [40, 13, 10, 59, 13, 44, 10, 10, 32, 9, 46] (by decide) (by decide) (by decide)
  ⟨ctx1, m1, h1, by rw [h2]; decide⟩

/-! ## The parser (C35) -/

theorem compiler_parse_eq (ctx : compiler_context_t) (m : AllocLog)
    (hg : all_granted m = true) :
    compiler_parse ctx m
      = some (0, { ctx with ast_root := some (.node .AST_NODE_BLOCK none none .zero) },
          (malloc m).2) := by
  simp only [compiler_parse, ast_create_node, compiler_malloc_of_granted m hg]

/-- C35, on the code.  `compiler_parse` is a stub (the source says "TODO: Implement
full parser"): it reads no token, stores an empty block node and returns 0.  It
never returns a failure status and never records an error, whatever the tokens are.
Evaluated after the lexical analysis of the sources `var x = 1` (missing semicolon)
and `(1+2;` (mismatched bracket): both phases return 0 and no error is recorded. -/
theorem compiler_parse_accepts_everything :
    (∀ (ctx : compiler_context_t) (m : AllocLog), all_granted m = true →
      compiler_parse ctx m
        = some (0, { ctx with ast_root := some (.node .AST_NODE_BLOCK none none .zero) },
            (malloc m).2))
    ∧ (∀ (ctx ctx1 : compiler_context_t) (m m1 : AllocLog) (s : Int),
        compiler_parse ctx m = some (s, ctx1, m1) →
        s = 0 ∧ compiler_get_error ctx1 = compiler_get_error ctx
          ∧ ctx1.has_error = ctx.has_error ∧ ctx1.tokens = ctx.tokens)
    ∧ (lex_tokens (compiler_lex (compiler_context_of (ascii "var x = 1")) [])).map
          (fun t => t.type)
        = [.TOKEN_IDENTIFIER, .TOKEN_ASSIGN, .TOKEN_INT, .TOKEN_EOF]
    ∧ (compiler_front_end (compiler_context_of (ascii "var x = 1")) []).map
          (fun r => (r.1, compiler_get_error r.2.1, r.2.1.has_error))
        = some (0, none, false)
    ∧ (lex_tokens (compiler_lex (compiler_context_of (ascii "(1+2;")) [])).map
          (fun t => t.type)
        = [.TOKEN_LEFT_PAREN, .TOKEN_INT, .TOKEN_PLUS, .TOKEN_INT, .TOKEN_SEMICOLON,
           .TOKEN_EOF]
    ∧ (compiler_front_end (compiler_context_of (ascii "(1+2;")) []).map
          (fun r => (r.1, compiler_get_error r.2.1, r.2.1.has_error))
        = some (0, none, false) := by
  refine ⟨fun ctx m hg => compiler_parse_eq ctx m hg, ?_, by decide!, by decide!, by decide!,
    by decide!⟩
  intro ctx ctx1 m m1 s hp
  simp only [compiler_parse, ast_create_node] at hp
  split at hp
  · exact absurd hp (by simp)
  · rename_i node m2 hn
    split at hn
    · exact absurd hn (by simp)
    · simp only [Option.some.injEq, Prod.mk.injEq] at hp
      obtain ⟨hs, hc, _⟩ := hp
      rw [← hs, ← hc]
      exact ⟨rfl, rfl, rfl, rfl⟩

/-! ## From the source to the run (C36, C37) -/

theorem generate_bytecode_eq (h : host_t) (ctx : compiler_context_t) (fresh : List UInt8)
    (m : AllocLog) (hm : all_granted m = true) :
    compiler_generate_bytecode h ctx fresh m
      = some (0, bytecode_store h (compiler_bytecode_header ctx) fresh,
          sizeof_bytecode_t h, (malloc m).2) := by
  simp [compiler_generate_bytecode, compiler_malloc_of_granted m hm]

theorem vm_load_emitted (h : host_t) (ctx : compiler_context_t) (fresh : List UInt8)
    (fc : Nat → zval_t) (ff : Nat → function_t) (vm : vm_context_t) (mv : AllocLog)
    (hp : 0 < h.ptr_size) (hf : fresh.length = sizeof_bytecode_t h)
    (hmv : all_granted mv = true) :
    microphp_vm_load_bytecode h fc ff vm
        (bytecode_store h (compiler_bytecode_header ctx) fresh) (sizeof_bytecode_t h) mv
      = some (0, { vm with bytecode := some (compiler_bytecode_header ctx) }, (malloc mv).2) := by
  have hload := bytecode_load_store_header h hp ctx fresh hf
  have hlt : ¬ sizeof_bytecode_t h < sizeof_bytecode_t h := by omega
  have hmg : ¬ memcmp (compiler_bytecode_header ctx).magic [77, 66, 67, 0] 4 ≠ 0 := by
    simp [compiler_bytecode_header, memcmp]
  have hv : ¬ (compiler_bytecode_header ctx).version ≠ 1 := by
    simp [compiler_bytecode_header]
  simp only [microphp_vm_load_bytecode, hlt, if_false, hload]
  rw [if_neg hmg, if_neg hv]
  simp only [(microphp_malloc_of_granted mv hmv).1]
  rfl

theorem vm_run_emitted (h : host_t) (locals : Nat → add_locals_t) (fuel : Nat)
    (vm : vm_context_t) (ctx : compiler_context_t) (m : AllocLog)
    (hg : all_granted m = true) :
    microphp_vm_run h locals fuel { vm with bytecode := some (compiler_bytecode_header ctx) } m
      = .returned (-1)
          { vm with bytecode := some (compiler_bytecode_header ctx), running := false,
                    error_msg := some "Invalid main function offset" }
          (malloc m).2 := by
  have h1 := (strdup_of_granted "Invalid main function offset" m hg).1
  have hn : ¬ (compiler_bytecode_header ctx).main_offset
      < (compiler_bytecode_header ctx).function_count := by
    simp [compiler_bytecode_header]
  simp only [microphp_vm_run, hn, if_false, h1, strdup_snd]

/-- C36, on the code.  The parser and the code generator are stubs (the source says
"TODO: Implement full parser" and "TODO: Implement full code generation"): whatever
the source is, the bytes emitted are the header of a module with no constant, no
function and main offset 0.  Such a module is accepted by
`microphp_vm_load_bytecode`, and `microphp_vm_run` on it executes no instruction,
records "Invalid main function offset" and returns -1.  Evaluated on the source
`print(1+2);` with 8-byte pointers: the lexical analysis yields the tokens of
`(1+2);` (the keyword is lost), the compilation exits with 0 and 48 bytes, loading
them into a fresh context returns 0, and the run returns -1 with the error recorded
and an empty stack. -/
theorem scenario_print_sum_fails :
    (lex_tokens (compiler_lex (compiler_context_of (ascii "print(1+2);")) [])).map
        (fun t => t.type)
      = [.TOKEN_LEFT_PAREN, .TOKEN_INT, .TOKEN_PLUS, .TOKEN_INT, .TOKEN_RIGHT_PAREN,
         .TOKEN_SEMICOLON, .TOKEN_EOF]
    ∧ microphpc_compile (host_of_ptr_size 8) (ascii "print(1+2);") (List.replicate 48 170) []
      = some (0, some ([77, 66, 67, 0, 1, 0, 0, 0, 0, 0, 0, 0, 170, 170, 170, 170,
          0, 0, 0, 0, 0, 0, 0, 0, 0, 0, 0, 0, 170, 170, 170, 170,
          0, 0, 0, 0, 0, 0, 0, 0, 0, 0, 0, 0, 170, 170, 170, 170], 48), [])
    ∧ microphp_vm_create [] = some (vm_fresh, [])
    ∧ microphp_vm_load_bytecode (host_of_ptr_size 8) (fun _ => .null)
        (fun _ => ⟨none, 0, none, 0, 0, 0⟩) vm_fresh
        [77, 66, 67, 0, 1, 0, 0, 0, 0, 0, 0, 0, 170, 170, 170, 170,
          0, 0, 0, 0, 0, 0, 0, 0, 0, 0, 0, 0, 170, 170, 170, 170,
          0, 0, 0, 0, 0, 0, 0, 0, 0, 0, 0, 0, 170, 170, 170, 170] 48 []
      = some (0, { vm_fresh with
          bytecode := some ⟨[77, 66, 67, 0], 1, 0, none, 0, none, 0⟩ }, [])
    ∧ (∀ (locals : Nat → add_locals_t) (fuel : Nat),
        microphp_vm_run (host_of_ptr_size 8) locals fuel
        { vm_fresh with bytecode := some ⟨[77, 66, 67, 0], 1, 0, none, 0, none, 0⟩ } []
      = .returned (-1)
          { vm_fresh with bytecode := some ⟨[77, 66, 67, 0], 1, 0, none, 0, none, 0⟩,
                          running := false,
                          error_msg := some "Invalid main function offset" } [])
    ∧ (∀ (h : host_t) (ctx : compiler_context_t) (fresh : List UInt8) (fc : Nat → zval_t)
        (ff : Nat → function_t) (vm : vm_context_t) (m mv mr : AllocLog)
        (locals : Nat → add_locals_t) (fuel : Nat),
        0 < h.ptr_size → fresh.length = sizeof_bytecode_t h →
        all_granted m = true → all_granted mv = true → all_granted mr = true →
        ∃ out : List UInt8,
          compiler_generate_bytecode h ctx fresh m
            = some (0, out, sizeof_bytecode_t h, (malloc m).2)
          ∧ microphp_vm_load_bytecode h fc ff vm out (sizeof_bytecode_t h) mv
            = some (0, { vm with bytecode := some (compiler_bytecode_header ctx) },
                (malloc mv).2)
          ∧ microphp_vm_run h locals fuel
              { vm with bytecode := some (compiler_bytecode_header ctx) } mr
            = .returned (-1)
                { vm with bytecode := some (compiler_bytecode_header ctx), running := false,
                          error_msg := some "Invalid main function offset" }
                (malloc mr).2) := by
  refine ⟨by decide!, by decide!, rfl, rfl, fun _ _ => rfl, ?_⟩
  intro h ctx fresh fc ff vm m mv mr locals fuel hp hf hm hmv hmr
  exact ⟨_, generate_bytecode_eq h ctx fresh m hm, vm_load_emitted h ctx fresh fc ff vm mv hp hf hmv,
    vm_run_emitted h locals fuel vm ctx mr hmr⟩

/-- C37.  For any two compiler contexts, on the same host, `compiler_generate_bytecode`
returns 0 and produces two outputs of `sizeof(bytecode_t)` bytes each whose header
fields, as the loader reads them, are the same: the magic "MBC\0", version 1,
constant_count 0, function_count 0 and main_offset 0 (and NULL pointers).  The
bytes outside the fields are what the output block held before; when the two blocks
held the same, the two outputs are the same bytes.  The allocations are granted. -/
theorem generate_bytecode_independent (h : host_t) (ctx1 ctx2 : compiler_context_t)
    (fresh1 fresh2 : List UInt8) (m1 m2 : AllocLog) (hp : 0 < h.ptr_size)
    (hf1 : fresh1.length = sizeof_bytecode_t h) (hf2 : fresh2.length = sizeof_bytecode_t h)
    (hm1 : all_granted m1 = true) (hm2 : all_granted m2 = true) :
    ∃ out1 out2 : List UInt8,
      compiler_generate_bytecode h ctx1 fresh1 m1
        = some (0, out1, sizeof_bytecode_t h, (malloc m1).2)
      ∧ compiler_generate_bytecode h ctx2 fresh2 m2
        = some (0, out2, sizeof_bytecode_t h, (malloc m2).2)
      ∧ out1.length = sizeof_bytecode_t h ∧ out2.length = sizeof_bytecode_t h
      ∧ bytecode_load h out1 = ⟨[77, 66, 67, 0], 1, 0, none, 0, none, 0⟩
      ∧ bytecode_load h out2 = ⟨[77, 66, 67, 0], 1, 0, none, 0, none, 0⟩
      ∧ bytes_at out1 0 4 = bytes_at out2 0 4
      ∧ bytes_at out1 4 4 = bytes_at out2 4 4
      ∧ bytes_at out1 8 4 = bytes_at out2 8 4
      ∧ bytes_at out1 (offsetof_function_count h) 4
          = bytes_at out2 (offsetof_function_count h) 4
      ∧ bytes_at out1 (offsetof_main_offset h) 4 = bytes_at out2 (offsetof_main_offset h) 4
      ∧ (fresh1 = fresh2 → out1 = out2) := by
  obtain ⟨l1, a1, a2, a3, _, a5, _, a7⟩ := bytecode_store_header_fields h hp ctx1 fresh1 hf1
  obtain ⟨l2, b1, b2, b3, _, b5, _, b7⟩ := bytecode_store_header_fields h hp ctx2 fresh2 hf2
  refine ⟨_, _, generate_bytecode_eq h ctx1 fresh1 m1 hm1,
    generate_bytecode_eq h ctx2 fresh2 m2 hm2, l1, l2,
    bytecode_load_store_header h hp ctx1 fresh1 hf1,
    bytecode_load_store_header h hp ctx2 fresh2 hf2, ?_, ?_, ?_, ?_, ?_, ?_⟩
  · rw [a1, b1]
  · rw [a2, b2]
  · rw [a3, b3]
  · rw [a5, b5]
  · rw [a7, b7]
  · intro e
    rw [e]
    rfl

/-- C37, witness: the context of the source `print(1+2);` and the empty context,
with 8-byte pointers, the output blocks holding 0xAA and 0x55. -/
theorem generate_bytecode_independent_witness :
    ∃ out1 out2 : List UInt8,
      compiler_generate_bytecode (host_of_ptr_size 8)
          (compiler_context_of (ascii "print(1+2);")) (List.replicate 48 170) []
        = some (0, out1, 48, [])
      ∧ compiler_generate_bytecode (host_of_ptr_size 8)
          { compiler_context_empty with
            ast_root := some (.node .AST_NODE_BLOCK none none .zero) }
          (List.replicate 48 85) []
        = some (0, out2, 48, [])
      ∧ out1.length = 48 ∧ out2.length = 48
      ∧ bytecode_load (host_of_ptr_size 8) out1 = ⟨[77, 66, 67, 0], 1, 0, none, 0, none, 0⟩
      ∧ bytecode_load (host_of_ptr_size 8) out2 = ⟨[77, 66, 67, 0], 1, 0, none, 0, none, 0⟩ :=
  have ⟨out1, out2, h1, h2, h3, h4, h5, h6, _⟩ :=
    generate_bytecode_independent (host_of_ptr_size 8)
      (compiler_context_of (ascii "print(1+2);"))
      { compiler_context_empty with
        ast_root := some (.node .AST_NODE_BLOCK none none .zero) }
      (List.replicate 48 170) (List.replicate 48 85) [] [] (by decide) (by decide)
      (by decide) (by decide) (by decide)
  ⟨out1, out2, h1, h2, h3, h4, h5, h6⟩

/-! ## A failing ADD (C38) -/

theorem vm_add_underflow_empty (h : host_t) (locals : add_locals_t) (vm : vm_context_t)
    (o1 o2 : Nat) (m : AllocLog) (htop : vm.stack_top = 0) :
    vm_dispatch h locals vm ⟨.OP_ADD, o1, o2⟩ m
      = .next { vm with error_msg := (strdup "Stack underflow in ADD" m).1, running := false }
          (strdup "Stack underflow in ADD" m).2 := by
  simp [vm_dispatch, stack_pop, htop]

theorem vm_add_underflow_one (h : host_t) (locals : add_locals_t) (vm : vm_context_t)
    (o1 o2 : Nat) (v : zval_t) (m : AllocLog) (rb : zval_t × AllocLog)
    (htop : vm.stack_top = 1) (hv : vm.stack[0]? = some (.value v))
    (hcb : microphp_zval_copy (.indeterminate locals.b) v m = some rb) :
    vm_dispatch h locals vm ⟨.OP_ADD, o1, o2⟩ m
      = .next
          { vm with
            stack_top := 0, stack := vm.stack.set 0 (.value .null),
            error_msg := (strdup "Stack underflow in ADD" rb.2).1,
            running := false }
          (strdup "Stack underflow in ADD" rb.2).2 := by
  have p1 : stack_pop vm (.indeterminate locals.b) m
      = some (0, { vm with stack_top := 0, stack := vm.stack.set 0 (.value .null) },
          .value rb.1, rb.2) := by
    rw [stack_pop_eq vm _ v m 0 htop hv, hcb]
    rfl
  simp only [vm_dispatch, p1, ne_eq, not_true_eq_false, if_false]
  simp [stack_pop]

theorem vm_add_underflow_one_undefined (h : host_t) (locals : add_locals_t)
    (vm : vm_context_t) (o1 o2 k : Nat) (v : zval_t) (m : AllocLog)
    (htop : vm.stack_top = k + 1) (hv : vm.stack[k]? = some (.value v))
    (hcb : microphp_zval_copy (.indeterminate locals.b) v m = none) :
    vm_dispatch h locals vm ⟨.OP_ADD, o1, o2⟩ m = .undefined := by
  have p1 : stack_pop vm (.indeterminate locals.b) m = none := by
    rw [stack_pop_eq vm _ v m k htop hv, hcb]
    rfl
  simp only [vm_dispatch, p1]

/-- C38 (amended).  A failing ADD leaves the stack as it was only when the stack is
empty.  On a stack of depth one the first `stack_pop` succeeds before the second one
fails: the value is popped and its slot destroyed, the depth is 0 afterwards.  On a
type error both operands have been popped and their slots destroyed: the depth has
decreased by two.  In each case the slots below the popped operands keep their
content, nothing is pushed, the running flag is false and the error is the one that
`strdup` returns for "Stack underflow in ADD" or "Invalid types for ADD operation".
The slots below `stack_top` hold values; `rb` and `ra` are what the copies of the
operands into the local variables `b` and `a` produce, and when the copy into `b`
is undefined, as it is when the bytes of that uninitialized local read as a String
or an Array with a pointer that is not NULL, so is the instruction. -/
theorem vm_add_failure_consumes_operands (h : host_t) (locals : add_locals_t)
    (vm : vm_context_t) (o1 o2 : Nat) (m : AllocLog)
    (hval : ∀ i, i < vm.stack_top → ∃ v, vm.stack[i]? = some (.value v)) :
    (vm.stack_top = 0 →
      vm_dispatch h locals vm ⟨.OP_ADD, o1, o2⟩ m
        = .next { vm with error_msg := (strdup "Stack underflow in ADD" m).1,
                          running := false }
            (strdup "Stack underflow in ADD" m).2)
    ∧ (vm.stack_top = 1 →
      ∃ v, vm.stack[0]? = some (.value v)
        ∧ (∀ rb, microphp_zval_copy (.indeterminate locals.b) v m = some rb →
          vm_dispatch h locals vm ⟨.OP_ADD, o1, o2⟩ m
            = .next
                { vm with
                  stack_top := 0, stack := vm.stack.set 0 (.value .null),
                  error_msg := (strdup "Stack underflow in ADD" rb.2).1,
                  running := false }
                (strdup "Stack underflow in ADD" rb.2).2)
        ∧ (zval_junk_harmless locals.b = true → all_harmless m = true →
          ∃ rb, microphp_zval_copy (.indeterminate locals.b) v m = some rb))
    ∧ (∀ (n : Nat) (a b : zval_t) (rb ra : zval_t × AllocLog), vm.stack_top = n + 2 →
        vm.stack[n]? = some (.value a) → vm.stack[n + 1]? = some (.value b) →
        microphp_zval_copy (.indeterminate locals.b) b m = some rb →
        microphp_zval_copy (.indeterminate locals.a) a rb.2 = some ra →
        ra.1.type ≠ .ZVAL_FLOAT → rb.1.type ≠ .ZVAL_FLOAT →
        (ra.1.type ≠ .ZVAL_INT ∨ rb.1.type ≠ .ZVAL_INT) →
        ∃ vm1 m1, vm_dispatch h locals vm ⟨.OP_ADD, o1, o2⟩ m = .next vm1 m1
          ∧ vm1.stack_top = n
          ∧ vm1.stack = (vm.stack.set (n + 1) (.value .null)).set n (.value .null)
          ∧ (∀ i, i < n → vm1.stack[i]? = vm.stack[i]?)
          ∧ vm1.running = false
          ∧ vm1.error_msg = (strdup "Invalid types for ADD operation" ra.2).1)
    ∧ (∀ (k : Nat) (v : zval_t), vm.stack_top = k + 1 → vm.stack[k]? = some (.value v) →
        microphp_zval_copy (.indeterminate locals.b) v m = none →
        vm_dispatch h locals vm ⟨.OP_ADD, o1, o2⟩ m = .undefined) := by
  refine ⟨fun htop => vm_add_underflow_empty h locals vm o1 o2 m htop, ?_, ?_, ?_⟩
  · intro htop
    obtain ⟨v, hv⟩ := hval 0 (by omega)
    refine ⟨v, hv, fun rb hcb => vm_add_underflow_one h locals vm o1 o2 v m rb htop hv hcb, ?_⟩
    intro hj hm
    obtain ⟨rb, hrb, _⟩ := zval_copy_defined (.indeterminate locals.b) v m
      (by rw [zval_destroy_at_indeterminate]; exact hj) hm
    exact ⟨rb, hrb⟩
  · intro n a b rb ra htop ha hb hcb hca hfa hfb hint
    refine ⟨_, _, vm_add_rejects_without_float h locals vm n o1 o2 a b m rb ra htop ha hb
      hcb hca hfa hfb hint, rfl, rfl, ?_, rfl, rfl⟩
    intro i hi
    simp only
    rw [List.getElem?_set_ne (by omega), List.getElem?_set_ne (by omega)]
  · intro k v htop hv hcb
    exact vm_add_underflow_one_undefined h locals vm o1 o2 k v m htop hv hcb

/-- C38, witness: ADD on a stack that holds the single Integer 7, the local
variables holding zero bytes. -/
theorem vm_add_failure_consumes_operands_witness :
    ∃ v, ({ vm_fresh with
            stack := [.value (.int_val 7), .indeterminate zval_junk_zero], stack_size := 2,
            stack_top := 1, running := true, pc := some ⟨0, 0⟩ } : vm_context_t).stack[0]?
          = some (.value v)
      ∧ (∀ rb, microphp_zval_copy (.indeterminate (add_locals_zero 0).b) v [] = some rb →
        vm_dispatch (host_of_ptr_size 8) (add_locals_zero 0)
            { vm_fresh with
              stack := [.value (.int_val 7), .indeterminate zval_junk_zero], stack_size := 2,
              stack_top := 1, running := true, pc := some ⟨0, 0⟩ } ⟨.OP_ADD, 0, 0⟩ []
          = .next
              { vm_fresh with
                stack := [.value .null, .indeterminate zval_junk_zero], stack_size := 2,
                stack_top := 0, pc := some ⟨0, 0⟩,
                error_msg := (strdup "Stack underflow in ADD" rb.2).1,
                running := false }
              (strdup "Stack underflow in ADD" rb.2).2)
      ∧ (zval_junk_harmless (add_locals_zero 0).b = true → all_harmless [] = true →
        ∃ rb, microphp_zval_copy (.indeterminate (add_locals_zero 0).b) v [] = some rb) :=
  (vm_add_failure_consumes_operands (host_of_ptr_size 8) (add_locals_zero 0)
    { vm_fresh with
      stack := [.value (.int_val 7), .indeterminate zval_junk_zero], stack_size := 2,
      stack_top := 1, running := true, pc := some ⟨0, 0⟩ } 0 0 []
    (by
      intro i hi
      have hi0 : i = 0 := by
        have : i < 1 := hi
        omega
      subst hi0
      exact ⟨.int_val 7, rfl⟩)).2.1 rfl

/-- C38 as stated fails: ADD on a stack that holds the single Integer 7 fails with
"Stack underflow in ADD" and leaves depth 0 and a Null slot where the 7 was; ADD on
the String "x" below the Bool true fails with "Invalid types for ADD operation" and
leaves depth 0 and two Null slots.  On the empty stack nothing changes.  The local
variables hold zero bytes. -/
theorem vm_add_failure_not_atomic :
    vm_dispatch (host_of_ptr_size 8) (add_locals_zero 0)
        { vm_fresh with
          stack := [.value (.int_val 7), .indeterminate zval_junk_zero], stack_size := 2,
          stack_top := 1, running := true, pc := some ⟨0, 0⟩ } ⟨.OP_ADD, 0, 0⟩ []
      = .next
          { vm_fresh with
            stack := [.value .null, .indeterminate zval_junk_zero], stack_size := 2,
            stack_top := 0, running := false, pc := some ⟨0, 0⟩,
            error_msg := some "Stack underflow in ADD" } []
    ∧ vm_dispatch (host_of_ptr_size 8) (add_locals_zero 0)
        { vm_fresh with
          stack := [.value (.string_val (some [120]) 1), .value (.bool_val true)],
          stack_size := 2, stack_top := 2, running := true, pc := some ⟨0, 0⟩ }
        ⟨.OP_ADD, 0, 0⟩ []
      = .next
          { vm_fresh with
            stack := [.value .null, .value .null], stack_size := 2, stack_top := 0,
            running := false, pc := some ⟨0, 0⟩,
            error_msg := some "Invalid types for ADD operation" } []
    ∧ vm_dispatch (host_of_ptr_size 8) (add_locals_zero 0)
        { vm_fresh with
          stack := [.indeterminate zval_junk_zero, .indeterminate zval_junk_zero],
          stack_size := 2, stack_top := 0,
          running := true, pc := some ⟨0, 0⟩ } ⟨.OP_ADD, 0, 0⟩ []
      = .next
          { vm_fresh with
            stack := [.indeterminate zval_junk_zero, .indeterminate zval_junk_zero],
            stack_size := 2, stack_top := 0,
            running := false, pc := some ⟨0, 0⟩,
            error_msg := some "Stack underflow in ADD" } [] :=
  ⟨rfl, rfl, rfl⟩

/-! ## CONST with an index outside the constant pool (C39) -/

/-- C39.  Executing CONST k with k >= constant_count, in a context that holds a
module, changes nothing but pc, which advances by one instruction: the stack and
its depth, the last error, the running flag and the module are as before and no
allocation is requested; a running loop goes on with the next instruction. -/
theorem vm_const_out_of_range_skipped (h : host_t) (locals : Nat → add_locals_t)
    (vm : vm_context_t) (b : bytecode_t)
    (k op2 : Nat) (m : AllocLog) (hb : vm.bytecode = some b) (hk : b.constant_count ≤ k) :
    (∀ l, vm_dispatch h l vm ⟨.OP_CONST, k, op2⟩ m = .next (vm_pc_advance vm) m)
    ∧ (vm_pc_advance vm).stack = vm.stack
    ∧ (vm_pc_advance vm).stack_top = vm.stack_top
    ∧ (vm_pc_advance vm).stack_size = vm.stack_size
    ∧ microphp_get_error (vm_pc_advance vm) = microphp_get_error vm
    ∧ (vm_pc_advance vm).running = vm.running
    ∧ (vm_pc_advance vm).bytecode = vm.bytecode
    ∧ (vm_pc_advance vm).locals = vm.locals
    ∧ (vm_pc_advance vm).globals = vm.globals
    ∧ (vm_pc_advance vm).pc = vm.pc.map (fun p => { p with index := p.index + 1 })
    ∧ ∀ fuel : Nat, vm.running = true → vm_fetch vm = some ⟨.OP_CONST, k, op2⟩ →
        vm_loop h locals (fuel + 1) vm m = vm_loop h locals fuel (vm_pc_advance vm) m := by
  have hn : ¬ k < b.constant_count := by omega
  have hd : ∀ l, vm_dispatch h l vm ⟨.OP_CONST, k, op2⟩ m = .next (vm_pc_advance vm) m := by
    intro l
    simp only [vm_dispatch, hb, hn, if_false]
  refine ⟨hd, rfl, rfl, rfl, rfl, rfl, rfl, rfl, rfl, rfl, ?_⟩
  intro fuel hrun hfetch
  have hpc : vm.pc.isSome = true := vm_fetch_pc vm _ hfetch
  rw [vm_loop.eq_def]
  simp only [hrun, hpc, Bool.and_self, if_true, hfetch, hd]

/-- C39, witness: CONST 5 in a module without constants, on a stack holding 7. -/
theorem vm_const_out_of_range_skipped_witness :
    vm_dispatch (host_of_ptr_size 8) (add_locals_zero 0)
        { vm_of_code [⟨.OP_CONST, 5, 0⟩] with
          stack := [.value (.int_val 7), .indeterminate zval_junk_zero], stack_size := 2,
          stack_top := 1, running := true, pc := some ⟨0, 0⟩ } ⟨.OP_CONST, 5, 0⟩ []
      = .next
          { vm_of_code [⟨.OP_CONST, 5, 0⟩] with
            stack := [.value (.int_val 7), .indeterminate zval_junk_zero], stack_size := 2,
            stack_top := 1, running := true, pc := some ⟨0, 1⟩ } [] :=
  (vm_const_out_of_range_skipped (host_of_ptr_size 8) add_locals_zero
    { vm_of_code [⟨.OP_CONST, 5, 0⟩] with
      stack := [.value (.int_val 7), .indeterminate zval_junk_zero], stack_size := 2,
      stack_top := 1, running := true, pc := some ⟨0, 0⟩ }
    (module_of_code [⟨.OP_CONST, 5, 0⟩]) 5 0 []
    rfl (by decide)).1 (add_locals_zero 0)

/-! ## The position recorded on a token (C40) -/

/-- C40, on the code.  `add_token` records the line and the column of the context at
the time of the call.  The cases of operators and punctuation call it before they
step over the bytes of the token, so that their tokens carry the position of their
first byte.  `read_identifier_or_keyword`, `read_number` and `read_string` call it
after they have scanned the token (each saves the column of the start in a variable
`start_column` that it never uses): their tokens carry the column behind the last
byte of the word or number, and the line and the column of the closing quote of a
string.  For every identifier alone in the source the column recorded is 1 plus its
length, not 1.  Evaluated on a source with two identifiers, a number, a string and
an operator, and on a string that spans two lines. -/
theorem lex_token_position_behind_word :
    (∀ (ctx : compiler_context_t) (m : AllocLog) (c : UInt8) (rest : List UInt8),
      all_granted m = true → 0 < ctx.token_capacity →
      (isalpha c = true ∨ c = 95) → (∀ d ∈ rest, isalnum d = true ∨ d = 95) →
      (∀ e ∈ keyword_table, c :: rest ≠ ascii e.1) →
      ∃ (ctx1 : compiler_context_t) (m1 : AllocLog) (tok eof : token_t),
        compiler_lex { ctx with source := c :: rest, source_len := (c :: rest).length } m
          = .returned 0 ctx1 m1
        ∧ ctx1.tokens = [tok, eof] ∧ tok.type = .TOKEN_IDENTIFIER
        ∧ tok.line = 1 ∧ tok.column = 1 + (c :: rest).length
        ∧ column_of (c :: rest) 0 = 1 ∧ tok.column ≠ column_of (c :: rest) 0)
    ∧ (∀ (ctx : compiler_context_t) (m : AllocLog) (s : List UInt8),
        all_granted m = true → 0 < ctx.token_capacity →
        (∀ i, i < s.length → is_whitespace (s.getD i 0) = true
          ∨ (punctuation_token (s.getD i 0)).isSome = true) →
        ∃ (ctx1 : compiler_context_t) (m1 : AllocLog),
          compiler_lex { ctx with source := s, source_len := s.length } m
            = .returned 0 ctx1 m1
          ∧ ctx1.tokens = punctuation_tokens s s.length
              ++ [⟨.TOKEN_EOF, none, 0, line_of s s.length, column_of s s.length⟩])
    ∧ lex_tokens (compiler_lex (compiler_context_of (ascii "ab cd 12 \"s\" +")) [])
        = [⟨.TOKEN_IDENTIFIER, some (ascii "ab"), 2, 1, 3⟩,
           ⟨.TOKEN_IDENTIFIER, some (ascii "cd"), 2, 1, 6⟩,
           ⟨.TOKEN_INT, some (ascii "12"), 2, 1, 9⟩,
           ⟨.TOKEN_STRING, some (ascii "s"), 1, 1, 12⟩,
           ⟨.TOKEN_PLUS, none, 0, 1, 14⟩,
           ⟨.TOKEN_EOF, none, 0, 1, 15⟩]
    ∧ [0, 3, 6, 9, 13].map (column_of (ascii "ab cd 12 \"s\" +")) = [1, 4, 7, 10, 14]
    ∧ lex_tokens (compiler_lex (compiler_context_of [34, 97, 10, 98, 34]) [])
        = [⟨.TOKEN_STRING, some [97, 10, 98], 3, 2, 2⟩, ⟨.TOKEN_EOF, none, 0, 2, 3⟩]
    ∧ line_of [34, 97, 10, 98, 34] 0 = 1 ∧ column_of [34, 97, 10, 98, 34] 0 = 1 := by
  refine ⟨?_, ?_, by decide!, by decide!, by decide!, by decide!, by decide!⟩
  · intro ctx m c rest hg hcap hc hrest hkw
    obtain ⟨ctx1, m1, h1, h2, _⟩ := lex_identifier_word ctx m c rest hg hcap hc hrest hkw
    have hcol : column_of (c :: rest) 0 = 1 := by simp [column_of, line_start]
    refine ⟨ctx1, m1, _, _, h1, h2, rfl, rfl, rfl, hcol, ?_⟩
    rw [hcol]
    simp only [List.length_cons]
    push_cast
    omega
  · intro ctx m s hg hcap hs
    obtain ⟨ctx1, m1, h1, h2, _⟩ := lex_punctuation_source ctx m s s.length hg hcap
      (Nat.le_refl _) hs (fun hc => absurd hc (Nat.lt_irrefl _))
    simp only [Nat.lt_irrefl, if_false] at h1 h2
    exact ⟨ctx1, m1, h1, h2⟩

end MicroPHP
